import Mathlib

/-!
# WordWizard: the container layer

A shallow embedding of the C++ classes `Word` (Word.cpp), `WordList`
(WordList.cpp), `WordCat` (WordCat.h) and `WordCatVec` (WordCatVec.cpp).

Conventions of the embedding.

* A C string is the list of its bytes before the terminator (`List Nat`, each
  byte read as `unsigned char`).  A `char*` that may be null is an `Option`.
* A member function that can throw, or whose behaviour is undefined on some
  input (a null pointer handed to `strcpy`/`strcmp`, an index outside an
  array), returns `Except Fault _`.  `addCategory` and `removeCategory`, which
  can throw after they have changed the store, also return the store as it is
  at the `return` or `throw`; after undefined behaviour that component carries
  no information.
* `size_t` counters are `Nat`: a list or an array of `2^64` elements cannot be
  allocated, so no increment wraps, and every decrement in the source follows
  a successful non-emptiness test.
* The chain of nodes of a `WordList` is the sequence of the words it holds,
  read from `head` along `next`; `head == nullptr` is the empty sequence and
  `tail` is its last element.
* Where the links themselves are the subject, the list is modelled a second
  time on the free store (`ListObj`, `NodeHeap`): a node pointer is an address
  or null, `new` takes a fresh address, `delete` empties one, and every
  statement that writes `next`, `prev`, `head`, `tail` or `size` is kept.  A
  loop over the nodes gets one iteration more than the free store has nodes
  and reports `Fault.Diverges` if that is not enough.
-/

namespace WordWizard

/-- The ways an operation can fail to return. -/
inductive Fault where
  /-- `std::out_of_range("Index out of range")`, thrown by `Word::at`. -/
  | OutOfRange
  /-- `std::runtime_error("List is empty")`. -/
  | ListIsEmpty
  /-- `std::runtime_error("Index out of range")`, thrown by `WordList::fetchWord`. -/
  | IndexOutOfRange
  /-- `std::runtime_error("Size exceeds capacity ...")`. -/
  | SizeExceedsCapacity
  /-- Undefined behaviour: a null pointer is dereferenced. -/
  | NullDeref
  /-- Undefined behaviour: an array is indexed outside its allocation. -/
  | OutOfBounds
  /-- Undefined behaviour: the second operand of `%` is zero. -/
  | DivisionByZero
  /-- Undefined behaviour: a buffer is used or released after `delete[]`. -/
  | Dangling
  /-- A loop over the nodes of a chain does not end: the chain is cyclic. -/
  | Diverges
  deriving DecidableEq, Repr

deriving instance DecidableEq for Except

/-! ## Word (Word.h, Word.cpp) -/

/-- The class `Word`: `char* word_ptr` and `size_t size`. -/
structure Word where
  word_ptr : Option (List Nat)
  size : Nat
  deriving DecidableEq, Repr

/-- The value of `std::strcmp` on two C strings, up to its sign: bytes are
compared as `unsigned char`, and the terminator is smaller than every byte of
a string. -/
def strcmpBytes : List Nat → List Nat → Int
  | [], [] => 0
  | [], _ :: _ => -1
  | _ :: _, [] => 1
  | a :: as, b :: bs => if a = b then strcmpBytes as bs else if a < b then -1 else 1

/-- The call `std::strcmp(p, q)` on two pointers; a null argument is undefined
behaviour. -/
def strcmp (p q : Option (List Nat)) : Except Fault Int :=
  match p, q with
  | some x, some y => .ok (strcmpBytes x y)
  | _, _ => .error Fault.NullDeref

namespace Word

/-- `Word::Word()`: `word_ptr(nullptr), size(0)`. -/
def default : Word := { word_ptr := none, size := 0 }

/-- `Word::Word(const char* str)`: a fresh buffer holding `str`, `size(strlen(str))`. -/
def ofCStr (str : List Nat) : Word := { word_ptr := some str, size := str.length }

/-- `Word::Word(const Word& source)`: a buffer of `source.size + 1` bytes filled
by `strcpy(word_ptr, source.word_ptr)`, which reads through `source.word_ptr`. -/
def copy (source : Word) : Except Fault Word :=
  match source.word_ptr with
  | none => .error Fault.NullDeref
  | some bs => .ok { word_ptr := some bs, size := source.size }

/-- `Word::operator=(const Word& source)` on two distinct objects: the old
buffer is released and `strcpy(word_ptr, source.word_ptr)` fills a new one of
`source.size + 1` bytes. -/
def assign (_self source : Word) : Except Fault Word :=
  match source.word_ptr with
  | none => .error Fault.NullDeref
  | some bs => .ok { word_ptr := some bs, size := source.size }

/-- `Word::length`. -/
def length (w : Word) : Nat := w.size

/-- `Word::c_str`. -/
def c_str (w : Word) : Option (List Nat) := w.word_ptr

/-- `Word::isLess`: `strcmp(word_ptr, other.word_ptr) < 0`. -/
def isLess (w other : Word) : Except Fault Bool :=
  match strcmp w.word_ptr other.word_ptr with
  | .error e => .error e
  | .ok r => .ok (decide (r < 0))

/-- The friend `operator==`: `strcmp(lhs.word_ptr, rhs.word_ptr) == 0`. -/
def eq (lhs rhs : Word) : Except Fault Bool :=
  match strcmp lhs.word_ptr rhs.word_ptr with
  | .error e => .error e
  | .ok r => .ok (decide (r = 0))

/-- `Word::at`: throws when `n >= size`, else reads `word_ptr[n]` (the buffer
holds the bytes of the string followed by the terminator). -/
def atIndex (w : Word) (n : Nat) : Except Fault Nat :=
  if n ≥ w.size then .error Fault.OutOfRange
  else match w.word_ptr with
    | none => .error Fault.NullDeref
    | some bs =>
      match (bs ++ [0])[n]? with
      | none => .error Fault.OutOfBounds
      | some ch => .ok ch

/-- `Word::print`: what `if (word_ptr != nullptr) out << word_ptr` appends to
the stream. -/
def print (w : Word) (out : List Nat) : List Nat :=
  match w.word_ptr with
  | none => out
  | some bs => out ++ bs

/-- `Word::Word(Word&& source)`: the new word takes `source.word_ptr` and
`source.size`; the second component is `source` after the call
(`word_ptr = nullptr`, `size = 0`). -/
def move (source : Word) : Word × Word :=
  ({ word_ptr := source.word_ptr, size := source.size }, { word_ptr := none, size := 0 })

/-- `Word::operator=(Word&& source)` on two distinct objects: the old buffer is
released, the pointer and size of `source` are taken; the second component is
`source` after the call. -/
def moveAssign (_self source : Word) : Word × Word :=
  ({ word_ptr := source.word_ptr, size := source.size }, { word_ptr := none, size := 0 })

/-- `Word::changeWord(const Word& newWord)`: `*this = newWord`. -/
def changeWord (w newWord : Word) : Except Fault Word := w.assign newWord

/-- `Word::changeWord(const char* newWord)`: `*this = Word(newWord)`, the move
assignment from the temporary. -/
def changeWordCStr (w : Word) (newWord : List Nat) : Word :=
  (w.moveAssign (ofCStr newWord)).1

/-- `Word::concat`: a buffer of `size + strlen(delimiter) + other.size + 1`
bytes is filled by `strcpy` and two `strcat`, and the result is the word built
from it by `Word(const char*)`. -/
def concat (w other : Word) (delimiter : List Nat) : Except Fault Word :=
  match w.word_ptr, other.word_ptr with
  | some a, some b =>
    if a.length + delimiter.length + b.length ≤ w.size + delimiter.length + other.size then
      .ok (ofCStr (a ++ delimiter ++ b))
    else .error Fault.OutOfBounds
  | _, _ => .error Fault.NullDeref

/-- The default argument of `Word::concat` in Word.h: `const char* delimiter = " "`. -/
def defaultDelimiter : List Nat := [32]

/-- The constant `Word::LONGEST_WORD_PLUS_ONE`. -/
def LONGEST_WORD_PLUS_ONE : Nat := 65

/-- The call `sin.getline(buffer, count)` with room for `room = count - 1` more
characters: the characters stored in `buffer` and the unread input.  A newline
is extracted and not stored; when the room is used up and the next character
is not a newline, the call stops there (and sets failbit), leaving that
character unread. -/
def getlineInto : Nat → List Nat → List Nat × List Nat
  | _, [] => ([], [])
  | 0, c :: rest => if c = 10 then ([], rest) else ([], c :: rest)
  | room + 1, c :: rest =>
    if c = 10 then ([], rest)
    else ((c :: (getlineInto room rest).1), (getlineInto room rest).2)

/-- `Word::read`: `sin.getline(buffer, LONGEST_WORD_PLUS_ONE - 1)`, then the old
buffer is released and the word is rebuilt from `buffer`; the result is the
word and the unread input. -/
def read (_w : Word) (sin : List Nat) : Word × List Nat :=
  (ofCStr (getlineInto (LONGEST_WORD_PLUS_ONE - 1 - 1) sin).1,
    (getlineInto (LONGEST_WORD_PLUS_ONE - 1 - 1) sin).2)

/-- The buffer of the word is present (not `nullptr`). -/
def present (w : Word) : Bool := w.word_ptr.isSome

/-- A word as the constructors from text build it: the buffer is present and
`size` is the number of bytes of the string it holds. -/
def wf (w : Word) : Bool :=
  match w.word_ptr with
  | none => false
  | some bs => decide (w.size = bs.length)

/-- The bytes a word holds (none for a null buffer). -/
def bytes (w : Word) : List Nat := w.word_ptr.getD []

/-- The word `a` does not come after `b`: `strcmp` on their bytes is not positive. -/
def le (a b : Word) : Prop := strcmpBytes a.bytes b.bytes ≤ 0

instance (a b : Word) : Decidable (Word.le a b) := inferInstanceAs (Decidable (_ ≤ _))

end Word

/-! ### Word objects in memory

The definitions above give a `Word` by its value.  To speak of two words that
could share a buffer, the same constructors are given once more over a free
store of `char` arrays, with `word_ptr` an address. -/

/-- The free store of `char` arrays: cell `p` holds the string in the array
that `new char[]` returned at address `p`, and `none` once `delete[]` has
released it.  A new array gets a fresh address. -/
abbrev CharHeap := List (Option (List Nat))

/-- A `Word` object in memory: `word_ptr` is null or an address in the free
store. -/
structure WordObj where
  word_ptr : Option Nat
  size : Nat
  deriving DecidableEq, Repr

namespace WordObj

/-- Reading the string at a pointer, as `strcpy` and `strcmp` do. -/
def deref (h : CharHeap) (p : Option Nat) : Except Fault (List Nat) :=
  match p with
  | none => .error Fault.NullDeref
  | some a =>
    match h[a]? with
    | some (some bs) => .ok bs
    | _ => .error Fault.Dangling

/-- The expression `new char[n]` followed by `strcpy` of `bs` into it: the
address and the free store after. -/
def alloc (h : CharHeap) (bs : List Nat) : Nat × CharHeap := (h.length, h ++ [some bs])

/-- The statement `delete[] p`; deleting a null pointer does nothing. -/
def free (h : CharHeap) (p : Option Nat) : Except Fault CharHeap :=
  match p with
  | none => .ok h
  | some a =>
    match h[a]? with
    | some (some _) => .ok (h.set a none)
    | _ => .error Fault.Dangling

/-- `Word::Word(const char* str)`. -/
def ofCStr (h : CharHeap) (str : List Nat) : WordObj × CharHeap :=
  ({ word_ptr := some (alloc h str).1, size := str.length }, (alloc h str).2)

/-- `Word::Word(const Word& source)`: `new char[source.size + 1]`, then
`strcpy(word_ptr, source.word_ptr)`. -/
def copy (h : CharHeap) (source : WordObj) : Except Fault (WordObj × CharHeap) :=
  match deref h source.word_ptr with
  | .error e => .error e
  | .ok bs => .ok ({ word_ptr := some (alloc h bs).1, size := source.size }, (alloc h bs).2)

/-- `Word::operator=(const Word& source)` for `this != &source`:
`delete[] word_ptr`, `new char[source.size + 1]`, `strcpy`. -/
def assign (h : CharHeap) (self source : WordObj) : Except Fault (WordObj × CharHeap) :=
  match free h self.word_ptr with
  | .error e => .error e
  | .ok h1 =>
    match deref h1 source.word_ptr with
    | .error e => .error e
    | .ok bs =>
      .ok ({ word_ptr := some (alloc h1 bs).1, size := source.size }, (alloc h1 bs).2)

/-- `Word::changeWord(const Word& newWord)`: `*this = newWord`. -/
def changeWord (h : CharHeap) (self newWord : WordObj) : Except Fault (WordObj × CharHeap) :=
  assign h self newWord

/-- `Word::operator=(Word&& source)` for `this != &source`: `delete[] word_ptr`,
then the pointer and the size of `source` are taken over and `source` is set
to null and 0.  The result is the target, the source and the free store. -/
def moveAssign (h : CharHeap) (self source : WordObj) :
    Except Fault ((WordObj × WordObj) × CharHeap) :=
  match free h self.word_ptr with
  | .error e => .error e
  | .ok h1 =>
    .ok (({ word_ptr := source.word_ptr, size := source.size },
      { word_ptr := none, size := 0 }), h1)

/-- `Word::changeWord(const char* newWord)`: `*this = Word(newWord)`, a move
assignment from a temporary, whose destructor then deletes its (null) pointer. -/
def changeWordCStr (h : CharHeap) (self : WordObj) (newWord : List Nat) :
    Except Fault (WordObj × CharHeap) :=
  match moveAssign (ofCStr h newWord).2 self (ofCStr h newWord).1 with
  | .error e => .error e
  | .ok r =>
    match free r.2 r.1.2.word_ptr with
    | .error e => .error e
    | .ok h2 => .ok (r.1.1, h2)

/-- The word an object stands for: the string at its pointer (no buffer when
the pointer is null or dangling) and its `size`. -/
def value (h : CharHeap) (w : WordObj) : Word :=
  { word_ptr := match deref h w.word_ptr with
      | .ok bs => some bs
      | .error _ => none,
    size := w.size }

end WordObj

/-- The bytes of an ASCII string literal, used to write test data. -/
def ascii (s : String) : List Nat := s.toList.map Char.toNat

/-! ## WordList (WordList.h, WordList.cpp) -/

/-- The class `WordList`: `nodes` is the chain from `head` to `tail` (the word
of each node, in `next` order) and `size` the stored counter. -/
structure WordList where
  nodes : List Word
  size : Nat
  deriving DecidableEq, Repr

namespace WordList

/-- `WordList::WordList()`: `head(nullptr), tail(nullptr), size(0)`. -/
def empty : WordList := { nodes := [], size := 0 }

/-- `WordList::isEmpty`: `head == nullptr`. -/
def isEmpty (l : WordList) : Bool := l.nodes.isEmpty

/-- `WordList::front`. -/
def front (l : WordList) : Except Fault Word :=
  if l.isEmpty then .error Fault.ListIsEmpty
  else match l.nodes.head? with
    | some w => .ok w
    | none => .error Fault.NullDeref

/-- `WordList::back`. -/
def back (l : WordList) : Except Fault Word :=
  if l.isEmpty then .error Fault.ListIsEmpty
  else match l.nodes.getLast? with
    | some w => .ok w
    | none => .error Fault.NullDeref

/-- `WordList::push_front`: `new Node(word, head)` copy-constructs the word. -/
def push_front (l : WordList) (word : Word) : Except Fault WordList :=
  match word.copy with
  | .error e => .error e
  | .ok w => .ok { nodes := w :: l.nodes, size := l.size + 1 }

/-- `WordList::push_back`: `new Node(word, nullptr, tail)`. -/
def push_back (l : WordList) (word : Word) : Except Fault WordList :=
  match word.copy with
  | .error e => .error e
  | .ok w => .ok { nodes := l.nodes ++ [w], size := l.size + 1 }

/-- The `while` loop of `WordList::insertSorted` followed by the splice: the
argument is the chain from `current` on; the loop advances while
`current != nullptr && current->theWord.isLess(word)` and the new node is then
linked in front of `current` (at the end when `current == nullptr`). -/
def spliceBefore (word : Word) : List Word → Except Fault (List Word)
  | [] =>
    match word.copy with
    | .error e => .error e
    | .ok w => .ok [w]
  | current :: rest =>
    match current.isLess word with
    | .error e => .error e
    | .ok true =>
      match spliceBefore word rest with
      | .error e => .error e
      | .ok rest' => .ok (current :: rest')
    | .ok false =>
      match word.copy with
      | .error e => .error e
      | .ok w => .ok (w :: current :: rest)

/-- `WordList::insertSorted`. -/
def insertSorted (l : WordList) (word : Word) : Except Fault WordList :=
  match l.nodes with
  | [] => l.push_front word
  | head :: second =>
    match l.front with
    | .error e => .error e
    | .ok f =>
      match word.isLess f with
      | .error e => .error e
      | .ok true => l.push_front word
      | .ok false =>
        match l.back with
        | .error e => .error e
        | .ok b =>
          match b.isLess word with
          | .error e => .error e
          | .ok true => l.push_back word
          | .ok false =>
            match spliceBefore word second with
            | .error e => .error e
            | .ok second' => .ok { nodes := head :: second', size := l.size + 1 }

/-- The loop of `WordList::search`: the position in the chain of the first
node whose word has the bytes of `word`, counted from `i`. -/
def searchFrom (word : Word) : List Word → Nat → Except Fault (Option Nat)
  | [], _ => .ok none
  | node :: rest, i =>
    match strcmp node.c_str word.c_str with
    | .error e => .error e
    | .ok r => if r = 0 then .ok (some i) else searchFrom word rest (i + 1)

/-- `WordList::search`: the node found, as its position in the chain. -/
def search (l : WordList) (word : Word) : Except Fault (Option Nat) :=
  searchFrom word l.nodes 0

/-- `WordList::lookup`: `search(word) != nullptr`. -/
def lookup (l : WordList) (word : Word) : Except Fault Bool :=
  match l.search word with
  | .error e => .error e
  | .ok r => .ok r.isSome

/-- The `while (current)` loop of `WordList::copy`: `current` runs over the
rest of the other chain, each word is copy-constructed into a new node linked
after `lastNode`, and the counter is incremented. -/
def copyLoop : List Word → List Word → Nat → Except Fault WordList
  | [], chain, n => .ok { nodes := chain, size := n }
  | current :: rest, chain, n =>
    match current.copy with
    | .error e => .error e
    | .ok w => copyLoop rest (chain ++ [w]) (n + 1)

/-- `WordList::copy`: the list becomes a node-by-node copy of `other`. -/
def copy (_self other : WordList) : Except Fault WordList :=
  if other.isEmpty then .ok { nodes := [], size := 0 }
  else match other.nodes with
    | [] => .error Fault.NullDeref
    | first :: rest =>
      match first.copy with
      | .error e => .error e
      | .ok w => copyLoop rest [w] 1

/-- `WordList::operator=(const WordList& other)` on two distinct objects:
`clear()` empties the list and `copy(other)` rebuilds it (and resets `head`,
`tail` and `size` first). -/
def assign (self other : WordList) : Except Fault WordList :=
  self.copy other

/-- `WordList::pop_front`: the word of the node returned, and the list left. -/
def pop_front (l : WordList) : Except Fault (Word × WordList) :=
  if l.isEmpty then .error Fault.ListIsEmpty
  else match l.nodes with
    | [] => .error Fault.NullDeref
    | oldHead :: rest => .ok (oldHead, { nodes := rest, size := l.size - 1 })

/-- `WordList::pop_back`: the word of the node returned, and the list left. -/
def pop_back (l : WordList) : Except Fault (Word × WordList) :=
  if l.isEmpty then .error Fault.ListIsEmpty
  else match l.nodes.getLast? with
    | none => .error Fault.NullDeref
    | some oldTail => .ok (oldTail, { nodes := l.nodes.dropLast, size := l.size - 1 })

/-- The number of nodes the `while` loop of `WordList::insertSorted` steps over
before it stops, on the chain from `current` on. -/
def scanSteps (word : Word) : List Word → Except Fault Nat
  | [] => .ok 0
  | current :: rest =>
    match current.isLess word with
    | .error e => .error e
    | .ok true =>
      match scanSteps word rest with
      | .error e => .error e
      | .ok k => .ok (k + 1)
    | .ok false => .ok 0

/-- The position in the chain (0 is the head) at which `WordList::insertSorted`
links the new node: 0 by `push_front`, the old number of nodes by `push_back`,
and otherwise one more than the number of nodes the scan from the second node
steps over. -/
def insertSortedAt (l : WordList) (word : Word) : Except Fault Nat :=
  match l.nodes with
  | [] => .ok 0
  | _ :: second =>
    match l.front with
    | .error e => .error e
    | .ok f =>
      match word.isLess f with
      | .error e => .error e
      | .ok true => .ok 0
      | .ok false =>
        match l.back with
        | .error e => .error e
        | .ok b =>
          match b.isLess word with
          | .error e => .error e
          | .ok true => .ok l.nodes.length
          | .ok false =>
            match scanSteps word second with
            | .error e => .error e
            | .ok k => .ok (k + 1)

/-- `WordList::remove`: the node `search` finds is unlinked and deleted. -/
def remove (l : WordList) (word : Word) : Except Fault (Bool × WordList) :=
  match l.search word with
  | .error e => .error e
  | .ok none => .ok (false, l)
  | .ok (some i) => .ok (true, { nodes := l.nodes.eraseIdx i, size := l.size - 1 })

/-- The `for` loop of `WordList::getWord`: `node = node->next`, `k` times; a
node pointer is the chain that starts at it, and `[]` is `nullptr`. -/
def walk : Nat → List Word → Except Fault (List Word)
  | 0, node => .ok node
  | _ + 1, [] => .error Fault.NullDeref
  | k + 1, _ :: next => walk k next

/-- `WordList::getWord`: the node at index `n` (as the chain that starts at
it), or `nullptr` when `n < 0 || n >= size`. -/
def getWord (l : WordList) (n : Int) : Except Fault (List Word) :=
  if n < 0 ∨ n ≥ (l.size : Int) then .ok []
  else walk n.toNat l.nodes

/-- `WordList::fetchWord`: a copy of the word of the node `getWord` returns. -/
def fetchWord (l : WordList) (index : Int) : Except Fault Word :=
  match l.getWord index with
  | .error e => .error e
  | .ok [] => .error Fault.IndexOutOfRange
  | .ok (node :: _) => node.copy

/-- The `while` loop of `WordList::wordsStartingWith` on the chain from `node`
on, with the list built so far. -/
def startingLoop (letter : Nat) : List Word → WordList → Except Fault WordList
  | [], initialLetterWords => .ok initialLetterWords
  | node :: next, initialLetterWords =>
    match node.atIndex 0 with
    | .error e => .error e
    | .ok ch =>
      if ch = letter then
        match initialLetterWords.push_back node with
        | .error e => .error e
        | .ok l => startingLoop letter next l
      else startingLoop letter next initialLetterWords

/-- `WordList::wordsStartingWith`. -/
def wordsStartingWith (l : WordList) (letter : Nat) : Except Fault WordList :=
  startingLoop letter l.nodes WordList.empty

/-- The `while` loop of `WordList::print` on the chain from `node` on, with the
running `wordCount` and the bytes written so far (32 is the space, 10 the
newline). -/
def printLoop (n : Int) : List Word → Int → List Nat → Except Fault (Int × List Nat)
  | [], wordCount, sout => .ok (wordCount, sout)
  | node :: next, wordCount, sout =>
    let len := node.length
    let padded := if n ≠ 1 then sout ++ List.replicate (if len ≥ 15 then 0 else 15 - len) 32
      else sout
    let written := node.print padded
    if n = 0 then .error Fault.DivisionByZero
    else if Int.tmod (wordCount + 1) n = 0 ∨ n = 1 then
      printLoop n next (wordCount + 1) (written ++ [10])
    else printLoop n next (wordCount + 1) (written ++ [32])

/-- `WordList::print`: the number of words printed and the stream after it. -/
def print (l : WordList) (sout : List Nat) (n : Int) : Except Fault (Int × List Nat) :=
  match printLoop n l.nodes 0 sout with
  | .error e => .error e
  | .ok (wordCount, out) =>
    if n = 0 then .error Fault.DivisionByZero
    else if Int.tmod wordCount n ≠ 0 ∧ n ≠ 1 then .ok (wordCount, out ++ [10])
    else .ok (wordCount, out)

/-- The loop `while (!isEmpty()) pop_front();` of `WordList::clear` on the
chain from `head` on: each `pop_front` unlinks the head and decrements `size`. -/
def clearLoop : List Word → Nat → WordList
  | [], size => { nodes := [], size := size }
  | _ :: next, size => clearLoop next (size - 1)

/-- `WordList::clear`. -/
def clear (l : WordList) : WordList := clearLoop l.nodes l.size

end WordList

/-! ## WordCat (WordCat.h; WordCat.cpp is not part of the sources) -/

/-- The class `WordCat`: `Word category` and `WordList wordList`. -/
structure WordCat where
  category : Word
  wordList : WordList
  deriving DecidableEq, Repr

namespace WordCat

/-- Modelled from the spec: the body of `WordCat::WordCat()` is in WordCat.cpp;
WordCat.h documents it as initialising `category` and `wordList` to their
default values. -/
def default : WordCat := { category := Word.default, wordList := WordList.empty }

/-- Modelled from the spec: the body of `WordCat::WordCat(const Word&)` is in
WordCat.cpp; the name is set from the given word (a copy) and the member list
starts empty. -/
def ofWord (category : Word) : Except Fault WordCat :=
  match category.copy with
  | .error e => .error e
  | .ok w => .ok { category := w, wordList := WordList.empty }

/-- Modelled from the spec: the body of `WordCat::getCategoryName` is in
WordCat.cpp; it is declared `Word getCategoryName() const` and returns the name
by value, that is a copy of `category`. -/
def getCategoryName (c : WordCat) : Except Fault Word := c.category.copy

/-- Modelled from the spec: the body of `WordCat::operator=(const WordCat&)` is
in WordCat.cpp; the spec has it deep-copy the name and the member list, which
is `Word::operator=` followed by `WordList::operator=`. -/
def assign (self other : WordCat) : Except Fault WordCat :=
  match self.category.assign other.category with
  | .error e => .error e
  | .ok w =>
    match self.wordList.assign other.wordList with
    | .error e => .error e
    | .ok l => .ok { category := w, wordList := l }

/-- Modelled from the spec: the body of `WordCat::insertWord` is in WordCat.cpp;
the spec has it return false without mutation when `lookup(word)` is true, and
otherwise call `insertSorted` and return true. -/
def insertWord (c : WordCat) (word : Word) : Except Fault (Bool × WordCat) :=
  match c.wordList.lookup word with
  | .error e => .error e
  | .ok true => .ok (false, c)
  | .ok false =>
    match c.wordList.insertSorted word with
    | .error e => .error e
    | .ok l => .ok (true, { c with wordList := l })

/-- Modelled from the spec: the body of `WordCat::getWordList` is in
WordCat.cpp; it is declared `const WordList& getWordList() const` and returns
the member list. -/
def getWordList (c : WordCat) : WordList := c.wordList

/-- The value `WordCat::operator=` leaves in its target when it returns: the
name of `other`, and the chain of `other` with the counter as recomputed by
`WordList::copy`. -/
def copied (other : WordCat) : WordCat :=
  { category := other.category,
    wordList := { nodes := other.wordList.nodes, size := other.wordList.nodes.length } }

/-- A record a correct program can hold: the name has a buffer, so has every
member word, and the counter of the member list is its number of nodes. -/
def wf (c : WordCat) : Bool :=
  c.category.present && c.wordList.nodes.all Word.present &&
    decide (c.wordList.size = c.wordList.nodes.length)

/-- Modelled from the spec: the body of `WordCat::removeWord` is in WordCat.cpp;
the spec has it delegate to the `remove` of the member list and return its
result. -/
def removeWord (c : WordCat) (word : Word) : Except Fault (Bool × WordCat) :=
  match c.wordList.remove word with
  | .error e => .error e
  | .ok (b, l) => .ok (b, { c with wordList := l })

/-- Modelled from the spec: the body of `WordCat::emptyCategory` is in
WordCat.cpp; WordCat.h documents it as clearing the word list, and the spec has
it delegate to `clear`. -/
def emptyCategory (c : WordCat) : WordCat := { c with wordList := c.wordList.clear }

/-- The records a program can reach: a newly constructed `WordCat` (default,
or from a name), followed by calls of `insertWord`, `removeWord` and
`emptyCategory` that return. -/
inductive Reachable : WordCat → Prop where
  | default : Reachable WordCat.default
  | ofWord {name : Word} {c : WordCat} : WordCat.ofWord name = .ok c → Reachable c
  | insertWord {c c' : WordCat} {w : Word} {b : Bool} :
      Reachable c → c.insertWord w = .ok (b, c') → Reachable c'
  | removeWord {c c' : WordCat} {w : Word} {b : Bool} :
      Reachable c → c.removeWord w = .ok (b, c') → Reachable c'
  | emptyCategory {c : WordCat} : Reachable c → Reachable c.emptyCategory

end WordCat

/-! ## WordCatVec (WordCatVec.h, WordCatVec.cpp) -/

/-- The class `WordCatVec`: the array `word_category_array` (null, or an
allocation given slot by slot), `capacity` and `size`. -/
structure WordCatVec where
  word_category_array : Option (List WordCat)
  capacity : Nat
  size : Nat
  deriving DecidableEq, Repr

/-- The expression `new WordCat[n]`: `n` default-constructed records. -/
def newArray (n : Nat) : List WordCat := List.replicate n WordCat.default

/-- Reading `array[i]` through a pointer. -/
def loadSlot (array : Option (List WordCat)) (i : Nat) : Except Fault WordCat :=
  match array with
  | none => .error Fault.NullDeref
  | some arr =>
    match arr[i]? with
    | none => .error Fault.OutOfBounds
    | some c => .ok c

/-- The statement `arr[i] = c`: `WordCat::operator=` on slot `i`. -/
def storeSlot (arr : List WordCat) (i : Nat) (c : WordCat) : Except Fault (List WordCat) :=
  match arr[i]? with
  | none => .error Fault.OutOfBounds
  | some slot =>
    match slot.assign c with
    | .error e => .error e
    | .ok c' => .ok (arr.set i c')

namespace WordCatVec

/-- `WordCatVec::WordCatVec()`: `new WordCat[1]`, `capacity{1}`, `size{0}`. -/
def new : WordCatVec := { word_category_array := some (newArray 1), capacity := 1, size := 0 }

/-- The loop of `WordCatVec::search`, with `n` iterations left at index `i`:
the index of the first slot below `size` whose name `==` the given one. -/
def searchLoop (s : WordCatVec) (category : Word) : Nat → Nat → Except Fault (Option Nat)
  | 0, _ => .ok none
  | n + 1, i =>
    match loadSlot s.word_category_array i with
    | .error e => .error e
    | .ok c =>
      match c.getCategoryName with
      | .error e => .error e
      | .ok name =>
        match name.eq category with
        | .error e => .error e
        | .ok true => .ok (some i)
        | .ok false => searchLoop s category n (i + 1)

/-- `WordCatVec::search`: the slot found (as its index), or `nullptr`. -/
def search (s : WordCatVec) (category : Word) : Except Fault (Option Nat) :=
  searchLoop s category s.size 0

/-- `WordCatVec::lookup`: `search(category) != nullptr`. -/
def lookup (s : WordCatVec) (category : Word) : Except Fault Bool :=
  match s.search category with
  | .error e => .error e
  | .ok r => .ok r.isSome

/-- The copy loop `for (i = 0; i < size; ++i)` of `addCategory` and of
`removeCategory`, with `n` iterations left at index `i`:
`if (i < new_capacity) new_category_array[i] = word_category_array[i]; else throw`. -/
def copyLoop (array : Option (List WordCat)) (new_capacity : Nat) :
    Nat → Nat → List WordCat → Except Fault (List WordCat)
  | 0, _, new_category_array => .ok new_category_array
  | n + 1, i, new_category_array =>
    if i < new_capacity then
      match loadSlot array i with
      | .error e => .error e
      | .ok c =>
        match storeSlot new_category_array i c with
        | .error e => .error e
        | .ok arr => copyLoop array new_capacity n (i + 1) arr
    else .error Fault.SizeExceedsCapacity

/-- The reallocation block shared by `addCategory` and `removeCategory`: a new
array of `new_capacity` records is filled by the copy loop, the old one is
deleted, and only then the pointer and `capacity` are updated. -/
def reallocate (s : WordCatVec) (new_capacity : Nat) : Except Fault WordCatVec :=
  match copyLoop s.word_category_array new_capacity s.size 0 (newArray new_capacity) with
  | .error e => .error e
  | .ok arr => .ok { word_category_array := some arr, capacity := new_capacity, size := s.size }

/-- `WordCatVec::addCategory`.  The result is the value returned or the fault
raised, with the state of the store at that point. -/
def addCategory (s : WordCatVec) (new_category : WordCat) : Except Fault Bool × WordCatVec :=
  match new_category.getCategoryName with
  | .error e => (.error e, s)
  | .ok name =>
    match s.lookup name with
    | .error e => (.error e, s)
    | .ok true => (.ok false, s)
    | .ok false =>
      match (if s.size = s.capacity then s.reallocate (s.capacity * 2) else .ok s) with
      | .error e => (.error e, s)
      | .ok s1 =>
        if s1.size < s1.capacity then
          match s1.word_category_array with
          | none => (.error Fault.NullDeref, s1)
          | some arr =>
            match storeSlot arr s1.size new_category with
            | .error e => (.error e, s1)
            | .ok arr' =>
              (.ok true, { s1 with word_category_array := some arr', size := s1.size + 1 })
        else (.error Fault.SizeExceedsCapacity, s1)

/-- The shift loop `for (j = i; j < size - 1; ++j) array[j] = array[j + 1]` of
`removeCategory`, with `n` iterations left at index `j`. -/
def shiftLoop : Nat → Nat → List WordCat → Except Fault (List WordCat)
  | 0, _, arr => .ok arr
  | n + 1, j, arr =>
    match arr[j + 1]? with
    | none => .error Fault.OutOfBounds
    | some c =>
      match storeSlot arr j c with
      | .error e => .error e
      | .ok arr' => shiftLoop n (j + 1) arr'

/-- The body of the `if` of `removeCategory` once slot `i` matches: shift,
`size--`, shrink when `size < capacity / 2`, `return true`. -/
def removeAt (s : WordCatVec) (i : Nat) : Except Fault Bool × WordCatVec :=
  match s.word_category_array with
  | none => (.error Fault.NullDeref, s)
  | some arr =>
    match shiftLoop (s.size - 1 - i) i arr with
    | .error e => (.error e, s)
    | .ok arr' =>
      let s1 : WordCatVec := { s with word_category_array := some arr', size := s.size - 1 }
      if s1.size < s1.capacity / 2 then
        match s1.reallocate (if s1.capacity / 2 > 1 then s1.capacity / 2 else 1) with
        | .error e => (.error e, s1)
        | .ok s2 => (.ok true, s2)
      else (.ok true, s1)

/-- The outer loop of `WordCatVec::removeCategory`, with `n` iterations left at
index `i`. -/
def removeLoop (s : WordCatVec) (category_to_remove : Word) :
    Nat → Nat → Except Fault Bool × WordCatVec
  | 0, _ => (.ok false, s)
  | n + 1, i =>
    match loadSlot s.word_category_array i with
    | .error e => (.error e, s)
    | .ok c =>
      match c.getCategoryName with
      | .error e => (.error e, s)
      | .ok name =>
        match name.eq category_to_remove with
        | .error e => (.error e, s)
        | .ok true => s.removeAt i
        | .ok false => removeLoop s category_to_remove n (i + 1)

/-- `WordCatVec::removeCategory`.  The result is the value returned or the
fault raised, with the state of the store at that point. -/
def removeCategory (s : WordCatVec) (category_to_remove : Word) :
    Except Fault Bool × WordCatVec :=
  removeLoop s category_to_remove s.size 0

/-- `WordCatVec::clearCategories`. -/
def clearCategories (_s : WordCatVec) : WordCatVec :=
  { word_category_array := some (newArray 1), capacity := 1, size := 0 }

/-- The loop of `WordCatVec::saveToFile`, with `n` iterations left at index
`i` and the bytes written so far (35 is `#`, 10 the newline). -/
def saveLoop (s : WordCatVec) : Nat → Nat → List Nat → Except Fault (List Nat)
  | 0, _, file => .ok file
  | n + 1, i, file =>
    match loadSlot s.word_category_array i with
    | .error e => .error e
    | .ok c =>
      match c.getCategoryName with
      | .error e => .error e
      | .ok name =>
        match c.getWordList.print (name.print (file ++ [35]) ++ [10]) 5 with
        | .error e => .error e
        | .ok (_, file') => saveLoop s n (i + 1) (file' ++ [10])

/-- `WordCatVec::saveToFile`, for a file that opens: the bytes written. -/
def saveToFile (s : WordCatVec) : Except Fault (List Nat) :=
  saveLoop s s.size 0 []

/-- The records of the store: the slots at indices `0 .. size - 1`. -/
def records (s : WordCatVec) : List WordCat :=
  (s.word_category_array.getD []).take s.size

/-- A store a correct program can hold: the array is allocated with `capacity`
slots, `size <= capacity`, and every record is a well-formed `WordCat`. -/
def wf (s : WordCatVec) : Bool :=
  match s.word_category_array with
  | none => false
  | some arr =>
    decide (arr.length = s.capacity) && decide (s.size ≤ s.capacity) &&
      (arr.take s.size).all WordCat.wf

/-- The stores a program can reach: a newly constructed store, followed by
calls of `addCategory`, `removeCategory` and `clearCategories` that return. -/
inductive Reachable : WordCatVec → Prop where
  | new : Reachable WordCatVec.new
  | addCategory {s s' : WordCatVec} {r : WordCat} {b : Bool} :
      Reachable s → s.addCategory r = (.ok b, s') → Reachable s'
  | removeCategory {s s' : WordCatVec} {n : Word} {b : Bool} :
      Reachable s → s.removeCategory n = (.ok b, s') → Reachable s'
  | clearCategories {s : WordCatVec} : Reachable s → Reachable s.clearCategories

/-- `WordCatVec::WordCatVec(const WordCatVec& other)`: an array of
`other.capacity` records filled by the guarded copy loop. -/
def copyCtor (other : WordCatVec) : Except Fault WordCatVec :=
  match copyLoop other.word_category_array other.capacity other.size 0
      (newArray other.capacity) with
  | .error e => .error e
  | .ok arr =>
    .ok { word_category_array := some arr, capacity := other.capacity, size := other.size }

/-- `WordCatVec::operator=(const WordCatVec& other)` on two distinct objects:
the old array is deleted and a new one of `other.capacity` records is filled by
the guarded copy loop. -/
def copyAssign (_self other : WordCatVec) : Except Fault WordCatVec :=
  match copyLoop other.word_category_array other.capacity other.size 0
      (newArray other.capacity) with
  | .error e => .error e
  | .ok arr =>
    .ok { word_category_array := some arr, capacity := other.capacity, size := other.size }

/-- `WordCatVec::WordCatVec(WordCatVec&& other)`: the new store takes the array,
capacity and size of `other`; the second component is `other` after the call
(`word_category_array = nullptr`, `capacity = 0`, `size = 0`). -/
def move (other : WordCatVec) : WordCatVec × WordCatVec :=
  ({ word_category_array := other.word_category_array, capacity := other.capacity,
     size := other.size },
   { word_category_array := none, capacity := 0, size := 0 })

/-- `WordCatVec::operator=(WordCatVec&& other)` on two distinct objects: the old
array is deleted, then as the move constructor. -/
def moveAssign (_self other : WordCatVec) : WordCatVec × WordCatVec :=
  ({ word_category_array := other.word_category_array, capacity := other.capacity,
     size := other.size },
   { word_category_array := none, capacity := 0, size := 0 })

/-- A run of `addCategory` over the given records, one call each, in order:
the final store when every call returned `true`. -/
def addAll : WordCatVec → List WordCat → Option WordCatVec
  | s, [] => some s
  | s, r :: rs =>
    match s.addCategory r with
    | (.ok true, s') => addAll s' rs
    | _ => none

end WordCatVec

/-- The function `isspace` in the C locale: space, `\t`, `\n`, `\v`, `\f`, `\r`. -/
def isspace (c : Nat) : Bool := c = 32 || (9 ≤ c && c ≤ 13)

/-- The C string a buffer holds: its bytes before the first NUL. -/
def cstr (buf : List Nat) : List Nat := buf.takeWhile (fun c => decide (c ≠ 0))

/-- The call `strlen(str)` on a buffer. -/
def strlen (buf : List Nat) : Nat := (cstr buf).length

/-- The loop `while (isspace((unsigned char)*start)) start++;` of `trim` on the
bytes from `start` on: the number of increments.  Reading past the buffer is a
fault. -/
def skipLeading : List Nat → Except Fault Nat
  | [] => .error Fault.OutOfBounds
  | c :: rest =>
    if isspace c then
      match skipLeading rest with
      | .error e => .error e
      | .ok k => .ok (k + 1)
    else .ok 0

/-- The loop `while (end > start && isspace((unsigned char)*end)) end--;` of
`trim`, entered with `end` at offset `n - 1` of the buffer (offset `-1`, one
before the buffer, is only compared, never read): the offset of `end` when the
loop stops. -/
def walkBack (buf : List Nat) (start : Nat) : Nat → Except Fault Int
  | 0 => .ok (-1)
  | e + 1 =>
    if start < e then
      match buf[e]? with
      | none => .error Fault.OutOfBounds
      | some c => if isspace c then walkBack buf start e else .ok (e : Int)
    else .ok (e : Int)

/-- The function `trim(char* str)` of WordCatVec.cpp, statement by statement,
on the buffer `str` points to: the buffer after the call.  Pointers are offsets
into the buffer; `endp` is the offset of `end`, which is `-1` for the empty
string.  The store `*(end + 1) = 0` and the `memmove` of `end - start + 2` bytes
fault when they leave the buffer. -/
def trimBuffer (buf : List Nat) : Except Fault (List Nat) :=
  match skipLeading buf with
  | .error e => .error e
  | .ok start =>
    match walkBack buf start (strlen buf) with
    | .error e => .error e
    | .ok endp =>
      if endp + 1 < 0 ∨ (buf.length : Int) ≤ endp + 1 then .error Fault.OutOfBounds
      else
        if 0 < start then
          if endp - (start : Int) + 2 < 0 ∨
              (buf.length : Int) < (start : Int) + (endp - (start : Int) + 2) then
            .error Fault.OutOfBounds
          else
            .ok (((buf.set (endp + 1).toNat 0).drop start).take (endp - (start : Int) + 2).toNat ++
              (buf.set (endp + 1).toNat 0).drop (endp - (start : Int) + 2).toNat)
        else .ok (buf.set (endp + 1).toNat 0)

/-- The function `trim` of WordCatVec.cpp on the string in the buffer: `start`
stops at the first byte that is not a space, `end` walks back from the last
byte while it is above `start` and on a space, and the bytes from `start` to
`end` are moved to the front (`trimBuffer` is the same function statement by
statement). -/
def trim (str : List Nat) : List Nat :=
  match str.dropWhile isspace with
  | [] => []
  | first :: rest => first :: (rest.reverse.dropWhile isspace).reverse

/-- The lines that successive calls `file.getline(line, 256)` store while they
succeed, given the unread bytes of the file and the bytes already stored for
the current line: a newline ends the line; at the end of the file a last line
without newline is still delivered; a 256th byte sets failbit, which ends the
`while` loop without a line. -/
def getlinesFrom : List Nat → List Nat → List (List Nat)
  | [], line => if line = [] then [] else [line]
  | c :: rest, line =>
    if c = 10 then line :: getlinesFrom rest []
    else if line.length ≥ 255 then []
    else getlinesFrom rest (line ++ [c])

/-- The lines the `while (file.getline(line, 256))` loop of `loadFromFile` sees. -/
def getlines (file : List Nat) : List (List Nat) := getlinesFrom file []

namespace WordCatVec

/-- The body of the `while` loop of `WordCatVec::loadFromFile` for one line:
the store and `currentCategory` before and after. -/
def loadLine (s : WordCatVec) (currentCategory : Option WordCat) (line : List Nat) :
    Except Fault (WordCatVec × Option WordCat) :=
  match trim line with
  | [] => .ok (s, currentCategory)
  | first :: categoryName =>
    if first = 35 then
      match (match currentCategory with
          | none => (Except.ok false, s)
          | some c => s.addCategory c) with
      | (.error e, _) => .error e
      | (.ok _, s') =>
        match WordCat.ofWord (Word.ofCStr (trim categoryName)) with
        | .error e => .error e
        | .ok c => .ok (s', some c)
    else
      match currentCategory with
      | none => .ok (s, none)
      | some c =>
        match c.insertWord (Word.ofCStr (first :: categoryName)) with
        | .error e => .error e
        | .ok (_, c') => .ok (s, some c')

/-- The `while` loop of `WordCatVec::loadFromFile` over the lines read. -/
def loadLoop : List (List Nat) → WordCatVec → Option WordCat →
    Except Fault (WordCatVec × Option WordCat)
  | [], s, currentCategory => .ok (s, currentCategory)
  | line :: rest, s, currentCategory =>
    match s.loadLine currentCategory line with
    | .error e => .error e
    | .ok (s', c') => loadLoop rest s' c'

/-- The statements of `WordCatVec::loadFromFile` from one point of the
`while` loop on: the lines still to read are processed, and the category that
is open after the last one is added. -/
def loadRest (lines : List (List Nat)) (s : WordCatVec) (currentCategory : Option WordCat) :
    Except Fault WordCatVec :=
  match loadLoop lines s currentCategory with
  | .error e => .error e
  | .ok (s', none) => .ok s'
  | .ok (s', some c) =>
    match s'.addCategory c with
    | (.error e, _) => .error e
    | (.ok _, s'') => .ok s''

/-- `WordCatVec::loadFromFile`, for a file that opens and holds the given
bytes: the store after the call. -/
def loadFromFile (s : WordCatVec) (file : List Nat) : Except Fault WordCatVec :=
  match loadLoop (getlines file) s none with
  | .error e => .error e
  | .ok (s', none) => .ok s'
  | .ok (s', some c) =>
    match s'.addCategory c with
    | (.error e, _) => .error e
    | (.ok _, s'') => .ok s''

end WordCatVec

/-- The file format as the spec words it, "leading/trailing whitespace
trimmed": the text without its leading and its trailing run of whitespace. -/
def specTrim (line : List Nat) : List Nat :=
  List.rdropWhile isspace (line.dropWhile isspace)

/-- The file format as the spec words it, "a category boundary line begins with
`#`" (35), tested on the trimmed line. -/
def specIsBoundary (line : List Nat) : Bool := decide ((specTrim line).head? = some 35)

/-- The file format as the spec words it: the member words listed at the head
of `lines`, that is "all following lines until the next `#` line or
end-of-input ..., one per line, whitespace-trimmed, blank lines ignored". -/
def specMembers (lines : List (List Nat)) : List (List Nat) :=
  ((lines.takeWhile (fun l => !specIsBoundary l)).map specTrim).filter (fun l => decide (l ≠ []))

/-- The file format as the spec words it: one block per boundary line, in file
order, as the category name (the trimmed text after the `#`) and the member
words that follow the line. -/
def specCategories : List (List Nat) → List (List Nat × List (List Nat))
  | [] => []
  | line :: rest =>
    if specIsBoundary line then
      (specTrim ((specTrim line).drop 1), specMembers rest) :: specCategories rest
    else specCategories rest

/-- The blocks that give a record when they are added in order to a store that
holds the names `seen`: a block is kept when its name is not held yet, and
dropped otherwise. -/
def specKept (seen : List (List Nat)) :
    List (List Nat × List (List Nat)) → List (List Nat × List (List Nat))
  | [] => []
  | b :: bs =>
    if b.1 ∈ seen then specKept seen bs else b :: specKept (seen ++ [b.1]) bs

/-- The record `r` holds the block `b`: it has the name of the block, and its
member list holds the member words of the block as a set, each once. -/
def specHolds (r : WordCat) (b : List Nat × List (List Nat)) : Prop :=
  r.category.bytes = b.1 ∧ (r.wordList.nodes.map Word.bytes).Nodup ∧
    ∀ w, w ∈ r.wordList.nodes.map Word.bytes ↔ w ∈ b.2

/-- Test data: a record named by an ASCII string, holding the given words. -/
def sampleCat (name : String) (words : List String) : WordCat :=
  { category := Word.ofCStr (ascii name),
    wordList := { nodes := words.map (fun w => Word.ofCStr (ascii w)), size := words.length } }

/-- Test data: the list holding the given ASCII words, in that order. -/
def sampleList (words : List String) : WordList :=
  { nodes := words.map (fun w => Word.ofCStr (ascii w)), size := words.length }

/-- Test data: the store a new store becomes when categories with the given
names (and no words) are added in turn. -/
def sampleStore (names : List String) : WordCatVec :=
  names.foldl (fun s n => (s.addCategory (sampleCat n [])).2) WordCatVec.new

/-! ## WordList on the free store (WordList.h, WordList.cpp) -/

/-- The struct `WordList::Node`: `theWord`, `next`, `prev`; a node pointer is
an address of the free store or null. -/
structure Node where
  theWord : Word
  next : Option Nat
  prev : Option Nat
  deriving DecidableEq, Repr

/-- The free store of nodes: the node at each address, `none` once it is
deleted; `new` takes the next address. -/
abbrev NodeHeap := List (Option Node)

/-- The members of a `WordList` object: `head`, `tail` and `size`. -/
structure ListObj where
  head : Option Nat
  tail : Option Nat
  size : Nat
  deriving DecidableEq, Repr

namespace ListObj

/-- Reading the node `*p`. -/
def load (h : NodeHeap) (p : Option Nat) : Except Fault Node :=
  match p with
  | none => .error Fault.NullDeref
  | some a =>
    match h[a]? with
    | some (some n) => .ok n
    | _ => .error Fault.Dangling

/-- The statement `p->next = q`. -/
def setNext (h : NodeHeap) (p q : Option Nat) : Except Fault NodeHeap :=
  match p with
  | none => .error Fault.NullDeref
  | some a =>
    match h[a]? with
    | some (some n) => .ok (h.set a (some { n with next := q }))
    | _ => .error Fault.Dangling

/-- The statement `p->prev = q`. -/
def setPrev (h : NodeHeap) (p q : Option Nat) : Except Fault NodeHeap :=
  match p with
  | none => .error Fault.NullDeref
  | some a =>
    match h[a]? with
    | some (some n) => .ok (h.set a (some { n with prev := q }))
    | _ => .error Fault.Dangling

/-- The expression `new Node(word, nxt, prv)`: the word is copy-constructed into
the node; the address of the node and the free store after. -/
def newNode (h : NodeHeap) (word : Word) (nxt prv : Option Nat) :
    Except Fault (Nat × NodeHeap) :=
  match word.copy with
  | .error e => .error e
  | .ok w => .ok (h.length, h ++ [some { theWord := w, next := nxt, prev := prv }])

/-- `WordList::WordList()`. -/
def empty : ListObj := { head := none, tail := none, size := 0 }

/-- `WordList::isEmpty`: `head == nullptr`. -/
def isEmpty (l : ListObj) : Bool := l.head.isNone

/-- `WordList::front`. -/
def front (h : NodeHeap) (l : ListObj) : Except Fault Word :=
  if l.isEmpty then .error Fault.ListIsEmpty
  else
    match load h l.head with
    | .error e => .error e
    | .ok n => .ok n.theWord

/-- `WordList::back`. -/
def back (h : NodeHeap) (l : ListObj) : Except Fault Word :=
  if l.isEmpty then .error Fault.ListIsEmpty
  else
    match load h l.tail with
    | .error e => .error e
    | .ok n => .ok n.theWord

/-- `WordList::push_front`. -/
def push_front (h : NodeHeap) (l : ListObj) (word : Word) : Except Fault (ListObj × NodeHeap) :=
  match newNode h word l.head none with
  | .error e => .error e
  | .ok (a, h1) =>
    if l.isEmpty then .ok ({ head := some a, tail := some a, size := l.size + 1 }, h1)
    else
      match setPrev h1 l.head (some a) with
      | .error e => .error e
      | .ok h2 => .ok ({ head := some a, tail := l.tail, size := l.size + 1 }, h2)

/-- `WordList::pop_front`: the node returned, the list and the free store. -/
def pop_front (h : NodeHeap) (l : ListObj) : Except Fault (Option Nat × ListObj × NodeHeap) :=
  if l.isEmpty then .error Fault.ListIsEmpty
  else
    match load h l.head with
    | .error e => .error e
    | .ok oldHead =>
      match oldHead.next with
      | some b =>
        match setPrev h (some b) none with
        | .error e => .error e
        | .ok h1 =>
          match setNext h1 l.head none with
          | .error e => .error e
          | .ok h2 => .ok (l.head, { head := some b, tail := l.tail, size := l.size - 1 }, h2)
      | none =>
        match setNext h l.head none with
        | .error e => .error e
        | .ok h2 => .ok (l.head, { head := none, tail := none, size := l.size - 1 }, h2)

/-- `WordList::push_back`. -/
def push_back (h : NodeHeap) (l : ListObj) (word : Word) : Except Fault (ListObj × NodeHeap) :=
  match newNode h word none l.tail with
  | .error e => .error e
  | .ok (a, h1) =>
    match (match l.tail with
        | some t => setNext h1 (some t) (some a)
        | none => .ok h1) with
    | .error e => .error e
    | .ok h2 =>
      .ok ({ head := match l.head with
                     | none => some a
                     | some x => some x,
             tail := some a, size := l.size + 1 }, h2)

/-- `WordList::pop_back`: the node returned, the list and the free store. -/
def pop_back (h : NodeHeap) (l : ListObj) : Except Fault (Option Nat × ListObj × NodeHeap) :=
  if l.isEmpty then .error Fault.ListIsEmpty
  else
    match load h l.tail with
    | .error e => .error e
    | .ok oldTail =>
      match oldTail.prev with
      | some b =>
        match setNext h (some b) none with
        | .error e => .error e
        | .ok h1 =>
          match setPrev h1 l.tail none with
          | .error e => .error e
          | .ok h2 => .ok (l.tail, { head := l.head, tail := some b, size := l.size - 1 }, h2)
      | none =>
        match setPrev h l.tail none with
        | .error e => .error e
        | .ok h2 => .ok (l.tail, { head := none, tail := none, size := l.size - 1 }, h2)

/-- The `while` loop of `WordList::insertSorted`, with `fuel` iterations left:
`previous` and `current` when it stops. -/
def scan (h : NodeHeap) (word : Word) :
    Nat → Option Nat → Option Nat → Except Fault (Option Nat × Option Nat)
  | 0, _, _ => .error Fault.Diverges
  | fuel + 1, previous, current =>
    match current with
    | none => .ok (previous, none)
    | some c =>
      match load h (some c) with
      | .error e => .error e
      | .ok n =>
        match n.theWord.isLess word with
        | .error e => .error e
        | .ok true => scan h word fuel (some c) n.next
        | .ok false => .ok (previous, some c)

/-- `WordList::insertSorted`.  The loop is given one iteration more than the
free store has nodes, which a chain without a cycle cannot use up. -/
def insertSorted (h : NodeHeap) (l : ListObj) (word : Word) :
    Except Fault (ListObj × NodeHeap) :=
  match l.head with
  | none => push_front h l word
  | some _ =>
    match front h l with
    | .error e => .error e
    | .ok f =>
      match word.isLess f with
      | .error e => .error e
      | .ok true => push_front h l word
      | .ok false =>
        match back h l with
        | .error e => .error e
        | .ok b =>
          match b.isLess word with
          | .error e => .error e
          | .ok true => push_back h l word
          | .ok false =>
            match load h l.head with
            | .error e => .error e
            | .ok hd =>
              match scan h word (h.length + 1) l.head hd.next with
              | .error e => .error e
              | .ok (previous, current) =>
                match newNode h word current previous with
                | .error e => .error e
                | .ok (a, h1) =>
                  match setNext h1 previous (some a) with
                  | .error e => .error e
                  | .ok h2 =>
                    match current with
                    | some c =>
                      match setPrev h2 (some c) (some a) with
                      | .error e => .error e
                      | .ok h3 =>
                        .ok ({ head := l.head, tail := l.tail, size := l.size + 1 }, h3)
                    | none =>
                      .ok ({ head := l.head, tail := some a, size := l.size + 1 }, h2)

/-- The loop of `WordList::search`, with `fuel` iterations left. -/
def search (h : NodeHeap) (word : Word) : Nat → Option Nat → Except Fault (Option Nat)
  | 0, _ => .error Fault.Diverges
  | _ + 1, none => .ok none
  | fuel + 1, some a =>
    match load h (some a) with
    | .error e => .error e
    | .ok n =>
      match strcmp n.theWord.c_str word.c_str with
      | .error e => .error e
      | .ok r => if r = 0 then .ok (some a) else search h word fuel n.next

/-- The statement `if (node->prev != nullptr) node->prev->next = node->next;
else head = node->next;` of `WordList::remove`: `head` and the free store
after it. -/
def unlinkPrev (h : NodeHeap) (l : ListObj) (node : Node) :
    Except Fault (Option Nat × NodeHeap) :=
  match node.prev with
  | some p =>
    match setNext h (some p) node.next with
    | .error e => .error e
    | .ok h1 => .ok (l.head, h1)
  | none => .ok (node.next, h)

/-- The statement `if (node->next != nullptr) node->next->prev = node->prev;
else tail = node->prev;` of `WordList::remove`: `tail` and the free store
after it. -/
def unlinkNext (h : NodeHeap) (l : ListObj) (node : Node) :
    Except Fault (Option Nat × NodeHeap) :=
  match node.next with
  | some nx =>
    match setPrev h (some nx) node.prev with
    | .error e => .error e
    | .ok h1 => .ok (l.tail, h1)
  | none => .ok (node.prev, h)

/-- `WordList::remove`: the node `search` finds is unlinked and deleted. -/
def remove (h : NodeHeap) (l : ListObj) (word : Word) :
    Except Fault (Bool × ListObj × NodeHeap) :=
  match search h word (h.length + 1) l.head with
  | .error e => .error e
  | .ok none => .ok (false, l, h)
  | .ok (some a) =>
    match load h (some a) with
    | .error e => .error e
    | .ok node =>
      match unlinkPrev h l node with
      | .error e => .error e
      | .ok (head1, h1) =>
        match load h1 (some a) with
        | .error e => .error e
        | .ok node1 =>
          match unlinkNext h1 l node1 with
          | .error e => .error e
          | .ok (tail1, h2) =>
            .ok (true, { head := head1, tail := tail1, size := l.size - 1 }, h2.set a none)

/-- The loop `while (!isEmpty()) pop_front();` of `WordList::clear`, with
`fuel` iterations left. -/
def clearLoop : Nat → NodeHeap → ListObj → Except Fault (ListObj × NodeHeap)
  | 0, _, _ => .error Fault.Diverges
  | fuel + 1, h, l =>
    if l.isEmpty then .ok (l, h)
    else
      match pop_front h l with
      | .error e => .error e
      | .ok (_, l1, h1) => clearLoop fuel h1 l1

/-- `WordList::clear`. -/
def clear (h : NodeHeap) (l : ListObj) : Except Fault (ListObj × NodeHeap) :=
  clearLoop (h.length + 1) h l

/-- The `while (current)` loop of `WordList::copy`, with `fuel` iterations
left. -/
def copyLoop : Nat → NodeHeap → Option Nat → Nat → ListObj → Except Fault (ListObj × NodeHeap)
  | 0, _, _, _, _ => .error Fault.Diverges
  | fuel + 1, h, current, lastNode, l =>
    match current with
    | none => .ok (l, h)
    | some c =>
      match load h (some c) with
      | .error e => .error e
      | .ok n =>
        match newNode h n.theWord none (some lastNode) with
        | .error e => .error e
        | .ok (a, h1) =>
          match setNext h1 (some lastNode) (some a) with
          | .error e => .error e
          | .ok h2 =>
            copyLoop fuel h2 n.next a { head := l.head, tail := some a, size := l.size + 1 }

/-- `WordList::copy`: the list becomes a node-by-node copy of `other`. -/
def copy (h : NodeHeap) (_self other : ListObj) : Except Fault (ListObj × NodeHeap) :=
  if other.isEmpty then .ok ({ head := none, tail := none, size := 0 }, h)
  else
    match load h other.head with
    | .error e => .error e
    | .ok n =>
      match newNode h n.theWord none none with
      | .error e => .error e
      | .ok (a, h1) =>
        copyLoop (h.length + 1) h1 n.next a { head := some a, tail := some a, size := 1 }

/-- The addresses met from `p` along `next`, at most `fuel` of them. -/
def walkNext (h : NodeHeap) : Nat → Option Nat → List Nat
  | 0, _ => []
  | _ + 1, none => []
  | fuel + 1, some a =>
    match h[a]? with
    | some (some n) => a :: walkNext h fuel n.next
    | _ => [a]

/-- The addresses met from `p` along `prev`, at most `fuel` of them. -/
def walkPrev (h : NodeHeap) : Nat → Option Nat → List Nat
  | 0, _ => []
  | _ + 1, none => []
  | fuel + 1, some a =>
    match h[a]? with
    | some (some n) => a :: walkPrev h fuel n.prev
    | _ => [a]

/-- The addresses `ps` form a piece of a chain in the free store: each is a
live node whose word has a buffer, linked to the one before it (`prev` for the
first) and to the one after it (`nxt` for the last). -/
def Seg (h : NodeHeap) : Option Nat → List Nat → Option Nat → Prop
  | _, [], _ => True
  | prev, a :: rest, nxt =>
    ∃ n, h[a]? = some (some n) ∧ n.prev = prev ∧ n.next = rest.head?.or nxt ∧
      n.theWord.present = true ∧ Seg h (some a) rest nxt

/-- The list object `l` owns the chain `ps` of the free store `h`: the nodes
at `ps` are linked from `head` to `tail`, no address occurs twice, and `size`
counts them. -/
def Owns (h : NodeHeap) (l : ListObj) (ps : List Nat) : Prop :=
  Seg h none ps none ∧ ps.Nodup ∧ l.head = ps.head? ∧ l.tail = ps.getLast? ∧
    l.size = ps.length ∧ ps.length ≤ h.length

/-- The lists a program can reach, with the free store they live in: a newly
constructed list, followed by calls of `push_front`, `push_back`, `pop_front`,
`pop_back`, `insertSorted`, `remove`, `clear` and `copy` that return. -/
inductive Reachable : ListObj → NodeHeap → Prop where
  | empty (h : NodeHeap) : Reachable ListObj.empty h
  | push_front {l l1 : ListObj} {h h1 : NodeHeap} {w : Word} :
      Reachable l h → push_front h l w = .ok (l1, h1) → Reachable l1 h1
  | push_back {l l1 : ListObj} {h h1 : NodeHeap} {w : Word} :
      Reachable l h → push_back h l w = .ok (l1, h1) → Reachable l1 h1
  | pop_front {l l1 : ListObj} {h h1 : NodeHeap} {p : Option Nat} :
      Reachable l h → pop_front h l = .ok (p, l1, h1) → Reachable l1 h1
  | pop_back {l l1 : ListObj} {h h1 : NodeHeap} {p : Option Nat} :
      Reachable l h → pop_back h l = .ok (p, l1, h1) → Reachable l1 h1
  | insertSorted {l l1 : ListObj} {h h1 : NodeHeap} {w : Word} :
      Reachable l h → insertSorted h l w = .ok (l1, h1) → Reachable l1 h1
  | remove {l l1 : ListObj} {h h1 : NodeHeap} {w : Word} {b : Bool} :
      Reachable l h → remove h l w = .ok (b, l1, h1) → Reachable l1 h1
  | clear {l l1 : ListObj} {h h1 : NodeHeap} :
      Reachable l h → clear h l = .ok (l1, h1) → Reachable l1 h1
  | copy {self other l1 : ListObj} {h h1 : NodeHeap} :
      Reachable other h → copy h self other = .ok (l1, h1) → Reachable l1 h1

end ListObj

/-- Test data: the list and the free store after `insertSorted` of the given
ASCII words, in turn, into a new list on an empty free store. -/
def sampleChain (words : List String) : ListObj × NodeHeap :=
  words.foldl
    (fun s w =>
      match ListObj.insertSorted s.2 s.1 (Word.ofCStr (ascii w)) with
      | .ok r => r
      | .error _ => s)
    (ListObj.empty, [])

/-- Test data: the list and the free store after `remove` of an ASCII word. -/
def sampleRemoved (s : ListObj × NodeHeap) (w : String) : ListObj × NodeHeap :=
  match ListObj.remove s.2 s.1 (Word.ofCStr (ascii w)) with
  | .ok r => r.2
  | .error _ => s

/-! ## Theorems -/

theorem strcmpBytes_self (a : List Nat) : strcmpBytes a a = 0 := by
  induction a with
  | nil => rfl
  | cons x xs ih => simp [strcmpBytes, ih]

theorem strcmpBytes_eq_zero {a b : List Nat} : strcmpBytes a b = 0 ↔ a = b := by
  constructor
  · intro h
    induction a generalizing b with
    | nil => cases b with
      | nil => rfl
      | cons y ys => simp [strcmpBytes] at h
    | cons x xs ih => cases b with
      | nil => simp [strcmpBytes] at h
      | cons y ys =>
        simp only [strcmpBytes] at h
        split_ifs at h with h1
        · rw [h1, ih h]
        · omega
  · rintro rfl
    exact strcmpBytes_self a

theorem strcmpBytes_swap (a b : List Nat) : strcmpBytes b a = - strcmpBytes a b := by
  induction a generalizing b with
  | nil => cases b <;> simp [strcmpBytes]
  | cons x xs ih => cases b with
    | nil => simp [strcmpBytes]
    | cons y ys =>
      simp only [strcmpBytes]
      split_ifs <;> first | exact ih ys | omega

theorem strcmpBytes_le_trans {a b c : List Nat}
    (h1 : strcmpBytes a b ≤ 0) (h2 : strcmpBytes b c ≤ 0) : strcmpBytes a c ≤ 0 := by
  induction a generalizing b c with
  | nil => cases c <;> simp [strcmpBytes]
  | cons x xs ih => cases b with
    | nil => simp [strcmpBytes] at h1
    | cons y ys => cases c with
      | nil => simp [strcmpBytes] at h2
      | cons z zs =>
        simp only [strcmpBytes] at h1 h2 ⊢
        split_ifs at h1 h2 ⊢ <;> first | exact ih h1 h2 | omega

theorem Except_ok_bind {ε α β : Type} (a : α) (f : α → Except ε β) :
    (Except.ok a >>= f) = f a := rfl

theorem Word.copy_of_present {w : Word} (h : w.present = true) : w.copy = .ok w := by
  cases w with
  | mk p n => cases p with
    | none => simp [Word.present] at h
    | some bs => rfl

theorem Word.isLess_of_present {a b : Word} (ha : a.present = true) (hb : b.present = true) :
    a.isLess b = .ok (decide (strcmpBytes a.bytes b.bytes < 0)) := by
  cases a with
  | mk p n => cases b with
    | mk q m => cases p with
      | none => simp [Word.present] at ha
      | some x => cases q with
        | none => simp [Word.present] at hb
        | some y => rfl

theorem Word.eq_of_present {a b : Word} (ha : a.present = true) (hb : b.present = true) :
    a.eq b = .ok (decide (a.bytes = b.bytes)) := by
  cases a with
  | mk p n => cases b with
    | mk q m => cases p with
      | none => simp [Word.present] at ha
      | some x => cases q with
        | none => simp [Word.present] at hb
        | some y =>
          simp only [Word.eq, strcmp, Word.bytes, Option.getD_some]
          congr 1
          simp only [decide_eq_decide]
          exact strcmpBytes_eq_zero

theorem Word.le_refl (a : Word) : Word.le a a := by
  simp [Word.le, strcmpBytes_self]

theorem Word.le_trans {a b c : Word} (h1 : Word.le a b) (h2 : Word.le b c) : Word.le a c :=
  strcmpBytes_le_trans h1 h2

theorem Word.le_of_lt {a b : Word} (h : strcmpBytes a.bytes b.bytes < 0) : Word.le a b :=
  Int.le_of_lt h

theorem Word.le_of_not_lt {a b : Word} (h : ¬ strcmpBytes a.bytes b.bytes < 0) : Word.le b a := by
  have := strcmpBytes_swap a.bytes b.bytes
  simp only [Word.le]
  omega

/-- The closed form of the scan of `insertSorted`: the new word goes in front of
the first node that is not less than it. -/
theorem WordList.spliceBefore_eq (word : Word) (hw : word.present = true) (rest : List Word)
    (hr : ∀ c ∈ rest, c.present = true) :
    WordList.spliceBefore word rest =
      .ok (rest.takeWhile (fun c => decide (strcmpBytes c.bytes word.bytes < 0)) ++
        word :: rest.dropWhile (fun c => decide (strcmpBytes c.bytes word.bytes < 0))) := by
  induction rest with
  | nil => simp [WordList.spliceBefore, Word.copy_of_present hw]
  | cons c cs ih =>
    have hc : c.present = true := hr c (List.mem_cons_self _ _)
    have hcs : ∀ d ∈ cs, d.present = true := fun d hd => hr d (List.mem_cons_of_mem _ hd)
    simp only [WordList.spliceBefore, Word.isLess_of_present hc hw]
    by_cases hlt : strcmpBytes c.bytes word.bytes < 0
    · simp [hlt, ih hcs]
    · simp [hlt, Word.copy_of_present hw]

theorem sorted_splice (word : Word) (rest : List Word) (hs : rest.Pairwise Word.le) :
    (rest.takeWhile (fun c => decide (strcmpBytes c.bytes word.bytes < 0)) ++
      word :: rest.dropWhile (fun c => decide (strcmpBytes c.bytes word.bytes < 0))).Pairwise
      Word.le := by
  induction rest with
  | nil => simp
  | cons c cs ih =>
    rw [List.pairwise_cons] at hs
    by_cases hlt : strcmpBytes c.bytes word.bytes < 0
    · simp only [List.takeWhile_cons, List.dropWhile_cons, hlt, decide_True, if_true,
        List.cons_append, List.pairwise_cons]
      refine ⟨?_, ih hs.2⟩
      intro d hd
      rcases List.mem_append.1 hd with h | h
      · exact hs.1 d ((List.takeWhile_sublist _).subset h)
      · rcases List.mem_cons.1 h with h | h
        · rw [h]; exact Word.le_of_lt hlt
        · exact hs.1 d ((List.dropWhile_sublist _).subset h)
    · simp only [List.takeWhile_cons, List.dropWhile_cons, hlt, decide_False, List.nil_append,
        List.pairwise_cons, Bool.false_eq_true, if_false]
      refine ⟨?_, hs⟩
      intro d hd
      rcases List.mem_cons.1 hd with h | h
      · rw [h]; exact Word.le_of_not_lt hlt
      · exact Word.le_trans (Word.le_of_not_lt hlt) (hs.1 d h)

theorem le_getLast_of_sorted {l : List Word} (hs : l.Pairwise Word.le) {b : Word}
    (hb : l.getLast? = some b) : ∀ c ∈ l, Word.le c b := by
  induction l with
  | nil => simp
  | cons x xs ih =>
    rw [List.pairwise_cons] at hs
    intro c hc
    cases xs with
    | nil =>
      simp at hb hc
      rw [hc, hb]; exact Word.le_refl b
    | cons y ys =>
      rw [List.getLast?_cons_cons] at hb
      have hbm : b ∈ y :: ys := List.mem_of_getLast?_eq_some hb
      rcases List.mem_cons.1 hc with h | h
      · rw [h]; exact hs.1 b hbm
      · exact ih hs.2 hb c h

theorem WordList.insertSorted_nil (l : WordList) (word : Word) (hw : word.present = true)
    (hn : l.nodes = []) :
    l.insertSorted word = .ok { nodes := [word], size := l.size + 1 } := by
  simp [WordList.insertSorted, hn, WordList.push_front, Word.copy_of_present hw]

theorem WordList.front_cons (l : WordList) (h : Word) (rest : List Word)
    (hn : l.nodes = h :: rest) : l.front = .ok h := by
  simp [WordList.front, WordList.isEmpty, hn]

theorem WordList.back_cons (l : WordList) (h : Word) (rest : List Word)
    (hn : l.nodes = h :: rest) :
    ∃ b, l.nodes.getLast? = some b ∧ l.back = .ok b := by
  have hne : l.nodes ≠ [] := by simp [hn]
  refine ⟨l.nodes.getLast hne, List.getLast?_eq_getLast _ hne, ?_⟩
  simp [WordList.back, WordList.isEmpty, hne, List.getLast?_eq_getLast _ hne]

theorem WordList.insertSorted_front (l : WordList) (word : Word) (hw : word.present = true)
    (h : Word) (rest : List Word) (hn : l.nodes = h :: rest) (hh : h.present = true)
    (hlt : strcmpBytes word.bytes h.bytes < 0) :
    l.insertSorted word = .ok { nodes := word :: l.nodes, size := l.size + 1 } := by
  simp [WordList.insertSorted, hn, WordList.front_cons l h rest hn,
    Word.isLess_of_present hw hh, hlt, WordList.push_front, Word.copy_of_present hw]

theorem WordList.insertSorted_back (l : WordList) (word : Word) (hw : word.present = true)
    (h : Word) (rest : List Word) (hn : l.nodes = h :: rest) (hh : h.present = true)
    (hlt : ¬ strcmpBytes word.bytes h.bytes < 0)
    (b : Word) (hb : l.nodes.getLast? = some b) (hbp : b.present = true)
    (hbl : strcmpBytes b.bytes word.bytes < 0) :
    l.insertSorted word = .ok { nodes := l.nodes ++ [word], size := l.size + 1 } := by
  obtain ⟨b', hb', hback⟩ := WordList.back_cons l h rest hn
  have hbb : b' = b := by rw [hb] at hb'; exact (Option.some.inj hb').symm
  subst hbb
  simp only [WordList.insertSorted, hn, WordList.front_cons l h rest hn,
    Word.isLess_of_present hw hh, hlt, decide_False, hback,
    Word.isLess_of_present hbp hw, hbl, decide_True, WordList.push_back,
    Word.copy_of_present hw]

theorem WordList.insertSorted_middle (l : WordList) (word : Word) (hw : word.present = true)
    (h : Word) (rest : List Word) (hn : l.nodes = h :: rest)
    (hp : ∀ c ∈ l.nodes, c.present = true)
    (hlt : ¬ strcmpBytes word.bytes h.bytes < 0)
    (b : Word) (hb : l.nodes.getLast? = some b)
    (hbl : ¬ strcmpBytes b.bytes word.bytes < 0) :
    l.insertSorted word = .ok
      { nodes := h :: (rest.takeWhile (fun c => decide (strcmpBytes c.bytes word.bytes < 0)) ++
          word :: rest.dropWhile (fun c => decide (strcmpBytes c.bytes word.bytes < 0))),
        size := l.size + 1 } := by
  obtain ⟨b', hb', hback⟩ := WordList.back_cons l h rest hn
  have hbb : b' = b := by rw [hb] at hb'; exact (Option.some.inj hb').symm
  subst hbb
  have hh : h.present = true := hp h (by simp [hn])
  have hbp : b'.present = true := hp b' (List.mem_of_getLast?_eq_some hb)
  have hr : ∀ c ∈ rest, c.present = true := fun c hc => hp c (by simp [hn, hc])
  simp only [WordList.insertSorted, hn, WordList.front_cons l h rest hn,
    Word.isLess_of_present hw hh, hlt, decide_False, hback,
    Word.isLess_of_present hbp hw, hbl, WordList.spliceBefore_eq word hw rest hr]

/-- One `insertSorted` on a sorted chain of present words returns, and the chain
it leaves is sorted, made of present words, and one node longer. -/
theorem WordList.insertSorted_sorted (l : WordList) (word : Word) (hw : word.present = true)
    (hp : ∀ c ∈ l.nodes, c.present = true) (hs : l.nodes.Pairwise Word.le) :
    ∃ l', l.insertSorted word = .ok l' ∧ (∀ c ∈ l'.nodes, c.present = true) ∧
      l'.nodes.Pairwise Word.le ∧ l'.nodes.length = l.nodes.length + 1 ∧
      l'.size = l.size + 1 := by
  cases hn : l.nodes with
  | nil =>
    refine ⟨_, WordList.insertSorted_nil l word hw hn, ?_, ?_, ?_, rfl⟩ <;> simp [hw]
  | cons h rest =>
    have hh : h.present = true := hp h (by simp [hn])
    by_cases hlt : strcmpBytes word.bytes h.bytes < 0
    · refine ⟨_, WordList.insertSorted_front l word hw h rest hn hh hlt, ?_, ?_, ?_, rfl⟩
      · intro c hc
        rcases List.mem_cons.1 hc with e | e
        · rw [e]; exact hw
        · exact hp c e
      · refine List.pairwise_cons.2 ⟨?_, hs⟩
        intro c hc
        rw [hn] at hc hs
        rcases List.mem_cons.1 hc with e | e
        · rw [e]; exact Word.le_of_lt hlt
        · exact Word.le_trans (Word.le_of_lt hlt) ((List.pairwise_cons.1 hs).1 c e)
      · simp [hn]
    · obtain ⟨b, hb, -⟩ := WordList.back_cons l h rest hn
      have hbp : b.present = true := hp b (List.mem_of_getLast?_eq_some hb)
      by_cases hbl : strcmpBytes b.bytes word.bytes < 0
      · refine ⟨_, WordList.insertSorted_back l word hw h rest hn hh hlt b hb hbp hbl,
          ?_, ?_, ?_, rfl⟩
        · intro c hc
          rcases List.mem_append.1 hc with e | e
          · exact hp c e
          · rw [List.mem_singleton.1 e]; exact hw
        · refine List.pairwise_append.2 ⟨hs, by simp, ?_⟩
          intro c hc d hd
          rw [List.mem_singleton.1 hd]
          exact Word.le_trans (le_getLast_of_sorted hs hb c hc) (Word.le_of_lt hbl)
        · simp [hn]
      · refine ⟨_, WordList.insertSorted_middle l word hw h rest hn hp hlt b hb hbl,
          ?_, ?_, ?_, rfl⟩
        · intro c hc
          rcases List.mem_cons.1 hc with e | e
          · rw [e]; exact hh
          · rcases List.mem_append.1 e with e | e
            · have hm : c ∈ rest := (List.takeWhile_sublist _).subset e
              exact hp c (by rw [hn]; exact List.mem_cons_of_mem _ hm)
            · rcases List.mem_cons.1 e with e | e
              · rw [e]; exact hw
              · have hm : c ∈ rest := (List.dropWhile_sublist _).subset e
                exact hp c (by rw [hn]; exact List.mem_cons_of_mem _ hm)
        · rw [hn] at hs
          refine List.pairwise_cons.2 ⟨?_, sorted_splice word rest (List.pairwise_cons.1 hs).2⟩
          intro c hc
          rcases List.mem_append.1 hc with e | e
          · exact (List.pairwise_cons.1 hs).1 c ((List.takeWhile_sublist _).subset e)
          · rcases List.mem_cons.1 e with e | e
            · rw [e]; exact Word.le_of_not_lt hlt
            · exact (List.pairwise_cons.1 hs).1 c ((List.dropWhile_sublist _).subset e)
        · have := List.takeWhile_append_dropWhile
            (fun c => decide (strcmpBytes c.bytes word.bytes < 0)) rest
          have hlen := congrArg List.length this
          simp only [List.length_append] at hlen
          simp only [List.length_cons, List.length_append]
          omega

/-- Folding `insertSorted` over present words keeps a sorted chain sorted. -/
theorem WordList.foldlM_insertSorted_sorted (ws : List Word)
    (hws : ∀ w ∈ ws, w.present = true) (l : WordList)
    (hp : ∀ c ∈ l.nodes, c.present = true) (hs : l.nodes.Pairwise Word.le) :
    ∃ l', List.foldlM WordList.insertSorted l ws = .ok l' ∧
      (∀ c ∈ l'.nodes, c.present = true) ∧ l'.nodes.Pairwise Word.le ∧
      l'.nodes.length = l.nodes.length + ws.length ∧ l'.size = l.size + ws.length := by
  induction ws generalizing l with
  | nil => exact ⟨l, rfl, hp, hs, rfl, rfl⟩
  | cons w ws ih =>
    obtain ⟨l1, h1, hp1, hs1, hlen1, hsz1⟩ :=
      WordList.insertSorted_sorted l w (hws w (List.mem_cons_self _ _)) hp hs
    obtain ⟨l2, h2, hp2, hs2, hlen2, hsz2⟩ :=
      ih (fun x hx => hws x (List.mem_cons_of_mem _ hx)) l1 hp1 hs1
    refine ⟨l2, ?_, hp2, hs2, ?_, ?_⟩
    · rw [List.foldlM_cons, h1, Except_ok_bind, h2]
    · rw [hlen2, hlen1, List.length_cons]; omega
    · rw [hsz2, hsz1, List.length_cons]; omega

theorem strcmp_of_present {a b : Word} (ha : a.present = true) (hb : b.present = true) :
    strcmp a.c_str b.c_str = .ok (strcmpBytes a.bytes b.bytes) := by
  cases a with
  | mk p n => cases b with
    | mk q m => cases p with
      | none => simp [Word.present] at ha
      | some x => cases q with
        | none => simp [Word.present] at hb
        | some y => rfl

theorem WordList.searchFrom_isSome (word : Word) (hw : word.present = true) (nodes : List Word)
    (hp : ∀ c ∈ nodes, c.present = true) (i : Nat) :
    ∃ r, WordList.searchFrom word nodes i = .ok r ∧
      (r.isSome = true ↔ ∃ c ∈ nodes, c.bytes = word.bytes) := by
  induction nodes generalizing i with
  | nil => exact ⟨none, rfl, by simp⟩
  | cons c cs ih =>
    have hc : c.present = true := hp c (List.mem_cons_self _ _)
    have hcs : ∀ d ∈ cs, d.present = true := fun d hd => hp d (List.mem_cons_of_mem _ hd)
    simp only [WordList.searchFrom, strcmp_of_present hc hw]
    by_cases he : strcmpBytes c.bytes word.bytes = 0
    · refine ⟨some i, by simp [he], ?_⟩
      simp only [Option.isSome_some, true_iff]
      exact ⟨c, List.mem_cons_self _ _, strcmpBytes_eq_zero.1 he⟩
    · obtain ⟨r, hr, hiff⟩ := ih hcs (i + 1)
      refine ⟨r, by simp [he, hr], ?_⟩
      rw [hiff]
      constructor
      · rintro ⟨d, hd, hde⟩
        exact ⟨d, List.mem_cons_of_mem _ hd, hde⟩
      · rintro ⟨d, hd, hde⟩
        rcases List.mem_cons.1 hd with e | e
        · exact absurd (strcmpBytes_eq_zero.2 (e ▸ hde)) he
        · exact ⟨d, e, hde⟩

/-- On present words `lookup` returns, and says whether some node holds the
bytes of the word. -/
theorem WordList.list_lookup_eq (l : WordList) (word : Word) (hw : word.present = true)
    (hp : ∀ c ∈ l.nodes, c.present = true) :
    l.lookup word = .ok (decide (∃ c ∈ l.nodes, c.bytes = word.bytes)) := by
  obtain ⟨r, hr, hiff⟩ := WordList.searchFrom_isSome word hw l.nodes hp 0
  simp only [WordList.lookup, WordList.search, hr]
  congr 1
  by_cases h : ∃ c ∈ l.nodes, c.bytes = word.bytes
  · simp only [h, decide_True]; exact hiff.2 h
  · simp only [h, decide_False]
    cases hs : r.isSome with
    | false => rfl
    | true => exact absurd (hiff.1 hs) h

theorem Word.isLess_false_of_le {a b : Word} (ha : a.present = true) (hb : b.present = true)
    (h : Word.le a b) : b.isLess a = .ok false := by
  rw [Word.isLess_of_present hb ha]
  have := strcmpBytes_swap a.bytes b.bytes
  simp only [Word.le] at h
  congr 1
  simp only [decide_eq_false_iff_not]
  omega

theorem WordList.copyLoop_eq (rest chain : List Word) (n : Nat)
    (hp : ∀ c ∈ rest, c.present = true) :
    WordList.copyLoop rest chain n = .ok { nodes := chain ++ rest, size := n + rest.length } := by
  induction rest generalizing chain n with
  | nil => simp [WordList.copyLoop]
  | cons c cs ih =>
    have hc : c.present = true := hp c (List.mem_cons_self _ _)
    have hcs : ∀ d ∈ cs, d.present = true := fun d hd => hp d (List.mem_cons_of_mem _ hd)
    simp only [WordList.copyLoop, Word.copy_of_present hc, ih _ _ hcs, List.append_assoc,
      List.singleton_append, List.length_cons]
    congr 2
    omega

theorem WordList.copy_eq (self other : WordList) (hp : ∀ c ∈ other.nodes, c.present = true) :
    self.copy other = .ok { nodes := other.nodes, size := other.nodes.length } := by
  cases hn : other.nodes with
  | nil => simp [WordList.copy, WordList.isEmpty, hn]
  | cons c cs =>
    have hc : c.present = true := hp c (by simp [hn])
    have hcs : ∀ d ∈ cs, d.present = true := fun d hd => hp d (by simp [hn, hd])
    simp only [WordList.copy, WordList.isEmpty, hn, List.isEmpty_cons, Bool.false_eq_true,
      if_false, Word.copy_of_present hc, WordList.copyLoop_eq cs [c] 1 hcs, List.singleton_append,
      List.length_cons]
    congr 2
    omega

theorem WordCat.record_wf_iff (c : WordCat) :
    c.wf = true ↔ c.category.present = true ∧ (∀ w ∈ c.wordList.nodes, w.present = true) ∧
      c.wordList.size = c.wordList.nodes.length := by
  simp [WordCat.wf, and_assoc]

theorem Word.assign_of_present (self : Word) {w : Word} (h : w.present = true) :
    self.assign w = .ok w := by
  cases w with
  | mk p n => cases p with
    | none => simp [Word.present] at h
    | some bs => rfl

theorem WordCat.assign_eq (self other : WordCat) (h : other.wf = true) :
    self.assign other = .ok other := by
  obtain ⟨h1, h2, h3⟩ := (WordCat.record_wf_iff other).1 h
  simp only [WordCat.assign, Word.assign_of_present _ h1, WordList.assign,
    WordList.copy_eq _ _ h2, ← h3]

theorem WordCat.getCategoryName_eq (c : WordCat) (h : c.category.present = true) :
    c.getCategoryName = .ok c.category :=
  Word.copy_of_present h

theorem loadSlot_eq (arr : List WordCat) (i : Nat) (c : WordCat) (h : arr[i]? = some c) :
    loadSlot (some arr) i = .ok c := by
  simp [loadSlot, h]

theorem storeSlot_eq (arr : List WordCat) (i : Nat) (c : WordCat) (hi : i < arr.length)
    (hc : c.wf = true) : storeSlot arr i c = .ok (arr.set i c) := by
  have : arr[i]? = some arr[i] := List.getElem?_eq_getElem hi
  simp [storeSlot, this, WordCat.assign_eq _ c hc]

theorem WordCatVec.copyLoop_spec (arr : List WordCat) (nc n : Nat) :
    ∀ (i : Nat) (dst : List WordCat), i + n ≤ arr.length → i + n ≤ nc → dst.length = nc →
      (∀ k c, i ≤ k → k < i + n → arr[k]? = some c → c.wf = true) →
      ∃ out, WordCatVec.copyLoop (some arr) nc n i dst = .ok out ∧ out.length = nc ∧
        ∀ k, out[k]? = if i ≤ k ∧ k < i + n then arr[k]? else dst[k]? := by
  induction n with
  | zero =>
    intro i dst _ _ hd _
    refine ⟨dst, rfl, hd, ?_⟩
    intro k
    have : ¬ (i ≤ k ∧ k < i + 0) := by omega
    rw [if_neg this]
  | succ n ih =>
    intro i dst h1 h2 hd hwf
    have hi : i < arr.length := by omega
    have hget : arr[i]? = some arr[i] := List.getElem?_eq_getElem hi
    have hc : (arr[i]).wf = true := hwf i _ (Nat.le_refl _) (by omega) hget
    obtain ⟨out, ho, hlen, hk⟩ := ih (i + 1) (dst.set i arr[i]) (by omega) (by omega)
      (by simp [hd]) (fun k c hk1 hk2 hkc => hwf k c (by omega) (by omega) hkc)
    refine ⟨out, ?_, hlen, ?_⟩
    · have hlt : i < nc := by omega
      simp only [WordCatVec.copyLoop, hlt, if_true, loadSlot_eq arr i _ hget,
        storeSlot_eq dst i _ (by omega) hc, ho]
    · intro k
      rw [hk k, List.getElem?_set]
      by_cases e : i = k
      · subst e
        have h3 : ¬ (i + 1 ≤ i ∧ i < i + 1 + n) := by omega
        have h4 : (i ≤ i ∧ i < i + (n + 1)) := by omega
        have h5 : i < dst.length := by omega
        simp [h3, h4, h5]
      · by_cases c1 : i + 1 ≤ k ∧ k < i + 1 + n
        · have c2 : i ≤ k ∧ k < i + (n + 1) := by omega
          simp [c1, c2]
        · have c2 : ¬ (i ≤ k ∧ k < i + (n + 1)) := by omega
          simp [c1, c2, e]

theorem WordCatVec.store_wf_iff (s : WordCatVec) :
    s.wf = true ↔ ∃ arr, s.word_category_array = some arr ∧ arr.length = s.capacity ∧
      s.size ≤ s.capacity ∧ ∀ c ∈ arr.take s.size, c.wf = true := by
  cases s with
  | mk a cap sz => cases a with
    | none => simp [WordCatVec.wf]
    | some arr => simp [WordCatVec.wf, and_assoc]

theorem WordCatVec.records_of_some (s : WordCatVec) (arr : List WordCat)
    (h : s.word_category_array = some arr) : s.records = arr.take s.size := by
  simp [WordCatVec.records, h]

theorem wf_of_getElem?_take {arr : List WordCat} {sz : Nat}
    (h : ∀ c ∈ arr.take sz, c.wf = true) {k : Nat} {c : WordCat} (hk : k < sz)
    (hc : arr[k]? = some c) : c.wf = true := by
  apply h c
  rw [List.mem_iff_getElem?]
  exact ⟨k, by rw [List.getElem?_take_of_lt hk, hc]⟩

/-- The reallocation block returns on a well-formed store when the new capacity
holds all records, and keeps them. -/
theorem WordCatVec.reallocate_spec (s : WordCatVec) (arr : List WordCat)
    (ha : s.word_category_array = some arr) (hsz : s.size ≤ arr.length)
    (hw : ∀ c ∈ arr.take s.size, c.wf = true) (nc : Nat) (hnc : s.size ≤ nc) :
    ∃ out, s.reallocate nc = .ok ⟨some out, nc, s.size⟩ ∧ out.length = nc ∧
      out.take s.size = arr.take s.size := by
  obtain ⟨out, ho, hlen, hk⟩ := WordCatVec.copyLoop_spec arr nc s.size 0 (newArray nc)
    (by omega) (by omega) (by simp [newArray])
    (fun k c _ hk2 hkc => wf_of_getElem?_take hw (by omega) hkc)
  refine ⟨out, by simp [WordCatVec.reallocate, ha, ho], hlen, ?_⟩
  apply List.ext_getElem?
  intro k
  rw [List.getElem?_take, List.getElem?_take, hk k]
  by_cases h : k < s.size
  · have h2 : 0 ≤ k ∧ k < 0 + s.size := by omega
    simp [h, h2]
  · simp [h]

theorem WordCatVec.searchLoop_spec (s : WordCatVec) (arr : List WordCat)
    (ha : s.word_category_array = some arr) (category : Word) (hc : category.present = true)
    (n : Nat) :
    ∀ i : Nat, i + n ≤ arr.length →
      (∀ k c, i ≤ k → k < i + n → arr[k]? = some c → c.category.present = true) →
      ∃ r, s.searchLoop category n i = .ok r ∧
        (r.isSome = true ↔
          ∃ k c, i ≤ k ∧ k < i + n ∧ arr[k]? = some c ∧ c.category.bytes = category.bytes) := by
  induction n with
  | zero =>
    intro i _ _
    refine ⟨none, rfl, ?_⟩
    simp only [Option.isSome_none, Bool.false_eq_true, false_iff]
    rintro ⟨k, c, h1, h2, -⟩
    omega
  | succ n ih =>
    intro i h1 hp
    have hi : i < arr.length := by omega
    have hget : arr[i]? = some arr[i] := List.getElem?_eq_getElem hi
    have hpi : (arr[i]).category.present = true := hp i _ (Nat.le_refl _) (by omega) hget
    simp only [WordCatVec.searchLoop, ha, loadSlot_eq arr i _ hget,
      WordCat.getCategoryName_eq _ hpi, Word.eq_of_present hpi hc]
    by_cases he : (arr[i]).category.bytes = category.bytes
    · refine ⟨some i, by simp [he], ?_⟩
      simp only [Option.isSome_some, true_iff]
      exact ⟨i, arr[i], Nat.le_refl _, by omega, hget, he⟩
    · obtain ⟨r, hr, hiff⟩ := ih (i + 1) (by omega)
        (fun k c hk1 hk2 hkc => hp k c (by omega) (by omega) hkc)
      refine ⟨r, by simp [he, hr], ?_⟩
      rw [hiff]
      constructor
      · rintro ⟨k, c, hk1, hk2, hkc, hke⟩
        exact ⟨k, c, by omega, by omega, hkc, hke⟩
      · rintro ⟨k, c, hk1, hk2, hkc, hke⟩
        by_cases e : k = i
        · subst e
          rw [hget] at hkc
          exact absurd ((Option.some.inj hkc) ▸ hke) he
        · exact ⟨k, c, by omega, by omega, hkc, hke⟩

/-- On a well-formed store `lookup` returns, and says whether some record has
the bytes of the given name. -/
theorem WordCatVec.store_lookup_eq (s : WordCatVec) (hs : s.wf = true) (category : Word)
    (hc : category.present = true) :
    s.lookup category =
      .ok (decide (∃ c ∈ s.records, c.category.bytes = category.bytes)) := by
  obtain ⟨arr, ha, hlen, hsz, hw⟩ := (WordCatVec.store_wf_iff s).1 hs
  obtain ⟨r, hr, hiff⟩ := WordCatVec.searchLoop_spec s arr ha category hc s.size 0 (by omega)
    (fun k c _ hk2 hkc =>
      ((WordCat.record_wf_iff c).1 (wf_of_getElem?_take hw (by omega) hkc)).1)
  have hmem : (∃ c ∈ s.records, c.category.bytes = category.bytes) ↔
      ∃ k c, 0 ≤ k ∧ k < 0 + s.size ∧ arr[k]? = some c ∧
        c.category.bytes = category.bytes := by
    rw [WordCatVec.records_of_some s arr ha]
    constructor
    · rintro ⟨c, hcm, hce⟩
      obtain ⟨k, hk⟩ := List.mem_iff_getElem?.1 hcm
      rw [List.getElem?_take] at hk
      by_cases hlt : k < s.size
      · rw [if_pos hlt] at hk
        exact ⟨k, c, Nat.zero_le _, by omega, hk, hce⟩
      · rw [if_neg hlt] at hk
        exact absurd hk (by simp)
    · rintro ⟨k, c, -, hk2, hkc, hce⟩
      refine ⟨c, List.mem_iff_getElem?.2 ⟨k, ?_⟩, hce⟩
      rw [List.getElem?_take_of_lt (by omega), hkc]
  simp only [WordCatVec.lookup, WordCatVec.search, hr]
  congr 1
  by_cases h : ∃ c ∈ s.records, c.category.bytes = category.bytes
  · simp only [h, decide_True]
    exact hiff.2 (hmem.1 h)
  · simp only [h, decide_False]
    cases hsome : r.isSome with
    | false => rfl
    | true => exact absurd (hmem.2 (hiff.1 hsome)) h

theorem take_set_succ {α : Type} (l : List α) (i : Nat) (a : α) (h : i < l.length) :
    (l.set i a).take (i + 1) = l.take i ++ [a] := by
  rw [List.take_succ, List.set_take, List.set_eq_of_length_le (by simp),
    List.getElem?_set_self h]
  rfl

theorem WordCat.copied_of_wf (r : WordCat) (h : r.wf = true) : r.copied = r := by
  obtain ⟨-, -, h3⟩ := (WordCat.record_wf_iff r).1 h
  cases r with
  | mk c l => cases l with
    | mk nodes sz =>
      simp only [] at h3
      simp [WordCat.copied, h3]

theorem WordCat.copied_wf_iff (r : WordCat) :
    r.copied.wf = true ↔
      r.category.present = true ∧ ∀ w ∈ r.wordList.nodes, w.present = true := by
  simp [WordCat.record_wf_iff, WordCat.copied]

theorem WordList.copyLoop_ok_inv (rest chain : List Word) (n : Nat) (l : WordList)
    (h : WordList.copyLoop rest chain n = .ok l) : ∀ c ∈ rest, c.present = true := by
  induction rest generalizing chain n with
  | nil => simp
  | cons c cs ih =>
    cases hc : c.word_ptr with
    | none => simp [WordList.copyLoop, Word.copy, hc] at h
    | some bs =>
      have hcp : c.present = true := by simp [Word.present, hc]
      simp only [WordList.copyLoop, Word.copy_of_present hcp] at h
      intro d hd
      rcases List.mem_cons.1 hd with e | e
      · rw [e]; exact hcp
      · exact ih _ _ h d e

theorem WordList.copy_ok_inv (self other l : WordList) (h : self.copy other = .ok l) :
    ∀ c ∈ other.nodes, c.present = true := by
  cases hn : other.nodes with
  | nil => simp
  | cons c cs =>
    cases hc : c.word_ptr with
    | none => simp [WordList.copy, WordList.isEmpty, hn, Word.copy, hc] at h
    | some bs =>
      have hcp : c.present = true := by simp [Word.present, hc]
      simp only [WordList.copy, WordList.isEmpty, hn, List.isEmpty_cons, Bool.false_eq_true,
        if_false, Word.copy_of_present hcp] at h
      intro d hd
      rcases List.mem_cons.1 hd with e | e
      · rw [e]; exact hcp
      · exact WordList.copyLoop_ok_inv _ _ _ _ h d e

theorem WordCat.assign_eq_copied (self other : WordCat) (h : other.copied.wf = true) :
    self.assign other = .ok other.copied := by
  obtain ⟨h1, h2⟩ := (WordCat.copied_wf_iff other).1 h
  simp only [WordCat.assign, Word.assign_of_present _ h1, WordList.assign,
    WordList.copy_eq _ _ h2, WordCat.copied]

theorem WordCat.assign_ok_inv (self other c : WordCat) (h : self.assign other = .ok c) :
    other.copied.wf = true := by
  rw [WordCat.copied_wf_iff]
  cases hp : other.category.word_ptr with
  | none => simp [WordCat.assign, Word.assign, hp] at h
  | some bs =>
    have hcp : other.category.present = true := by simp [Word.present, hp]
    refine ⟨hcp, ?_⟩
    simp only [WordCat.assign, Word.assign_of_present _ hcp, WordList.assign] at h
    cases hl : self.wordList.copy other.wordList with
    | error e => simp [hl] at h
    | ok l => exact WordList.copy_ok_inv _ _ _ hl

theorem storeSlot_eq_copied (arr : List WordCat) (i : Nat) (c : WordCat) (hi : i < arr.length)
    (hc : c.copied.wf = true) : storeSlot arr i c = .ok (arr.set i c.copied) := by
  have : arr[i]? = some arr[i] := List.getElem?_eq_getElem hi
  simp [storeSlot, this, WordCat.assign_eq_copied _ c hc]

theorem storeSlot_error (arr : List WordCat) (i : Nat) (c : WordCat)
    (hc : ¬ c.copied.wf = true) : ∃ e, storeSlot arr i c = .error e := by
  cases hg : arr[i]? with
  | none => exact ⟨Fault.OutOfBounds, by simp [storeSlot, hg]⟩
  | some slot =>
    cases ha : slot.assign c with
    | error e => exact ⟨e, by simp [storeSlot, hg, ha]⟩
    | ok c' => exact absurd (WordCat.assign_ok_inv _ _ _ ha) hc

/-- The path of `addCategory` up to the final store, for a name that is absent:
the array the record is stored into holds the old records and has room. -/
theorem WordCatVec.addCategory_unfold (s : WordCatVec) (hs : s.wf = true)
    (hcap : 1 ≤ s.capacity) (r : WordCat) (hrp : r.category.present = true)
    (habs : ¬ ∃ c ∈ s.records, c.category.bytes = r.category.bytes) :
    ∃ arr1 cap1, arr1.length = cap1 ∧ s.size < cap1 ∧ arr1.take s.size = s.records ∧
      cap1 = (if s.size = s.capacity then 2 * s.capacity else s.capacity) ∧
      s.addCategory r =
        match storeSlot arr1 s.size r with
        | .error e => (.error e, ⟨some arr1, cap1, s.size⟩)
        | .ok arr2 => (.ok true, ⟨some arr2, cap1, s.size + 1⟩) := by
  obtain ⟨arr, ha, hlen, hsz, hw⟩ := (WordCatVec.store_wf_iff s).1 hs
  have hrec : s.records = arr.take s.size := WordCatVec.records_of_some s arr ha
  simp only [WordCatVec.addCategory, WordCat.getCategoryName_eq r hrp,
    WordCatVec.store_lookup_eq s hs _ hrp, habs, decide_False]
  by_cases hfull : s.size = s.capacity
  · obtain ⟨out, ho, holen, hotake⟩ := WordCatVec.reallocate_spec s arr ha (by omega) hw
      (s.capacity * 2) (by omega)
    have hlt : s.size < s.capacity * 2 := by omega
    refine ⟨out, s.capacity * 2, holen, hlt, by rw [hotake, hrec], by simp [hfull]; omega, ?_⟩
    simp only [hfull, if_true] at ho ⊢
    rw [hfull] at hlt
    simp only [ho, hlt, if_true]
  · have hlt : s.size < s.capacity := by omega
    refine ⟨arr, s.capacity, hlen, hlt, hrec.symm, by simp [hfull], ?_⟩
    simp only [hfull, if_false, hlt, if_true, ha]
    cases hst : storeSlot arr s.size r with
    | error e => simp [← ha]
    | ok arr2 => rfl

/-- What `addCategory` does with a record whose name is absent. -/
theorem WordCatVec.addCategory_spec (s : WordCatVec) (hs : s.wf = true)
    (hcap : 1 ≤ s.capacity) (r : WordCat) (hr : r.copied.wf = true)
    (habs : ¬ ∃ c ∈ s.records, c.category.bytes = r.category.bytes) :
    ∃ s', s.addCategory r = (.ok true, s') ∧ s'.wf = true ∧
      s'.records = s.records ++ [r.copied] ∧ s'.size = s.size + 1 ∧
      s'.capacity = if s.size = s.capacity then 2 * s.capacity else s.capacity := by
  have hrp : r.category.present = true := ((WordCat.copied_wf_iff r).1 hr).1
  obtain ⟨arr1, cap1, hlen, hlt, htake, hcap1, hadd⟩ :=
    WordCatVec.addCategory_unfold s hs hcap r hrp habs
  obtain ⟨arr, ha, -, -, hw⟩ := (WordCatVec.store_wf_iff s).1 hs
  have hrec : s.records = arr.take s.size := WordCatVec.records_of_some s arr ha
  rw [storeSlot_eq_copied arr1 s.size r (by omega) hr] at hadd
  refine ⟨_, hadd, ?_, ?_, rfl, hcap1⟩
  · rw [WordCatVec.store_wf_iff]
    refine ⟨_, rfl, by simp [hlen], by simp only []; omega, ?_⟩
    intro c hc
    simp only [] at hc
    rw [take_set_succ arr1 s.size _ (by omega), htake, hrec] at hc
    rcases List.mem_append.1 hc with h | h
    · exact hw c h
    · rw [List.mem_singleton.1 h]; exact hr
  · rw [WordCatVec.records_of_some _ _ rfl]
    simp only []
    rw [take_set_succ arr1 s.size _ (by omega), htake]

/-- Every way `addCategory` can return on a well-formed store. -/
theorem WordCatVec.addCategory_step (s : WordCatVec) (hs : s.wf = true)
    (hcap : 1 ≤ s.capacity) (r : WordCat) (b : Bool) (s' : WordCatVec)
    (h : s.addCategory r = (.ok b, s')) :
    (b = false ∧ s' = s ∧ ∃ c ∈ s.records, c.category.bytes = r.category.bytes) ∨
    (b = true ∧ r.copied.wf = true ∧
      (¬ ∃ c ∈ s.records, c.category.bytes = r.category.bytes) ∧ s'.wf = true ∧
      s'.records = s.records ++ [r.copied] ∧ s'.size = s.size + 1 ∧
      s'.capacity = if s.size = s.capacity then 2 * s.capacity else s.capacity) := by
  cases hp : r.category.word_ptr with
  | none => simp [WordCatVec.addCategory, WordCat.getCategoryName, Word.copy, hp] at h
  | some bs =>
    have hrp : r.category.present = true := by simp [Word.present, hp]
    by_cases hdup : ∃ c ∈ s.records, c.category.bytes = r.category.bytes
    · left
      simp only [WordCatVec.addCategory, WordCat.getCategoryName_eq r hrp,
        WordCatVec.store_lookup_eq s hs _ hrp, hdup, decide_True, Prod.mk.injEq,
        Except.ok.injEq] at h
      exact ⟨h.1.symm, h.2.symm, hdup⟩
    · right
      by_cases hr : r.copied.wf = true
      · obtain ⟨s2, h1, h2, h3, h4, h5⟩ := WordCatVec.addCategory_spec s hs hcap r hr hdup
        rw [h1] at h
        simp only [Prod.mk.injEq, Except.ok.injEq] at h
        rw [← h.1, ← h.2]
        exact ⟨rfl, hr, hdup, h2, h3, h4, h5⟩
      · obtain ⟨arr1, cap1, -, -, -, -, hadd⟩ :=
          WordCatVec.addCategory_unfold s hs hcap r hrp hdup
        obtain ⟨e, he⟩ := storeSlot_error arr1 s.size r hr
        rw [he] at hadd
        rw [hadd] at h
        simp at h

theorem WordCatVec.shiftLoop_spec (n : Nat) :
    ∀ (j : Nat) (arr : List WordCat), j + n < arr.length →
      (∀ k c, j + 1 ≤ k → k ≤ j + n → arr[k]? = some c → c.wf = true) →
      ∃ out, WordCatVec.shiftLoop n j arr = .ok out ∧ out.length = arr.length ∧
        ∀ k, out[k]? = if j ≤ k ∧ k < j + n then arr[k + 1]? else arr[k]? := by
  induction n with
  | zero =>
    intro j arr _ _
    refine ⟨arr, rfl, rfl, ?_⟩
    intro k
    have : ¬ (j ≤ k ∧ k < j + 0) := by omega
    rw [if_neg this]
  | succ n ih =>
    intro j arr h1 hwf
    have hj1 : j + 1 < arr.length := by omega
    have hget : arr[j + 1]? = some arr[j + 1] := List.getElem?_eq_getElem hj1
    have hc : (arr[j + 1]).wf = true := hwf (j + 1) _ (Nat.le_refl _) (by omega) hget
    obtain ⟨out, ho, hlen, hk⟩ := ih (j + 1) (arr.set j arr[j + 1]) (by simp; omega)
      (fun k c hk1 hk2 hkc => hwf k c (by omega) (by omega)
        (by rw [List.getElem?_set] at hkc
            have hne : j ≠ k := by omega
            simpa [hne] using hkc))
    refine ⟨out, ?_, by simpa using hlen, ?_⟩
    · simp only [WordCatVec.shiftLoop, hget, storeSlot_eq arr j _ (by omega) hc, ho]
    · intro k
      rw [hk k]
      by_cases c1 : j + 1 ≤ k ∧ k < j + 1 + n
      · have c2 : j ≤ k ∧ k < j + (n + 1) := by omega
        have e2 : j ≠ k + 1 := by omega
        simp [c1, c2, e2, List.getElem?_set]
      · by_cases e : j = k
        · subst e
          have h4 : (j ≤ j ∧ j < j + (n + 1)) := by omega
          have h5 : j < arr.length := by omega
          simp [c1, h4, h5, List.getElem?_set]
        · have c2 : ¬ (j ≤ k ∧ k < j + (n + 1)) := by omega
          simp [c1, c2, e, List.getElem?_set]

theorem take_shift_eq_eraseIdx {α : Type} (arr out : List α) (sz i : Nat) (hi : i < sz)
    (hk : ∀ k, out[k]? = if i ≤ k ∧ k < i + (sz - 1 - i) then arr[k + 1]? else arr[k]?) :
    out.take (sz - 1) = (arr.take sz).eraseIdx i := by
  apply List.ext_getElem?
  intro k
  rw [List.getElem?_take, List.getElem?_eraseIdx, List.getElem?_take, List.getElem?_take, hk k]
  by_cases h1 : k < sz - 1
  · by_cases h2 : k < i
    · have h3 : ¬ (i ≤ k ∧ k < i + (sz - 1 - i)) := by omega
      have h4 : k < sz := by omega
      simp [h1, h2, h3, h4]
    · have h3 : (i ≤ k ∧ k < i + (sz - 1 - i)) := by omega
      have h4 : k + 1 < sz := by omega
      simp [h1, h2, h3, h4]
  · by_cases h2 : k < i
    · omega
    · have h4 : ¬ k + 1 < sz := by omega
      simp [h1, h2, h4]

/-- What the removal of slot `i` does on a well-formed store. -/
theorem WordCatVec.removeAt_spec (s : WordCatVec) (hs : s.wf = true) (i : Nat)
    (hi : i < s.size) :
    ∃ s', s.removeAt i = (.ok true, s') ∧ s'.wf = true ∧
      s'.records = s.records.eraseIdx i ∧ s'.size = s.size - 1 ∧
      s'.capacity = if s.size - 1 < s.capacity / 2 then max (s.capacity / 2) 1
        else s.capacity := by
  obtain ⟨arr, ha, hlen, hsz, hw⟩ := (WordCatVec.store_wf_iff s).1 hs
  have hrec : s.records = arr.take s.size := WordCatVec.records_of_some s arr ha
  obtain ⟨out, ho, holen, hk⟩ := WordCatVec.shiftLoop_spec (s.size - 1 - i) i arr (by omega)
    (fun k c _ hk2 hkc => wf_of_getElem?_take hw (by omega) hkc)
  have htake : out.take (s.size - 1) = (arr.take s.size).eraseIdx i :=
    take_shift_eq_eraseIdx arr out s.size i hi hk
  have hw1 : ∀ c ∈ out.take (s.size - 1), c.wf = true := by
    intro c hc
    rw [htake] at hc
    exact hw c ((List.eraseIdx_sublist _ _).subset hc)
  simp only [WordCatVec.removeAt, ha, ho]
  by_cases hshrink : s.size - 1 < s.capacity / 2
  · obtain ⟨out2, ho2, ho2len, ho2take⟩ := WordCatVec.reallocate_spec
      ⟨some out, s.capacity, s.size - 1⟩ out rfl (by simp only []; omega) hw1
      (if s.capacity / 2 > 1 then s.capacity / 2 else 1)
      (by simp only []; split_ifs <;> omega)
    simp only [hshrink, if_true, ho2]
    refine ⟨_, rfl, ?_, ?_, rfl, ?_⟩
    · rw [WordCatVec.store_wf_iff]
      refine ⟨_, rfl, ho2len, ?_, ?_⟩
      · simp only []; split_ifs <;> omega
      · simp only [] at ho2take ⊢
        rw [ho2take]; exact hw1
    · rw [WordCatVec.records_of_some _ _ rfl, hrec]
      simp only [] at ho2take ⊢
      rw [ho2take, htake]
    · simp only []
      split_ifs <;> omega
  · simp only [hshrink, if_false]
    refine ⟨_, rfl, ?_, ?_, rfl, rfl⟩
    · rw [WordCatVec.store_wf_iff]
      exact ⟨_, rfl, by simp only []; omega, by simp only []; omega, hw1⟩
    · rw [WordCatVec.records_of_some _ _ rfl, hrec]
      exact htake

theorem WordCatVec.removeLoop_none (s : WordCatVec) (arr : List WordCat)
    (ha : s.word_category_array = some arr) (category : Word) (hc : category.present = true)
    (n : Nat) :
    ∀ i : Nat, i + n ≤ arr.length →
      (∀ k c, i ≤ k → k < i + n → arr[k]? = some c → c.category.present = true) →
      (∀ k c, i ≤ k → k < i + n → arr[k]? = some c → c.category.bytes ≠ category.bytes) →
      s.removeLoop category n i = (.ok false, s) := by
  induction n with
  | zero => intro i _ _ _; rfl
  | succ n ih =>
    intro i h1 hp hne
    have hi : i < arr.length := by omega
    have hget : arr[i]? = some arr[i] := List.getElem?_eq_getElem hi
    have hpi : (arr[i]).category.present = true := hp i _ (Nat.le_refl _) (by omega) hget
    have he : (arr[i]).category.bytes ≠ category.bytes :=
      hne i _ (Nat.le_refl _) (by omega) hget
    simp only [WordCatVec.removeLoop, ha, loadSlot_eq arr i _ hget,
      WordCat.getCategoryName_eq _ hpi, Word.eq_of_present hpi hc, he, decide_False]
    exact ih (i + 1) (by omega) (fun k c hk1 hk2 hkc => hp k c (by omega) (by omega) hkc)
      (fun k c hk1 hk2 hkc => hne k c (by omega) (by omega) hkc)

theorem WordCatVec.removeLoop_found (s : WordCatVec) (arr : List WordCat)
    (ha : s.word_category_array = some arr) (category : Word) (hc : category.present = true)
    (n : Nat) :
    ∀ i : Nat, i + n ≤ arr.length →
      (∀ k c, i ≤ k → k < i + n → arr[k]? = some c → c.category.present = true) →
      ∀ k x, i ≤ k → k < i + n → arr[k]? = some x → x.category.bytes = category.bytes →
        (∀ j c, i ≤ j → j < k → arr[j]? = some c → c.category.bytes ≠ category.bytes) →
        s.removeLoop category n i = s.removeAt k := by
  induction n with
  | zero => intro i _ _ k x h1 h2; omega
  | succ n ih =>
    intro i h1 hp k x hk1 hk2 hkx hxe hne
    have hi : i < arr.length := by omega
    have hget : arr[i]? = some arr[i] := List.getElem?_eq_getElem hi
    have hpi : (arr[i]).category.present = true := hp i _ (Nat.le_refl _) (by omega) hget
    simp only [WordCatVec.removeLoop, ha, loadSlot_eq arr i _ hget,
      WordCat.getCategoryName_eq _ hpi, Word.eq_of_present hpi hc]
    by_cases e : k = i
    · subst e
      rw [hget] at hkx
      have hxe2 : (arr[k]).category.bytes = category.bytes := (Option.some.inj hkx) ▸ hxe
      simp only [hxe2, decide_True]
    · have he : (arr[i]).category.bytes ≠ category.bytes :=
        hne i _ (Nat.le_refl _) (by omega) hget
      simp only [he, decide_False]
      exact ih (i + 1) (by omega) (fun k c hk1 hk2 hkc => hp k c (by omega) (by omega) hkc)
        k x (by omega) (by omega) hkx hxe
        (fun j c hj1 hj2 hjc => hne j c (by omega) hj2 hjc)

theorem exists_first_index {α : Type} (p : α → Bool) (l : List α)
    (h : ∃ x ∈ l, p x = true) :
    ∃ k x, l[k]? = some x ∧ p x = true ∧ (∀ j y, j < k → l[j]? = some y → p y = false) ∧
      l.eraseP p = l.eraseIdx k := by
  induction l with
  | nil => simp at h
  | cons a as ih =>
    by_cases hpa : p a = true
    · refine ⟨0, a, by simp, hpa, ?_, ?_⟩
      · intro j y hj; omega
      · simp [List.eraseP_cons_of_pos hpa]
    · have hex : ∃ x ∈ as, p x = true := by
        obtain ⟨x, hx, hpx⟩ := h
        rcases List.mem_cons.1 hx with e | e
        · rw [e] at hpx; exact absurd hpx hpa
        · exact ⟨x, e, hpx⟩
      obtain ⟨k, x, hkx, hpx, hfirst, her⟩ := ih hex
      refine ⟨k + 1, x, by simpa using hkx, hpx, ?_, ?_⟩
      · intro j y hj hjy
        cases j with
        | zero =>
          simp at hjy
          rw [← hjy]; simpa using hpa
        | succ j => exact hfirst j y (by omega) (by simpa using hjy)
      · rw [List.eraseP_cons_of_neg hpa, her]; rfl

/-- What `removeCategory` does with a name some record has. -/
theorem WordCatVec.removeCategory_spec (s : WordCatVec) (hs : s.wf = true) (category : Word)
    (hc : category.present = true)
    (hex : ∃ c ∈ s.records, c.category.bytes = category.bytes) :
    ∃ s', s.removeCategory category = (.ok true, s') ∧ s'.wf = true ∧
      s'.records = s.records.eraseP (fun c => decide (c.category.bytes = category.bytes)) ∧
      s'.size = s.size - 1 ∧ 1 ≤ s.size ∧
      s'.capacity = if s.size - 1 < s.capacity / 2 then max (s.capacity / 2) 1
        else s.capacity := by
  obtain ⟨arr, ha, hlen, hsz, hw⟩ := (WordCatVec.store_wf_iff s).1 hs
  have hrec : s.records = arr.take s.size := WordCatVec.records_of_some s arr ha
  obtain ⟨k, x, hkx, hpx, hfirst, her⟩ := exists_first_index
    (fun c => decide (c.category.bytes = category.bytes)) s.records
    (by obtain ⟨c, hcm, hce⟩ := hex; exact ⟨c, hcm, by simpa using hce⟩)
  have hk : k < s.size := by
    rw [hrec, List.getElem?_take] at hkx
    by_contra hge
    rw [if_neg hge] at hkx
    exact absurd hkx (by simp)
  have hkx2 : arr[k]? = some x := by
    rw [hrec, List.getElem?_take_of_lt hk] at hkx; exact hkx
  have hloop : s.removeCategory category = s.removeAt k := by
    refine WordCatVec.removeLoop_found s arr ha category hc s.size 0 (by omega)
      (fun j c _ hj2 hjc => ((WordCat.record_wf_iff c).1 (wf_of_getElem?_take hw (by omega) hjc)).1)
      k x (Nat.zero_le _) (by omega) hkx2 (by simpa using hpx) ?_
    intro j c _ hj2 hjc
    have := hfirst j c hj2 (by rw [hrec, List.getElem?_take_of_lt (by omega)]; exact hjc)
    simpa using this
  obtain ⟨s', h1, h2, h3, h4, h5⟩ := WordCatVec.removeAt_spec s hs k hk
  exact ⟨s', by rw [hloop, h1], h2, by rw [h3, her], h4, by omega, h5⟩

/-- What `removeCategory` does with a name no record has. -/
theorem WordCatVec.removeCategory_absent (s : WordCatVec) (hs : s.wf = true) (category : Word)
    (hc : category.present = true)
    (hno : ¬ ∃ c ∈ s.records, c.category.bytes = category.bytes) :
    s.removeCategory category = (.ok false, s) := by
  obtain ⟨arr, ha, hlen, hsz, hw⟩ := (WordCatVec.store_wf_iff s).1 hs
  have hrec : s.records = arr.take s.size := WordCatVec.records_of_some s arr ha
  refine WordCatVec.removeLoop_none s arr ha category hc s.size 0 (by omega)
    (fun j c _ hj2 hjc => ((WordCat.record_wf_iff c).1 (wf_of_getElem?_take hw (by omega) hjc)).1) ?_
  intro k c _ hk2 hkc he
  apply hno
  refine ⟨c, ?_, he⟩
  rw [hrec, List.mem_iff_getElem?]
  exact ⟨k, by rw [List.getElem?_take_of_lt (by omega), hkc]⟩

/-- Every way `removeCategory` can return on a well-formed store. -/
theorem WordCatVec.removeCategory_step (s : WordCatVec) (hs : s.wf = true) (n : Word)
    (b : Bool) (s' : WordCatVec) (h : s.removeCategory n = (.ok b, s')) :
    (b = false ∧ s' = s ∧ ¬ ∃ c ∈ s.records, c.category.bytes = n.bytes) ∨
    (b = true ∧ (∃ c ∈ s.records, c.category.bytes = n.bytes) ∧ s'.wf = true ∧
      s'.records = s.records.eraseP (fun c => decide (c.category.bytes = n.bytes)) ∧
      s'.size = s.size - 1 ∧ 1 ≤ s.size ∧
      s'.capacity = if s.size - 1 < s.capacity / 2 then max (s.capacity / 2) 1
        else s.capacity) := by
  obtain ⟨arr, ha, hlen, hsz, hw⟩ := (WordCatVec.store_wf_iff s).1 hs
  cases hp : n.word_ptr with
  | some bs =>
    have hnp : n.present = true := by simp [Word.present, hp]
    by_cases hex : ∃ c ∈ s.records, c.category.bytes = n.bytes
    · right
      obtain ⟨s2, h1, h2, h3, h4, h5, h6⟩ := WordCatVec.removeCategory_spec s hs n hnp hex
      rw [h1] at h
      simp only [Prod.mk.injEq, Except.ok.injEq] at h
      rw [← h.1, ← h.2]
      exact ⟨rfl, hex, h2, h3, h4, h5, h6⟩
    · left
      rw [WordCatVec.removeCategory_absent s hs n hnp hex] at h
      simp only [Prod.mk.injEq, Except.ok.injEq] at h
      exact ⟨h.1.symm, h.2.symm, hex⟩
  | none =>
    cases hz : s.size with
    | zero =>
      left
      simp only [WordCatVec.removeCategory, hz, WordCatVec.removeLoop, Prod.mk.injEq,
        Except.ok.injEq] at h
      refine ⟨h.1.symm, h.2.symm, ?_⟩
      simp [WordCatVec.records, hz]
    | succ k =>
      have h0 : 0 < arr.length := by omega
      have hget : arr[0]? = some arr[0] := List.getElem?_eq_getElem h0
      have hpi : (arr[0]).category.present = true :=
        ((WordCat.record_wf_iff _).1 (wf_of_getElem?_take hw (by omega) hget)).1
      obtain ⟨bs, hbs⟩ : ∃ bs, (arr[0]).category.word_ptr = some bs := by
        cases hq : (arr[0]).category.word_ptr with
        | none => simp [Word.present, hq] at hpi
        | some bs => exact ⟨bs, rfl⟩
      simp [WordCatVec.removeCategory, hz, WordCatVec.removeLoop, ha, loadSlot_eq arr 0 _ hget,
        WordCat.getCategoryName_eq _ hpi, Word.eq, strcmp, hp, hbs] at h

theorem nodup_map_append_singleton {α β : Type} (f : α → β) (l : List α) (a : α)
    (hl : (l.map f).Nodup) (ha : ¬ ∃ c ∈ l, f c = f a) : ((l ++ [a]).map f).Nodup := by
  rw [List.map_append, List.nodup_append]
  refine ⟨hl, by simp, ?_⟩
  intro x hx hx2
  simp only [List.map_cons, List.map_nil, List.mem_singleton] at hx2
  obtain ⟨c, hc, hce⟩ := List.mem_map.1 hx
  exact ha ⟨c, hc, by rw [hce, hx2]⟩

theorem not_mem_eraseP_of_nodup {α β : Type} [DecidableEq β] (f : α → β) (v : β)
    (l : List α) (hl : (l.map f).Nodup) :
    ¬ ∃ c ∈ l.eraseP (fun c => decide (f c = v)), f c = v := by
  induction l with
  | nil => simp
  | cons a as ih =>
    rw [List.map_cons, List.nodup_cons] at hl
    by_cases ha : f a = v
    · rw [List.eraseP_cons_of_pos (by simpa using ha)]
      rintro ⟨c, hc, hce⟩
      exact hl.1 (List.mem_map.2 ⟨c, hc, by rw [hce, ha]⟩)
    · rw [List.eraseP_cons_of_neg (by simpa using ha)]
      rintro ⟨c, hc, hce⟩
      rcases List.mem_cons.1 hc with e | e
      · exact ha (e ▸ hce)
      · exact ih hl.2 ⟨c, e, hce⟩

theorem WordCatVec.wf_new : WordCatVec.new.wf = true := by decide

theorem WordCatVec.records_length (s : WordCatVec) (hs : s.wf = true) :
    s.records.length = s.size := by
  obtain ⟨arr, ha, hlen, hsz, -⟩ := (WordCatVec.store_wf_iff s).1 hs
  rw [WordCatVec.records_of_some s arr ha, List.length_take]
  omega

/-- The invariant of the reachable stores: well-formed, capacity at least 1,
and no two records with the same name. -/
theorem WordCatVec.Reachable.inv {s : WordCatVec} (h : WordCatVec.Reachable s) :
    s.wf = true ∧ 1 ≤ s.capacity ∧ (s.records.map (fun c => c.category.bytes)).Nodup := by
  induction h with
  | new => exact ⟨by decide, by decide, by decide⟩
  | @addCategory s s' r b _ hadd ih =>
    obtain ⟨hwf, hcap, hnd⟩ := ih
    rcases WordCatVec.addCategory_step s hwf hcap r b s' hadd with
      ⟨-, h2, -⟩ | ⟨-, -, habs, h4, h5, -, h7⟩
    · rw [h2]; exact ⟨hwf, hcap, hnd⟩
    · refine ⟨h4, ?_, ?_⟩
      · rw [h7]; split_ifs <;> omega
      · rw [h5]
        exact nodup_map_append_singleton _ _ _ hnd habs
  | @removeCategory s s' n b _ hrem ih =>
    obtain ⟨hwf, hcap, hnd⟩ := ih
    rcases WordCatVec.removeCategory_step s hwf n b s' hrem with
      ⟨-, h2, -⟩ | ⟨-, -, h3, h4, -, -, h7⟩
    · rw [h2]; exact ⟨hwf, hcap, hnd⟩
    · refine ⟨h3, ?_, ?_⟩
      · rw [h7]; split_ifs <;> omega
      · rw [h4]
        exact hnd.sublist ((List.eraseP_sublist _).map _)
  | clearCategories _ _ =>
    exact ⟨WordCatVec.wf_new, Nat.le_refl 1, by simp [WordCatVec.clearCategories, WordCatVec.records]⟩

theorem WordCatVec.addAll_spec (rs : List WordCat) :
    ∀ (s : WordCatVec), s.wf = true → (∀ r ∈ rs, r.wf = true) →
      ((s.records ++ rs).map (fun c => c.category.bytes)).Nodup →
      ∀ e, s.capacity = 2 ^ e → (e = 0 ∨ 2 ^ (e - 1) < s.size) →
      ∃ s' e', s.addAll rs = some s' ∧ s'.wf = true ∧ s'.records = s.records ++ rs ∧
        s'.size = s.size + rs.length ∧ s'.capacity = 2 ^ e' ∧
        (e' = 0 ∨ 2 ^ (e' - 1) < s'.size) := by
  induction rs with
  | nil =>
    intro s hs _ _ e he hmin
    exact ⟨s, e, rfl, hs, by simp, by simp, he, hmin⟩
  | cons r rs ih =>
    intro s hs hwf hnd e he hmin
    have hr : r.wf = true := hwf r (List.mem_cons_self _ _)
    have hcap : 1 ≤ s.capacity := by rw [he]; exact Nat.pow_pos (by decide)
    have habs : ¬ ∃ c ∈ s.records, c.category.bytes = r.category.bytes := by
      rintro ⟨c, hc, hce⟩
      rw [List.map_append, List.nodup_append] at hnd
      exact hnd.2.2 (List.mem_map.2 ⟨c, hc, hce⟩) (List.mem_map.2 ⟨r, List.mem_cons_self _ _, rfl⟩)
    have hcop : r.copied = r := WordCat.copied_of_wf r hr
    obtain ⟨s1, h1, h2, h3, h4, h5⟩ :=
      WordCatVec.addCategory_spec s hs hcap r (by rw [hcop]; exact hr) habs
    rw [hcop] at h3
    have hsz : s.size ≤ s.capacity := by
      obtain ⟨arr, -, -, hle, -⟩ := (WordCatVec.store_wf_iff s).1 hs
      exact hle
    have hinv : ∃ e1, s1.capacity = 2 ^ e1 ∧ (e1 = 0 ∨ 2 ^ (e1 - 1) < s1.size) := by
      by_cases hfull : s.size = s.capacity
      · refine ⟨e + 1, ?_, Or.inr ?_⟩
        · rw [h5, if_pos hfull, he, Nat.pow_succ]; omega
        · rw [h4, Nat.add_sub_cancel, ← he, ← hfull]; omega
      · refine ⟨e, ?_, ?_⟩
        · rw [h5, if_neg hfull, he]
        · rcases hmin with h | h
          · exact Or.inl h
          · exact Or.inr (by rw [h4]; omega)
    obtain ⟨e1, he1, hmin1⟩ := hinv
    obtain ⟨s', e', g1, g2, g3, g4, g5, g6⟩ := ih s1 h2
      (fun x hx => hwf x (List.mem_cons_of_mem _ hx))
      (by rw [h3, List.append_assoc]; exact hnd) e1 he1 hmin1
    refine ⟨s', e', ?_, g2, ?_, ?_, g5, g6⟩
    · simp only [WordCatVec.addAll, h1, g1]
    · rw [g3, h3, List.append_assoc]; rfl
    · rw [g4, h4, List.length_cons]; omega

theorem WordList.insertSorted_returns (l : WordList) (word : Word) (hw : word.present = true)
    (hp : ∀ c ∈ l.nodes, c.present = true) : ∃ l', l.insertSorted word = .ok l' := by
  cases hn : l.nodes with
  | nil => exact ⟨_, WordList.insertSorted_nil l word hw hn⟩
  | cons h rest =>
    have hh : h.present = true := hp h (by simp [hn])
    by_cases hlt : strcmpBytes word.bytes h.bytes < 0
    · exact ⟨_, WordList.insertSorted_front l word hw h rest hn hh hlt⟩
    · obtain ⟨b, hb, -⟩ := WordList.back_cons l h rest hn
      have hbp : b.present = true := hp b (List.mem_of_getLast?_eq_some hb)
      by_cases hbl : strcmpBytes b.bytes word.bytes < 0
      · exact ⟨_, WordList.insertSorted_back l word hw h rest hn hh hlt b hb hbp hbl⟩
      · exact ⟨_, WordList.insertSorted_middle l word hw h rest hn hp hlt b hb hbl⟩

/-- C1: every finite sequence of words (each built from text, so holding a
buffer) inserted with `insertSorted` into an initially empty list returns, and
leaves a list that is non-decreasing under `isLess`: no element is less than
its predecessor, nor than any element before it.  Inserting pear, apple, mango
yields apple, mango, pear. -/
theorem C1_insertSorted_nondecreasing (ws : List Word) (hws : ∀ w ∈ ws, w.present = true) :
    (∃ l, List.foldlM WordList.insertSorted WordList.empty ws = .ok l ∧
      l.nodes.Chain' (fun a b => b.isLess a = .ok false) ∧
      l.nodes.Pairwise (fun a b => b.isLess a = .ok false) ∧
      l.nodes.length = ws.length ∧ l.size = ws.length) ∧
    List.foldlM WordList.insertSorted WordList.empty
      [Word.ofCStr (ascii "pear"), Word.ofCStr (ascii "apple"), Word.ofCStr (ascii "mango")] =
      .ok { nodes := [Word.ofCStr (ascii "apple"), Word.ofCStr (ascii "mango"),
              Word.ofCStr (ascii "pear")], size := 3 } := by
  refine ⟨?_, by decide⟩
  obtain ⟨l, hl, hp, hs, hlen, hsz⟩ :=
    WordList.foldlM_insertSorted_sorted ws hws WordList.empty (by simp [WordList.empty])
      (by simp [WordList.empty])
  have hpw : l.nodes.Pairwise (fun a b => b.isLess a = .ok false) := by
    refine List.Pairwise.imp_of_mem ?_ hs
    intro a b ha hb hab
    exact Word.isLess_false_of_le (hp a ha) (hp b hb) hab
  refine ⟨l, hl, List.Pairwise.chain' hpw, hpw, ?_, ?_⟩
  · simpa [WordList.empty] using hlen
  · simpa [WordList.empty] using hsz

theorem C1_insertSorted_nondecreasing_witness :
    (∃ l, List.foldlM WordList.insertSorted WordList.empty
        [Word.ofCStr [98], Word.ofCStr [97], Word.ofCStr [98, 97], Word.ofCStr [97]] = .ok l ∧
      l.nodes.Chain' (fun a b => b.isLess a = .ok false) ∧
      l.nodes.Pairwise (fun a b => b.isLess a = .ok false) ∧
      l.nodes.length = 4 ∧ l.size = 4) ∧
    List.foldlM WordList.insertSorted WordList.empty
      [Word.ofCStr (ascii "pear"), Word.ofCStr (ascii "apple"), Word.ofCStr (ascii "mango")] =
      .ok { nodes := [Word.ofCStr (ascii "apple"), Word.ofCStr (ascii "mango"),
              Word.ofCStr (ascii "pear")], size := 3 } :=
  C1_insertSorted_nondecreasing
    [Word.ofCStr [98], Word.ofCStr [97], Word.ofCStr [98, 97], Word.ofCStr [97]] (by decide)

/-- C2: for every store `s` and record `r` such that `s` already holds a record
whose name has exactly the bytes of the name of `r`, `addCategory(r)` returns
false and leaves the store as it was: same records in the same order, same
size, same capacity. -/
theorem C2_addCategory_existing_name (s : WordCatVec) (hs : s.wf = true) (r : WordCat)
    (hr : r.category.present = true)
    (hdup : ∃ c ∈ s.records, c.category.bytes = r.category.bytes) :
    (s.addCategory r).1 = .ok false ∧ (s.addCategory r).2 = s ∧
      (s.addCategory r).2.records = s.records ∧ (s.addCategory r).2.size = s.size ∧
      (s.addCategory r).2.capacity = s.capacity := by
  have h : s.addCategory r = (.ok false, s) := by
    simp only [WordCatVec.addCategory, WordCat.getCategoryName_eq r hr,
      WordCatVec.store_lookup_eq s hs _ hr, hdup, decide_True]
  rw [h]
  exact ⟨rfl, rfl, rfl, rfl, rfl⟩

theorem C2_addCategory_existing_name_witness :
    ((sampleStore ["a", "b"]).addCategory (sampleCat "b" ["x"])).1 = .ok false ∧
      ((sampleStore ["a", "b"]).addCategory (sampleCat "b" ["x"])).2 = sampleStore ["a", "b"] ∧
      ((sampleStore ["a", "b"]).addCategory (sampleCat "b" ["x"])).2.records =
        (sampleStore ["a", "b"]).records ∧
      ((sampleStore ["a", "b"]).addCategory (sampleCat "b" ["x"])).2.size =
        (sampleStore ["a", "b"]).size ∧
      ((sampleStore ["a", "b"]).addCategory (sampleCat "b" ["x"])).2.capacity =
        (sampleStore ["a", "b"]).capacity :=
  C2_addCategory_existing_name (sampleStore ["a", "b"]) (by decide) (sampleCat "b" ["x"])
    (by decide) (by decide)

/-- C3: for every store `s` with `1 <= capacity` and `size <= capacity` (the
latter is part of `wf`) and every record `r` whose name is absent from `s`, `addCategory(r)` returns true,
the records become the old records in their old order followed by `r`, `size`
grows by exactly one, and `capacity` becomes `2 * capacity` if
`size == capacity` held before the call and is unchanged otherwise. -/
theorem C3_addCategory_new_name (s : WordCatVec) (hs : s.wf = true) (hcap : 1 ≤ s.capacity)
    (r : WordCat) (hr : r.wf = true)
    (habs : ¬ ∃ c ∈ s.records, c.category.bytes = r.category.bytes) :
    (s.addCategory r).1 = .ok true ∧
      (s.addCategory r).2.records = s.records ++ [r] ∧
      (s.addCategory r).2.size = s.size + 1 ∧
      (s.addCategory r).2.capacity =
        if s.size = s.capacity then 2 * s.capacity else s.capacity := by
  have hc : r.copied = r := WordCat.copied_of_wf r hr
  obtain ⟨s', h1, -, h3, h4, h5⟩ :=
    WordCatVec.addCategory_spec s hs hcap r (by rw [hc]; exact hr) habs
  rw [h1]
  rw [hc] at h3
  exact ⟨rfl, h3, h4, h5⟩

theorem C3_addCategory_new_name_witness :
    ((sampleStore ["a", "b"]).addCategory (sampleCat "c" ["x"])).1 = .ok true ∧
      ((sampleStore ["a", "b"]).addCategory (sampleCat "c" ["x"])).2.records =
        (sampleStore ["a", "b"]).records ++ [sampleCat "c" ["x"]] ∧
      ((sampleStore ["a", "b"]).addCategory (sampleCat "c" ["x"])).2.size =
        (sampleStore ["a", "b"]).size + 1 ∧
      ((sampleStore ["a", "b"]).addCategory (sampleCat "c" ["x"])).2.capacity =
        if (sampleStore ["a", "b"]).size = (sampleStore ["a", "b"]).capacity
        then 2 * (sampleStore ["a", "b"]).capacity else (sampleStore ["a", "b"]).capacity :=
  C3_addCategory_new_name (sampleStore ["a", "b"]) (by decide) (by decide)
    (sampleCat "c" ["x"]) (by decide) (by decide)

/-- C4: for every store `s` (with `size <= capacity`, part of `wf`; the bound
`1 <= capacity` of the claim is not needed) that holds a record named `n`, `removeCategory(n)` returns true, the records become the old records with
the first record named `n` deleted and all others in their old relative order,
`size` drops by exactly one, and `capacity` becomes `max(capacity / 2, 1)`
(integer division) if the new size is `< capacity / 2` and is unchanged
otherwise. -/
theorem C4_removeCategory_existing_name (s : WordCatVec) (hs : s.wf = true)
    (n : Word) (hn : n.present = true)
    (hex : ∃ c ∈ s.records, c.category.bytes = n.bytes) :
    (s.removeCategory n).1 = .ok true ∧
      (s.removeCategory n).2.records =
        s.records.eraseP (fun c => decide (c.category.bytes = n.bytes)) ∧
      (s.removeCategory n).2.size + 1 = s.size ∧
      (s.removeCategory n).2.capacity =
        if (s.removeCategory n).2.size < s.capacity / 2 then max (s.capacity / 2) 1
        else s.capacity := by
  obtain ⟨s', h1, -, h3, h4, h5, h6⟩ := WordCatVec.removeCategory_spec s hs n hn hex
  rw [h1]
  refine ⟨rfl, h3, ?_, ?_⟩
  · simp only []; omega
  · simp only []; rw [h4]; exact h6

theorem C4_removeCategory_existing_name_witness :
    ((sampleStore ["a", "b", "c"]).removeCategory (Word.ofCStr (ascii "b"))).1 = .ok true ∧
      ((sampleStore ["a", "b", "c"]).removeCategory (Word.ofCStr (ascii "b"))).2.records =
        (sampleStore ["a", "b", "c"]).records.eraseP
          (fun c => decide (c.category.bytes = (Word.ofCStr (ascii "b")).bytes)) ∧
      ((sampleStore ["a", "b", "c"]).removeCategory (Word.ofCStr (ascii "b"))).2.size + 1 =
        (sampleStore ["a", "b", "c"]).size ∧
      ((sampleStore ["a", "b", "c"]).removeCategory (Word.ofCStr (ascii "b"))).2.capacity =
        if ((sampleStore ["a", "b", "c"]).removeCategory (Word.ofCStr (ascii "b"))).2.size <
            (sampleStore ["a", "b", "c"]).capacity / 2
        then max ((sampleStore ["a", "b", "c"]).capacity / 2) 1
        else (sampleStore ["a", "b", "c"]).capacity :=
  C4_removeCategory_existing_name (sampleStore ["a", "b", "c"]) (by decide)
    (Word.ofCStr (ascii "b")) (by decide) (by decide)

/-- C5: every store reachable from a newly constructed `WordCatVec` by any
sequence of `addCategory`, `removeCategory` and `clearCategories` calls has
`capacity >= 1` and `capacity >= size`. -/
theorem C5_capacity_bounds (s : WordCatVec) (h : WordCatVec.Reachable s) :
    1 ≤ s.capacity ∧ s.size ≤ s.capacity := by
  obtain ⟨hwf, hcap, -⟩ := WordCatVec.Reachable.inv h
  obtain ⟨arr, -, -, hsz, -⟩ := (WordCatVec.store_wf_iff s).1 hwf
  exact ⟨hcap, hsz⟩

theorem C5_capacity_bounds_witness :
    1 ≤ ((sampleStore ["a", "b", "c"]).removeCategory (Word.ofCStr (ascii "b"))).2.capacity ∧
      ((sampleStore ["a", "b", "c"]).removeCategory (Word.ofCStr (ascii "b"))).2.size ≤
        ((sampleStore ["a", "b", "c"]).removeCategory (Word.ofCStr (ascii "b"))).2.capacity :=
  C5_capacity_bounds _
    (WordCatVec.Reachable.removeCategory
      (WordCatVec.Reachable.addCategory
        (WordCatVec.Reachable.addCategory
          (WordCatVec.Reachable.addCategory WordCatVec.Reachable.new
            (show WordCatVec.new.addCategory (sampleCat "a" []) = (.ok true, sampleStore ["a"])
              by decide))
          (show (sampleStore ["a"]).addCategory (sampleCat "b" []) =
              (.ok true, sampleStore ["a", "b"]) by decide))
        (show (sampleStore ["a", "b"]).addCategory (sampleCat "c" []) =
            (.ok true, sampleStore ["a", "b", "c"]) by decide))
      (show (sampleStore ["a", "b", "c"]).removeCategory (Word.ofCStr (ascii "b")) =
          (.ok true, ((sampleStore ["a", "b", "c"]).removeCategory
            (Word.ofCStr (ascii "b"))).2) by decide))

/-- C6: for every `n`, after `n` successful `addCategory` calls (records with
`n` pairwise distinct names) on a newly constructed store, with no removals,
`size` is `n` and `capacity` is the smallest power of two that is `>= n`: it is
a power of two, it is `>= n`, and every power of two `>= n` is at least it.
The calls do all return true. -/
theorem C6_capacity_after_additions (rs : List WordCat) (hwf : ∀ r ∈ rs, r.wf = true)
    (hnd : (rs.map (fun c => c.category.bytes)).Nodup) :
    ∃ s, WordCatVec.new.addAll rs = some s ∧ s.size = rs.length ∧ s.records = rs ∧
      (∃ e, s.capacity = 2 ^ e) ∧ rs.length ≤ s.capacity ∧
      ∀ j, rs.length ≤ 2 ^ j → s.capacity ≤ 2 ^ j := by
  obtain ⟨s, e, h1, h2, h3, h4, h5, h6⟩ := WordCatVec.addAll_spec rs WordCatVec.new
    WordCatVec.wf_new hwf (by simpa [WordCatVec.new, WordCatVec.records] using hnd) 0 rfl
    (Or.inl rfl)
  have hsz : s.size = rs.length := by simpa [WordCatVec.new] using h4
  obtain ⟨arr, -, -, hle, -⟩ := (WordCatVec.store_wf_iff s).1 h2
  refine ⟨s, h1, hsz, by simpa [WordCatVec.new, WordCatVec.records] using h3, ⟨e, h5⟩,
    by omega, ?_⟩
  intro j hj
  rw [h5]
  rcases h6 with h | h
  · rw [h]; exact Nat.pow_pos (by decide)
  · have hlt : 2 ^ (e - 1) < 2 ^ j := by omega
    have hej : e - 1 < j := (Nat.pow_lt_pow_iff_right (by decide)).1 hlt
    exact Nat.pow_le_pow_right (by decide) (by omega)

theorem C6_capacity_after_additions_witness :
    ∃ s, WordCatVec.new.addAll
        [sampleCat "a" [], sampleCat "b" ["x"], sampleCat "c" [], sampleCat "d" [],
          sampleCat "e" []] = some s ∧
      s.size = [sampleCat "a" [], sampleCat "b" ["x"], sampleCat "c" [], sampleCat "d" [],
          sampleCat "e" []].length ∧
      s.records = [sampleCat "a" [], sampleCat "b" ["x"], sampleCat "c" [], sampleCat "d" [],
          sampleCat "e" []] ∧
      (∃ e, s.capacity = 2 ^ e) ∧
      [sampleCat "a" [], sampleCat "b" ["x"], sampleCat "c" [], sampleCat "d" [],
          sampleCat "e" []].length ≤ s.capacity ∧
      ∀ j, [sampleCat "a" [], sampleCat "b" ["x"], sampleCat "c" [], sampleCat "d" [],
          sampleCat "e" []].length ≤ 2 ^ j → s.capacity ≤ 2 ^ j :=
  C6_capacity_after_additions
    [sampleCat "a" [], sampleCat "b" ["x"], sampleCat "c" [], sampleCat "d" [],
      sampleCat "e" []] (by decide) (by decide)

/-- C7 (as stated, refuted): a new store given categories `a`, `b`, `c` has
capacity 4 and size 3; after `a` and `c` are removed its size is 1 and its
capacity is 2, not 1. -/
theorem C7_counterexample :
    (sampleStore ["a", "b", "c"]).capacity = 4 ∧ (sampleStore ["a", "b", "c"]).size = 3 ∧
      ∃ s4 s5, (sampleStore ["a", "b", "c"]).removeCategory (Word.ofCStr (ascii "a")) =
          (.ok true, s4) ∧
        s4.removeCategory (Word.ofCStr (ascii "c")) = (.ok true, s5) ∧
        s5.size = 1 ∧ s5.capacity = 2 ∧ ¬ (s5.size = 1 ∧ s5.capacity = 1) :=
  ⟨by decide, by decide, _, _, rfl, rfl, by decide, by decide, by decide⟩

/-- C7 (amended): starting from a newly constructed store (capacity 1, size 0),
adding 3 categories with distinct names takes capacity through 1, 2, 4 with
size 3; then removing 2 of them leaves size 1 and capacity 2 (the first removal
leaves capacity 4 with size 2, the second halves it). -/
theorem C7_capacity_example (r1 r2 r3 : WordCat) (h1 : r1.wf = true) (h2 : r2.wf = true)
    (h3 : r3.wf = true) (hnd : ([r1, r2, r3].map (fun c => c.category.bytes)).Nodup)
    (n1 n2 : Word) (hn1 : n1.present = true) (hn2 : n2.present = true)
    (hm1 : ∃ c ∈ [r1, r2, r3], c.category.bytes = n1.bytes)
    (hm2 : ∃ c ∈ [r1, r2, r3], c.category.bytes = n2.bytes) (hne : n1.bytes ≠ n2.bytes) :
    WordCatVec.new.capacity = 1 ∧ WordCatVec.new.size = 0 ∧
    ∃ s1 s2 s3 s4 s5,
      WordCatVec.new.addCategory r1 = (.ok true, s1) ∧ s1.capacity = 1 ∧ s1.size = 1 ∧
      s1.addCategory r2 = (.ok true, s2) ∧ s2.capacity = 2 ∧ s2.size = 2 ∧
      s2.addCategory r3 = (.ok true, s3) ∧ s3.capacity = 4 ∧ s3.size = 3 ∧
      s3.removeCategory n1 = (.ok true, s4) ∧ s4.capacity = 4 ∧ s4.size = 2 ∧
      s4.removeCategory n2 = (.ok true, s5) ∧ s5.capacity = 2 ∧ s5.size = 1 := by
  refine ⟨rfl, rfl, ?_⟩
  have c1 : r1.copied = r1 := WordCat.copied_of_wf r1 h1
  have c2 : r2.copied = r2 := WordCat.copied_of_wf r2 h2
  have c3 : r3.copied = r3 := WordCat.copied_of_wf r3 h3
  simp only [List.map_cons, List.map_nil, List.nodup_cons, List.mem_cons, List.mem_singleton,
    List.not_mem_nil, or_false, not_or, not_false_eq_true, List.nodup_nil, and_true] at hnd
  obtain ⟨⟨d12, d13⟩, d23⟩ := hnd
  obtain ⟨s1, a1, w1, rec1, sz1, cap1⟩ := WordCatVec.addCategory_spec WordCatVec.new
    WordCatVec.wf_new (Nat.le_refl 1) r1 (by rw [c1]; exact h1)
    (by simp [WordCatVec.new, WordCatVec.records])
  have hrec1 : s1.records = [r1] := by
    rw [rec1, c1]; simp [WordCatVec.new, WordCatVec.records]
  have hsz1 : s1.size = 1 := by rw [sz1]; rfl
  have hcap1 : s1.capacity = 1 := by rw [cap1]; rfl
  obtain ⟨s2, a2, w2, rec2, sz2, cap2⟩ := WordCatVec.addCategory_spec s1 w1 (by omega) r2
    (by rw [c2]; exact h2)
    (by rw [hrec1]; simpa using d12)
  have hrec2 : s2.records = [r1, r2] := by rw [rec2, c2, hrec1]; rfl
  have hsz2 : s2.size = 2 := by rw [sz2, hsz1]
  have hcap2 : s2.capacity = 2 := by rw [cap2, hsz1, hcap1]; rfl
  obtain ⟨s3, a3, w3, rec3, sz3, cap3⟩ := WordCatVec.addCategory_spec s2 w2 (by omega) r3
    (by rw [c3]; exact h3)
    (by rw [hrec2]; simpa using ⟨d13, d23⟩)
  have hrec3 : s3.records = [r1, r2, r3] := by rw [rec3, c3, hrec2]; rfl
  have hsz3 : s3.size = 3 := by rw [sz3, hsz2]
  have hcap3 : s3.capacity = 4 := by rw [cap3, hsz2, hcap2]; rfl
  obtain ⟨s4, a4, w4, rec4, sz4, -, cap4⟩ := WordCatVec.removeCategory_spec s3 w3 n1 hn1
    (by rw [hrec3]; exact hm1)
  have hsz4 : s4.size = 2 := by rw [sz4, hsz3]
  have hcap4 : s4.capacity = 4 := by rw [cap4, hsz3, hcap3]; rfl
  have hmem4 : ∃ c ∈ s4.records, c.category.bytes = n2.bytes := by
    obtain ⟨c, hc, hce⟩ := hm2
    refine ⟨c, ?_, hce⟩
    rw [rec4, hrec3]
    exact (List.mem_eraseP_of_neg (by simp [hce, Ne.symm hne])).2 hc
  obtain ⟨s5, a5, -, -, sz5, -, cap5⟩ := WordCatVec.removeCategory_spec s4 w4 n2 hn2 hmem4
  have hsz5 : s5.size = 1 := by rw [sz5, hsz4]
  have hcap5 : s5.capacity = 2 := by rw [cap5, hsz4, hcap4]; rfl
  exact ⟨s1, s2, s3, s4, s5, a1, hcap1, hsz1, a2, hcap2, hsz2, a3, hcap3, hsz3, a4, hcap4,
    hsz4, a5, hcap5, hsz5⟩

theorem C7_capacity_example_witness :
    WordCatVec.new.capacity = 1 ∧ WordCatVec.new.size = 0 ∧
    ∃ s1 s2 s3 s4 s5,
      WordCatVec.new.addCategory (sampleCat "a" []) = (.ok true, s1) ∧
      s1.capacity = 1 ∧ s1.size = 1 ∧
      s1.addCategory (sampleCat "b" ["x"]) = (.ok true, s2) ∧ s2.capacity = 2 ∧ s2.size = 2 ∧
      s2.addCategory (sampleCat "c" []) = (.ok true, s3) ∧ s3.capacity = 4 ∧ s3.size = 3 ∧
      s3.removeCategory (Word.ofCStr (ascii "c")) = (.ok true, s4) ∧
      s4.capacity = 4 ∧ s4.size = 2 ∧
      s4.removeCategory (Word.ofCStr (ascii "a")) = (.ok true, s5) ∧
      s5.capacity = 2 ∧ s5.size = 1 :=
  C7_capacity_example (sampleCat "a" []) (sampleCat "b" ["x"]) (sampleCat "c" [])
    (by decide) (by decide) (by decide) (by decide)
    (Word.ofCStr (ascii "c")) (Word.ofCStr (ascii "a")) (by decide) (by decide)
    (by decide) (by decide) (by decide)

/-- C8: for every category record `c` and word `w`: if the member list of `c`
already contains `w`, `insertWord(w)` returns false and the record is unchanged
(same elements, same order, same count); otherwise it returns true and the
member list is the result of `insertSorted(w)`, which returns.  After pear,
apple, mango are inserted, inserting apple again returns false and the list
still has 3 elements. -/
theorem C8_insertWord (c : WordCat) (w : Word) (hw : w.present = true)
    (hc : ∀ x ∈ c.wordList.nodes, x.present = true) :
    ((∃ x ∈ c.wordList.nodes, x.bytes = w.bytes) → c.insertWord w = .ok (false, c)) ∧
    ((¬ ∃ x ∈ c.wordList.nodes, x.bytes = w.bytes) →
      ∃ l, c.wordList.insertSorted w = .ok l ∧
        c.insertWord w = .ok (true, { c with wordList := l })) ∧
    (sampleCat "fruit" []).insertWord (Word.ofCStr (ascii "pear")) =
      .ok (true, sampleCat "fruit" ["pear"]) ∧
    (sampleCat "fruit" ["pear"]).insertWord (Word.ofCStr (ascii "apple")) =
      .ok (true, sampleCat "fruit" ["apple", "pear"]) ∧
    (sampleCat "fruit" ["apple", "pear"]).insertWord (Word.ofCStr (ascii "mango")) =
      .ok (true, sampleCat "fruit" ["apple", "mango", "pear"]) ∧
    (sampleCat "fruit" ["apple", "mango", "pear"]).insertWord (Word.ofCStr (ascii "apple")) =
      .ok (false, sampleCat "fruit" ["apple", "mango", "pear"]) ∧
    (sampleCat "fruit" ["apple", "mango", "pear"]).wordList.nodes.length = 3 ∧
    (sampleCat "fruit" ["apple", "mango", "pear"]).wordList.size = 3 := by
  refine ⟨?_, ?_, by decide, by decide, by decide, by decide, by decide, by decide⟩
  · intro hex
    simp only [WordCat.insertWord, WordList.list_lookup_eq c.wordList w hw hc, hex, decide_True]
  · intro hno
    obtain ⟨l, hl⟩ := WordList.insertSorted_returns c.wordList w hw hc
    refine ⟨l, hl, ?_⟩
    simp only [WordCat.insertWord, WordList.list_lookup_eq c.wordList w hw hc, hno, decide_False, hl]

theorem C8_insertWord_witness :
    ((∃ x ∈ (sampleCat "fruit" ["kiwi", "fig"]).wordList.nodes,
        x.bytes = (Word.ofCStr (ascii "fig")).bytes) →
      (sampleCat "fruit" ["kiwi", "fig"]).insertWord (Word.ofCStr (ascii "fig")) =
        .ok (false, sampleCat "fruit" ["kiwi", "fig"])) ∧
    ((¬ ∃ x ∈ (sampleCat "fruit" ["kiwi", "fig"]).wordList.nodes,
        x.bytes = (Word.ofCStr (ascii "fig")).bytes) →
      ∃ l, (sampleCat "fruit" ["kiwi", "fig"]).wordList.insertSorted
          (Word.ofCStr (ascii "fig")) = .ok l ∧
        (sampleCat "fruit" ["kiwi", "fig"]).insertWord (Word.ofCStr (ascii "fig")) =
          .ok (true, { sampleCat "fruit" ["kiwi", "fig"] with wordList := l })) ∧
    (sampleCat "fruit" []).insertWord (Word.ofCStr (ascii "pear")) =
      .ok (true, sampleCat "fruit" ["pear"]) ∧
    (sampleCat "fruit" ["pear"]).insertWord (Word.ofCStr (ascii "apple")) =
      .ok (true, sampleCat "fruit" ["apple", "pear"]) ∧
    (sampleCat "fruit" ["apple", "pear"]).insertWord (Word.ofCStr (ascii "mango")) =
      .ok (true, sampleCat "fruit" ["apple", "mango", "pear"]) ∧
    (sampleCat "fruit" ["apple", "mango", "pear"]).insertWord (Word.ofCStr (ascii "apple")) =
      .ok (false, sampleCat "fruit" ["apple", "mango", "pear"]) ∧
    (sampleCat "fruit" ["apple", "mango", "pear"]).wordList.nodes.length = 3 ∧
    (sampleCat "fruit" ["apple", "mango", "pear"]).wordList.size = 3 :=
  C8_insertWord (sampleCat "fruit" ["kiwi", "fig"]) (Word.ofCStr (ascii "fig")) (by decide)
    (by decide)

/-- C9: in every store reachable from a newly constructed `WordCatVec` by any
sequence of `addCategory`, `removeCategory` and `clearCategories` calls, the
names of the records at indices `0 .. size - 1` are pairwise distinct: `==` on
the names of two different records returns false. -/
theorem C9_names_distinct (s : WordCatVec) (h : WordCatVec.Reachable s) :
    s.records.length = s.size ∧
      s.records.Pairwise (fun a b => a.category.eq b.category = .ok false) ∧
      (s.records.map (fun c => c.category.bytes)).Nodup := by
  obtain ⟨hwf, -, hnd⟩ := WordCatVec.Reachable.inv h
  obtain ⟨arr, ha, -, -, hw⟩ := (WordCatVec.store_wf_iff s).1 hwf
  refine ⟨WordCatVec.records_length s hwf, ?_, hnd⟩
  have hpw : s.records.Pairwise (fun a b => a.category.bytes ≠ b.category.bytes) :=
    (List.pairwise_map).1 hnd
  refine List.Pairwise.imp_of_mem ?_ hpw
  intro a b ham hbm hab
  rw [WordCatVec.records_of_some s arr ha] at ham hbm
  have hap : a.category.present = true := ((WordCat.record_wf_iff a).1 (hw a ham)).1
  have hbp : b.category.present = true := ((WordCat.record_wf_iff b).1 (hw b hbm)).1
  rw [Word.eq_of_present hap hbp]
  simp [hab]

theorem C9_names_distinct_witness :
    (sampleStore ["a", "b"]).records.length = (sampleStore ["a", "b"]).size ∧
      (sampleStore ["a", "b"]).records.Pairwise
        (fun a b => a.category.eq b.category = .ok false) ∧
      ((sampleStore ["a", "b"]).records.map (fun c => c.category.bytes)).Nodup :=
  C9_names_distinct (sampleStore ["a", "b"])
    (WordCatVec.Reachable.addCategory
      (WordCatVec.Reachable.addCategory WordCatVec.Reachable.new
        (show WordCatVec.new.addCategory (sampleCat "a" []) = (.ok true, sampleStore ["a"])
          by decide))
      (show (sampleStore ["a"]).addCategory (sampleCat "b" []) =
          (.ok true, sampleStore ["a", "b"]) by decide))

/-- C10: for every store reachable from a newly constructed `WordCatVec` by
`addCategory`, `removeCategory`, `clearCategories`, and every record `r` with
name `n`: `addCategory(r)` returns, after it `lookup(n)` is true, a following
`removeCategory(n)` returns true, and after it `lookup(n)` is false. -/
theorem C10_add_lookup_remove (s : WordCatVec) (h : WordCatVec.Reachable s) (r : WordCat)
    (hr : r.wf = true) (n : Word) (hn : n.present = true)
    (hnb : n.bytes = r.category.bytes) :
    ∃ b s1 s2, s.addCategory r = (.ok b, s1) ∧ s1.lookup n = .ok true ∧
      s1.removeCategory n = (.ok true, s2) ∧ s2.lookup n = .ok false := by
  obtain ⟨hwf, hcap, -⟩ := WordCatVec.Reachable.inv h
  have hrp : r.category.present = true := ((WordCat.record_wf_iff r).1 hr).1
  have hadd : ∃ b s1, s.addCategory r = (.ok b, s1) ∧
      ∃ c ∈ s1.records, c.category.bytes = n.bytes := by
    by_cases hdup : ∃ c ∈ s.records, c.category.bytes = r.category.bytes
    · refine ⟨false, s, ?_, by rw [hnb]; exact hdup⟩
      simp only [WordCatVec.addCategory, WordCat.getCategoryName_eq r hrp,
        WordCatVec.store_lookup_eq s hwf _ hrp, hdup, decide_True]
    · obtain ⟨s1, h1, -, h3, -, -⟩ := WordCatVec.addCategory_spec s hwf hcap r
        (by rw [WordCat.copied_of_wf r hr]; exact hr) hdup
      refine ⟨true, s1, h1, r, ?_, hnb.symm⟩
      rw [h3, WordCat.copied_of_wf r hr]
      simp
  obtain ⟨b, s1, h1, hmem⟩ := hadd
  obtain ⟨hwf1, -, hnd1⟩ := WordCatVec.Reachable.inv (WordCatVec.Reachable.addCategory h h1)
  obtain ⟨s2, g1, g2, g3, -, -, -⟩ := WordCatVec.removeCategory_spec s1 hwf1 n hn hmem
  refine ⟨b, s1, s2, h1, ?_, g1, ?_⟩
  · rw [WordCatVec.store_lookup_eq s1 hwf1 n hn]
    simp only [hmem, decide_True]
  · rw [WordCatVec.store_lookup_eq s2 g2 n hn, g3]
    have := not_mem_eraseP_of_nodup (fun c : WordCat => c.category.bytes) n.bytes s1.records hnd1
    simp only [this, decide_False]

theorem C10_add_lookup_remove_witness :
    ∃ b s1 s2, (sampleStore ["a", "b"]).addCategory (sampleCat "c" ["x"]) = (.ok b, s1) ∧
      s1.lookup (Word.ofCStr (ascii "c")) = .ok true ∧
      s1.removeCategory (Word.ofCStr (ascii "c")) = (.ok true, s2) ∧
      s2.lookup (Word.ofCStr (ascii "c")) = .ok false :=
  C10_add_lookup_remove (sampleStore ["a", "b"])
    (WordCatVec.Reachable.addCategory
      (WordCatVec.Reachable.addCategory WordCatVec.Reachable.new
        (show WordCatVec.new.addCategory (sampleCat "a" []) = (.ok true, sampleStore ["a"])
          by decide))
      (show (sampleStore ["a"]).addCategory (sampleCat "b" []) =
          (.ok true, sampleStore ["a", "b"]) by decide))
    (sampleCat "c" ["x"]) (by decide) (Word.ofCStr (ascii "c")) (by decide) (by decide)

/-- C11: for every store `s` and name `n` that matches no record of `s`,
`removeCategory(n)` returns false and leaves the store as it was: same records
in the same order, same size, same capacity. -/
theorem C11_removeCategory_absent_name (s : WordCatVec) (hs : s.wf = true) (n : Word)
    (hn : n.present = true) (hno : ¬ ∃ c ∈ s.records, c.category.bytes = n.bytes) :
    (s.removeCategory n).1 = .ok false ∧ (s.removeCategory n).2 = s ∧
      (s.removeCategory n).2.records = s.records ∧ (s.removeCategory n).2.size = s.size ∧
      (s.removeCategory n).2.capacity = s.capacity := by
  rw [WordCatVec.removeCategory_absent s hs n hn hno]
  exact ⟨rfl, rfl, rfl, rfl, rfl⟩

theorem C11_removeCategory_absent_name_witness :
    ((sampleStore ["a", "b", "c"]).removeCategory (Word.ofCStr (ascii "B"))).1 = .ok false ∧
      ((sampleStore ["a", "b", "c"]).removeCategory (Word.ofCStr (ascii "B"))).2 =
        sampleStore ["a", "b", "c"] ∧
      ((sampleStore ["a", "b", "c"]).removeCategory (Word.ofCStr (ascii "B"))).2.records =
        (sampleStore ["a", "b", "c"]).records ∧
      ((sampleStore ["a", "b", "c"]).removeCategory (Word.ofCStr (ascii "B"))).2.size =
        (sampleStore ["a", "b", "c"]).size ∧
      ((sampleStore ["a", "b", "c"]).removeCategory (Word.ofCStr (ascii "B"))).2.capacity =
        (sampleStore ["a", "b", "c"]).capacity :=
  C11_removeCategory_absent_name (sampleStore ["a", "b", "c"]) (by decide)
    (Word.ofCStr (ascii "B")) (by decide) (by decide)

/-- C12 (the code at a failing input): a store with the one category `fruit`
holding `apple` and `mango` (the store `loadFromFile` builds from the lines
`#fruit`, `apple`, `mango`) is saved as `#fruit`, then one line with both words
padded to 15 columns, then an empty line; loading that text into a new store
gives a category `fruit` whose only member is the whole line
`apple           mango`, so the member words are not those saved. -/
theorem C12_roundtrip_failing_input :
    WordCatVec.Reachable (WordCatVec.new.addCategory (sampleCat "fruit" ["apple", "mango"])).2 ∧
    WordCatVec.new.loadFromFile (ascii "#fruit\napple\nmango\n") =
      .ok (WordCatVec.new.addCategory (sampleCat "fruit" ["apple", "mango"])).2 ∧
    (WordCatVec.new.addCategory (sampleCat "fruit" ["apple", "mango"])).2.records =
      [sampleCat "fruit" ["apple", "mango"]] ∧
    (WordCatVec.new.addCategory (sampleCat "fruit" ["apple", "mango"])).2.saveToFile =
      .ok (ascii "#fruit\n          apple           mango \n\n") ∧
    (∃ s, WordCatVec.new.loadFromFile (ascii "#fruit\n          apple           mango \n\n") =
        .ok s ∧ s.records = [sampleCat "fruit" ["apple           mango"]]) ∧
    sampleCat "fruit" ["apple           mango"] ≠ sampleCat "fruit" ["apple", "mango"] :=
  ⟨WordCatVec.Reachable.addCategory WordCatVec.Reachable.new
      (show WordCatVec.new.addCategory (sampleCat "fruit" ["apple", "mango"]) =
        (.ok true, (WordCatVec.new.addCategory (sampleCat "fruit" ["apple", "mango"])).2)
        by decide),
    by decide, by decide, by decide, ⟨_, rfl, by decide⟩, by decide⟩

theorem WordList.scanSteps_eq (word : Word) (hw : word.present = true) (rest : List Word)
    (hr : ∀ c ∈ rest, c.present = true) :
    WordList.scanSteps word rest =
      .ok (rest.takeWhile (fun c => decide (strcmpBytes c.bytes word.bytes < 0))).length := by
  induction rest with
  | nil => rfl
  | cons c cs ih =>
    have hc : c.present = true := hr c (List.mem_cons_self _ _)
    have hcs : ∀ d ∈ cs, d.present = true := fun d hd => hr d (List.mem_cons_of_mem _ hd)
    simp only [WordList.scanSteps, Word.isLess_of_present hc hw]
    by_cases hlt : strcmpBytes c.bytes word.bytes < 0
    · simp [hlt, ih hcs]
    · simp [hlt]

theorem take_length_takeWhile {α : Type} (p : α → Bool) (l : List α) :
    l.take (l.takeWhile p).length = l.takeWhile p := by
  induction l with
  | nil => rfl
  | cons a as ih =>
    by_cases h : p a = true
    · simp [List.takeWhile_cons, h, ih]
    · simp [List.takeWhile_cons, h]

theorem drop_length_takeWhile {α : Type} (p : α → Bool) (l : List α) :
    l.drop (l.takeWhile p).length = l.dropWhile p := by
  induction l with
  | nil => rfl
  | cons a as ih =>
    by_cases h : p a = true
    · simp [List.takeWhile_cons, List.dropWhile_cons, h, ih]
    · simp [List.takeWhile_cons, List.dropWhile_cons, h]

/-- The position `insertSorted` links the new node at, and the chain it leaves:
the old chain with the word put in at that position. -/
theorem WordList.insertSorted_at (l : WordList) (word : Word) (hw : word.present = true)
    (hp : ∀ c ∈ l.nodes, c.present = true) :
    ∃ k l', l.insertSortedAt word = .ok k ∧ l.insertSorted word = .ok l' ∧
      k ≤ l.nodes.length ∧ l'.nodes = l.nodes.take k ++ word :: l.nodes.drop k ∧
      l'.size = l.size + 1 := by
  cases hn : l.nodes with
  | nil =>
    refine ⟨0, _, ?_, WordList.insertSorted_nil l word hw hn, Nat.le_refl _, by simp, rfl⟩
    simp [WordList.insertSortedAt, hn]
  | cons h rest =>
    have hh : h.present = true := hp h (by simp [hn])
    by_cases hlt : strcmpBytes word.bytes h.bytes < 0
    · refine ⟨0, _, ?_, WordList.insertSorted_front l word hw h rest hn hh hlt,
        Nat.zero_le _, by simp [hn], rfl⟩
      simp [WordList.insertSortedAt, hn, WordList.front_cons l h rest hn,
        Word.isLess_of_present hw hh, hlt]
    · obtain ⟨b, hb, hback⟩ := WordList.back_cons l h rest hn
      have hbp : b.present = true := hp b (List.mem_of_getLast?_eq_some hb)
      by_cases hbl : strcmpBytes b.bytes word.bytes < 0
      · refine ⟨l.nodes.length, _, ?_,
          WordList.insertSorted_back l word hw h rest hn hh hlt b hb hbp hbl,
          by simp [hn], by rw [← hn]; simp, rfl⟩
        simp [WordList.insertSortedAt, hn, WordList.front_cons l h rest hn,
          Word.isLess_of_present hw hh, hlt, hback, Word.isLess_of_present hbp hw, hbl]
      · have hr : ∀ c ∈ rest, c.present = true := fun c hc => hp c (by simp [hn, hc])
        refine ⟨(rest.takeWhile (fun c => decide (strcmpBytes c.bytes word.bytes < 0))).length
            + 1, _, ?_, WordList.insertSorted_middle l word hw h rest hn hp hlt b hb hbl,
          ?_, ?_, rfl⟩
        · simp [WordList.insertSortedAt, hn, WordList.front_cons l h rest hn,
            Word.isLess_of_present hw hh, hlt, hback, Word.isLess_of_present hbp hw, hbl,
            WordList.scanSteps_eq word hw rest hr]
        · have := (List.takeWhile_sublist
            (fun c => decide (strcmpBytes c.bytes word.bytes < 0)) (l := rest)).length_le
          simp only [List.length_cons]
          omega
        · simp only [List.take_succ_cons, List.drop_succ_cons, take_length_takeWhile,
            drop_length_takeWhile, List.cons_append]

theorem WordList.insertSortedAt_middle (l : WordList) (word : Word) (hw : word.present = true)
    (h : Word) (rest : List Word) (hn : l.nodes = h :: rest)
    (hp : ∀ c ∈ l.nodes, c.present = true)
    (hlt : ¬ strcmpBytes word.bytes h.bytes < 0)
    (b : Word) (hb : l.nodes.getLast? = some b)
    (hbl : ¬ strcmpBytes b.bytes word.bytes < 0) :
    l.insertSortedAt word = .ok
      ((rest.takeWhile (fun c => decide (strcmpBytes c.bytes word.bytes < 0))).length + 1) := by
  obtain ⟨b', hb', hback⟩ := WordList.back_cons l h rest hn
  have hbb : b' = b := by rw [hb] at hb'; exact (Option.some.inj hb').symm
  subst hbb
  have hh : h.present = true := hp h (by simp [hn])
  have hbp : b'.present = true := hp b' (List.mem_of_getLast?_eq_some hb)
  have hr : ∀ c ∈ rest, c.present = true := fun c hc => hp c (by simp [hn, hc])
  simp [WordList.insertSortedAt, hn, WordList.front_cons l h rest hn,
    Word.isLess_of_present hw hh, hlt, hback, Word.isLess_of_present hbp hw, hbl,
    WordList.scanSteps_eq word hw rest hr]

theorem countP_eq_length_takeWhile_of_sorted (word : Word) (rest : List Word)
    (hs : rest.Pairwise Word.le) :
    rest.countP (fun c => decide (strcmpBytes c.bytes word.bytes < 0)) =
      (rest.takeWhile (fun c => decide (strcmpBytes c.bytes word.bytes < 0))).length := by
  induction rest with
  | nil => rfl
  | cons c cs ih =>
    rw [List.pairwise_cons] at hs
    by_cases hlt : strcmpBytes c.bytes word.bytes < 0
    · simp [List.takeWhile_cons, hlt, ih hs.2]
    · have hzero : cs.countP (fun c => decide (strcmpBytes c.bytes word.bytes < 0)) = 0 := by
        rw [List.countP_eq_zero]
        intro d hd
        have h1 : Word.le word c := Word.le_of_not_lt hlt
        have h2 : Word.le word d := Word.le_trans h1 (hs.1 d hd)
        have h3 := strcmpBytes_swap word.bytes d.bytes
        simp only [Word.le] at h2
        simp only [decide_eq_true_eq]
        omega
      simp [List.takeWhile_cons, hlt, hzero]

/-- C13: for every list `l` (sorted or not) and every word `w`, `insertSorted`
returns a list that is `l` with `w` put in at one place: its multiset of
elements is that of `l` plus one more occurrence of `w`, the elements of `l`
keep their relative order, the number of nodes and the stored count are those
of `l` plus one; a word already present is inserted again. -/
theorem C13_insertSorted_adds_one (l : WordList) (w : Word) (hw : w.present = true)
    (hp : ∀ c ∈ l.nodes, c.present = true) :
    ∃ l' pre post, l.insertSorted w = .ok l' ∧ l.nodes = pre ++ post ∧
      l'.nodes = pre ++ w :: post ∧ l'.nodes.Perm (w :: l.nodes) ∧
      l.nodes.Sublist l'.nodes ∧ l'.nodes.count w = l.nodes.count w + 1 ∧
      l'.nodes.length = l.nodes.length + 1 ∧ l'.size = l.size + 1 := by
  obtain ⟨k, l', -, h2, -, h4, h5⟩ := WordList.insertSorted_at l w hw hp
  have hsplit : l.nodes = l.nodes.take k ++ l.nodes.drop k := (List.take_append_drop k _).symm
  refine ⟨l', l.nodes.take k, l.nodes.drop k, h2, hsplit, h4, ?_, ?_, ?_, ?_, h5⟩
  · rw [h4]
    conv_rhs => rw [hsplit]
    exact List.perm_middle
  · rw [h4]
    conv_lhs => rw [hsplit]
    exact List.Sublist.append (List.Sublist.refl _) (List.sublist_cons_self _ _)
  · rw [h4]
    conv_rhs => rw [hsplit]
    simp only [List.count_append, List.count_cons_self]
    omega
  · rw [h4]
    conv_rhs => rw [hsplit]
    simp only [List.length_append, List.length_cons]
    omega

theorem C13_insertSorted_adds_one_witness :
    ∃ l' pre post,
      (WordList.mk [Word.ofCStr (ascii "pear"), Word.ofCStr (ascii "apple"),
        Word.ofCStr (ascii "mango")] 3).insertSorted (Word.ofCStr (ascii "apple")) = .ok l' ∧
      (WordList.mk [Word.ofCStr (ascii "pear"), Word.ofCStr (ascii "apple"),
        Word.ofCStr (ascii "mango")] 3).nodes = pre ++ post ∧
      l'.nodes = pre ++ Word.ofCStr (ascii "apple") :: post ∧
      l'.nodes.Perm (Word.ofCStr (ascii "apple") ::
        (WordList.mk [Word.ofCStr (ascii "pear"), Word.ofCStr (ascii "apple"),
          Word.ofCStr (ascii "mango")] 3).nodes) ∧
      (WordList.mk [Word.ofCStr (ascii "pear"), Word.ofCStr (ascii "apple"),
        Word.ofCStr (ascii "mango")] 3).nodes.Sublist l'.nodes ∧
      l'.nodes.count (Word.ofCStr (ascii "apple")) =
        (WordList.mk [Word.ofCStr (ascii "pear"), Word.ofCStr (ascii "apple"),
          Word.ofCStr (ascii "mango")] 3).nodes.count (Word.ofCStr (ascii "apple")) + 1 ∧
      l'.nodes.length =
        (WordList.mk [Word.ofCStr (ascii "pear"), Word.ofCStr (ascii "apple"),
          Word.ofCStr (ascii "mango")] 3).nodes.length + 1 ∧
      l'.size =
        (WordList.mk [Word.ofCStr (ascii "pear"), Word.ofCStr (ascii "apple"),
          Word.ofCStr (ascii "mango")] 3).size + 1 :=
  C13_insertSorted_adds_one
    (WordList.mk [Word.ofCStr (ascii "pear"), Word.ofCStr (ascii "apple"),
      Word.ofCStr (ascii "mango")] 3) (Word.ofCStr (ascii "apple")) (by decide) (by decide)

/-- C14 (as stated, refuted): the list a, b is sorted and holds an element equal
to b; `insertSorted(b)` links the new node at index 1, in front of the old b,
while the number of elements not greater than b is 2. -/
theorem C14_counterexample :
    (sampleList ["a", "b"]).nodes.Pairwise (fun x y => y.isLess x = .ok false) ∧
    (∃ x ∈ (sampleList ["a", "b"]).nodes, x.eq (Word.ofCStr (ascii "b")) = .ok true) ∧
    (sampleList ["a", "b"]).insertSortedAt (Word.ofCStr (ascii "b")) = .ok 1 ∧
    (sampleList ["a", "b"]).nodes[1]? = some (Word.ofCStr (ascii "b")) ∧
    (sampleList ["a", "b"]).nodes.countP
      (fun c => decide ((Word.ofCStr (ascii "b")).isLess c = .ok false)) = 2 ∧
    ¬ ((sampleList ["a", "b"]).insertSortedAt (Word.ofCStr (ascii "b")) =
      .ok ((sampleList ["a", "b"]).nodes.countP
        (fun c => decide ((Word.ofCStr (ascii "b")).isLess c = .ok false)))) := by
  decide

/-- C14 (amended): for every sorted list `l` and every word `w` equal to at
least one element of `l`, `insertSorted(l, w)` links the new node in front of
the existing elements equal to `w`, except that a head equal to `w` stays
first: the position of the new node is `max(1, m)`, where `m` is the number of
elements of `l` that are less than `w`, and the list becomes `l` with `w` put
in at that position. -/
theorem C14_insertSorted_tie_position (l : WordList) (w : Word) (hw : w.present = true)
    (hp : ∀ c ∈ l.nodes, c.present = true)
    (hs : l.nodes.Pairwise (fun x y => y.isLess x = .ok false))
    (heq : ∃ x ∈ l.nodes, x.eq w = .ok true) :
    l.insertSortedAt w =
      .ok (max 1 (l.nodes.countP (fun c => decide (c.isLess w = .ok true)))) ∧
    l.insertSorted w = .ok
      ⟨l.nodes.take (max 1 (l.nodes.countP (fun c => decide (c.isLess w = .ok true)))) ++
        w :: l.nodes.drop (max 1 (l.nodes.countP (fun c => decide (c.isLess w = .ok true)))),
        l.size + 1⟩ := by
  have hle : l.nodes.Pairwise Word.le := by
    refine List.Pairwise.imp_of_mem ?_ hs
    intro a b ha hb hab
    rw [Word.isLess_of_present (hp b hb) (hp a ha)] at hab
    have h1 : ¬ strcmpBytes b.bytes a.bytes < 0 := by simpa using hab
    exact Word.le_of_not_lt h1
  have hcount : l.nodes.countP (fun c => decide (c.isLess w = .ok true)) =
      l.nodes.countP (fun c => decide (strcmpBytes c.bytes w.bytes < 0)) := by
    apply List.countP_congr
    intro c hc
    rw [Word.isLess_of_present (hp c hc) hw]
    simp
  obtain ⟨x, hx, hxe⟩ := heq
  have hxb : x.bytes = w.bytes := by
    rw [Word.eq_of_present (hp x hx) hw] at hxe
    simpa using hxe
  cases hn : l.nodes with
  | nil => rw [hn] at hx; simp at hx
  | cons h rest =>
    rw [hn] at hle hx
    have hhx : Word.le h x := by
      rcases List.mem_cons.1 hx with e | e
      · rw [e]; exact Word.le_refl h
      · exact (List.pairwise_cons.1 hle).1 x e
    have hlt : ¬ strcmpBytes w.bytes h.bytes < 0 := by
      have h1 := strcmpBytes_swap h.bytes w.bytes
      simp only [Word.le, hxb] at hhx
      omega
    obtain ⟨b, hb, -⟩ := WordList.back_cons l h rest hn
    have hxb2 : Word.le x b := le_getLast_of_sorted (by rw [hn]; exact hle) hb x
      (by rw [hn]; exact hx)
    have hbl : ¬ strcmpBytes b.bytes w.bytes < 0 := by
      have h1 := strcmpBytes_swap b.bytes w.bytes
      simp only [Word.le, hxb] at hxb2
      omega
    have hk : max 1 (l.nodes.countP (fun c => decide (c.isLess w = .ok true))) =
        (rest.takeWhile (fun c => decide (strcmpBytes c.bytes w.bytes < 0))).length + 1 := by
      rw [hcount, hn, List.countP_cons,
        countP_eq_length_takeWhile_of_sorted w rest (List.pairwise_cons.1 hle).2]
      by_cases hhl : strcmpBytes h.bytes w.bytes < 0
      · simp only [hhl, decide_True, if_true]
        omega
      · have hz : rest.countP (fun c => decide (strcmpBytes c.bytes w.bytes < 0)) = 0 := by
          rw [List.countP_eq_zero]
          intro d hd
          have h1 : Word.le w h := Word.le_of_not_lt hhl
          have h2 : Word.le w d := Word.le_trans h1 ((List.pairwise_cons.1 hle).1 d hd)
          have h3 := strcmpBytes_swap w.bytes d.bytes
          simp only [Word.le] at h2
          simp only [decide_eq_true_eq]
          omega
        rw [← countP_eq_length_takeWhile_of_sorted w rest (List.pairwise_cons.1 hle).2, hz]
        simp [hhl]
    rw [← hn, hk]
    refine ⟨WordList.insertSortedAt_middle l w hw h rest hn hp hlt b hb hbl, ?_⟩
    rw [WordList.insertSorted_middle l w hw h rest hn hp hlt b hb hbl, hn]
    simp only [List.take_succ_cons, List.drop_succ_cons, take_length_takeWhile,
      drop_length_takeWhile, List.cons_append]

theorem C14_insertSorted_tie_position_witness :
    (sampleList ["a", "b", "b", "c"]).insertSortedAt (Word.ofCStr (ascii "b")) =
      .ok (max 1 ((sampleList ["a", "b", "b", "c"]).nodes.countP
        (fun c => decide (c.isLess (Word.ofCStr (ascii "b")) = .ok true)))) ∧
    (sampleList ["a", "b", "b", "c"]).insertSorted (Word.ofCStr (ascii "b")) = .ok
      ⟨(sampleList ["a", "b", "b", "c"]).nodes.take
          (max 1 ((sampleList ["a", "b", "b", "c"]).nodes.countP
            (fun c => decide (c.isLess (Word.ofCStr (ascii "b")) = .ok true)))) ++
        Word.ofCStr (ascii "b") :: (sampleList ["a", "b", "b", "c"]).nodes.drop
          (max 1 ((sampleList ["a", "b", "b", "c"]).nodes.countP
            (fun c => decide (c.isLess (Word.ofCStr (ascii "b")) = .ok true)))),
        (sampleList ["a", "b", "b", "c"]).size + 1⟩ :=
  C14_insertSorted_tie_position (sampleList ["a", "b", "b", "c"]) (Word.ofCStr (ascii "b"))
    (by decide) (by decide) (by decide) (by decide)

theorem WordList.searchFrom_first (word : Word) (hw : word.present = true) (nodes : List Word)
    (hp : ∀ c ∈ nodes, c.present = true) :
    ∀ (i k : Nat) (x : Word), nodes[k]? = some x → x.bytes = word.bytes →
      (∀ j y, j < k → nodes[j]? = some y → decide (y.bytes = word.bytes) = false) →
      WordList.searchFrom word nodes i = .ok (some (i + k)) := by
  induction nodes with
  | nil => intro i k x hk; simp at hk
  | cons c cs ih =>
    intro i k x hk hxe hfirst
    have hc : c.present = true := hp c (List.mem_cons_self _ _)
    have hcs : ∀ d ∈ cs, d.present = true := fun d hd => hp d (List.mem_cons_of_mem _ hd)
    simp only [WordList.searchFrom, strcmp_of_present hc hw]
    cases k with
    | zero =>
      simp only [List.getElem?_cons_zero, Option.some.injEq] at hk
      have he : strcmpBytes c.bytes word.bytes = 0 := strcmpBytes_eq_zero.2 (hk ▸ hxe)
      simp [he]
    | succ k =>
      have hne : ¬ strcmpBytes c.bytes word.bytes = 0 := by
        intro he
        have := hfirst 0 c (by omega) (by simp)
        simp only [decide_eq_false_iff_not] at this
        exact this (strcmpBytes_eq_zero.1 he)
      simp only [hne, if_false]
      rw [ih hcs (i + 1) k x (by simpa using hk) hxe
        (fun j y hj hjy => hfirst (j + 1) y (by omega) (by simpa using hjy))]
      congr 2
      omega

/-- C15: for every list `l` and word `w`: if some element of `l` equals `w`
byte for byte, `remove(w)` returns true and the list becomes `l` with only its
first occurrence of `w` deleted (all other elements in their old order, count
decreased by one); otherwise `remove(w)` returns false and the list and its
count are unchanged. -/
theorem C15_remove_first_occurrence (l : WordList) (w : Word) (hw : w.present = true)
    (hp : ∀ c ∈ l.nodes, c.present = true) (hsz : l.size = l.nodes.length) :
    ((∃ x ∈ l.nodes, x.bytes = w.bytes) →
      ∃ l', l.remove w = .ok (true, l') ∧
        l'.nodes = l.nodes.eraseP (fun c => decide (c.bytes = w.bytes)) ∧
        l'.size + 1 = l.size ∧ l'.nodes.length + 1 = l.nodes.length) ∧
    ((¬ ∃ x ∈ l.nodes, x.bytes = w.bytes) → l.remove w = .ok (false, l)) := by
  constructor
  · intro hex
    obtain ⟨k, x, hkx, hpx, hfirst, her⟩ := exists_first_index
      (fun c : Word => decide (c.bytes = w.bytes)) l.nodes
      (by obtain ⟨c, hcm, hce⟩ := hex; exact ⟨c, hcm, by simpa using hce⟩)
    have hs := WordList.searchFrom_first w hw l.nodes hp 0 k x hkx (by simpa using hpx) hfirst
    have hklt : k < l.nodes.length := by
      by_contra hge
      rw [List.getElem?_eq_none (by omega)] at hkx
      exact absurd hkx (by simp)
    refine ⟨⟨l.nodes.eraseIdx k, l.size - 1⟩, ?_, her.symm, ?_, ?_⟩
    · simp only [WordList.remove, WordList.search, hs, Nat.zero_add]
    · simp only []; omega
    · simp only [List.length_eraseIdx, hklt, if_true]; omega
  · intro hno
    obtain ⟨r, hr, hiff⟩ := WordList.searchFrom_isSome w hw l.nodes hp 0
    have hnone : r = none := by
      cases r with
      | none => rfl
      | some i => exact absurd (hiff.1 rfl) hno
    simp only [WordList.remove, WordList.search, hr, hnone]

theorem C15_remove_first_occurrence_witness :
    ((∃ x ∈ (sampleList ["b", "a", "c", "a"]).nodes, x.bytes = (Word.ofCStr (ascii "a")).bytes) →
      ∃ l', (sampleList ["b", "a", "c", "a"]).remove (Word.ofCStr (ascii "a")) = .ok (true, l') ∧
        l'.nodes = (sampleList ["b", "a", "c", "a"]).nodes.eraseP
          (fun c => decide (c.bytes = (Word.ofCStr (ascii "a")).bytes)) ∧
        l'.size + 1 = (sampleList ["b", "a", "c", "a"]).size ∧
        l'.nodes.length + 1 = (sampleList ["b", "a", "c", "a"]).nodes.length) ∧
    ((¬ ∃ x ∈ (sampleList ["b", "a", "c", "a"]).nodes,
        x.bytes = (Word.ofCStr (ascii "a")).bytes) →
      (sampleList ["b", "a", "c", "a"]).remove (Word.ofCStr (ascii "a")) =
        .ok (false, sampleList ["b", "a", "c", "a"])) :=
  C15_remove_first_occurrence (sampleList ["b", "a", "c", "a"]) (Word.ofCStr (ascii "a"))
    (by decide) (by decide) (by decide)

/-- C16: for every list `l` (in particular the empty list) and word `w`:
`push_front(w)` followed by `pop_front` returns a node holding `w` and leaves
the list equal to `l`, count included; likewise `push_back(w)` followed by
`pop_back`.  Starting from the empty list the list ends empty. -/
theorem C16_push_pop_round_trip (l : WordList) (w : Word) (hw : w.present = true) :
    (∃ l1, l.push_front w = .ok l1 ∧ l1.pop_front = .ok (w, l)) ∧
    (∃ l2, l.push_back w = .ok l2 ∧ l2.pop_back = .ok (w, l)) ∧
    (∃ l1, WordList.empty.push_front w = .ok l1 ∧ l1.pop_front = .ok (w, WordList.empty)) ∧
    (∃ l2, WordList.empty.push_back w = .ok l2 ∧ l2.pop_back = .ok (w, WordList.empty)) ∧
    WordList.empty.isEmpty = true := by
  have hfront : ∀ l : WordList, ∃ l1, l.push_front w = .ok l1 ∧ l1.pop_front = .ok (w, l) := by
    intro l
    refine ⟨⟨w :: l.nodes, l.size + 1⟩, ?_, ?_⟩
    · simp [WordList.push_front, Word.copy_of_present hw]
    · simp [WordList.pop_front, WordList.isEmpty]
  have hback : ∀ l : WordList, ∃ l2, l.push_back w = .ok l2 ∧ l2.pop_back = .ok (w, l) := by
    intro l
    refine ⟨⟨l.nodes ++ [w], l.size + 1⟩, ?_, ?_⟩
    · simp [WordList.push_back, Word.copy_of_present hw]
    · simp [WordList.pop_back, WordList.isEmpty]
  exact ⟨hfront l, hback l, hfront _, hback _, rfl⟩

theorem C16_push_pop_round_trip_witness :
    (∃ l1, (sampleList ["b", "a"]).push_front (Word.ofCStr (ascii "c")) = .ok l1 ∧
      l1.pop_front = .ok (Word.ofCStr (ascii "c"), sampleList ["b", "a"])) ∧
    (∃ l2, (sampleList ["b", "a"]).push_back (Word.ofCStr (ascii "c")) = .ok l2 ∧
      l2.pop_back = .ok (Word.ofCStr (ascii "c"), sampleList ["b", "a"])) ∧
    (∃ l1, WordList.empty.push_front (Word.ofCStr (ascii "c")) = .ok l1 ∧
      l1.pop_front = .ok (Word.ofCStr (ascii "c"), WordList.empty)) ∧
    (∃ l2, WordList.empty.push_back (Word.ofCStr (ascii "c")) = .ok l2 ∧
      l2.pop_back = .ok (Word.ofCStr (ascii "c"), WordList.empty)) ∧
    WordList.empty.isEmpty = true :=
  C16_push_pop_round_trip (sampleList ["b", "a"]) (Word.ofCStr (ascii "c")) (by decide)

/-- C17: `front`, `back`, `pop_front` and `pop_back` fail with the
empty-container fault (`runtime_error("List is empty")`) if and only if the
list is empty; on a non-empty list `front` returns the first element and `back`
the last (both are `const` and return only the word: the list is not changed),
and the two pops return the same elements and the rest of the list. -/
theorem C17_empty_container_faults (l : WordList) :
    (l.front = .error Fault.ListIsEmpty ↔ l.nodes = []) ∧
    (l.back = .error Fault.ListIsEmpty ↔ l.nodes = []) ∧
    (l.pop_front = .error Fault.ListIsEmpty ↔ l.nodes = []) ∧
    (l.pop_back = .error Fault.ListIsEmpty ↔ l.nodes = []) ∧
    (∀ first rest, l.nodes = first :: rest →
      l.front = .ok first ∧ l.pop_front = .ok (first, ⟨rest, l.size - 1⟩)) ∧
    (∀ init last, l.nodes = init ++ [last] →
      l.back = .ok last ∧ l.pop_back = .ok (last, ⟨init, l.size - 1⟩)) := by
  have hf : ∀ first rest, l.nodes = first :: rest →
      l.front = .ok first ∧ l.pop_front = .ok (first, ⟨rest, l.size - 1⟩) := by
    intro first rest hn
    simp [WordList.front, WordList.pop_front, WordList.isEmpty, hn]
  have hb : ∀ init last, l.nodes = init ++ [last] →
      l.back = .ok last ∧ l.pop_back = .ok (last, ⟨init, l.size - 1⟩) := by
    intro init last hn
    simp [WordList.back, WordList.pop_back, WordList.isEmpty, hn]
  refine ⟨?_, ?_, ?_, ?_, hf, hb⟩
  · constructor
    · intro h
      cases hn : l.nodes with
      | nil => rfl
      | cons a as => rw [(hf a as hn).1] at h; simp at h
    · intro hn
      simp [WordList.front, WordList.isEmpty, hn]
  · constructor
    · intro h
      rcases List.eq_nil_or_concat l.nodes with hn | ⟨init, last, hn⟩
      · exact hn
      · rw [(hb init last (by simpa using hn)).1] at h; simp at h
    · intro hn
      simp [WordList.back, WordList.isEmpty, hn]
  · constructor
    · intro h
      cases hn : l.nodes with
      | nil => rfl
      | cons a as => rw [(hf a as hn).2] at h; simp at h
    · intro hn
      simp [WordList.pop_front, WordList.isEmpty, hn]
  · constructor
    · intro h
      rcases List.eq_nil_or_concat l.nodes with hn | ⟨init, last, hn⟩
      · exact hn
      · rw [(hb init last (by simpa using hn)).2] at h; simp at h
    · intro hn
      simp [WordList.pop_back, WordList.isEmpty, hn]

theorem WordList.walk_eq (k : Nat) : ∀ nodes : List Word, k ≤ nodes.length →
    WordList.walk k nodes = .ok (nodes.drop k) := by
  induction k with
  | zero => intro nodes _; rfl
  | succ k ih =>
    intro nodes hk
    cases nodes with
    | nil => simp at hk
    | cons a as =>
      simp only [WordList.walk, List.drop_succ_cons]
      exact ih as (by simpa using hk)

theorem WordList.fetchWord_in_range (l : WordList) (hp : ∀ c ∈ l.nodes, c.present = true)
    (hsz : l.size = l.nodes.length) (k : Nat) (hk : k < l.nodes.length) :
    ∃ w, l.nodes[k]? = some w ∧ l.fetchWord (k : Int) = .ok w := by
  have hget : l.nodes[k]? = some l.nodes[k] := List.getElem?_eq_getElem hk
  refine ⟨l.nodes[k], hget, ?_⟩
  have hcond : ¬ ((k : Int) < 0 ∨ (k : Int) ≥ (l.size : Int)) := by omega
  have hdrop : l.nodes.drop k = l.nodes[k] :: l.nodes.drop (k + 1) :=
    List.drop_eq_getElem_cons hk
  have hpres : (l.nodes[k]).present = true := hp _ (List.getElem_mem hk)
  simp only [WordList.fetchWord, WordList.getWord, hcond, if_false, Int.toNat_ofNat,
    WordList.walk_eq k l.nodes (by omega), hdrop, Word.copy_of_present hpres]

/-- C18: for every list `l` of count `k` and every integer index `i`:
`fetchWord(i)` fails with the out-of-range fault
(`runtime_error("Index out of range")`) if and only if `i < 0` or `i >= k`, and
otherwise returns a copy of the `i`-th element counted from the head
(`fetchWord(0)` is `front`, `fetchWord(k - 1)` is `back`); `fetchWord` is
`const` and returns only the word, so `l` is unchanged. -/
theorem C18_fetchWord (l : WordList) (hp : ∀ c ∈ l.nodes, c.present = true)
    (hsz : l.size = l.nodes.length) (i : Int) :
    (l.fetchWord i = .error Fault.IndexOutOfRange ↔ (i < 0 ∨ i ≥ (l.size : Int))) ∧
    (0 ≤ i → i < (l.size : Int) →
      ∃ w, l.nodes[i.toNat]? = some w ∧ l.fetchWord i = .ok w) ∧
    (l.nodes ≠ [] → l.fetchWord 0 = l.front ∧ l.fetchWord ((l.size : Int) - 1) = l.back) := by
  have hin : 0 ≤ i → i < (l.size : Int) →
      ∃ w, l.nodes[i.toNat]? = some w ∧ l.fetchWord i = .ok w := by
    intro h0 h1
    obtain ⟨w, hw1, hw2⟩ := WordList.fetchWord_in_range l hp hsz i.toNat (by omega)
    refine ⟨w, hw1, ?_⟩
    rw [Int.toNat_of_nonneg h0] at hw2
    exact hw2
  refine ⟨?_, hin, ?_⟩
  · constructor
    · intro h
      by_contra hc
      obtain ⟨w, -, hw⟩ := hin (by omega) (by omega)
      rw [hw] at h
      simp at h
    · intro h
      simp [WordList.fetchWord, WordList.getWord, h]
  · intro hne
    constructor
    · cases hn : l.nodes with
      | nil => exact absurd hn hne
      | cons a as =>
        obtain ⟨w, hw1, hw2⟩ := WordList.fetchWord_in_range l hp hsz 0 (by simp [hn])
        rw [hn] at hw1
        simp only [List.getElem?_cons_zero, Option.some.injEq] at hw1
        rw [Nat.cast_zero] at hw2
        rw [hw2, WordList.front_cons l a as hn, hw1]
    · have hpos : 0 < l.nodes.length := List.length_pos.2 hne
      obtain ⟨w, hw1, hw2⟩ := WordList.fetchWord_in_range l hp hsz (l.nodes.length - 1)
        (by omega)
      have hcast : ((l.nodes.length - 1 : Nat) : Int) = (l.size : Int) - 1 := by omega
      rw [hcast] at hw2
      have hlast : l.nodes.getLast? = some w := by
        rw [List.getLast?_eq_getElem?]
        exact hw1
      have hback : l.back = .ok w := by
        simp [WordList.back, WordList.isEmpty, hne, hlast]
      rw [hw2, hback]

theorem C18_fetchWord_witness :
    ((sampleList ["b", "a", "c"]).fetchWord 1 = .error Fault.IndexOutOfRange ↔
      ((1 : Int) < 0 ∨ (1 : Int) ≥ ((sampleList ["b", "a", "c"]).size : Int))) ∧
    (0 ≤ (1 : Int) → (1 : Int) < ((sampleList ["b", "a", "c"]).size : Int) →
      ∃ w, (sampleList ["b", "a", "c"]).nodes[(1 : Int).toNat]? = some w ∧
        (sampleList ["b", "a", "c"]).fetchWord 1 = .ok w) ∧
    ((sampleList ["b", "a", "c"]).nodes ≠ [] →
      (sampleList ["b", "a", "c"]).fetchWord 0 = (sampleList ["b", "a", "c"]).front ∧
      (sampleList ["b", "a", "c"]).fetchWord (((sampleList ["b", "a", "c"]).size : Int) - 1) =
        (sampleList ["b", "a", "c"]).back) :=
  C18_fetchWord (sampleList ["b", "a", "c"]) (by decide) (by decide) 1

theorem Word.atIndex_zero (w : Word) (hwf : w.wf = true) (hne : 0 < w.size) :
    ∃ b, w.bytes.head? = some b ∧ w.atIndex 0 = .ok b := by
  cases w with
  | mk p n => cases p with
    | none => simp [Word.wf] at hwf
    | some bs =>
      simp only [Word.wf, decide_eq_true_eq] at hwf
      simp only [] at hne
      cases bs with
      | nil => simp at hwf; omega
      | cons b t =>
        refine ⟨b, rfl, ?_⟩
        have : ¬ (0 ≥ n) := by omega
        simp [Word.atIndex, this]

theorem Word.present_of_wf (w : Word) (hwf : w.wf = true) : w.present = true := by
  cases w with
  | mk p n => cases p with
    | none => simp [Word.wf] at hwf
    | some bs => rfl

theorem WordList.startingLoop_eq (letter : Nat) (nodes : List Word)
    (hn : ∀ w ∈ nodes, w.wf = true ∧ 0 < w.size) :
    ∀ acc : WordList, WordList.startingLoop letter nodes acc =
      .ok ⟨acc.nodes ++ nodes.filter (fun w => decide (w.atIndex 0 = .ok letter)),
        acc.size + (nodes.filter (fun w => decide (w.atIndex 0 = .ok letter))).length⟩ := by
  induction nodes with
  | nil => intro acc; simp [WordList.startingLoop]
  | cons c cs ih =>
    intro acc
    obtain ⟨hwf, hpos⟩ := hn c (List.mem_cons_self _ _)
    have hcs : ∀ w ∈ cs, w.wf = true ∧ 0 < w.size :=
      fun w hw => hn w (List.mem_cons_of_mem _ hw)
    obtain ⟨b, -, hb⟩ := Word.atIndex_zero c hwf hpos
    have hcp : c.present = true := Word.present_of_wf c hwf
    simp only [WordList.startingLoop, hb]
    by_cases hbl : b = letter
    · subst hbl
      have hfc : (c :: cs).filter (fun w => decide (w.atIndex 0 = .ok b)) =
          c :: cs.filter (fun w => decide (w.atIndex 0 = .ok b)) := by
        simp [List.filter_cons, hb]
      simp only [if_true, WordList.push_back, Word.copy_of_present hcp, ih hcs, hfc,
        List.append_assoc, List.singleton_append, List.length_cons]
      congr 2
      omega
    · have hfc : (c :: cs).filter (fun w => decide (w.atIndex 0 = .ok letter)) =
          cs.filter (fun w => decide (w.atIndex 0 = .ok letter)) := by
        simp [List.filter_cons, hb, hbl]
      simp only [hbl, if_false, ih hcs, hfc]

/-- C19: for every list `l` all of whose elements are non-empty words and every
character `c`, `wordsStartingWith(c)` returns a new list equal to the
sub-sequence of `l`, in original order, of exactly those elements whose first
character (`at(0)`) is `c`, with their number as its count; the function is
`const` and returns only the new list, so `l` is unchanged. -/
theorem C19_wordsStartingWith (l : WordList) (hn : ∀ w ∈ l.nodes, w.wf = true ∧ 0 < w.size)
    (c : Nat) :
    l.wordsStartingWith c =
      .ok ⟨l.nodes.filter (fun w => decide (w.atIndex 0 = .ok c)),
        (l.nodes.filter (fun w => decide (w.atIndex 0 = .ok c))).length⟩ ∧
    (l.nodes.filter (fun w => decide (w.atIndex 0 = .ok c))).Sublist l.nodes ∧
    ∀ w ∈ l.nodes, (w ∈ l.nodes.filter (fun w => decide (w.atIndex 0 = .ok c)) ↔
      w.bytes.head? = some c) := by
  refine ⟨?_, List.filter_sublist _, ?_⟩
  · rw [WordList.wordsStartingWith, WordList.startingLoop_eq c l.nodes hn WordList.empty]
    simp [WordList.empty]
  · intro w hw
    obtain ⟨hwf, hpos⟩ := hn w hw
    obtain ⟨b, hb1, hb2⟩ := Word.atIndex_zero w hwf hpos
    simp [List.mem_filter, hw, hb1, hb2]

theorem C19_wordsStartingWith_witness :
    (sampleList ["bee", "ant", "cat", "asp"]).wordsStartingWith 97 =
      .ok ⟨(sampleList ["bee", "ant", "cat", "asp"]).nodes.filter
          (fun w => decide (w.atIndex 0 = .ok 97)),
        ((sampleList ["bee", "ant", "cat", "asp"]).nodes.filter
          (fun w => decide (w.atIndex 0 = .ok 97))).length⟩ ∧
    ((sampleList ["bee", "ant", "cat", "asp"]).nodes.filter
      (fun w => decide (w.atIndex 0 = .ok 97))).Sublist
        (sampleList ["bee", "ant", "cat", "asp"]).nodes ∧
    ∀ w ∈ (sampleList ["bee", "ant", "cat", "asp"]).nodes,
      (w ∈ (sampleList ["bee", "ant", "cat", "asp"]).nodes.filter
          (fun w => decide (w.atIndex 0 = .ok 97)) ↔
        w.bytes.head? = some 97) :=
  C19_wordsStartingWith (sampleList ["bee", "ant", "cat", "asp"]) (by decide) 97

/-- C20 (as stated, refuted): on a list that holds an empty word,
`wordsStartingWith` does not return: `at(0)` throws `std::out_of_range` on the
empty word, whether it is the only element or stands among words that start
with the letter asked for; without the empty word the call returns. -/
theorem C20_counterexample :
    (sampleList [""]).wordsStartingWith 97 = .error Fault.OutOfRange ∧
    (sampleList ["ant", "", "asp"]).wordsStartingWith 97 = .error Fault.OutOfRange ∧
    (Word.ofCStr (ascii "")).atIndex 0 = .error Fault.OutOfRange ∧
    (sampleList ["ant", "asp"]).wordsStartingWith 97 = .ok (sampleList ["ant", "asp"]) := by
  decide

theorem WordList.startingLoop_empty_word (letter : Nat) (nodes : List Word)
    (hwf : ∀ w ∈ nodes, w.wf = true) (hex : ∃ w ∈ nodes, w.size = 0) :
    ∀ acc : WordList, WordList.startingLoop letter nodes acc = .error Fault.OutOfRange := by
  induction nodes with
  | nil => simp at hex
  | cons c cs ih =>
    intro acc
    by_cases hz : c.size = 0
    · simp [WordList.startingLoop, Word.atIndex, hz]
    · have hcs : ∃ w ∈ cs, w.size = 0 := by
        obtain ⟨w, hw, hwz⟩ := hex
        rcases List.mem_cons.1 hw with e | e
        · rw [e] at hwz; exact absurd hwz hz
        · exact ⟨w, e, hwz⟩
      have hcwf : c.wf = true := hwf c (List.mem_cons_self _ _)
      have hwfs : ∀ w ∈ cs, w.wf = true := fun w hw => hwf w (List.mem_cons_of_mem _ hw)
      obtain ⟨b, -, hb⟩ := Word.atIndex_zero c hcwf (by omega)
      have hcp : c.present = true := Word.present_of_wf c hcwf
      simp only [WordList.startingLoop, hb, WordList.push_back, Word.copy_of_present hcp]
      split_ifs
      · exact ih hwfs hcs _
      · exact ih hwfs hcs _

/-- C20 (amended): for every list `l` (of words built from text) that contains
an empty-string element and every character `c`, `wordsStartingWith(c)` fails
with the out-of-range fault: `at(0)` throws `std::out_of_range` on the first
empty element the scan reaches, and no list is returned. -/
theorem C20_wordsStartingWith_empty_element (l : WordList) (hwf : ∀ w ∈ l.nodes, w.wf = true)
    (hex : ∃ w ∈ l.nodes, w.size = 0) (c : Nat) :
    l.wordsStartingWith c = .error Fault.OutOfRange ∧
    ∀ w ∈ l.nodes, w.size = 0 → w.atIndex 0 = .error Fault.OutOfRange := by
  refine ⟨WordList.startingLoop_empty_word c l.nodes hwf hex WordList.empty, ?_⟩
  intro w _ hz
  simp [Word.atIndex, hz]

theorem C20_wordsStartingWith_empty_element_witness :
    (sampleList ["bee", "ant", "", "asp"]).wordsStartingWith 97 = .error Fault.OutOfRange ∧
    ∀ w ∈ (sampleList ["bee", "ant", "", "asp"]).nodes, w.size = 0 →
      w.atIndex 0 = .error Fault.OutOfRange :=
  C20_wordsStartingWith_empty_element (sampleList ["bee", "ant", "", "asp"]) (by decide)
    (by decide) 97

theorem strcmpBytes_neg_iff_lex (a b : List Nat) :
    strcmpBytes a b < 0 ↔ List.Lex (· < ·) a b := by
  induction a generalizing b with
  | nil =>
    cases b with
    | nil =>
      constructor
      · intro h; simp [strcmpBytes] at h
      · intro h; cases h
    | cons y ys =>
      constructor
      · intro _; exact List.Lex.nil
      · intro _; simp [strcmpBytes]
  | cons x xs ih =>
    cases b with
    | nil =>
      constructor
      · intro h; simp [strcmpBytes] at h
      · intro h; cases h
    | cons y ys =>
      simp only [strcmpBytes]
      constructor
      · intro h
        split_ifs at h with h1 h2
        · rw [h1]; exact List.Lex.cons ((ih ys).1 h)
        · exact List.Lex.rel h2
        · omega
      · intro h
        cases h with
        | cons h' => simp only [if_true]; exact (ih ys).2 h'
        | rel h' =>
          have hne : x ≠ y := by omega
          simp [hne, h']

theorem lex_append_cons (a : List Nat) (x : Nat) (xs : List Nat) :
    List.Lex (· < ·) a (a ++ x :: xs) := by
  induction a with
  | nil => exact List.Lex.nil
  | cons y ys ih => exact List.Lex.cons ih

theorem Word.isLess_ofCStr (a b : List Nat) :
    (Word.ofCStr a).isLess (Word.ofCStr b) = .ok (decide (strcmpBytes a b < 0)) := rfl

theorem Word.eq_ofCStr (a b : List Nat) :
    (Word.ofCStr a).eq (Word.ofCStr b) = .ok (decide (strcmpBytes a b = 0)) := rfl

/-- C21: for all words built from texts `a` and `b`, `isLess` holds exactly
when `a` precedes `b` in the lexicographic order of the byte values (a proper
prefix precedes its extensions), and `==` exactly when the contents match byte
for byte with equal length; `isLess` is irreflexive and transitive, and exactly
one of `a.isLess(b)`, `a == b`, `b.isLess(a)` holds. -/
theorem C21_isLess_strict_total_order (a b c : List Nat) :
    ((Word.ofCStr a).isLess (Word.ofCStr b) = .ok true ↔ List.Lex (· < ·) a b) ∧
    ((Word.ofCStr a).isLess (Word.ofCStr b) = .ok false ↔ ¬ List.Lex (· < ·) a b) ∧
    ((Word.ofCStr a).eq (Word.ofCStr b) = .ok true ↔ a = b) ∧
    ((Word.ofCStr a).eq (Word.ofCStr b) = .ok false ↔ a ≠ b) ∧
    (∀ x xs, (Word.ofCStr a).isLess (Word.ofCStr (a ++ x :: xs)) = .ok true) ∧
    (Word.ofCStr a).isLess (Word.ofCStr a) = .ok false ∧
    ((Word.ofCStr a).isLess (Word.ofCStr b) = .ok true →
      (Word.ofCStr b).isLess (Word.ofCStr c) = .ok true →
      (Word.ofCStr a).isLess (Word.ofCStr c) = .ok true) ∧
    (((Word.ofCStr a).isLess (Word.ofCStr b) = .ok true ∧
        (Word.ofCStr a).eq (Word.ofCStr b) = .ok false ∧
        (Word.ofCStr b).isLess (Word.ofCStr a) = .ok false) ∨
      ((Word.ofCStr a).isLess (Word.ofCStr b) = .ok false ∧
        (Word.ofCStr a).eq (Word.ofCStr b) = .ok true ∧
        (Word.ofCStr b).isLess (Word.ofCStr a) = .ok false) ∨
      ((Word.ofCStr a).isLess (Word.ofCStr b) = .ok false ∧
        (Word.ofCStr a).eq (Word.ofCStr b) = .ok false ∧
        (Word.ofCStr b).isLess (Word.ofCStr a) = .ok true)) := by
  have hswap := strcmpBytes_swap a b
  have hzero : strcmpBytes a b = 0 ↔ a = b := strcmpBytes_eq_zero
  refine ⟨?_, ?_, ?_, ?_, ?_, ?_, ?_, ?_⟩
  · rw [Word.isLess_ofCStr, ← strcmpBytes_neg_iff_lex]; simp
  · rw [Word.isLess_ofCStr, ← strcmpBytes_neg_iff_lex]; simp
  · rw [Word.eq_ofCStr, ← hzero]; simp
  · rw [Word.eq_ofCStr, Ne, ← hzero]; simp
  · intro x xs
    rw [Word.isLess_ofCStr]
    have : strcmpBytes a (a ++ x :: xs) < 0 :=
      (strcmpBytes_neg_iff_lex _ _).2 (lex_append_cons a x xs)
    simp [this]
  · rw [Word.isLess_ofCStr, strcmpBytes_self]; rfl
  · simp only [Word.isLess_ofCStr, Except.ok.injEq, decide_eq_true_eq]
    intro h1 h2
    have h3 : strcmpBytes a c ≤ 0 := strcmpBytes_le_trans (Int.le_of_lt h1) (Int.le_of_lt h2)
    by_cases h : strcmpBytes a c < 0
    · exact h
    · have hac : a = c := strcmpBytes_eq_zero.1 (by omega)
      rw [← hac] at h2
      omega
  · simp only [Word.isLess_ofCStr, Word.eq_ofCStr, Except.ok.injEq, decide_eq_true_eq,
      decide_eq_false_iff_not]
    rcases Int.lt_trichotomy (strcmpBytes a b) 0 with h | h | h
    · left; omega
    · right; left; omega
    · right; right; omega

/-- C22: for all words built from texts `a`, `b` and every delimiter `d`,
`a.concat(b, d)` returns a new word whose content is `a` followed by `d`
followed by `b` and whose `length()` is the sum of the three lengths; the
function is `const` on `a` and takes `b` by `const` reference, and returns only
the new word; the delimiter of the declaration in Word.h is a single space. -/
theorem C22_concat (a b d : List Nat) :
    (Word.ofCStr a).concat (Word.ofCStr b) d = .ok (Word.ofCStr (a ++ d ++ b)) ∧
    (Word.ofCStr (a ++ d ++ b)).bytes = a ++ d ++ b ∧
    (Word.ofCStr (a ++ d ++ b)).length = a.length + d.length + b.length ∧
    (Word.ofCStr (a ++ d ++ b)).length =
      (Word.ofCStr a).length + d.length + (Word.ofCStr b).length ∧
    Word.defaultDelimiter = [32] ∧
    (Word.ofCStr a).concat (Word.ofCStr b) Word.defaultDelimiter =
      .ok (Word.ofCStr (a ++ [32] ++ b)) := by
  have h : ∀ d : List Nat, (Word.ofCStr a).concat (Word.ofCStr b) d =
      .ok (Word.ofCStr (a ++ d ++ b)) := by
    intro d
    simp [Word.concat, Word.ofCStr]
  refine ⟨h d, rfl, ?_, ?_, rfl, h _⟩
  · simp [Word.length, Word.ofCStr]; omega
  · simp [Word.length, Word.ofCStr]; omega

theorem getElem?_append_terminator (s : List Nat) (n : Nat) (hn : n < s.length) :
    (s ++ [0])[n]? = s[n]? :=
  List.getElem?_append_left hn

/-- C23: for every word `w` built from a text `s` and every index `n`:
`w.length()` is the number of characters of `s`, and `w.at(n)` fails with
`std::out_of_range` if and only if `n >= w.length()`; otherwise it returns the
`n`-th character of `s` (0-based). -/
theorem C23_length_and_at (s : List Nat) (n : Nat) :
    (Word.ofCStr s).length = s.length ∧
    ((Word.ofCStr s).atIndex n = .error Fault.OutOfRange ↔ n ≥ (Word.ofCStr s).length) ∧
    (n < (Word.ofCStr s).length →
      ∃ ch, s[n]? = some ch ∧ (Word.ofCStr s).atIndex n = .ok ch) := by
  have hin : n < s.length → ∃ ch, s[n]? = some ch ∧ (Word.ofCStr s).atIndex n = .ok ch := by
    intro hn
    refine ⟨s[n], List.getElem?_eq_getElem hn, ?_⟩
    have h1 : ¬ n ≥ s.length := by omega
    simp [Word.atIndex, Word.ofCStr, h1, getElem?_append_terminator s n hn,
      List.getElem?_eq_getElem hn]
  refine ⟨rfl, ?_, hin⟩
  constructor
  · intro h
    by_contra hc
    obtain ⟨ch, -, hch⟩ := hin (by simpa [Word.length, Word.ofCStr] using hc)
    rw [hch] at h
    simp at h
  · intro h
    have h1 : n ≥ s.length := h
    simp [Word.atIndex, Word.ofCStr, h1]

/-- C24 (the code at a failing input): `Word::read` on a line of 64 characters
stores only its first 63 characters, and leaves the 64th unread in the stream;
a line of 63 characters is stored whole, and a line of 100 characters is cut
to 63. -/
theorem C24_read_failing_input :
    Word.LONGEST_WORD_PLUS_ONE = 65 ∧
    (Word.default.read (List.replicate 64 97 ++ [10])).1 = Word.ofCStr (List.replicate 63 97) ∧
    (Word.default.read (List.replicate 64 97 ++ [10])).1.length = 63 ∧
    (Word.default.read (List.replicate 64 97 ++ [10])).2 = [97, 10] ∧
    (Word.default.read (List.replicate 63 97 ++ [10])).1 = Word.ofCStr (List.replicate 63 97) ∧
    (Word.default.read (List.replicate 63 97 ++ [10])).2 = [] ∧
    (Word.default.read (List.replicate 100 97 ++ [10])).1.length = 63 := by
  decide

/-- C25 (as stated, refuted): the default-constructed `Word` has a null buffer,
so it does not satisfy the representation invariant, and the copy constructor,
the copy assignment, `isLess`, `==` and `concat` read through the null pointer. -/
theorem C25_counterexample :
    Word.default.word_ptr = none ∧ Word.default.wf = false ∧
    Word.default.copy = .error Fault.NullDeref ∧
    (Word.ofCStr []).assign Word.default = .error Fault.NullDeref ∧
    Word.default.isLess (Word.ofCStr []) = .error Fault.NullDeref ∧
    Word.default.eq Word.default = .error Fault.NullDeref ∧
    Word.default.concat (Word.ofCStr []) [32] = .error Fault.NullDeref := by
  decide

theorem Word.wf_iff (w : Word) :
    w.wf = true ↔ ∃ bs, w.word_ptr = some bs ∧ w.size = bs.length := by
  cases w with
  | mk p n => cases p with
    | none => simp [Word.wf]
    | some bs => simp [Word.wf]

/-- C25 (amended): every `Word` the class builds from text satisfies the
representation invariant (its buffer is present and holds a string of exactly
`length()` characters, the empty string when the length is 0): the word
`Word(const char*)` builds, a copy of such a word by the copy constructor or
the copy assignment, the result of `concat` on two such words, of `read` and of
`changeWord`, and the target of a move from such a word; on such words copy,
`isLess`, `==` and `concat` return.  The default-constructed `Word` is the
empty state with length 0 and an absent (null) buffer, on which `length()` and
`print` are defined. -/
theorem C25_representation_invariant (w v self : Word) (hw : w.wf = true) (hv : v.wf = true)
    (s d sin out : List Nat) :
    (Word.ofCStr s).wf = true ∧ (Word.ofCStr []).wf = true ∧
    (Word.ofCStr []).word_ptr = some [] ∧ (Word.ofCStr []).length = 0 ∧
    w.copy = .ok w ∧ self.assign w = .ok w ∧ self.changeWord w = .ok w ∧
    (self.changeWordCStr s).wf = true ∧
    (∃ c, w.concat v d = .ok c ∧ c.wf = true ∧ c.bytes = w.bytes ++ d ++ v.bytes) ∧
    (self.read sin).1.wf = true ∧
    (w.move).1.wf = true ∧ (self.moveAssign w).1.wf = true ∧
    (∃ r, w.isLess v = .ok r) ∧ (∃ r, w.eq v = .ok r) ∧
    Word.default.word_ptr = none ∧ Word.default.length = 0 ∧
    Word.default.print out = out := by
  obtain ⟨a, ha, hsa⟩ := (Word.wf_iff w).1 hw
  obtain ⟨b, hb, hsb⟩ := (Word.wf_iff v).1 hv
  have hwp : w.present = true := Word.present_of_wf w hw
  have hvp : v.present = true := Word.present_of_wf v hv
  have hof : ∀ t : List Nat, (Word.ofCStr t).wf = true := by
    intro t; simp [Word.wf, Word.ofCStr]
  refine ⟨hof s, hof [], rfl, rfl, Word.copy_of_present hwp, Word.assign_of_present _ hwp,
    Word.assign_of_present _ hwp, hof s, ?_, hof _, ?_, ?_, ?_, ?_, rfl, rfl, rfl⟩
  · refine ⟨Word.ofCStr (a ++ d ++ b), ?_, hof _, ?_⟩
    · simp [Word.concat, ha, hb, hsa, hsb]
    · simp [Word.bytes, Word.ofCStr, ha, hb]
  · simpa [Word.move] using hw
  · simpa [Word.moveAssign] using hw
  · exact ⟨_, Word.isLess_of_present hwp hvp⟩
  · exact ⟨_, Word.eq_of_present hwp hvp⟩

theorem C25_representation_invariant_witness :
    (Word.ofCStr (ascii "mango")).wf = true ∧ (Word.ofCStr []).wf = true ∧
    (Word.ofCStr []).word_ptr = some [] ∧ (Word.ofCStr []).length = 0 ∧
    (Word.ofCStr (ascii "pear")).copy = .ok (Word.ofCStr (ascii "pear")) ∧
    Word.default.assign (Word.ofCStr (ascii "pear")) = .ok (Word.ofCStr (ascii "pear")) ∧
    Word.default.changeWord (Word.ofCStr (ascii "pear")) = .ok (Word.ofCStr (ascii "pear")) ∧
    (Word.default.changeWordCStr (ascii "mango")).wf = true ∧
    (∃ c, (Word.ofCStr (ascii "pear")).concat (Word.ofCStr []) [32] = .ok c ∧ c.wf = true ∧
      c.bytes = (Word.ofCStr (ascii "pear")).bytes ++ [32] ++ (Word.ofCStr []).bytes) ∧
    (Word.default.read (ascii "fig")).1.wf = true ∧
    ((Word.ofCStr (ascii "pear")).move).1.wf = true ∧
    (Word.default.moveAssign (Word.ofCStr (ascii "pear"))).1.wf = true ∧
    (∃ r, (Word.ofCStr (ascii "pear")).isLess (Word.ofCStr []) = .ok r) ∧
    (∃ r, (Word.ofCStr (ascii "pear")).eq (Word.ofCStr []) = .ok r) ∧
    Word.default.word_ptr = none ∧ Word.default.length = 0 ∧
    Word.default.print (ascii "x") = ascii "x" :=
  C25_representation_invariant (Word.ofCStr (ascii "pear")) (Word.ofCStr []) Word.default
    (by decide) (by decide) (ascii "mango") [32] (ascii "fig") (ascii "x")

/-- C26 (as stated, refuted): after a move from the word `ab`, the source has a
null buffer, not an empty string, and the copy constructor, `isLess`, `==` and
`concat` on it read through the null pointer. -/
theorem C26_counterexample :
    ((Word.ofCStr (ascii "ab")).move).2.word_ptr = none ∧
    ((Word.ofCStr (ascii "ab")).move).2 ≠ Word.ofCStr [] ∧
    ((Word.ofCStr (ascii "ab")).move).2.copy = .error Fault.NullDeref ∧
    ((Word.ofCStr (ascii "ab")).move).2.isLess (Word.ofCStr (ascii "ab")) =
      .error Fault.NullDeref ∧
    ((Word.ofCStr (ascii "ab")).move).2.eq (Word.ofCStr (ascii "ab")) =
      .error Fault.NullDeref ∧
    ((Word.ofCStr (ascii "ab")).move).2.concat (Word.ofCStr (ascii "ab")) [32] =
      .error Fault.NullDeref ∧
    (Word.default.moveAssign (Word.ofCStr (ascii "ab"))).2.word_ptr = none := by
  decide

/-- C26 (amended): for every word `a` built from text, after move-construction
(or move-assignment) of a word `b` from `a`, `b` has the former content and
length of `a`, and `a` is left in the state of a default-constructed `Word`:
`a.length() == 0` and an absent (null) buffer, on which `length()` and `print`
are defined. -/
theorem C26_move_leaves_default (a self : Word) (ha : a.wf = true) (out : List Nat) :
    (a.move).1 = a ∧ (a.move).1.bytes = a.bytes ∧ (a.move).1.length = a.length ∧
    (a.move).2 = Word.default ∧ (a.move).2.length = 0 ∧ (a.move).2.word_ptr = none ∧
    (a.move).2.print out = out ∧
    (self.moveAssign a).1 = a ∧ (self.moveAssign a).2 = Word.default ∧
    (self.moveAssign a).2.length = 0 ∧ (self.moveAssign a).2.word_ptr = none ∧
    (a.move).1.wf = true := by
  refine ⟨rfl, rfl, rfl, rfl, rfl, rfl, rfl, rfl, rfl, rfl, rfl, ?_⟩
  simpa [Word.move] using ha

theorem C26_move_leaves_default_witness :
    ((Word.ofCStr (ascii "ab")).move).1 = Word.ofCStr (ascii "ab") ∧
    ((Word.ofCStr (ascii "ab")).move).1.bytes = (Word.ofCStr (ascii "ab")).bytes ∧
    ((Word.ofCStr (ascii "ab")).move).1.length = (Word.ofCStr (ascii "ab")).length ∧
    ((Word.ofCStr (ascii "ab")).move).2 = Word.default ∧
    ((Word.ofCStr (ascii "ab")).move).2.length = 0 ∧
    ((Word.ofCStr (ascii "ab")).move).2.word_ptr = none ∧
    ((Word.ofCStr (ascii "ab")).move).2.print (ascii "x") = ascii "x" ∧
    (Word.default.moveAssign (Word.ofCStr (ascii "ab"))).1 = Word.ofCStr (ascii "ab") ∧
    (Word.default.moveAssign (Word.ofCStr (ascii "ab"))).2 = Word.default ∧
    (Word.default.moveAssign (Word.ofCStr (ascii "ab"))).2.length = 0 ∧
    (Word.default.moveAssign (Word.ofCStr (ascii "ab"))).2.word_ptr = none ∧
    ((Word.ofCStr (ascii "ab")).move).1.wf = true :=
  C26_move_leaves_default (Word.ofCStr (ascii "ab")) Word.default (by decide) (ascii "x")

theorem WordObj.deref_ok_iff (h : CharHeap) (p : Option Nat) (s : List Nat) :
    WordObj.deref h p = .ok s ↔ ∃ a, p = some a ∧ h[a]? = some (some s) := by
  cases p with
  | none => simp [WordObj.deref]
  | some a =>
    simp only [WordObj.deref, Option.some.injEq, exists_eq_left']
    rcases hq : h[a]? with _ | (_ | bs) <;> simp

theorem WordObj.deref_alloc_new (h : CharHeap) (bs : List Nat) :
    WordObj.deref (WordObj.alloc h bs).2 (some (WordObj.alloc h bs).1) = .ok bs := by
  simp [WordObj.deref_ok_iff, WordObj.alloc]

theorem WordObj.deref_alloc_old (h : CharHeap) (bs s : List Nat) (p : Option Nat)
    (hp : WordObj.deref h p = .ok s) :
    WordObj.deref (WordObj.alloc h bs).2 p = .ok s ∧ p ≠ some (WordObj.alloc h bs).1 := by
  obtain ⟨a, rfl, ha⟩ := (WordObj.deref_ok_iff h p s).1 hp
  have hlt : a < h.length := (List.getElem?_eq_some_iff.1 ha).1
  refine ⟨(WordObj.deref_ok_iff _ _ _).2 ⟨a, rfl, ?_⟩, ?_⟩
  · simp [WordObj.alloc, List.getElem?_append_left hlt, ha]
  · simp only [WordObj.alloc, ne_eq, Option.some.injEq]
    omega

theorem WordObj.free_live (h : CharHeap) (q : Option Nat) (t : List Nat)
    (hq : WordObj.deref h q = .ok t) :
    ∃ h1, WordObj.free h q = .ok h1 ∧ h1.length = h.length ∧
      ∀ p s, p ≠ q → WordObj.deref h p = .ok s → WordObj.deref h1 p = .ok s := by
  obtain ⟨b, rfl, hb⟩ := (WordObj.deref_ok_iff h q t).1 hq
  refine ⟨h.set b none, by simp [WordObj.free, hb], by simp, ?_⟩
  intro p s hne hp
  obtain ⟨a, rfl, ha⟩ := (WordObj.deref_ok_iff h p s).1 hp
  have hab : b ≠ a := fun e => hne (by rw [e])
  exact (WordObj.deref_ok_iff _ _ _).2 ⟨a, rfl, by rw [List.getElem?_set_ne hab]; exact ha⟩

theorem WordObj.free_owned (h : CharHeap) (q : Option Nat)
    (hq : q = none ∨ ∃ t, WordObj.deref h q = .ok t) :
    ∃ h1, WordObj.free h q = .ok h1 ∧ h1.length = h.length ∧
      ∀ p s, p ≠ q → WordObj.deref h p = .ok s → WordObj.deref h1 p = .ok s := by
  rcases hq with rfl | ⟨t, ht⟩
  · exact ⟨h, rfl, rfl, fun _ _ _ hp => hp⟩
  · exact WordObj.free_live h q t ht

theorem WordObj.value_of_deref (h : CharHeap) (w : WordObj) (s : List Nat)
    (hw : WordObj.deref h w.word_ptr = .ok s) :
    WordObj.value h w = { word_ptr := some s, size := w.size } := by
  simp [WordObj.value, hw]

theorem WordObj.assign_spec (h : CharHeap) (self source : WordObj) (bs : List Nat)
    (hself : self.word_ptr = none ∨ ∃ t, WordObj.deref h self.word_ptr = .ok t)
    (hsrc : WordObj.deref h source.word_ptr = .ok bs)
    (hne : source.word_ptr ≠ self.word_ptr) :
    ∃ b h1, WordObj.assign h self source = .ok (b, h1) ∧ b.size = source.size ∧
      WordObj.deref h1 b.word_ptr = .ok bs ∧
      ∀ p s, p ≠ self.word_ptr → WordObj.deref h p = .ok s →
        WordObj.deref h1 p = .ok s ∧ p ≠ b.word_ptr := by
  obtain ⟨h0, hfree, _, hkeep⟩ := WordObj.free_owned h self.word_ptr hself
  have hsrc0 := hkeep _ _ hne hsrc
  refine ⟨{ word_ptr := some (WordObj.alloc h0 bs).1, size := source.size },
    (WordObj.alloc h0 bs).2, by simp only [WordObj.assign, hfree, hsrc0], rfl,
    WordObj.deref_alloc_new h0 bs, ?_⟩
  intro p s hp hps
  exact WordObj.deref_alloc_old h0 bs s p (hkeep p s hp hps)

theorem WordObj.copy_spec (h : CharHeap) (source : WordObj) (bs : List Nat)
    (hsrc : WordObj.deref h source.word_ptr = .ok bs) :
    ∃ b h1, WordObj.copy h source = .ok (b, h1) ∧ b.size = source.size ∧
      WordObj.deref h1 b.word_ptr = .ok bs ∧
      ∀ p s, WordObj.deref h p = .ok s → WordObj.deref h1 p = .ok s ∧ p ≠ b.word_ptr := by
  refine ⟨{ word_ptr := some (WordObj.alloc h bs).1, size := source.size },
    (WordObj.alloc h bs).2, by simp only [WordObj.copy, hsrc], rfl,
    WordObj.deref_alloc_new h bs, ?_⟩
  intro p s hps
  exact WordObj.deref_alloc_old h bs s p hps

theorem WordObj.changeWordCStr_spec (h : CharHeap) (self : WordObj) (str t : List Nat)
    (hself : WordObj.deref h self.word_ptr = .ok t) :
    ∃ b h1, WordObj.changeWordCStr h self str = .ok (b, h1) ∧ b.size = str.length ∧
      WordObj.deref h1 b.word_ptr = .ok str ∧
      ∀ p s, p ≠ self.word_ptr → WordObj.deref h p = .ok s → WordObj.deref h1 p = .ok s := by
  obtain ⟨hs1, hsne⟩ := WordObj.deref_alloc_old h str t self.word_ptr hself
  obtain ⟨h1, hfree, _, hkeep⟩ := WordObj.free_live (WordObj.alloc h str).2 self.word_ptr t hs1
  refine ⟨{ word_ptr := some (WordObj.alloc h str).1, size := str.length }, h1, ?_, rfl, ?_, ?_⟩
  · simp only [WordObj.changeWordCStr, WordObj.moveAssign, WordObj.ofCStr, hfree]
    rfl
  · exact hkeep _ _ (Ne.symm hsne) (WordObj.deref_alloc_new h str)
  · intro p s hp hps
    exact hkeep p s hp (WordObj.deref_alloc_old h str s p hps).1

theorem WordObj.changeWord_frame (h : CharHeap) (a b x : WordObj) (s t xs str : List Nat)
    (ha : WordObj.deref h a.word_ptr = .ok s) (hb : WordObj.deref h b.word_ptr = .ok t)
    (hx : WordObj.deref h x.word_ptr = .ok xs)
    (hab : a.word_ptr ≠ b.word_ptr) (hxb : x.word_ptr ≠ b.word_ptr) :
    (∃ b1 h1, WordObj.changeWord h b x = .ok (b1, h1) ∧
      WordObj.value h1 b1 = WordObj.value h x ∧ WordObj.value h1 a = WordObj.value h a) ∧
    (∃ b1 h1, WordObj.changeWordCStr h b str = .ok (b1, h1) ∧
      WordObj.value h1 b1 = Word.ofCStr str ∧ WordObj.value h1 a = WordObj.value h a) := by
  constructor
  · obtain ⟨b1, h1, hrun, hsize, hb1, hkeep⟩ :=
      WordObj.assign_spec h b x xs (Or.inr ⟨t, hb⟩) hx hxb
    refine ⟨b1, h1, hrun, ?_, ?_⟩
    · rw [WordObj.value_of_deref h1 b1 xs hb1, WordObj.value_of_deref h x xs hx, hsize]
    · rw [WordObj.value_of_deref h1 a s (hkeep _ _ hab ha).1, WordObj.value_of_deref h a s ha]
  · obtain ⟨b1, h1, hrun, hsize, hb1, hkeep⟩ := WordObj.changeWordCStr_spec h b str t hb
    refine ⟨b1, h1, hrun, ?_, ?_⟩
    · rw [WordObj.value_of_deref h1 b1 str hb1, hsize]
      rfl
    · rw [WordObj.value_of_deref h1 a s (hkeep _ _ hab ha), WordObj.value_of_deref h a s ha]

/-- C27: in a free store where the word `a` owns a live buffer (as every word
built from text does), a copy `b` of `a` made by the copy constructor, or by
copy assignment to a word `b0` that owns another buffer or none, stands for the
same content and length as `a` and owns a buffer of its own; replacing the
content of `b` afterwards with `changeWord` (by another word `x`, or by a
C string `str`) gives `b` the new content and leaves the content and length of
`a` unchanged. -/
theorem C27_deep_copy_independence (h : CharHeap) (a b0 x : WordObj) (s xs str : List Nat)
    (ha : WordObj.deref h a.word_ptr = .ok s)
    (hb0 : b0.word_ptr = none ∨ ∃ t, WordObj.deref h b0.word_ptr = .ok t)
    (hab : a.word_ptr ≠ b0.word_ptr)
    (hx : WordObj.deref h x.word_ptr = .ok xs) (hxb : x.word_ptr ≠ b0.word_ptr) :
    (∃ b h1, WordObj.copy h a = .ok (b, h1) ∧
      WordObj.value h1 b = WordObj.value h a ∧ WordObj.value h1 a = WordObj.value h a ∧
      b.word_ptr ≠ a.word_ptr ∧
      (∃ b1 h2, WordObj.changeWord h1 b x = .ok (b1, h2) ∧
        WordObj.value h2 b1 = WordObj.value h x ∧ WordObj.value h2 a = WordObj.value h a) ∧
      (∃ b1 h2, WordObj.changeWordCStr h1 b str = .ok (b1, h2) ∧
        WordObj.value h2 b1 = Word.ofCStr str ∧ WordObj.value h2 a = WordObj.value h a)) ∧
    (∃ b h1, WordObj.assign h b0 a = .ok (b, h1) ∧
      WordObj.value h1 b = WordObj.value h a ∧ WordObj.value h1 a = WordObj.value h a ∧
      b.word_ptr ≠ a.word_ptr ∧
      (∃ b1 h2, WordObj.changeWord h1 b x = .ok (b1, h2) ∧
        WordObj.value h2 b1 = WordObj.value h x ∧ WordObj.value h2 a = WordObj.value h a) ∧
      (∃ b1 h2, WordObj.changeWordCStr h1 b str = .ok (b1, h2) ∧
        WordObj.value h2 b1 = Word.ofCStr str ∧ WordObj.value h2 a = WordObj.value h a)) := by
  have hva := WordObj.value_of_deref h a s ha
  have hvx := WordObj.value_of_deref h x xs hx
  constructor
  · obtain ⟨b, h1, hrun, hsize, hb, hkeep⟩ := WordObj.copy_spec h a s ha
    have ha1 := hkeep _ _ ha
    have hx1 := hkeep _ _ hx
    have hva1 : WordObj.value h1 a = WordObj.value h a := by
      rw [WordObj.value_of_deref h1 a s ha1.1, hva]
    have hf := WordObj.changeWord_frame h1 a b x s s xs str ha1.1 hb hx1.1 ha1.2 hx1.2
    refine ⟨b, h1, hrun, ?_, hva1, Ne.symm ha1.2, ?_, ?_⟩
    · rw [WordObj.value_of_deref h1 b s hb, hva, hsize]
    · obtain ⟨b1, h2, hr, hv, hfa⟩ := hf.1
      exact ⟨b1, h2, hr, by rw [hv, WordObj.value_of_deref h1 x xs hx1.1, hvx],
        by rw [hfa, hva1]⟩
    · obtain ⟨b1, h2, hr, hv, hfa⟩ := hf.2
      exact ⟨b1, h2, hr, hv, by rw [hfa, hva1]⟩
  · obtain ⟨b, h1, hrun, hsize, hb, hkeep⟩ := WordObj.assign_spec h b0 a s hb0 ha hab
    have ha1 := hkeep _ _ hab ha
    have hx1 := hkeep _ _ hxb hx
    have hva1 : WordObj.value h1 a = WordObj.value h a := by
      rw [WordObj.value_of_deref h1 a s ha1.1, hva]
    have hf := WordObj.changeWord_frame h1 a b x s s xs str ha1.1 hb hx1.1 ha1.2 hx1.2
    refine ⟨b, h1, hrun, ?_, hva1, Ne.symm ha1.2, ?_, ?_⟩
    · rw [WordObj.value_of_deref h1 b s hb, hva, hsize]
    · obtain ⟨b1, h2, hr, hv, hfa⟩ := hf.1
      exact ⟨b1, h2, hr, by rw [hv, WordObj.value_of_deref h1 x xs hx1.1, hvx],
        by rw [hfa, hva1]⟩
    · obtain ⟨b1, h2, hr, hv, hfa⟩ := hf.2
      exact ⟨b1, h2, hr, hv, by rw [hfa, hva1]⟩

theorem C27_deep_copy_independence_witness :
    WordObj.value (WordObj.ofCStr (WordObj.ofCStr [] (ascii "ab")).2 (ascii "xyz")).2
      (WordObj.ofCStr [] (ascii "ab")).1 = Word.ofCStr (ascii "ab") ∧
    (∃ b h1, WordObj.copy (WordObj.ofCStr (WordObj.ofCStr [] (ascii "ab")).2 (ascii "xyz")).2
        (WordObj.ofCStr [] (ascii "ab")).1 = .ok (b, h1) ∧
      WordObj.value h1 b = WordObj.value
        (WordObj.ofCStr (WordObj.ofCStr [] (ascii "ab")).2 (ascii "xyz")).2
        (WordObj.ofCStr [] (ascii "ab")).1 ∧
      WordObj.value h1 (WordObj.ofCStr [] (ascii "ab")).1 = WordObj.value
        (WordObj.ofCStr (WordObj.ofCStr [] (ascii "ab")).2 (ascii "xyz")).2
        (WordObj.ofCStr [] (ascii "ab")).1 ∧
      b.word_ptr ≠ (WordObj.ofCStr [] (ascii "ab")).1.word_ptr ∧
      (∃ b1 h2, WordObj.changeWord h1 b
          (WordObj.ofCStr (WordObj.ofCStr [] (ascii "ab")).2 (ascii "xyz")).1 = .ok (b1, h2) ∧
        WordObj.value h2 b1 = WordObj.value
          (WordObj.ofCStr (WordObj.ofCStr [] (ascii "ab")).2 (ascii "xyz")).2
          (WordObj.ofCStr (WordObj.ofCStr [] (ascii "ab")).2 (ascii "xyz")).1 ∧
        WordObj.value h2 (WordObj.ofCStr [] (ascii "ab")).1 = WordObj.value
          (WordObj.ofCStr (WordObj.ofCStr [] (ascii "ab")).2 (ascii "xyz")).2
          (WordObj.ofCStr [] (ascii "ab")).1) ∧
      (∃ b1 h2, WordObj.changeWordCStr h1 b (ascii "q") = .ok (b1, h2) ∧
        WordObj.value h2 b1 = Word.ofCStr (ascii "q") ∧
        WordObj.value h2 (WordObj.ofCStr [] (ascii "ab")).1 = WordObj.value
          (WordObj.ofCStr (WordObj.ofCStr [] (ascii "ab")).2 (ascii "xyz")).2
          (WordObj.ofCStr [] (ascii "ab")).1)) ∧
    (∃ b h1, WordObj.assign (WordObj.ofCStr (WordObj.ofCStr [] (ascii "ab")).2 (ascii "xyz")).2
        { word_ptr := none, size := 0 } (WordObj.ofCStr [] (ascii "ab")).1 = .ok (b, h1) ∧
      WordObj.value h1 b = WordObj.value
        (WordObj.ofCStr (WordObj.ofCStr [] (ascii "ab")).2 (ascii "xyz")).2
        (WordObj.ofCStr [] (ascii "ab")).1 ∧
      WordObj.value h1 (WordObj.ofCStr [] (ascii "ab")).1 = WordObj.value
        (WordObj.ofCStr (WordObj.ofCStr [] (ascii "ab")).2 (ascii "xyz")).2
        (WordObj.ofCStr [] (ascii "ab")).1 ∧
      b.word_ptr ≠ (WordObj.ofCStr [] (ascii "ab")).1.word_ptr ∧
      (∃ b1 h2, WordObj.changeWord h1 b
          (WordObj.ofCStr (WordObj.ofCStr [] (ascii "ab")).2 (ascii "xyz")).1 = .ok (b1, h2) ∧
        WordObj.value h2 b1 = WordObj.value
          (WordObj.ofCStr (WordObj.ofCStr [] (ascii "ab")).2 (ascii "xyz")).2
          (WordObj.ofCStr (WordObj.ofCStr [] (ascii "ab")).2 (ascii "xyz")).1 ∧
        WordObj.value h2 (WordObj.ofCStr [] (ascii "ab")).1 = WordObj.value
          (WordObj.ofCStr (WordObj.ofCStr [] (ascii "ab")).2 (ascii "xyz")).2
          (WordObj.ofCStr [] (ascii "ab")).1) ∧
      (∃ b1 h2, WordObj.changeWordCStr h1 b (ascii "q") = .ok (b1, h2) ∧
        WordObj.value h2 b1 = Word.ofCStr (ascii "q") ∧
        WordObj.value h2 (WordObj.ofCStr [] (ascii "ab")).1 = WordObj.value
          (WordObj.ofCStr (WordObj.ofCStr [] (ascii "ab")).2 (ascii "xyz")).2
          (WordObj.ofCStr [] (ascii "ab")).1)) :=
  ⟨by decide,
    C27_deep_copy_independence (WordObj.ofCStr (WordObj.ofCStr [] (ascii "ab")).2 (ascii "xyz")).2
      (WordObj.ofCStr [] (ascii "ab")).1 { word_ptr := none, size := 0 }
      (WordObj.ofCStr (WordObj.ofCStr [] (ascii "ab")).2 (ascii "xyz")).1
      (ascii "ab") (ascii "xyz") (ascii "q") (by decide) (Or.inl rfl) (by decide) (by decide)
      (by decide)⟩

/-- C28 (as stated, refuted): after a move (constructor or assignment) from the
store holding the categories `a` and `b`, the target has the former array, size
and capacity, but the source is left with a null array, capacity 0 and size 0;
it is not the default store (capacity 1, size 0, an allocated array), and
`addCategory` on it raises the runtime error. -/
theorem C28_counterexample :
    ((sampleStore ["a", "b"]).move).1 = sampleStore ["a", "b"] ∧
    (WordCatVec.new.moveAssign (sampleStore ["a", "b"])).1 = sampleStore ["a", "b"] ∧
    ((sampleStore ["a", "b"]).move).2 = ⟨none, 0, 0⟩ ∧
    (WordCatVec.new.moveAssign (sampleStore ["a", "b"])).2 = ⟨none, 0, 0⟩ ∧
    ((sampleStore ["a", "b"]).move).2 ≠ WordCatVec.new ∧
    ((sampleStore ["a", "b"]).move).2.capacity ≠ 1 ∧
    ((sampleStore ["a", "b"]).move).2.wf = false ∧
    WordCatVec.new = ⟨some [WordCat.default], 1, 0⟩ ∧ WordCatVec.new.wf = true ∧
    (((sampleStore ["a", "b"]).move).2.addCategory (sampleCat "c" [])).1 =
      .error Fault.SizeExceedsCapacity := by
  decide

/-- C28 (amended): for every store `s`, after move-construction of a store `t`
from `s`, or move-assignment from `s` to another store `t`, `t` has the former
array, records, size and capacity of `s` (and is a well-formed store when `s`
was), and `s` is left with an absent (null) array, capacity 0 and size 0: it
holds no record and is not the default store (capacity 1, size 0, an allocated
array of one record). -/
theorem C28_move_leaves_null (s self : WordCatVec) :
    (s.move).1 = s ∧ (s.move).1.records = s.records ∧ (s.move).1.size = s.size ∧
    (s.move).1.capacity = s.capacity ∧
    (self.moveAssign s).1 = s ∧ (self.moveAssign s).1.records = s.records ∧
    (self.moveAssign s).1.size = s.size ∧ (self.moveAssign s).1.capacity = s.capacity ∧
    (s.move).2 = ⟨none, 0, 0⟩ ∧ (self.moveAssign s).2 = ⟨none, 0, 0⟩ ∧
    (s.move).2.word_category_array = none ∧ (s.move).2.capacity = 0 ∧ (s.move).2.size = 0 ∧
    (s.move).2.records = [] ∧ (s.move).2 ≠ WordCatVec.new ∧ (s.move).2.wf = false ∧
    (s.wf = true → (s.move).1.wf = true ∧ (self.moveAssign s).1.wf = true) := by
  refine ⟨rfl, rfl, rfl, rfl, rfl, rfl, rfl, rfl, rfl, rfl, rfl, rfl, rfl, rfl, ?_, rfl, ?_⟩
  · intro h
    have hc := congrArg WordCatVec.capacity h
    simp [WordCatVec.move, WordCatVec.new] at hc
  · intro h
    exact ⟨h, h⟩

theorem C28_move_leaves_null_witness :
    ((sampleStore ["a", "b"]).move).1 = sampleStore ["a", "b"] ∧
    ((sampleStore ["a", "b"]).move).1.records = (sampleStore ["a", "b"]).records ∧
    ((sampleStore ["a", "b"]).move).1.size = (sampleStore ["a", "b"]).size ∧
    ((sampleStore ["a", "b"]).move).1.capacity = (sampleStore ["a", "b"]).capacity ∧
    (WordCatVec.new.moveAssign (sampleStore ["a", "b"])).1 = sampleStore ["a", "b"] ∧
    (WordCatVec.new.moveAssign (sampleStore ["a", "b"])).1.records = (sampleStore ["a", "b"]).records ∧
    (WordCatVec.new.moveAssign (sampleStore ["a", "b"])).1.size = (sampleStore ["a", "b"]).size ∧
    (WordCatVec.new.moveAssign (sampleStore ["a", "b"])).1.capacity = (sampleStore ["a", "b"]).capacity ∧
    ((sampleStore ["a", "b"]).move).2 = ⟨none, 0, 0⟩ ∧
    (WordCatVec.new.moveAssign (sampleStore ["a", "b"])).2 = ⟨none, 0, 0⟩ ∧
    ((sampleStore ["a", "b"]).move).2.word_category_array = none ∧
    ((sampleStore ["a", "b"]).move).2.capacity = 0 ∧ ((sampleStore ["a", "b"]).move).2.size = 0 ∧
    ((sampleStore ["a", "b"]).move).2.records = [] ∧ ((sampleStore ["a", "b"]).move).2 ≠ WordCatVec.new ∧
    ((sampleStore ["a", "b"]).move).2.wf = false ∧
    ((sampleStore ["a", "b"]).wf = true →
      ((sampleStore ["a", "b"]).move).1.wf = true ∧
      (WordCatVec.new.moveAssign (sampleStore ["a", "b"])).1.wf = true) :=
  C28_move_leaves_null (sampleStore ["a", "b"]) WordCatVec.new

theorem Word.copy_no_sec (w : Word) : w.copy ≠ .error Fault.SizeExceedsCapacity := by
  cases w with
  | mk p n => cases p <;> simp [Word.copy]

theorem Word.word_assign_no_sec (self w : Word) :
    self.assign w ≠ .error Fault.SizeExceedsCapacity := by
  cases w with
  | mk p n => cases p <;> simp [Word.assign]

theorem Word.eq_no_sec (a b : Word) : a.eq b ≠ .error Fault.SizeExceedsCapacity := by
  cases a with
  | mk p n => cases b with
    | mk q m => cases p <;> cases q <;> simp [Word.eq, strcmp]

theorem WordList.list_copyLoop_no_sec (rest : List Word) :
    ∀ (chain : List Word) (n : Nat),
      WordList.copyLoop rest chain n ≠ .error Fault.SizeExceedsCapacity := by
  induction rest with
  | nil => intro chain n; simp [WordList.copyLoop]
  | cons w ws ih =>
    intro chain n h
    unfold WordList.copyLoop at h
    split at h
    · next e he => cases h; exact Word.copy_no_sec w he
    · exact ih _ _ h

theorem WordList.list_assign_no_sec (self other : WordList) :
    self.assign other ≠ .error Fault.SizeExceedsCapacity := by
  intro h
  unfold WordList.assign WordList.copy at h
  split at h
  · cases h
  · split at h
    · cases h
    · next first rest _ =>
      split at h
      · next e he => cases h; exact Word.copy_no_sec first he
      · exact WordList.list_copyLoop_no_sec _ _ _ h

theorem WordCat.record_assign_no_sec (self other : WordCat) :
    self.assign other ≠ .error Fault.SizeExceedsCapacity := by
  intro h
  unfold WordCat.assign at h
  split at h
  · next e he => cases h; exact Word.word_assign_no_sec _ _ he
  · split at h
    · next e he => cases h; exact WordList.list_assign_no_sec _ _ he
    · cases h

theorem loadSlot_no_sec (array : Option (List WordCat)) (i : Nat) :
    loadSlot array i ≠ .error Fault.SizeExceedsCapacity := by
  intro h
  unfold loadSlot at h
  split at h
  · cases h
  · split at h <;> cases h

theorem storeSlot_no_sec (arr : List WordCat) (i : Nat) (c : WordCat) :
    storeSlot arr i c ≠ .error Fault.SizeExceedsCapacity := by
  intro h
  unfold storeSlot at h
  split at h
  · cases h
  · split at h
    · next e he => cases h; exact WordCat.record_assign_no_sec _ _ he
    · cases h

theorem WordCatVec.searchLoop_no_sec (s : WordCatVec) (category : Word) (n : Nat) :
    ∀ i, WordCatVec.searchLoop s category n i ≠ .error Fault.SizeExceedsCapacity := by
  induction n with
  | zero => intro i h; simp [WordCatVec.searchLoop] at h
  | succ n ih =>
    intro i h
    unfold WordCatVec.searchLoop at h
    split at h
    · next e he => cases h; exact loadSlot_no_sec _ _ he
    · split at h
      · next e he => cases h; exact Word.copy_no_sec _ he
      · split at h
        · next e he => cases h; exact Word.eq_no_sec _ _ he
        · cases h
        · exact ih _ h

theorem WordCatVec.lookup_no_sec (s : WordCatVec) (category : Word) :
    s.lookup category ≠ .error Fault.SizeExceedsCapacity := by
  intro h
  unfold WordCatVec.lookup WordCatVec.search at h
  split at h
  · next e he => cases h; exact WordCatVec.searchLoop_no_sec _ _ _ _ he
  · cases h

theorem WordCatVec.store_copyLoop_no_sec (array : Option (List WordCat)) (nc n : Nat) :
    ∀ (i : Nat) (dst : List WordCat), i + n ≤ nc →
      WordCatVec.copyLoop array nc n i dst ≠ .error Fault.SizeExceedsCapacity := by
  induction n with
  | zero => intro i dst _ h; simp [WordCatVec.copyLoop] at h
  | succ n ih =>
    intro i dst hle h
    unfold WordCatVec.copyLoop at h
    rw [if_pos (by omega)] at h
    split at h
    · next e he => cases h; exact loadSlot_no_sec _ _ he
    · split at h
      · next e he => cases h; exact storeSlot_no_sec _ _ _ he
      · exact ih _ _ (by omega) h

theorem WordCatVec.reallocate_no_sec (s : WordCatVec) (nc : Nat) (h : s.size ≤ nc) :
    s.reallocate nc ≠ .error Fault.SizeExceedsCapacity ∧
    ∀ t, s.reallocate nc = .ok t → t.capacity = nc ∧ t.size = s.size := by
  constructor
  · intro hr
    unfold WordCatVec.reallocate at hr
    split at hr
    · next e he => cases hr; exact WordCatVec.store_copyLoop_no_sec _ _ _ _ _ (by omega) he
    · cases hr
  · intro t hr
    unfold WordCatVec.reallocate at hr
    split at hr
    · cases hr
    · cases hr; exact ⟨rfl, rfl⟩

theorem shiftLoop_no_sec (n : Nat) :
    ∀ (j : Nat) (arr : List WordCat),
      WordCatVec.shiftLoop n j arr ≠ .error Fault.SizeExceedsCapacity := by
  induction n with
  | zero => intro j arr h; simp [WordCatVec.shiftLoop] at h
  | succ n ih =>
    intro j arr h
    unfold WordCatVec.shiftLoop at h
    split at h
    · cases h
    · split at h
      · next e he => cases h; exact storeSlot_no_sec _ _ _ he
      · exact ih _ _ h

theorem WordCatVec.removeAt_no_sec (s : WordCatVec) (i : Nat) :
    (s.removeAt i).1 ≠ .error Fault.SizeExceedsCapacity := by
  intro h
  unfold WordCatVec.removeAt at h
  split at h
  · cases h
  · split at h
    · next e he => injection h with h; subst h; exact shiftLoop_no_sec _ _ _ he
    · simp only at h
      split at h
      · next hlt =>
        split at h
        · next e he =>
          injection h with h; subst h
          refine (WordCatVec.reallocate_no_sec _ _ ?_).1 he
          simp only at hlt ⊢
          split <;> omega
        · cases h
      · cases h

theorem WordCatVec.removeLoop_no_sec (s : WordCatVec) (category : Word) (n : Nat) :
    ∀ i, (WordCatVec.removeLoop s category n i).1 ≠ .error Fault.SizeExceedsCapacity := by
  induction n with
  | zero => intro i h; simp [WordCatVec.removeLoop] at h
  | succ n ih =>
    intro i h
    unfold WordCatVec.removeLoop at h
    split at h
    · next e he => injection h with h; subst h; exact loadSlot_no_sec _ _ he
    · split at h
      · next e he => injection h with h; subst h; exact Word.copy_no_sec _ he
      · split at h
        · next e he => injection h with h; subst h; exact Word.eq_no_sec _ _ he
        · exact WordCatVec.removeAt_no_sec _ _ h
        · exact ih _ h

theorem WordCatVec.addCategory_no_sec (s : WordCatVec) (hcap : 1 ≤ s.capacity)
    (hsz : s.size ≤ s.capacity) (r : WordCat) :
    (s.addCategory r).1 ≠ .error Fault.SizeExceedsCapacity := by
  intro h
  unfold WordCatVec.addCategory at h
  split at h
  · next e he => injection h with h; subst h; exact Word.copy_no_sec _ he
  · split at h
    · next e he => injection h with h; subst h; exact WordCatVec.lookup_no_sec _ _ he
    · cases h
    · split at h
      · next e he =>
        injection h with h; subst h
        split at he
        · exact (WordCatVec.reallocate_no_sec s _ (by omega)).1 he
        · cases he
      · next s1 he =>
        have hs1 : s1.size < s1.capacity := by
          split at he
          · next heq =>
            have := (WordCatVec.reallocate_no_sec s (s.capacity * 2) (by omega)).2 s1 he
            omega
          · next hne => cases he; omega
        rw [if_pos hs1] at h
        split at h
        · cases h
        · split at h
          · next e he2 => injection h with h; subst h; exact storeSlot_no_sec _ _ _ he2
          · cases h

theorem WordCatVec.copyCtor_no_sec (s : WordCatVec) (hsz : s.size ≤ s.capacity) :
    s.copyCtor ≠ .error Fault.SizeExceedsCapacity ∧
    ∀ t, s.copyCtor = .ok t → t.capacity = s.capacity ∧ t.size = s.size :=
  WordCatVec.reallocate_no_sec s s.capacity hsz

theorem WordCatVec.copyCtor_spec (s : WordCatVec) (hs : s.wf = true) :
    ∃ t, s.copyCtor = .ok t ∧ t.wf = true ∧ t.records = s.records ∧
      t.capacity = s.capacity ∧ t.size = s.size := by
  obtain ⟨arr, ha, hlen, hsz, hw⟩ := (WordCatVec.store_wf_iff s).1 hs
  obtain ⟨out, hrun, hol, htake⟩ :=
    WordCatVec.reallocate_spec s arr ha (by omega) hw s.capacity hsz
  refine ⟨⟨some out, s.capacity, s.size⟩, hrun, ?_, ?_, rfl, rfl⟩
  · exact (WordCatVec.store_wf_iff _).2 ⟨out, rfl, hol, hsz, by
      simp only
      rw [htake]
      exact hw⟩
  · simp only [WordCatVec.records, Option.getD_some, ha]
    exact htake

/-- C29: on every store with `capacity >= 1` and `size <= capacity`,
`addCategory` (any record), `removeCategory` (any name), the copy constructor
and the copy assignment do not raise the `Size exceeds capacity` runtime error,
and a copy again has `capacity >= 1` and `size <= capacity`.  Every store
reachable from a newly constructed one by `addCategory`, `removeCategory` and
`clearCategories` has `capacity >= 1` and `size <= capacity`.  On a
well-formed store the four operations return: the copies hold the same records
with the same capacity, `removeCategory` returns for every name with a buffer
and `addCategory` for every well-formed record. -/
theorem C29_no_size_exceeds_capacity (s self : WordCatVec) (hcap : 1 ≤ s.capacity)
    (hsz : s.size ≤ s.capacity) (r : WordCat) (n : Word) :
    (s.addCategory r).1 ≠ .error Fault.SizeExceedsCapacity ∧
    (s.removeCategory n).1 ≠ .error Fault.SizeExceedsCapacity ∧
    s.copyCtor ≠ .error Fault.SizeExceedsCapacity ∧
    self.copyAssign s ≠ .error Fault.SizeExceedsCapacity ∧
    (∀ t, s.copyCtor = .ok t → 1 ≤ t.capacity ∧ t.size ≤ t.capacity) ∧
    (∀ t, self.copyAssign s = .ok t → 1 ≤ t.capacity ∧ t.size ≤ t.capacity) ∧
    (∀ t, WordCatVec.Reachable t → 1 ≤ t.capacity ∧ t.size ≤ t.capacity) ∧
    (s.wf = true →
      (∃ t, s.copyCtor = .ok t ∧ t.wf = true ∧ t.records = s.records ∧
        t.capacity = s.capacity ∧ t.size = s.size) ∧
      (∃ t, self.copyAssign s = .ok t ∧ t.wf = true ∧ t.records = s.records ∧
        t.capacity = s.capacity ∧ t.size = s.size) ∧
      (n.present = true → ∃ b s', s.removeCategory n = (.ok b, s')) ∧
      (r.copied.wf = true → ∃ b s', s.addCategory r = (.ok b, s'))) := by
  have hcopy := WordCatVec.copyCtor_no_sec s hsz
  refine ⟨WordCatVec.addCategory_no_sec s hcap hsz r,
    WordCatVec.removeLoop_no_sec s n s.size 0, hcopy.1, hcopy.1, ?_, ?_, ?_, ?_⟩
  · intro t ht
    have := hcopy.2 t ht
    omega
  · intro t ht
    have := hcopy.2 t ht
    omega
  · intro t ht
    obtain ⟨hw, hc, _⟩ := WordCatVec.Reachable.inv ht
    obtain ⟨_, _, _, hle, _⟩ := (WordCatVec.store_wf_iff t).1 hw
    exact ⟨hc, hle⟩
  · intro hs
    refine ⟨WordCatVec.copyCtor_spec s hs, WordCatVec.copyCtor_spec s hs, ?_, ?_⟩
    · intro hn
      by_cases hex : ∃ c ∈ s.records, c.category.bytes = n.bytes
      · obtain ⟨s', h, _⟩ := WordCatVec.removeCategory_spec s hs n hn hex
        exact ⟨true, s', h⟩
      · exact ⟨false, s, WordCatVec.removeCategory_absent s hs n hn hex⟩
    · intro hr
      by_cases hex : ∃ c ∈ s.records, c.category.bytes = r.category.bytes
      · have hp : r.category.present = true := by
          have := hr
          simp only [WordCat.wf, WordCat.copied, Bool.and_eq_true] at this
          exact this.1.1
        refine ⟨false, s, ?_⟩
        simp only [WordCatVec.addCategory, WordCat.getCategoryName_eq r hp,
          WordCatVec.store_lookup_eq s hs _ hp, hex, decide_True]
      · obtain ⟨s', h, _⟩ := WordCatVec.addCategory_spec s hs hcap r hr hex
        exact ⟨true, s', h⟩

theorem C29_no_size_exceeds_capacity_witness :
    1 ≤ (sampleStore ["a", "b"]).capacity ∧
    (sampleStore ["a", "b"]).size ≤ (sampleStore ["a", "b"]).capacity ∧
    ((sampleStore ["a", "b"]).addCategory (sampleCat "c" [])).1 ≠
      .error Fault.SizeExceedsCapacity ∧
    ((sampleStore ["a", "b"]).removeCategory (Word.ofCStr (ascii "a"))).1 ≠
      .error Fault.SizeExceedsCapacity ∧
    (sampleStore ["a", "b"]).copyCtor ≠ .error Fault.SizeExceedsCapacity ∧
    WordCatVec.new.copyAssign (sampleStore ["a", "b"]) ≠ .error Fault.SizeExceedsCapacity :=
  ⟨by decide, by decide,
    (C29_no_size_exceeds_capacity (sampleStore ["a", "b"]) WordCatVec.new (by decide) (by decide)
      (sampleCat "c" []) (Word.ofCStr (ascii "a"))).1,
    (C29_no_size_exceeds_capacity (sampleStore ["a", "b"]) WordCatVec.new (by decide) (by decide)
      (sampleCat "c" []) (Word.ofCStr (ascii "a"))).2.1,
    (C29_no_size_exceeds_capacity (sampleStore ["a", "b"]) WordCatVec.new (by decide) (by decide)
      (sampleCat "c" []) (Word.ofCStr (ascii "a"))).2.2.1,
    (C29_no_size_exceeds_capacity (sampleStore ["a", "b"]) WordCatVec.new (by decide) (by decide)
      (sampleCat "c" []) (Word.ofCStr (ascii "a"))).2.2.2.1⟩

theorem Word.print_eq (w : Word) (out : List Nat) : w.print out = out ++ w.bytes := by
  cases w with
  | mk p n => cases p <;> simp [Word.print, Word.bytes]

theorem tmod_succ_cast (wc n : Nat) :
    Int.tmod ((wc : Int) + 1) (n : Int) = 0 ↔ (wc + 1) % n = 0 := by
  have h : Int.tmod ((wc : Int) + 1) (n : Int) = (((wc + 1) % n : Nat) : Int) := rfl
  rw [h]
  exact Nat.cast_eq_zero

theorem WordList.printLoop_eq (n : Nat) (hn : 1 ≤ n) :
    ∀ (nodes : List Word) (wc : Nat) (sout : List Nat),
      WordList.printLoop (n : Int) nodes (wc : Int) sout =
        .ok (((wc + nodes.length : Nat) : Int),
          sout ++ (nodes.enumFrom wc).flatMap (fun p =>
            (if n = 1 then [] else List.replicate (15 - p.2.length) 32) ++ p.2.bytes ++
              [if (p.1 + 1) % n = 0 then 10 else 32])) := by
  intro nodes
  induction nodes with
  | nil => intro wc sout; simp [WordList.printLoop]
  | cons w ws ih =>
    intro wc sout
    have hn0 : (n : Int) ≠ 0 := by omega
    have hcast : ((wc : Int) + 1) = ((wc + 1 : Nat) : Int) := by push_cast; rfl
    have hpad : (if w.length ≥ 15 then 0 else 15 - w.length) = 15 - w.length := by
      split <;> omega
    unfold WordList.printLoop
    simp only [hn0, if_false, tmod_succ_cast, Word.print_eq, hpad, List.enumFrom_cons,
      List.flatMap_cons, Nat.cast_eq_one, ne_eq]
    by_cases h1 : n = 1
    · have hm : (wc + 1) % n = 0 := by rw [h1]; exact Nat.mod_one _
      simp only [hm, h1, or_true, if_true, not_true, if_false]
      rw [← h1, hcast, ih]
      simp only [h1, if_true, List.append_assoc, List.length_cons, List.nil_append,
        List.singleton_append, Nat.add_assoc, Nat.add_comm 1, Nat.mod_one]
    · by_cases hm : (wc + 1) % n = 0
      · simp only [hm, h1, if_true, or_false, not_false_eq_true, if_false]
        rw [hcast, ih]
        simp only [h1, if_false, List.append_assoc, List.length_cons,
          List.singleton_append, Nat.add_assoc, Nat.add_comm 1]
      · simp only [hm, h1, or_false, if_false, not_false_eq_true, if_true]
        rw [hcast, ih]
        simp only [h1, if_false, List.append_assoc, List.length_cons,
          List.singleton_append, Nat.add_assoc, Nat.add_comm 1]

theorem WordList.print_count_body (n : Nat) :
    ∀ (nodes : List Word) (wc : Nat), (∀ w ∈ nodes, 10 ∉ w.bytes) →
      ((nodes.enumFrom wc).flatMap (fun p =>
            (if n = 1 then [] else List.replicate (15 - p.2.length) 32) ++ p.2.bytes ++
              [if (p.1 + 1) % n = 0 then 10 else 32])).count 10 + wc / n =
        (wc + nodes.length) / n := by
  intro nodes
  induction nodes with
  | nil => intro wc _; simp
  | cons w ws ih =>
    intro wc hnl
    have hw : w.bytes.count 10 = 0 := List.count_eq_zero.2 (hnl w (List.mem_cons_self _ _))
    have hrest := ih (wc + 1) (fun v hv => hnl v (List.mem_cons_of_mem _ hv))
    have hpad : (if n = 1 then [] else List.replicate (15 - w.length) 32).count 10 = 0 := by
      split
      · rfl
      · simp [List.count_replicate]
    have hsucc := Nat.succ_div wc n
    simp only [List.enumFrom_cons, List.flatMap_cons, List.count_append, hw, hpad,
      List.length_cons]
    rw [show wc + (ws.length + 1) = wc + 1 + ws.length by omega, ← hrest, hsucc]
    by_cases hm : (wc + 1) % n = 0
    · have hd : n ∣ wc + 1 := Nat.dvd_of_mod_eq_zero hm
      simp [hm, hd]
      omega
    · have hd : ¬ n ∣ wc + 1 := fun h => hm (Nat.mod_eq_zero_of_dvd h)
      simp [hm, hd]

theorem nat_ceil_div (k n : Nat) (hn : 1 ≤ n) :
    k / n + (if k % n = 0 then 0 else 1) = (k + n - 1) / n := by
  obtain ⟨q, r, hr, rfl⟩ : ∃ q r, r < n ∧ k = r + n * q :=
    ⟨k / n, k % n, Nat.mod_lt k (by omega), by
      rw [Nat.add_comm]; exact (Nat.div_add_mod k n).symm⟩
  have hpos : 0 < n := by omega
  rw [Nat.add_mul_div_left _ _ hpos, Nat.add_mul_mod_self_left, Nat.div_eq_of_lt hr,
    Nat.mod_eq_of_lt hr]
  by_cases h0 : r = 0
  · subst h0
    rw [if_pos rfl, show 0 + n * q + n - 1 = (n - 1) + n * q by omega,
      Nat.add_mul_div_left _ _ hpos, Nat.div_eq_of_lt (by omega)]
    omega
  · rw [if_neg h0, show r + n * q + n - 1 = (r - 1) + n + n * q by omega,
      Nat.add_mul_div_left _ _ hpos, Nat.add_div_right _ hpos, Nat.div_eq_of_lt (by omega)]
    omega

/-- C30: for every list of `k` words containing no newline character (byte 10)
and every `wordsPerLine` `n >= 1`, `WordList::print(out, n)` returns `k` and
appends to the stream, for each word in list order, its padding (to 15 columns
when `n != 1`), the word, and a separator that is a newline after every `n`-th
word and a space otherwise, followed by one more newline when `k` is not a
multiple of `n`; the text appended holds exactly `ceil(k/n)` newline
characters (none for the empty list). -/
theorem C30_print (l : WordList) (sout : List Nat) (n : Nat) (hn : 1 ≤ n)
    (hnl : ∀ w ∈ l.nodes, 10 ∉ w.bytes) :
    ∃ out, l.print sout (n : Int) = .ok ((l.nodes.length : Int), sout ++ out) ∧
      out = l.nodes.enum.flatMap (fun p =>
          (if n = 1 then [] else List.replicate (15 - p.2.length) 32) ++ p.2.bytes ++
            [if (p.1 + 1) % n = 0 then 10 else 32]) ++
        (if l.nodes.length % n = 0 then [] else [10]) ∧
      out.count 10 = (l.nodes.length + n - 1) / n ∧
      (l.nodes = [] → out = []) := by
  have hloop := WordList.printLoop_eq n hn l.nodes 0 sout
  have hcount := WordList.print_count_body n l.nodes 0 hnl
  have hn0 : (n : Int) ≠ 0 := by omega
  have htm : Int.tmod ((l.nodes.length : Nat) : Int) (n : Int) = 0 ↔ l.nodes.length % n = 0 := by
    have h : Int.tmod ((l.nodes.length : Nat) : Int) (n : Int) =
        ((l.nodes.length % n : Nat) : Int) := rfl
    rw [h]
    exact Nat.cast_eq_zero
  simp only [Nat.zero_add, Nat.zero_div, Nat.add_zero] at hcount
  refine ⟨_, ?_, rfl, ?_, ?_⟩
  · unfold WordList.print
    rw [show ((0 : Int)) = ((0 : Nat) : Int) from rfl, hloop]
    simp only [Nat.zero_add, hn0, if_false, htm, ne_eq, Nat.cast_eq_one, List.enum]
    have hn1 : n ≠ 0 := by omega
    by_cases hm : l.nodes.length % n = 0
    · simp [hm, htm, hn1]
    · have h1 : n ≠ 1 := by
        intro h
        exact hm (by rw [h]; exact Nat.mod_one _)
      simp [hm, h1, htm, hn1]
  · rw [List.count_append, List.enum, hcount, ← nat_ceil_div _ n hn]
    by_cases hm : l.nodes.length % n = 0 <;> simp [hm]
  · intro hnil
    simp [hnil]

theorem C30_print_witness :
    (∀ w ∈ (sampleList ["a", "b", "c"]).nodes, 10 ∉ w.bytes) ∧
    ∃ out, (sampleList ["a", "b", "c"]).print [] ((2 : Nat) : Int) =
        .ok (((sampleList ["a", "b", "c"]).nodes.length : Int), [] ++ out) ∧
      out = (sampleList ["a", "b", "c"]).nodes.enum.flatMap (fun p =>
          (if 2 = 1 then [] else List.replicate (15 - p.2.length) 32) ++ p.2.bytes ++
            [if (p.1 + 1) % 2 = 0 then 10 else 32]) ++
        (if (sampleList ["a", "b", "c"]).nodes.length % 2 = 0 then [] else [10]) ∧
      out.count 10 = ((sampleList ["a", "b", "c"]).nodes.length + 2 - 1) / 2 ∧
      ((sampleList ["a", "b", "c"]).nodes = [] → out = []) :=
  ⟨by decide, C30_print (sampleList ["a", "b", "c"]) [] 2 (by decide) (by decide)⟩

theorem WordCatVec.Reachable.capacity_inv {s : WordCatVec} (h : WordCatVec.Reachable s) :
    (∃ k, s.capacity = 2 ^ k) ∧ (s.capacity = 1 ∨ s.capacity ≤ 2 * s.size) := by
  induction h with
  | new => exact ⟨⟨0, rfl⟩, Or.inl rfl⟩
  | @addCategory s s' r b hreach hadd ih =>
    obtain ⟨hwf, hcap, -⟩ := WordCatVec.Reachable.inv hreach
    obtain ⟨⟨k, hk⟩, hocc⟩ := ih
    rcases WordCatVec.addCategory_step s hwf hcap r b s' hadd with
      ⟨-, h2, -⟩ | ⟨-, -, -, -, -, h6, h7⟩
    · rw [h2]; exact ⟨⟨k, hk⟩, hocc⟩
    · by_cases hfull : s.size = s.capacity
      · rw [if_pos hfull] at h7
        exact ⟨⟨k + 1, by rw [h7, hk, Nat.pow_succ]; omega⟩, Or.inr (by omega)⟩
      · rw [if_neg hfull] at h7
        exact ⟨⟨k, by rw [h7, hk]⟩, by omega⟩
  | @removeCategory s s' n b hreach hrem ih =>
    obtain ⟨hwf, hcap, -⟩ := WordCatVec.Reachable.inv hreach
    obtain ⟨⟨k, hk⟩, hocc⟩ := ih
    rcases WordCatVec.removeCategory_step s hwf n b s' hrem with
      ⟨-, h2, -⟩ | ⟨-, -, -, -, h5, h6, h7⟩
    · rw [h2]; exact ⟨⟨k, hk⟩, hocc⟩
    · cases k with
      | zero =>
        have h1 : s.capacity = 1 := by rw [hk]; rfl
        have : s'.capacity = 1 := by rw [h7, h1]; simp
        exact ⟨⟨0, this⟩, Or.inl this⟩
      | succ j =>
        have hhalf : s.capacity / 2 = 2 ^ j := by
          rw [hk, Nat.pow_succ, Nat.mul_div_cancel _ (by decide : 0 < 2)]
        have hpos : 1 ≤ 2 ^ j := Nat.one_le_two_pow
        have hdbl : s.capacity = 2 * 2 ^ j := by rw [hk, Nat.pow_succ]; omega
        by_cases hlt : s.size - 1 < s.capacity / 2
        · rw [if_pos hlt, hhalf, Nat.max_eq_left hpos] at h7
          refine ⟨⟨j, h7⟩, ?_⟩
          rw [h7, h5]
          omega
        · rw [if_neg hlt] at h7
          refine ⟨⟨j + 1, by rw [h7, hk]⟩, Or.inr ?_⟩
          rw [h7, h5]
          omega
  | clearCategories _ _ => exact ⟨⟨0, rfl⟩, Or.inl rfl⟩

/-- C33 (as stated, refuted): the store reached by adding the categories `a`,
`b` and `c` has capacity 4, and `clearCategories` on it, which gives a reachable
store again, sets the capacity to 1: the capacity is neither kept, nor doubled,
nor halved exactly by that call. -/
theorem C33_counterexample :
    WordCatVec.Reachable (sampleStore ["a", "b", "c"]) ∧
    (sampleStore ["a", "b", "c"]).capacity = 4 ∧
    WordCatVec.Reachable (sampleStore ["a", "b", "c"]).clearCategories ∧
    (sampleStore ["a", "b", "c"]).clearCategories.capacity = 1 ∧
    (sampleStore ["a", "b", "c"]).clearCategories.capacity ≠ (sampleStore ["a", "b", "c"]).capacity ∧
    (sampleStore ["a", "b", "c"]).clearCategories.capacity ≠ 2 * (sampleStore ["a", "b", "c"]).capacity ∧
    2 * (sampleStore ["a", "b", "c"]).clearCategories.capacity ≠ (sampleStore ["a", "b", "c"]).capacity := by
  have hr : WordCatVec.Reachable (sampleStore ["a", "b", "c"]) :=
    WordCatVec.Reachable.addCategory
      (WordCatVec.Reachable.addCategory
        (WordCatVec.Reachable.addCategory WordCatVec.Reachable.new
          (show WordCatVec.new.addCategory (sampleCat "a" []) = (.ok true, sampleStore ["a"])
            by decide))
        (show (sampleStore ["a"]).addCategory (sampleCat "b" []) =
            (.ok true, sampleStore ["a", "b"]) by decide))
      (show (sampleStore ["a", "b"]).addCategory (sampleCat "c" []) =
          (.ok true, sampleStore ["a", "b", "c"]) by decide)
  exact ⟨hr, by decide, WordCatVec.Reachable.clearCategories hr, by decide, by decide,
    by decide, by decide⟩

/-- C33 (amended): for every store reachable from a newly constructed
`WordCatVec` by any sequence of `addCategory`, `removeCategory` and
`clearCategories` calls, `capacity` is a power of two and at least 1.  A new
store has capacity 1; a call of `addCategory` that returns leaves the capacity
as it is or doubles it, a call of `removeCategory` that returns leaves it as it
is or halves it exactly, and `clearCategories` sets it back to 1 whatever it
was. -/
theorem C33_capacity_power_of_two (s : WordCatVec) (h : WordCatVec.Reachable s) :
    (∃ k, s.capacity = 2 ^ k) ∧ 1 ≤ s.capacity ∧ WordCatVec.new.capacity = 1 ∧
    (∀ r b s', s.addCategory r = (.ok b, s') →
      s'.capacity = s.capacity ∨ s'.capacity = 2 * s.capacity) ∧
    (∀ n b s', s.removeCategory n = (.ok b, s') →
      s'.capacity = s.capacity ∨ 2 * s'.capacity = s.capacity) ∧
    s.clearCategories.capacity = 1 := by
  obtain ⟨hwf, hcap, -⟩ := WordCatVec.Reachable.inv h
  obtain ⟨⟨k, hk⟩, -⟩ := WordCatVec.Reachable.capacity_inv h
  refine ⟨⟨k, hk⟩, hcap, rfl, ?_, ?_, rfl⟩
  · intro r b s' hadd
    rcases WordCatVec.addCategory_step s hwf hcap r b s' hadd with
      ⟨-, h2, -⟩ | ⟨-, -, -, -, -, -, h7⟩
    · left; rw [h2]
    · rw [h7]; split_ifs
      · right; rfl
      · left; rfl
  · intro n b s' hrem
    rcases WordCatVec.removeCategory_step s hwf n b s' hrem with
      ⟨-, h2, -⟩ | ⟨-, -, -, -, -, -, h7⟩
    · left; rw [h2]
    · by_cases hlt : s.size - 1 < s.capacity / 2
      · rw [if_pos hlt] at h7
        right
        cases k with
        | zero =>
          have h1 : s.capacity = 1 := by rw [hk]; rfl
          rw [h1] at hlt
          simp at hlt
        | succ j =>
          have hhalf : s.capacity / 2 = 2 ^ j := by
            rw [hk, Nat.pow_succ, Nat.mul_div_cancel _ (by decide : 0 < 2)]
          have hpos : 1 ≤ 2 ^ j := Nat.one_le_two_pow
          rw [hhalf, Nat.max_eq_left hpos] at h7
          rw [h7, hk, Nat.pow_succ]
          omega
      · left; rw [h7, if_neg hlt]

theorem C33_capacity_power_of_two_witness :
    (∃ k, (sampleStore ["a", "b", "c"]).capacity = 2 ^ k) ∧
    1 ≤ (sampleStore ["a", "b", "c"]).capacity ∧ WordCatVec.new.capacity = 1 ∧
    (∀ r b s', (sampleStore ["a", "b", "c"]).addCategory r = (.ok b, s') →
      s'.capacity = (sampleStore ["a", "b", "c"]).capacity ∨
      s'.capacity = 2 * (sampleStore ["a", "b", "c"]).capacity) ∧
    (∀ n b s', (sampleStore ["a", "b", "c"]).removeCategory n = (.ok b, s') →
      s'.capacity = (sampleStore ["a", "b", "c"]).capacity ∨
      2 * s'.capacity = (sampleStore ["a", "b", "c"]).capacity) ∧
    (sampleStore ["a", "b", "c"]).clearCategories.capacity = 1 :=
  C33_capacity_power_of_two _
    (WordCatVec.Reachable.addCategory
      (WordCatVec.Reachable.addCategory
        (WordCatVec.Reachable.addCategory WordCatVec.Reachable.new
          (show WordCatVec.new.addCategory (sampleCat "a" []) = (.ok true, sampleStore ["a"])
            by decide))
        (show (sampleStore ["a"]).addCategory (sampleCat "b" []) =
            (.ok true, sampleStore ["a", "b"]) by decide))
      (show (sampleStore ["a", "b"]).addCategory (sampleCat "c" []) =
          (.ok true, sampleStore ["a", "b", "c"]) by decide))

/-- C38: for every store reachable from a newly constructed `WordCatVec` by
any sequence of `addCategory`, `removeCategory` and `clearCategories` calls,
`capacity == 1` or `capacity <= 2 * size`. -/
theorem C38_half_occupied (s : WordCatVec) (h : WordCatVec.Reachable s) :
    s.capacity = 1 ∨ s.capacity ≤ 2 * s.size :=
  (WordCatVec.Reachable.capacity_inv h).2

theorem C38_half_occupied_witness :
    ((sampleStore ["a", "b", "c"]).removeCategory (Word.ofCStr (ascii "b"))).2.capacity = 1 ∨
    ((sampleStore ["a", "b", "c"]).removeCategory (Word.ofCStr (ascii "b"))).2.capacity ≤
      2 * ((sampleStore ["a", "b", "c"]).removeCategory (Word.ofCStr (ascii "b"))).2.size :=
  C38_half_occupied _
    (WordCatVec.Reachable.removeCategory
      (WordCatVec.Reachable.addCategory
        (WordCatVec.Reachable.addCategory
          (WordCatVec.Reachable.addCategory WordCatVec.Reachable.new
            (show WordCatVec.new.addCategory (sampleCat "a" []) = (.ok true, sampleStore ["a"])
              by decide))
          (show (sampleStore ["a"]).addCategory (sampleCat "b" []) =
              (.ok true, sampleStore ["a", "b"]) by decide))
        (show (sampleStore ["a", "b"]).addCategory (sampleCat "c" []) =
            (.ok true, sampleStore ["a", "b", "c"]) by decide))
      (show (sampleStore ["a", "b", "c"]).removeCategory (Word.ofCStr (ascii "b")) =
          (.ok true, ((sampleStore ["a", "b", "c"]).removeCategory
            (Word.ofCStr (ascii "b"))).2) by decide))

/-- C40: a store that has been moved from, by the move constructor or by the
move assignment, has a null array, capacity 0 and size 0; on it
`addCategory(r)`, for every record `r` whose name has a buffer, raises the
`Size exceeds capacity` runtime error: no name is found, `size == capacity`
allocates a new array of `0 * 2 = 0` records, and the guard `size < capacity`
fails.  The store has size 0 and capacity 0 afterwards and holds no record. -/
theorem C40_addCategory_on_moved_from (s self : WordCatVec) (r : WordCat)
    (hr : r.category.present = true) :
    (s.move).2.capacity = 0 ∧ (s.move).2.size = 0 ∧ (s.move).2.word_category_array = none ∧
    (self.moveAssign s).2 = (s.move).2 ∧
    ((s.move).2.addCategory r).1 = .error Fault.SizeExceedsCapacity ∧
    ((s.move).2.addCategory r).2.size = 0 ∧ ((s.move).2.addCategory r).2.capacity = 0 ∧
    ((s.move).2.addCategory r).2.records = [] ∧
    ((self.moveAssign s).2.addCategory r).1 = .error Fault.SizeExceedsCapacity ∧
    ((self.moveAssign s).2.addCategory r).2.size = 0 := by
  have hrun : (⟨none, 0, 0⟩ : WordCatVec).addCategory r =
      (.error Fault.SizeExceedsCapacity, ⟨some [], 0, 0⟩) := by
    simp [WordCatVec.addCategory, WordCat.getCategoryName_eq r hr, WordCatVec.lookup,
      WordCatVec.search, WordCatVec.searchLoop, WordCatVec.reallocate, WordCatVec.copyLoop,
      newArray]
  have hm : (s.move).2 = ⟨none, 0, 0⟩ := rfl
  have hma : (self.moveAssign s).2 = ⟨none, 0, 0⟩ := rfl
  rw [hma, hm, hrun]
  exact ⟨rfl, rfl, rfl, rfl, rfl, rfl, rfl, rfl, rfl, rfl⟩

theorem C40_addCategory_on_moved_from_witness :
    ((sampleStore ["a", "b"]).move).2.capacity = 0 ∧
    ((sampleStore ["a", "b"]).move).2.size = 0 ∧
    ((sampleStore ["a", "b"]).move).2.word_category_array = none ∧
    (WordCatVec.new.moveAssign (sampleStore ["a", "b"])).2 = ((sampleStore ["a", "b"]).move).2 ∧
    (((sampleStore ["a", "b"]).move).2.addCategory (sampleCat "c" ["x"])).1 =
      .error Fault.SizeExceedsCapacity ∧
    (((sampleStore ["a", "b"]).move).2.addCategory (sampleCat "c" ["x"])).2.size = 0 ∧
    (((sampleStore ["a", "b"]).move).2.addCategory (sampleCat "c" ["x"])).2.capacity = 0 ∧
    (((sampleStore ["a", "b"]).move).2.addCategory (sampleCat "c" ["x"])).2.records = [] ∧
    ((WordCatVec.new.moveAssign (sampleStore ["a", "b"])).2.addCategory
      (sampleCat "c" ["x"])).1 = .error Fault.SizeExceedsCapacity ∧
    ((WordCatVec.new.moveAssign (sampleStore ["a", "b"])).2.addCategory
      (sampleCat "c" ["x"])).2.size = 0 :=
  C40_addCategory_on_moved_from (sampleStore ["a", "b"]) WordCatVec.new (sampleCat "c" ["x"])
    (by decide)

/-- C32 (as stated, refuted): on the list a, c, b the word b does not precede
the front and does not precede the back (it is equal to it), yet `insertSorted`
does not append it: `back().isLess(word)` is false, the scan from the second
node stops at c, and the result is a, b, c, b. -/
theorem C32_counterexample :
    (Word.ofCStr (ascii "b")).isLess (Word.ofCStr (ascii "a")) = .ok false ∧
    (sampleList ["a", "c", "b"]).back = .ok (Word.ofCStr (ascii "b")) ∧
    (Word.ofCStr (ascii "b")).isLess (Word.ofCStr (ascii "b")) = .ok false ∧
    (sampleList ["a", "c", "b"]).insertSorted (Word.ofCStr (ascii "b")) =
      .ok (sampleList ["a", "b", "c", "b"]) ∧
    (sampleList ["a", "c", "b"]).insertSorted (Word.ofCStr (ascii "b")) ≠
      .ok (sampleList ["a", "c", "b", "b"]) := by
  decide

/-- C32 (amended): for every non-empty list `l` (not assumed sorted) and every
word `w` that does not precede `front(l)`: if `back(l)` precedes `w`
(`back().isLess(w)`), `insertSorted(l, w)` appends `w` at the tail, so the
result is `l` followed by `w`; otherwise (`w` precedes `back(l)` or is equal to
it) the forward scan from the second node is used, and `w` is linked in front
of the first node after the head that is not less than `w` (at the end when
there is none).  One of the two cases applies. -/
theorem C32_insertSorted_tail_or_scan (l : WordList) (word : Word) (hw : word.present = true)
    (h : Word) (rest : List Word) (hn : l.nodes = h :: rest)
    (hp : ∀ c ∈ l.nodes, c.present = true)
    (hlt : word.isLess h = .ok false)
    (b : Word) (hb : l.nodes.getLast? = some b) :
    l.back = .ok b ∧
    (b.isLess word = .ok true →
      l.insertSorted word = .ok { nodes := l.nodes ++ [word], size := l.size + 1 }) ∧
    (b.isLess word = .ok false →
      l.insertSorted word = .ok
        { nodes := h :: (rest.takeWhile (fun c => decide (strcmpBytes c.bytes word.bytes < 0)) ++
            word :: rest.dropWhile (fun c => decide (strcmpBytes c.bytes word.bytes < 0))),
          size := l.size + 1 }) ∧
    (b.isLess word = .ok true ∨ b.isLess word = .ok false) := by
  have hh : h.present = true := hp h (by rw [hn]; exact List.mem_cons_self _ _)
  have hbp : b.present = true := hp b (List.mem_of_getLast?_eq_some hb)
  have hlt1 : ¬ strcmpBytes word.bytes h.bytes < 0 := by
    rw [Word.isLess_of_present hw hh] at hlt
    simpa using hlt
  have hbl := Word.isLess_of_present hbp hw
  obtain ⟨b1, hb1, hback⟩ := WordList.back_cons l h rest hn
  have hbb : b1 = b := by rw [hb] at hb1; exact (Option.some.inj hb1).symm
  refine ⟨by rw [hback, hbb], ?_, ?_, ?_⟩
  · intro hcase
    rw [hbl] at hcase
    exact WordList.insertSorted_back l word hw h rest hn hh hlt1 b hb hbp (by simpa using hcase)
  · intro hcase
    rw [hbl] at hcase
    exact WordList.insertSorted_middle l word hw h rest hn hp hlt1 b hb (by simpa using hcase)
  · rw [hbl]
    by_cases hc : strcmpBytes b.bytes word.bytes < 0
    · left; simp [hc]
    · right; simp [hc]

theorem C32_insertSorted_tail_or_scan_witness :
    (sampleList ["a", "c", "b"]).back = .ok (Word.ofCStr (ascii "b")) ∧
    ((Word.ofCStr (ascii "b")).isLess (Word.ofCStr (ascii "b")) = .ok true →
      (sampleList ["a", "c", "b"]).insertSorted (Word.ofCStr (ascii "b")) =
        .ok { nodes := (sampleList ["a", "c", "b"]).nodes ++ [Word.ofCStr (ascii "b")],
              size := (sampleList ["a", "c", "b"]).size + 1 }) ∧
    ((Word.ofCStr (ascii "b")).isLess (Word.ofCStr (ascii "b")) = .ok false →
      (sampleList ["a", "c", "b"]).insertSorted (Word.ofCStr (ascii "b")) = .ok
        { nodes := Word.ofCStr (ascii "a") ::
            ([Word.ofCStr (ascii "c"), Word.ofCStr (ascii "b")].takeWhile
                (fun c => decide (strcmpBytes c.bytes (Word.ofCStr (ascii "b")).bytes < 0)) ++
              Word.ofCStr (ascii "b") ::
                [Word.ofCStr (ascii "c"), Word.ofCStr (ascii "b")].dropWhile
                  (fun c => decide (strcmpBytes c.bytes (Word.ofCStr (ascii "b")).bytes < 0))),
          size := (sampleList ["a", "c", "b"]).size + 1 }) ∧
    ((Word.ofCStr (ascii "b")).isLess (Word.ofCStr (ascii "b")) = .ok true ∨
      (Word.ofCStr (ascii "b")).isLess (Word.ofCStr (ascii "b")) = .ok false) :=
  C32_insertSorted_tail_or_scan (sampleList ["a", "c", "b"]) (Word.ofCStr (ascii "b"))
    (by decide) (Word.ofCStr (ascii "a")) [Word.ofCStr (ascii "c"), Word.ofCStr (ascii "b")]
    (by decide) (by decide) (by decide) (Word.ofCStr (ascii "b")) (by decide)

theorem WordList.clearLoop_nodes (nodes : List Word) :
    ∀ size, (WordList.clearLoop nodes size).nodes = [] ∧
      (WordList.clearLoop nodes size).size = size - nodes.length := by
  induction nodes with
  | nil => intro size; exact ⟨rfl, rfl⟩
  | cons w ws ih =>
    intro size
    obtain ⟨h1, h2⟩ := ih (size - 1)
    refine ⟨h1, ?_⟩
    show (WordList.clearLoop ws (size - 1)).size = _
    rw [h2, List.length_cons]
    omega

theorem WordCat.insertWord_absent_word (c : WordCat) (w : Word) (hw : ¬ w.present = true) :
    ∃ e, c.insertWord w = .error e := by
  have hnone : w.word_ptr = none := by
    cases w with
    | mk p n => cases p with
      | none => rfl
      | some bs => exact absurd rfl hw
  cases hn : c.wordList.nodes with
  | nil =>
    refine ⟨Fault.NullDeref, ?_⟩
    simp [WordCat.insertWord, WordList.lookup, WordList.search, WordList.searchFrom, hn,
      WordList.insertSorted, WordList.push_front, Word.copy, hnone]
  | cons x xs =>
    refine ⟨Fault.NullDeref, ?_⟩
    cases hx : x.word_ptr <;>
      simp [WordCat.insertWord, WordList.lookup, WordList.search, WordList.searchFrom, hn,
        strcmp, Word.c_str, hnone, hx]

theorem WordList.insertSorted_strict (l : WordList) (w : Word) (hw : w.present = true)
    (hp : ∀ c ∈ l.nodes, c.present = true) (hs : l.nodes.Pairwise Word.le)
    (hnd : (l.nodes.map Word.bytes).Nodup) (hno : ¬ ∃ x ∈ l.nodes, x.bytes = w.bytes) :
    ∃ l', l.insertSorted w = .ok l' ∧ (∀ c ∈ l'.nodes, c.present = true) ∧
      l'.nodes.Pairwise Word.le ∧ (l'.nodes.map Word.bytes).Nodup := by
  obtain ⟨l', hrun, hp', hs', -, -⟩ := WordList.insertSorted_sorted l w hw hp hs
  obtain ⟨k, l2, -, hrun2, -, hnodes, -⟩ := WordList.insertSorted_at l w hw hp
  have hl : l2 = l' := by
    rw [hrun] at hrun2
    exact (Except.ok.inj hrun2).symm
  subst hl
  refine ⟨l2, hrun, hp', hs', ?_⟩
  have hperm : l2.nodes.Perm (w :: l.nodes) := by
    rw [hnodes]
    conv_rhs => rw [← List.take_append_drop k l.nodes]
    exact List.perm_middle
  refine ((hperm.map Word.bytes).nodup_iff).2 ?_
  rw [List.map_cons, List.nodup_cons]
  refine ⟨?_, hnd⟩
  intro hmem
  obtain ⟨x, hx, hxe⟩ := List.mem_map.1 hmem
  exact hno ⟨x, hx, hxe⟩

theorem WordList.remove_sublist (l : WordList) (w : Word) (b : Bool) (l' : WordList)
    (h : l.remove w = .ok (b, l')) : l'.nodes.Sublist l.nodes := by
  unfold WordList.remove at h
  split at h
  · cases h
  · cases h; exact List.Sublist.refl _
  · cases h; exact List.eraseIdx_sublist _ _

theorem WordList.remove_returns (l : WordList) (w : Word) (hw : w.present = true)
    (hp : ∀ c ∈ l.nodes, c.present = true) : ∃ r, l.remove w = .ok r := by
  obtain ⟨r, hr, -⟩ := WordList.searchFrom_isSome w hw l.nodes hp 0
  cases r with
  | none => exact ⟨(false, l), by simp [WordList.remove, WordList.search, hr]⟩
  | some i =>
    exact ⟨(true, { nodes := l.nodes.eraseIdx i, size := l.size - 1 }),
      by simp [WordList.remove, WordList.search, hr]⟩

theorem WordCat.Reachable.members_inv {c : WordCat} (h : WordCat.Reachable c) :
    (∀ x ∈ c.wordList.nodes, x.present = true) ∧ c.wordList.nodes.Pairwise Word.le ∧
      (c.wordList.nodes.map Word.bytes).Nodup := by
  induction h with
  | default => exact ⟨by simp [WordCat.default, WordList.empty], List.Pairwise.nil, List.nodup_nil⟩
  | @ofWord name c hc =>
    unfold WordCat.ofWord at hc
    split at hc
    · cases hc
    · cases hc
      exact ⟨by simp [WordList.empty], List.Pairwise.nil, List.nodup_nil⟩
  | @insertWord c c' w b _ hins ih =>
    obtain ⟨hp, hs, hnd⟩ := ih
    by_cases hw : w.present = true
    · by_cases hex : ∃ x ∈ c.wordList.nodes, x.bytes = w.bytes
      · simp only [WordCat.insertWord, WordList.list_lookup_eq c.wordList w hw hp, hex,
          decide_True] at hins
        cases hins
        exact ⟨hp, hs, hnd⟩
      · obtain ⟨l', hrun, hp', hs', hnd'⟩ :=
          WordList.insertSorted_strict c.wordList w hw hp hs hnd hex
        simp only [WordCat.insertWord, WordList.list_lookup_eq c.wordList w hw hp, hex,
          decide_False, hrun] at hins
        cases hins
        exact ⟨hp', hs', hnd'⟩
    · obtain ⟨e, he⟩ := WordCat.insertWord_absent_word c w hw
      rw [he] at hins
      cases hins
  | @removeWord c c' w b _ hrem ih =>
    obtain ⟨hp, hs, hnd⟩ := ih
    unfold WordCat.removeWord at hrem
    split at hrem
    · cases hrem
    · next b1 l1 hl =>
      cases hrem
      have hsub := WordList.remove_sublist _ _ _ _ hl
      exact ⟨fun x hx => hp x (hsub.subset hx), hs.sublist hsub, hnd.sublist (hsub.map _)⟩
  | @emptyCategory c _ _ =>
    have hn : c.emptyCategory.wordList.nodes = [] :=
      (WordList.clearLoop_nodes c.wordList.nodes c.wordList.size).1
    rw [hn]
    exact ⟨by simp, List.Pairwise.nil, List.nodup_nil⟩

theorem pairwise_isLess_of_le_nodup (l : List Word) (hp : ∀ x ∈ l, x.present = true)
    (hs : l.Pairwise Word.le) (hnd : (l.map Word.bytes).Nodup) :
    l.Pairwise (fun a b => a.isLess b = .ok true) := by
  have hne : l.Pairwise (fun a b => a.bytes ≠ b.bytes) := (List.pairwise_map).1 hnd
  have hboth := hs.and hne
  refine List.Pairwise.imp_of_mem ?_ hboth
  intro a b ha hb hab
  rw [Word.isLess_of_present (hp a ha) (hp b hb)]
  have hle : strcmpBytes a.bytes b.bytes ≤ 0 := hab.1
  have hnz : strcmpBytes a.bytes b.bytes ≠ 0 := fun h0 => hab.2 (strcmpBytes_eq_zero.1 h0)
  have : strcmpBytes a.bytes b.bytes < 0 := by omega
  simp [this]

/-- C36: for every category record reachable from a newly constructed
`WordCat` by any sequence of `insertWord`, `removeWord` and `emptyCategory`
calls, the member list is strictly increasing under `Word::isLess`: every word
is less than every word after it, so the list is sorted and holds no word
twice; the three operations return on such a record for every word that has a
buffer. -/
theorem C36_members_strictly_increasing (c : WordCat) (h : WordCat.Reachable c) :
    c.wordList.nodes.Pairwise (fun a b => a.isLess b = .ok true) ∧
    c.wordList.nodes.Pairwise (fun a b => b.isLess a = .ok false) ∧
    (c.wordList.nodes.map Word.bytes).Nodup ∧
    c.wordList.nodes.Pairwise (fun a b => a.eq b = .ok false) ∧
    (∀ w : Word, w.present = true →
      (∃ r, c.insertWord w = .ok r) ∧ (∃ r, c.removeWord w = .ok r)) := by
  obtain ⟨hp, hs, hnd⟩ := WordCat.Reachable.members_inv h
  refine ⟨pairwise_isLess_of_le_nodup _ hp hs hnd, ?_, hnd, ?_, ?_⟩
  · refine List.Pairwise.imp_of_mem ?_ hs
    intro a b ha hb hab
    exact Word.isLess_false_of_le (hp a ha) (hp b hb) hab
  · have hne : c.wordList.nodes.Pairwise (fun a b => a.bytes ≠ b.bytes) :=
      (List.pairwise_map).1 hnd
    refine List.Pairwise.imp_of_mem ?_ hne
    intro a b ha hb hab
    rw [Word.eq_of_present (hp a ha) (hp b hb)]
    simp [hab]
  · intro w hw
    constructor
    · by_cases hex : ∃ x ∈ c.wordList.nodes, x.bytes = w.bytes
      · exact ⟨(false, c), by simp only [WordCat.insertWord,
          WordList.list_lookup_eq c.wordList w hw hp, hex, decide_True]⟩
      · obtain ⟨l, hl⟩ := WordList.insertSorted_returns c.wordList w hw hp
        exact ⟨(true, { c with wordList := l }), by simp only [WordCat.insertWord,
          WordList.list_lookup_eq c.wordList w hw hp, hex, decide_False, hl]⟩
    · obtain ⟨r, hr⟩ := WordList.remove_returns c.wordList w hw hp
      exact ⟨(r.1, { c with wordList := r.2 }), by simp only [WordCat.removeWord, hr]⟩

theorem C36_members_strictly_increasing_witness :
    (sampleCat "fruit" ["apple", "pear"]).wordList.nodes.Pairwise
      (fun a b => a.isLess b = .ok true) ∧
    (sampleCat "fruit" ["apple", "pear"]).wordList.nodes.Pairwise
      (fun a b => b.isLess a = .ok false) ∧
    ((sampleCat "fruit" ["apple", "pear"]).wordList.nodes.map Word.bytes).Nodup ∧
    (sampleCat "fruit" ["apple", "pear"]).wordList.nodes.Pairwise
      (fun a b => a.eq b = .ok false) ∧
    (∀ w : Word, w.present = true →
      (∃ r, (sampleCat "fruit" ["apple", "pear"]).insertWord w = .ok r) ∧
      (∃ r, (sampleCat "fruit" ["apple", "pear"]).removeWord w = .ok r)) :=
  C36_members_strictly_increasing _
    (WordCat.Reachable.insertWord
      (WordCat.Reachable.insertWord
        (WordCat.Reachable.ofWord
          (show WordCat.ofWord (Word.ofCStr (ascii "fruit")) = .ok (sampleCat "fruit" [])
            by decide))
        (show (sampleCat "fruit" []).insertWord (Word.ofCStr (ascii "pear")) =
            .ok (true, sampleCat "fruit" ["pear"]) by decide))
      (show (sampleCat "fruit" ["pear"]).insertWord (Word.ofCStr (ascii "apple")) =
          .ok (true, sampleCat "fruit" ["apple", "pear"]) by decide))

theorem isspace_zero : isspace 0 = false := by decide

theorem cstr_append_nul (a g : List Nat) (h0 : 0 ∉ a) : cstr (a ++ 0 :: g) = a := by
  unfold cstr
  rw [List.takeWhile_append_of_pos]
  · simp
  · intro x hx
    have : x ≠ 0 := fun h => h0 (h ▸ hx)
    simpa using this

theorem skipLeading_eq (s g : List Nat) :
    skipLeading (s ++ 0 :: g) = .ok (s.takeWhile isspace).length := by
  induction s with
  | nil => simp [skipLeading, isspace_zero]
  | cons c cs ih =>
    by_cases hc : isspace c = true
    · simp [skipLeading, hc, ih]
    · simp [skipLeading, hc]

theorem take_succ_drop (s : List Nat) (k e : Nat) (hke : k ≤ e) (c : Nat) (hc : s[e]? = some c) :
    (s.take (e + 1)).drop k = (s.take e).drop k ++ [c] := by
  rw [List.take_succ, hc]
  simp only [Option.toList]
  rw [List.drop_append_of_le_length]
  rw [List.length_take]
  have := (List.getElem?_eq_some_iff.1 hc).1
  omega

theorem walkBack_eq (s g : List Nat) (k : Nat) (x : Nat) (hx : s[k]? = some x)
    (hxs : isspace x = false) :
    ∀ n, k < n → n ≤ s.length →
      walkBack (s ++ 0 :: g) k n =
        .ok (((k + (List.rdropWhile isspace ((s.take n).drop k)).length : Nat) : Int) - 1) ∧
      1 ≤ (((s.take n).drop k).rdropWhile isspace).length := by
  intro n
  induction n with
  | zero => intro h; omega
  | succ e ih =>
    intro hk hn
    have hklen : k < s.length := (List.getElem?_eq_some_iff.1 hx).1
    by_cases hke : k < e
    · have he : e < s.length := by omega
      have hget : (s ++ 0 :: g)[e]? = s[e]? := List.getElem?_append_left he
      have hse : s[e]? = some s[e] := List.getElem?_eq_getElem he
      have hseg := take_succ_drop s k e (by omega) s[e] hse
      unfold walkBack
      rw [if_pos hke, hget, hse]
      by_cases hsp : isspace s[e] = true
      · simp only [hsp, if_true]
        rw [hseg, List.rdropWhile_concat_pos _ _ _ hsp]
        exact ih hke (by omega)
      · simp only [hsp]
        rw [hseg, List.rdropWhile_concat_neg _ _ _ hsp]
        have hlen : ((s.take e).drop k ++ [s[e]]).length = e + 1 - k := by
          simp [List.length_take]; omega
        refine ⟨?_, by rw [hlen]; omega⟩
        rw [hlen]
        simp only [Bool.false_eq_true, if_false]
        congr 1
        omega
    · have hek : e = k := by omega
      subst hek
      have hseg : (s.take (e + 1)).drop e = [x] := by
        have := take_succ_drop s e e (Nat.le_refl _) x hx
        rw [this]
        simp
      unfold walkBack
      rw [if_neg hke, hseg, List.rdropWhile_singleton]
      simp [hxs]

theorem walkBack_stop (buf : List Nat) (k n : Nat) (h : n ≤ k + 1) :
    walkBack buf k n = .ok ((n : Int) - 1) := by
  cases n with
  | zero => rfl
  | succ e =>
    unfold walkBack
    rw [if_neg (by omega)]
    congr 1
    omega

theorem set_append_nul (s g : List Nat) (m : Nat) (hm : m ≤ s.length) :
    ∃ r, (s ++ 0 :: g).set m 0 = s.take m ++ 0 :: r ∧
      r.length + m = s.length + g.length := by
  have hsplit : s ++ 0 :: g = s.take m ++ (s.drop m ++ 0 :: g) := by
    rw [← List.append_assoc, List.take_append_drop]
  have hlen : (s.take m).length = m := by rw [List.length_take]; omega
  rw [hsplit, List.set_append_right _ _ (by omega), hlen, Nat.sub_self]
  cases hd : s.drop m ++ 0 :: g with
  | nil => simp at hd
  | cons y r =>
    refine ⟨r, rfl, ?_⟩
    have h2 : (s.drop m ++ 0 :: g).length = r.length + 1 := by rw [hd]; rfl
    simp only [List.length_append, List.length_drop, List.length_cons] at h2
    omega

theorem trimBuffer_run (s g : List Nat) (h0 : 0 ∉ s) (k m : Nat) (hkm : k ≤ m)
    (hm : m ≤ s.length) (hk : skipLeading (s ++ 0 :: g) = .ok k)
    (hw : walkBack (s ++ 0 :: g) k s.length = .ok ((m : Int) - 1)) :
    ∃ out, trimBuffer (s ++ 0 :: g) = .ok out ∧ out.length = (s ++ 0 :: g).length ∧
      cstr out = (s.take m).drop k := by
  obtain ⟨r, hset, hr⟩ := set_append_nul s g m hm
  have hstrlen : strlen (s ++ 0 :: g) = s.length := by
    unfold strlen
    rw [cstr_append_nul s g h0]
  have hlen : ((s ++ 0 :: g).length : Int) = (s.length : Int) + 1 + g.length := by
    simp only [List.length_append, List.length_cons]
    push_cast
    omega
  have htn : ((m : Int) - 1 + 1).toNat = m := by
    rw [Int.sub_add_cancel]; exact Int.toNat_ofNat m
  have h0t : 0 ∉ s.take m := fun h => h0 (List.mem_of_mem_take h)
  have hc1 : ¬ ((m : Int) - 1 + 1 < 0 ∨ ((s ++ 0 :: g).length : Int) ≤ (m : Int) - 1 + 1) := by
    rw [hlen]; omega
  unfold trimBuffer
  simp only [hk, hstrlen, hw, hc1, if_false, htn, hset]
  by_cases hpos : 0 < k
  · have hcnt : ((m : Int) - 1 - (k : Int) + 2).toNat = m - k + 1 := by omega
    have hc2 : ¬ ((m : Int) - 1 - (k : Int) + 2 < 0 ∨
        ((s ++ 0 :: g).length : Int) < (k : Int) + ((m : Int) - 1 - (k : Int) + 2)) := by
      rw [hlen]; omega
    simp only [hpos, if_true, hc2, if_false, hcnt]
    have hlt : ((s.take m).drop k).length = m - k := by
      rw [List.length_drop, List.length_take]; omega
    have hdrop : (s.take m ++ 0 :: r).drop k = (s.take m).drop k ++ 0 :: r :=
      List.drop_append_of_le_length (by rw [List.length_take]; omega)
    have htake : ((s.take m).drop k ++ 0 :: r).take (m - k + 1) = (s.take m).drop k ++ [0] := by
      rw [← hlt, List.take_append]
      rfl
    refine ⟨_, rfl, ?_, ?_⟩
    · simp only [List.length_append, List.length_take, List.length_drop, List.length_cons]
      omega
    · rw [hdrop, htake, List.append_assoc]
      exact cstr_append_nul _ _ (fun h => h0t (List.mem_of_mem_drop h))
  · have hk0 : k = 0 := by omega
    subst hk0
    simp only [Nat.lt_irrefl, if_false]
    refine ⟨_, rfl, ?_, ?_⟩
    · simp only [List.length_append, List.length_take, List.length_cons]
      omega
    · rw [List.drop_zero]
      exact cstr_append_nul _ _ h0t

theorem trimBuffer_eq (s g : List Nat) (h0 : 0 ∉ s) :
    ∃ out, trimBuffer (s ++ 0 :: g) = .ok out ∧ out.length = (s ++ 0 :: g).length ∧
      cstr out = List.rdropWhile isspace (s.dropWhile isspace) := by
  have hk := skipLeading_eq s g
  have hklen : (s.takeWhile isspace).length ≤ s.length :=
    (List.takeWhile_sublist isspace).length_le
  have hdrop : s.drop (s.takeWhile isspace).length = s.dropWhile isspace :=
    drop_length_takeWhile isspace s
  by_cases hall : (s.takeWhile isspace).length = s.length
  · have hnil : s.dropWhile isspace = [] := by
      rw [← hdrop, hall]; exact List.drop_length s
    obtain ⟨out, hrun, hl, hc⟩ := trimBuffer_run s g h0 _ s.length hklen (Nat.le_refl _) hk
      (by rw [hall]; exact walkBack_stop _ _ _ (by omega))
    refine ⟨out, hrun, hl, ?_⟩
    rw [hc, hnil, hall, List.take_length, List.drop_length]
    rfl
  · have hlt : (s.takeWhile isspace).length < s.length := by omega
    have hx : s[(s.takeWhile isspace).length]? = some s[(s.takeWhile isspace).length] :=
      List.getElem?_eq_getElem hlt
    have hne : 0 < (s.dropWhile isspace).length := by
      rw [← hdrop, List.length_drop]; omega
    have hxs : isspace s[(s.takeWhile isspace).length] = false := by
      have h1 := List.dropWhile_get_zero_not isspace s hne
      have h2 : (s.dropWhile isspace).get ⟨0, hne⟩ = s[(s.takeWhile isspace).length] := by
        simp only [List.get_eq_getElem]
        have : (s.dropWhile isspace)[0]? = s[(s.takeWhile isspace).length]? := by
          rw [← hdrop, List.getElem?_drop]; rfl
        rw [List.getElem?_eq_getElem hne, List.getElem?_eq_getElem hlt] at this
        exact Option.some.inj this
      rw [h2] at h1
      simpa using h1
    obtain ⟨hw, hL⟩ := walkBack_eq s g _ _ hx hxs s.length hlt (Nat.le_refl _)
    rw [List.take_length, hdrop] at hw hL
    have hpre := List.rdropWhile_prefix isspace (s.dropWhile isspace)
    have hLlen : (List.rdropWhile isspace (s.dropWhile isspace)).length ≤
        (s.dropWhile isspace).length := hpre.length_le
    have hdl : (s.dropWhile isspace).length = s.length - (s.takeWhile isspace).length := by
      rw [← hdrop, List.length_drop]
    obtain ⟨out, hrun, hl, hc⟩ := trimBuffer_run s g h0 (s.takeWhile isspace).length
      ((s.takeWhile isspace).length + (List.rdropWhile isspace (s.dropWhile isspace)).length)
      (by omega) (by omega) hk hw
    refine ⟨out, hrun, hl, ?_⟩
    rw [hc, List.drop_take, hdrop, Nat.add_sub_cancel_left]
    exact (List.prefix_iff_eq_take.1 hpre).symm

theorem trim_eq_strip (s : List Nat) :
    trim s = List.rdropWhile isspace (s.dropWhile isspace) := by
  unfold trim
  cases hd : s.dropWhile isspace with
  | nil => rfl
  | cons first rest =>
    have hne : 0 < (s.dropWhile isspace).length := by rw [hd]; simp
    have h1 := List.dropWhile_get_zero_not isspace s hne
    have hf : isspace first = false := by
      have : (s.dropWhile isspace).get ⟨0, hne⟩ = first := by
        simp only [List.get_eq_getElem, hd, List.getElem_cons_zero]
      rw [this] at h1
      simpa using h1
    simp only [List.rdropWhile, List.reverse_cons, List.dropWhile_append]
    by_cases he : (List.dropWhile isspace rest.reverse).isEmpty = true
    · rw [if_pos he]
      have : List.dropWhile isspace rest.reverse = [] := List.isEmpty_iff.1 he
      simp [this, List.dropWhile, hf]
    · rw [if_neg he]
      simp

theorem rdropWhile_append_rtakeWhile {α : Type} (p : α → Bool) (l : List α) :
    List.rdropWhile p l ++ List.rtakeWhile p l = l := by
  simp only [List.rdropWhile, List.rtakeWhile]
  rw [← List.reverse_append, List.takeWhile_append_dropWhile, List.reverse_reverse]

theorem strip_head (s : List Nat) (c : Nat)
    (h : (List.rdropWhile isspace (s.dropWhile isspace)).head? = some c) : isspace c = false := by
  have hpre := List.rdropWhile_prefix isspace (s.dropWhile isspace)
  obtain ⟨t, ht⟩ := hpre
  cases hr : List.rdropWhile isspace (s.dropWhile isspace) with
  | nil => rw [hr] at h; cases h
  | cons x xs =>
    rw [hr] at h ht
    have hx : x = c := by simpa using h
    have hnot := List.head?_dropWhile_not isspace s
    rw [← ht] at hnot
    simp only [List.cons_append, List.head?_cons] at hnot
    rw [← hx]; exact hnot

theorem strip_last (s : List Nat) (c : Nat)
    (h : (List.rdropWhile isspace (s.dropWhile isspace)).getLast? = some c) :
    isspace c = false := by
  have hne : List.rdropWhile isspace (s.dropWhile isspace) ≠ [] := by
    intro h0; rw [h0] at h; cases h
  have hnot := List.rdropWhile_last_not isspace (s.dropWhile isspace) hne
  rw [List.getLast?_eq_getLast _ hne] at h
  rw [← Option.some.inj h]
  simpa using hnot

theorem strip_idempotent (s : List Nat) :
    List.rdropWhile isspace
        ((List.rdropWhile isspace (s.dropWhile isspace)).dropWhile isspace) =
      List.rdropWhile isspace (s.dropWhile isspace) := by
  have hd : (List.rdropWhile isspace (s.dropWhile isspace)).dropWhile isspace =
      List.rdropWhile isspace (s.dropWhile isspace) := by
    cases hr : List.rdropWhile isspace (s.dropWhile isspace) with
    | nil => rfl
    | cons x xs =>
      have hx : isspace x = false := strip_head s x (by rw [hr]; rfl)
      simp [List.dropWhile_cons, hx]
  rw [hd, List.rdropWhile_idempotent]

/-- C37: for every text `s` (a C string, so without NUL byte) in a buffer,
`trim` returns and leaves in the buffer `s` with its maximal run of leading
whitespace and its maximal run of trailing whitespace removed: `s` is a run of
whitespace, the result, and a run of whitespace; the result neither starts nor
ends with a whitespace character; a text made only of whitespace (the empty
text included) becomes the empty text; and `trim` on the result gives the
result again. -/
theorem C37_trim (s g : List Nat) (h0 : 0 ∉ s) :
    ∃ out, trimBuffer (s ++ 0 :: g) = .ok out ∧
      cstr out = List.rdropWhile isspace (s.dropWhile isspace) ∧
      cstr out = trim s ∧
      (∃ pre post, s = pre ++ cstr out ++ post ∧ (∀ c ∈ pre, isspace c = true) ∧
        (∀ c ∈ post, isspace c = true)) ∧
      (∀ c, (cstr out).head? = some c → isspace c = false) ∧
      (∀ c, (cstr out).getLast? = some c → isspace c = false) ∧
      ((∀ c ∈ s, isspace c = true) → cstr out = []) ∧
      (∃ out2, trimBuffer (cstr out ++ 0 :: g) = .ok out2 ∧ cstr out2 = cstr out) := by
  obtain ⟨out, hrun, -, hc⟩ := trimBuffer_eq s g h0
  have hsub : ∀ c ∈ List.rdropWhile isspace (s.dropWhile isspace), c ∈ s := fun c hc =>
    (List.dropWhile_sublist isspace).subset
      ((List.rdropWhile_prefix isspace _).sublist.subset hc)
  refine ⟨out, hrun, hc, by rw [hc, trim_eq_strip], ?_, ?_, ?_, ?_, ?_⟩
  · refine ⟨s.takeWhile isspace, List.rtakeWhile isspace (s.dropWhile isspace), ?_, ?_, ?_⟩
    · rw [hc, List.append_assoc, rdropWhile_append_rtakeWhile,
        List.takeWhile_append_dropWhile]
    · intro c hcm; exact List.mem_takeWhile_imp hcm
    · intro c hcm; exact List.mem_rtakeWhile_imp hcm
  · intro c h; rw [hc] at h; exact strip_head s c h
  · intro c h; rw [hc] at h; exact strip_last s c h
  · intro hall
    rw [hc, (List.dropWhile_eq_nil_iff).2 hall]
    rfl
  · rw [hc]
    obtain ⟨out2, hrun2, -, hc2⟩ := trimBuffer_eq (List.rdropWhile isspace (s.dropWhile isspace)) g
      (fun h => h0 (hsub 0 h))
    exact ⟨out2, hrun2, by rw [hc2, strip_idempotent]⟩


theorem C37_trim_witness :
    0 ∉ ascii "  ab c \t" ∧
    ∃ out, trimBuffer (ascii "  ab c \t" ++ 0 :: [120, 0]) = .ok out ∧
      cstr out = List.rdropWhile isspace ((ascii "  ab c \t").dropWhile isspace) ∧
      cstr out = trim (ascii "  ab c \t") ∧
      (∃ pre post, ascii "  ab c \t" = pre ++ cstr out ++ post ∧
        (∀ c ∈ pre, isspace c = true) ∧ (∀ c ∈ post, isspace c = true)) ∧
      (∀ c, (cstr out).head? = some c → isspace c = false) ∧
      (∀ c, (cstr out).getLast? = some c → isspace c = false) ∧
      ((∀ c ∈ ascii "  ab c \t", isspace c = true) → cstr out = []) ∧
      (∃ out2, trimBuffer (cstr out ++ 0 :: [120, 0]) = .ok out2 ∧ cstr out2 = cstr out) :=
  ⟨by decide, C37_trim (ascii "  ab c \t") [120, 0] (by decide)⟩

theorem getlinesFrom_line (l : List Nat) :
    ∀ (acc rest : List Nat), 10 ∉ l → (acc ++ l).length ≤ 255 →
      getlinesFrom (l ++ 10 :: rest) acc = (acc ++ l) :: getlinesFrom rest [] := by
  induction l with
  | nil => intro acc rest _ _; simp [getlinesFrom]
  | cons c cs ih =>
    intro acc rest h10 hlen
    have hc : c ≠ 10 := fun h => h10 (by simp [h])
    have hcs : 10 ∉ cs := fun h => h10 (List.mem_cons_of_mem _ h)
    have hacc : ¬ acc.length ≥ 255 := by
      simp only [List.length_append, List.length_cons] at hlen
      omega
    simp only [List.cons_append, getlinesFrom, hc, if_false, hacc]
    have := ih (acc ++ [c]) rest hcs (by simpa using hlen)
    simp only [List.append_assoc, List.singleton_append] at this
    exact this

theorem getlines_flatMap (lines : List (List Nat))
    (h : ∀ l ∈ lines, 10 ∉ l ∧ l.length ≤ 255) :
    getlines (lines.flatMap (fun l => l ++ [10])) = lines := by
  induction lines with
  | nil => simp [getlines, getlinesFrom]
  | cons l ls ih =>
    have hl := h l (List.mem_cons_self _ _)
    have := getlinesFrom_line l [] (ls.flatMap (fun l => l ++ [10])) hl.1 (by simpa using hl.2)
    simp only [getlines, List.flatMap_cons, List.append_assoc, List.singleton_append,
      List.nil_append] at this ⊢
    rw [this]
    congr 1
    exact ih (fun x hx => h x (List.mem_cons_of_mem _ hx))

theorem WordCatVec.loadFromFile_eq_loadRest (s : WordCatVec) (file : List Nat) :
    s.loadFromFile file = WordCatVec.loadRest (getlines file) s none := rfl

theorem WordCatVec.loadRest_cons (line : List Nat) (rest : List (List Nat)) (s : WordCatVec)
    (cur : Option WordCat) :
    WordCatVec.loadRest (line :: rest) s cur =
      match s.loadLine cur line with
      | .error e => .error e
      | .ok (s', c') => WordCatVec.loadRest rest s' c' := by
  unfold WordCatVec.loadRest
  simp only [WordCatVec.loadLoop]
  cases s.loadLine cur line with
  | error e => rfl
  | ok r => rfl

theorem WordCatVec.loadLine_blank (s : WordCatVec) (cur : Option WordCat) (line : List Nat)
    (ht : trim line = []) : s.loadLine cur line = .ok (s, cur) := by
  unfold WordCatVec.loadLine
  rw [ht]

theorem WordCatVec.loadLine_boundary (s : WordCatVec) (cur : Option WordCat)
    (line nm : List Nat) (ht : trim line = 35 :: nm) :
    s.loadLine cur line =
      match (match cur with
          | none => (Except.ok false, s)
          | some c => s.addCategory c) with
      | (.error e, _) => .error e
      | (.ok _, s') => .ok (s', some ⟨Word.ofCStr (trim nm), WordList.empty⟩) := by
  unfold WordCatVec.loadLine
  rw [ht]
  simp only [if_true]
  rfl

theorem WordCatVec.loadLine_member (s : WordCatVec) (cur : Option WordCat)
    (line : List Nat) (first : Nat) (nm : List Nat) (ht : trim line = first :: nm)
    (hf : first ≠ 35) :
    s.loadLine cur line =
      match cur with
      | none => .ok (s, none)
      | some c =>
        match c.insertWord (Word.ofCStr (first :: nm)) with
        | .error e => .error e
        | .ok (_, c') => .ok (s, some c') := by
  unfold WordCatVec.loadLine
  rw [ht]
  simp only [hf, if_false]

theorem trim_eq_specTrim (s : List Nat) : trim s = specTrim s := trim_eq_strip s

theorem specMembers_blank (line : List Nat) (rest : List (List Nat)) (ht : trim line = []) :
    specIsBoundary line = false ∧ specMembers (line :: rest) = specMembers rest ∧
      specCategories (line :: rest) = specCategories rest := by
  rw [trim_eq_specTrim] at ht
  have hb : specIsBoundary line = false := by simp [specIsBoundary, ht]
  refine ⟨hb, ?_, ?_⟩
  · simp [specMembers, List.takeWhile_cons, hb, ht]
  · simp [specCategories, hb]

theorem specMembers_boundary (line nm : List Nat) (rest : List (List Nat))
    (ht : trim line = 35 :: nm) :
    specIsBoundary line = true ∧ specMembers (line :: rest) = [] ∧
      specCategories (line :: rest) = (trim nm, specMembers rest) :: specCategories rest := by
  have ht2 := ht
  rw [trim_eq_specTrim] at ht
  have hb : specIsBoundary line = true := by simp [specIsBoundary, ht]
  refine ⟨hb, ?_, ?_⟩
  · simp [specMembers, List.takeWhile_cons, hb]
  · simp [specCategories, hb, ht, trim_eq_specTrim]

theorem specMembers_member (line : List Nat) (first : Nat) (nm : List Nat)
    (rest : List (List Nat)) (ht : trim line = first :: nm) (hf : first ≠ 35) :
    specIsBoundary line = false ∧
      specMembers (line :: rest) = (first :: nm) :: specMembers rest ∧
      specCategories (line :: rest) = specCategories rest := by
  rw [trim_eq_specTrim] at ht
  have hb : specIsBoundary line = false := by simp [specIsBoundary, ht, hf]
  refine ⟨hb, ?_, ?_⟩
  · simp [specMembers, List.takeWhile_cons, hb, ht]
  · simp [specCategories, hb]

theorem WordCat.insertWord_members (c : WordCat) (w : Word) (hw : w.present = true)
    (hp : ∀ x ∈ c.wordList.nodes, x.present = true)
    (hnd : (c.wordList.nodes.map Word.bytes).Nodup) :
    ∃ b c', c.insertWord w = .ok (b, c') ∧ c'.category = c.category ∧
      (∀ x ∈ c'.wordList.nodes, x.present = true) ∧
      (c'.wordList.nodes.map Word.bytes).Nodup ∧
      ∀ v, v ∈ c'.wordList.nodes.map Word.bytes ↔
        v = w.bytes ∨ v ∈ c.wordList.nodes.map Word.bytes := by
  by_cases hex : ∃ x ∈ c.wordList.nodes, x.bytes = w.bytes
  · refine ⟨false, c, ?_, rfl, hp, hnd, ?_⟩
    · simp only [WordCat.insertWord, WordList.list_lookup_eq c.wordList w hw hp, hex,
        decide_True]
    · intro v
      constructor
      · intro h; exact Or.inr h
      · rintro (h | h)
        · obtain ⟨x, hx, hxe⟩ := hex
          rw [h, ← hxe]
          exact List.mem_map_of_mem _ hx
        · exact h
  · obtain ⟨k, l', -, hrun, -, hnodes, -⟩ := WordList.insertSorted_at c.wordList w hw hp
    have hperm : l'.nodes.Perm (w :: c.wordList.nodes) := by
      rw [hnodes]
      conv_rhs => rw [← List.take_append_drop k c.wordList.nodes]
      exact List.perm_middle
    refine ⟨true, { c with wordList := l' }, ?_, rfl, ?_, ?_, ?_⟩
    · simp only [WordCat.insertWord, WordList.list_lookup_eq c.wordList w hw hp, hex,
        decide_False, hrun]
    · intro x hx
      rcases List.mem_cons.1 (hperm.subset hx) with h | h
      · rw [h]; exact hw
      · exact hp x h
    · refine ((hperm.map Word.bytes).nodup_iff).2 ?_
      rw [List.map_cons, List.nodup_cons]
      refine ⟨?_, hnd⟩
      intro hmem
      obtain ⟨x, hx, hxe⟩ := List.mem_map.1 hmem
      exact hex ⟨x, hx, hxe⟩
    · intro v
      rw [(hperm.map Word.bytes).mem_iff, List.map_cons, List.mem_cons]

theorem WordCatVec.addCategory_current (s : WordCatVec) (hs : s.wf = true)
    (hcap : 1 ≤ s.capacity) (c : WordCat) (hcp : c.category.present = true)
    (hnp : ∀ x ∈ c.wordList.nodes, x.present = true) :
    ∃ b s1, s.addCategory c = (.ok b, s1) ∧ s1.wf = true ∧ 1 ≤ s1.capacity ∧
      ((c.category.bytes ∈ s.records.map (fun r => r.category.bytes) ∧ s1 = s) ∨
       (c.category.bytes ∉ s.records.map (fun r => r.category.bytes) ∧
         s1.records = s.records ++ [c.copied])) := by
  by_cases hex : ∃ r ∈ s.records, r.category.bytes = c.category.bytes
  · refine ⟨false, s, ?_, hs, hcap, Or.inl ⟨?_, rfl⟩⟩
    · simp only [WordCatVec.addCategory, WordCat.getCategoryName_eq c hcp,
        WordCatVec.store_lookup_eq s hs _ hcp, hex, decide_True]
    · obtain ⟨r, hr, hre⟩ := hex
      exact List.mem_map.2 ⟨r, hr, hre⟩
  · obtain ⟨s1, hadd, hwf, hrec, -, hc⟩ := WordCatVec.addCategory_spec s hs hcap c
      ((WordCat.copied_wf_iff c).2 ⟨hcp, hnp⟩) hex
    refine ⟨true, s1, hadd, hwf, ?_, Or.inr ⟨?_, hrec⟩⟩
    · rw [hc]; split_ifs <;> omega
    · intro hmem
      obtain ⟨r, hr, hre⟩ := List.mem_map.1 hmem
      exact hex ⟨r, hr, hre⟩

theorem forall2_specKept_congr (seen : List (List Nat)) (n : List Nat)
    (ms ms' : List (List Nat)) (P : List (List Nat × List (List Nat))) (added : List WordCat)
    (hms : ∀ w, w ∈ ms ↔ w ∈ ms')
    (h : List.Forall₂ specHolds added (specKept seen ((n, ms') :: P))) :
    List.Forall₂ specHolds added (specKept seen ((n, ms) :: P)) := by
  by_cases hn : n ∈ seen
  · simp only [specKept, hn, if_true] at h ⊢
    exact h
  · simp only [specKept, hn, if_false] at h ⊢
    cases h with
    | cons hr hrest =>
      refine List.Forall₂.cons ?_ hrest
      exact ⟨hr.1, hr.2.1, fun w => (hr.2.2 w).trans (hms w).symm⟩

theorem WordCatVec.close_current (s : WordCatVec) (hs : s.wf = true) (hcap : 1 ≤ s.capacity)
    (c : WordCat) (hcp : c.category.present = true)
    (hnp : ∀ x ∈ c.wordList.nodes, x.present = true)
    (hnd : (c.wordList.nodes.map Word.bytes).Nodup)
    (P : List (List Nat × List (List Nat))) :
    ∃ b s1, s.addCategory c = (.ok b, s1) ∧ s1.wf = true ∧ 1 ≤ s1.capacity ∧
      ∀ (s' : WordCatVec) (added2 : List WordCat), s'.records = s1.records ++ added2 →
        List.Forall₂ specHolds added2
          (specKept (s1.records.map (fun r => r.category.bytes)) P) →
        ∃ added, s'.records = s.records ++ added ∧
          List.Forall₂ specHolds added
            (specKept (s.records.map (fun r => r.category.bytes))
              ((c.category.bytes, c.wordList.nodes.map Word.bytes) :: P)) := by
  obtain ⟨b, s1, hadd, hwf, hc1, hcase⟩ := WordCatVec.addCategory_current s hs hcap c hcp hnp
  refine ⟨b, s1, hadd, hwf, hc1, ?_⟩
  intro s' added2 hrec hall
  rcases hcase with ⟨hmem, rfl⟩ | ⟨hnot, hrec1⟩
  · refine ⟨added2, hrec, ?_⟩
    simp only [specKept, hmem, if_true]
    exact hall
  · refine ⟨c.copied :: added2, ?_, ?_⟩
    · rw [hrec, hrec1, List.append_assoc]; rfl
    · simp only [specKept, hnot, if_false]
      refine List.Forall₂.cons ⟨rfl, hnd, fun w => Iff.rfl⟩ ?_
      rw [hrec1, List.map_append] at hall
      exact hall

theorem WordCatVec.loadRest_spec (lines : List (List Nat)) :
    ∀ (s : WordCatVec) (cur : Option WordCat), s.wf = true → 1 ≤ s.capacity →
      (∀ c, cur = some c → c.category.present = true ∧
        (∀ x ∈ c.wordList.nodes, x.present = true) ∧
        (c.wordList.nodes.map Word.bytes).Nodup) →
      ∃ s' added, WordCatVec.loadRest lines s cur = .ok s' ∧ s'.wf = true ∧
        1 ≤ s'.capacity ∧ s'.records = s.records ++ added ∧
        List.Forall₂ specHolds added
          (specKept (s.records.map (fun r => r.category.bytes))
            ((match cur with
              | none => []
              | some c =>
                [(c.category.bytes, c.wordList.nodes.map Word.bytes ++ specMembers lines)]) ++
              specCategories lines)) := by
  induction lines with
  | nil =>
    intro s cur hs hcap hcur
    cases cur with
    | none =>
      exact ⟨s, [], rfl, hs, hcap, by simp, by simp [specCategories, specKept]⟩
    | some c =>
      obtain ⟨hcp, hnp, hnd⟩ := hcur c rfl
      obtain ⟨b, s1, hadd, hwf, hc1, hk⟩ :=
        WordCatVec.close_current s hs hcap c hcp hnp hnd []
      obtain ⟨added, hrec, hall⟩ := hk s1 [] (by simp) (by simp [specKept])
      refine ⟨s1, added, ?_, hwf, hc1, hrec, ?_⟩
      · simp only [WordCatVec.loadRest, WordCatVec.loadLoop, hadd]
      · simpa [specMembers, specCategories] using hall
  | cons line rest ih =>
    intro s cur hs hcap hcur
    rw [WordCatVec.loadRest_cons]
    have hnew : ∀ (nm : List Nat) (c : WordCat),
        some (⟨Word.ofCStr (trim nm), WordList.empty⟩ : WordCat) = some c →
        c.category.present = true ∧ (∀ x ∈ c.wordList.nodes, x.present = true) ∧
          (c.wordList.nodes.map Word.bytes).Nodup := by
      intro nm c hc
      cases hc
      exact ⟨rfl, by simp [WordList.empty], by simp [WordList.empty]⟩
    cases ht : trim line with
    | nil =>
      obtain ⟨-, hm, hcat⟩ := specMembers_blank line rest ht
      rw [WordCatVec.loadLine_blank s cur line ht, hm, hcat]
      exact ih s cur hs hcap hcur
    | cons first nm =>
      by_cases hf : first = 35
      · subst hf
        obtain ⟨-, hm, hcat⟩ := specMembers_boundary line nm rest ht
        rw [WordCatVec.loadLine_boundary s cur line nm ht, hm, hcat]
        cases cur with
        | none =>
          obtain ⟨s', added, hrun, hwf, hc', hrec, hall⟩ :=
            ih s (some ⟨Word.ofCStr (trim nm), WordList.empty⟩) hs hcap (hnew nm)
          refine ⟨s', added, hrun, hwf, hc', hrec, ?_⟩
          simpa [Word.bytes, Word.ofCStr, WordList.empty] using hall
        | some c =>
          obtain ⟨hcp, hnp, hnd⟩ := hcur c rfl
          obtain ⟨b, s1, hadd, hwf1, hc1, hk⟩ :=
            WordCatVec.close_current s hs hcap c hcp hnp hnd
              ((trim nm, specMembers rest) :: specCategories rest)
          obtain ⟨s', added2, hrun, hwf, hc', hrec, hall⟩ :=
            ih s1 (some ⟨Word.ofCStr (trim nm), WordList.empty⟩) hwf1 hc1 (hnew nm)
          obtain ⟨added, hrec', hall'⟩ := hk s' added2 hrec
            (by simpa [Word.bytes, Word.ofCStr, WordList.empty] using hall)
          refine ⟨s', added, ?_, hwf, hc', hrec', ?_⟩
          · simp only [hadd]; exact hrun
          · simpa using hall'
      · obtain ⟨-, hm, hcat⟩ := specMembers_member line first nm rest ht hf
        rw [WordCatVec.loadLine_member s cur line first nm ht hf, hm, hcat]
        cases cur with
        | none => exact ih s none hs hcap (by intro c hc; cases hc)
        | some c =>
          obtain ⟨hcp, hnp, hnd⟩ := hcur c rfl
          obtain ⟨b, c', hins, hcat', hp', hnd', hmem⟩ :=
            WordCat.insertWord_members c (Word.ofCStr (first :: nm)) rfl hnp hnd
          obtain ⟨s', added, hrun, hwf, hc', hrec, hall⟩ :=
            ih s (some c') hs hcap
              (by intro x hx; cases hx; exact ⟨by rw [hcat']; exact hcp, hp', hnd'⟩)
          refine ⟨s', added, ?_, hwf, hc', hrec, ?_⟩
          · simp only [hins]; exact hrun
          · simp only [List.singleton_append] at hall ⊢
            rw [hcat'] at hall
            refine forall2_specKept_congr _ _ _ _ _ _ ?_ hall
            intro w
            simp only [List.mem_append, List.mem_cons, hmem w]
            have hb : (Word.ofCStr (first :: nm)).bytes = first :: nm := rfl
            rw [hb]
            tauto

theorem specKept_of_nodup (bs : List (List Nat × List (List Nat))) :
    ∀ seen : List (List Nat), (bs.map Prod.fst).Nodup → (∀ b ∈ bs, b.1 ∉ seen) →
      specKept seen bs = bs := by
  induction bs with
  | nil => intro seen _ _; rfl
  | cons b rest ih =>
    intro seen hnd hseen
    rw [List.map_cons, List.nodup_cons] at hnd
    have hb : b.1 ∉ seen := hseen b (List.mem_cons_self _ _)
    simp only [specKept, hb, if_false]
    congr 1
    refine ih _ hnd.2 ?_
    intro x hx hmem
    rcases List.mem_append.1 hmem with h | h
    · exact hseen x (List.mem_cons_of_mem _ hx) h
    · rw [List.mem_singleton] at h
      exact hnd.1 (h ▸ List.mem_map_of_mem Prod.fst hx)

theorem specKept_names (bs : List (List Nat × List (List Nat))) :
    ∀ seen : List (List Nat), ((specKept seen bs).map Prod.fst).Nodup ∧
      ∀ n, n ∈ (specKept seen bs).map Prod.fst ↔ n ∉ seen ∧ n ∈ bs.map Prod.fst := by
  induction bs with
  | nil => intro seen; simp [specKept]
  | cons b rest ih =>
    intro seen
    by_cases hb : b.1 ∈ seen
    · simp only [specKept, hb, if_true]
      refine ⟨(ih seen).1, ?_⟩
      intro n
      rw [(ih seen).2 n, List.map_cons, List.mem_cons]
      constructor
      · rintro ⟨h1, h2⟩; exact ⟨h1, Or.inr h2⟩
      · rintro ⟨h1, h2 | h2⟩
        · exact absurd (h2 ▸ hb) h1
        · exact ⟨h1, h2⟩
    · simp only [specKept, hb, if_false, List.map_cons, List.nodup_cons, List.mem_cons]
      obtain ⟨hnd, hmem⟩ := ih (seen ++ [b.1])
      refine ⟨⟨?_, hnd⟩, ?_⟩
      · intro h
        exact ((hmem b.1).1 h).1 (List.mem_append_right _ (List.mem_singleton_self _))
      · intro n
        rw [hmem n, List.mem_append, List.mem_singleton]
        constructor
        · rintro (h | ⟨h1, h2⟩)
          · exact ⟨h ▸ hb, Or.inl h⟩
          · exact ⟨fun h => h1 (Or.inl h), Or.inr h2⟩
        · rintro ⟨h1, h2 | h2⟩
          · exact Or.inl h2
          · by_cases hn : n = b.1
            · exact Or.inl hn
            · exact Or.inr ⟨fun h => h.elim h1 hn, h2⟩

theorem specKept_first (bs : List (List Nat × List (List Nat))) :
    ∀ (seen : List (List Nat)) (b : List Nat × List (List Nat)), b ∈ specKept seen bs →
      bs.find? (fun x => decide (x.1 = b.1)) = some b := by
  induction bs with
  | nil => intro seen b hb; simp [specKept] at hb
  | cons x rest ih =>
    intro seen b hb
    by_cases hx : x.1 ∈ seen
    · simp only [specKept, hx, if_true] at hb
      have hbn : b.1 ∉ seen :=
        (((specKept_names rest seen).2 b.1).1 (List.mem_map_of_mem Prod.fst hb)).1
      have hne : ¬ x.1 = b.1 := fun h => hbn (h ▸ hx)
      rw [List.find?_cons_of_neg _ (by simpa using hne)]
      exact ih seen b hb
    · simp only [specKept, hx, if_false, List.mem_cons] at hb
      rcases hb with rfl | hb
      · simp
      · have hbn : b.1 ∉ seen ++ [x.1] :=
          (((specKept_names rest _).2 b.1).1 (List.mem_map_of_mem Prod.fst hb)).1
        have hne : ¬ x.1 = b.1 := fun h =>
          hbn (List.mem_append_right _ (by rw [List.mem_singleton]; exact h.symm))
        rw [List.find?_cons_of_neg _ (by simpa using hne)]
        exact ih _ b hb

theorem forall2_specHolds_mem (added : List WordCat)
    (K : List (List Nat × List (List Nat))) (h : List.Forall₂ specHolds added K) :
    added.map (fun r => r.category.bytes) = K.map Prod.fst ∧
      ∀ r ∈ added, ∃ b ∈ K, specHolds r b := by
  induction h with
  | nil => exact ⟨rfl, by simp⟩
  | @cons r b rs bs hrb _ ih =>
    refine ⟨by rw [List.map_cons, List.map_cons, ih.1, hrb.1], ?_⟩
    intro x hx
    rcases List.mem_cons.1 hx with rfl | hx
    · exact ⟨b, List.mem_cons_self _ _, hrb⟩
    · obtain ⟨y, hy, hxy⟩ := ih.2 x hx
      exact ⟨y, List.mem_cons_of_mem _ hy, hxy⟩

/-- C31: for every sequence of text lines, each of at most 255 characters,
loaded by `loadFromFile` into a newly constructed store, in which no category
name repeats: the call returns, and the store holds, in file order, one record
per line whose trimmed text begins with `#`; the name of the record is the
trimmed remainder of that line, and its member list holds, each once, exactly
the trimmed non-blank lines that follow it up to the next `#` line or the end
of the input. -/
theorem C31_loadFromFile_format (lines : List (List Nat))
    (hl : ∀ l ∈ lines, 0 ∉ l ∧ 10 ∉ l ∧ l.length ≤ 255)
    (hnd : ((specCategories lines).map Prod.fst).Nodup) :
    ∃ s, WordCatVec.new.loadFromFile (lines.flatMap (fun l => l ++ [10])) = .ok s ∧
      s.wf = true ∧ s.size = (specCategories lines).length ∧
      s.records.map (fun r => r.category.bytes) = (specCategories lines).map Prod.fst ∧
      List.Forall₂ specHolds s.records (specCategories lines) := by
  obtain ⟨s, added, hrun, hwf, -, hrec, hall⟩ :=
    WordCatVec.loadRest_spec lines WordCatVec.new none WordCatVec.wf_new (Nat.le_refl 1)
      (by intro c hc; cases hc)
  have hnew : WordCatVec.new.records = [] := rfl
  rw [hnew, List.nil_append] at hrec
  simp only [hnew, List.map_nil, List.nil_append] at hall
  rw [specKept_of_nodup _ [] hnd (by simp), ← hrec] at hall
  refine ⟨s, ?_, hwf, ?_, (forall2_specHolds_mem _ _ hall).1, hall⟩
  · rw [WordCatVec.loadFromFile_eq_loadRest,
      getlines_flatMap lines (fun l h => ⟨(hl l h).2.1, (hl l h).2.2⟩)]
    exact hrun
  · rw [← WordCatVec.records_length s hwf]
    exact hall.length_eq

/-- C39: for every store (well formed, capacity at least 1) and every sequence
of text lines loaded into it by `loadFromFile`, the call returns and leaves the
records the store held as they were; it appends one record for each category
name of the input that the store did not hold, once, however many boundary
lines carry that name, and the members of that record are those listed under
the first boundary line with that name: the member words under a later
boundary line with the same name, or under a name the store held already, are
discarded. -/
theorem C39_duplicate_names_dropped (s0 : WordCatVec) (hs : s0.wf = true)
    (hcap : 1 ≤ s0.capacity) (lines : List (List Nat))
    (hl : ∀ l ∈ lines, 0 ∉ l ∧ 10 ∉ l ∧ l.length ≤ 255) :
    ∃ s added, s0.loadFromFile (lines.flatMap (fun l => l ++ [10])) = .ok s ∧
      s.records = s0.records ++ added ∧ s.size = s0.size + added.length ∧
      (added.map (fun r => r.category.bytes)).Nodup ∧
      (∀ n, n ∈ added.map (fun r => r.category.bytes) ↔
        n ∉ s0.records.map (fun r => r.category.bytes) ∧
        n ∈ (specCategories lines).map Prod.fst) ∧
      (∀ r ∈ added, ∃ b,
        (specCategories lines).find? (fun x => decide (x.1 = r.category.bytes)) = some b ∧
        ∀ w, w ∈ r.wordList.nodes.map Word.bytes ↔ w ∈ b.2) := by
  obtain ⟨s, added, hrun, hwf, -, hrec, hall⟩ :=
    WordCatVec.loadRest_spec lines s0 none hs hcap (by intro c hc; cases hc)
  simp only [List.nil_append] at hall
  obtain ⟨hnames, hmem⟩ := forall2_specHolds_mem _ _ hall
  obtain ⟨hnd, hiff⟩ := specKept_names (specCategories lines)
    (s0.records.map (fun r => r.category.bytes))
  refine ⟨s, added, ?_, hrec, ?_, by rw [hnames]; exact hnd, ?_, ?_⟩
  · rw [WordCatVec.loadFromFile_eq_loadRest,
      getlines_flatMap lines (fun l h => ⟨(hl l h).2.1, (hl l h).2.2⟩)]
    exact hrun
  · rw [← WordCatVec.records_length s hwf, ← WordCatVec.records_length s0 hs, hrec,
      List.length_append]
  · intro n
    rw [hnames]
    exact hiff n
  · intro r hr
    obtain ⟨b, hb, hrb⟩ := hmem r hr
    refine ⟨b, ?_, hrb.2.2⟩
    rw [hrb.1]
    exact specKept_first _ _ b hb

theorem C31_loadFromFile_format_witness :
    (∀ l ∈ [ascii "#fruit", ascii " pear ", ascii "", ascii "apple", ascii "# veg", ascii "leek"],
      0 ∉ l ∧ 10 ∉ l ∧ l.length ≤ 255) ∧
    ((specCategories [ascii "#fruit", ascii " pear ", ascii "", ascii "apple", ascii "# veg",
      ascii "leek"]).map Prod.fst).Nodup ∧
    specCategories [ascii "#fruit", ascii " pear ", ascii "", ascii "apple", ascii "# veg",
      ascii "leek"] =
      [(ascii "fruit", [ascii "pear", ascii "apple"]), (ascii "veg", [ascii "leek"])] ∧
    ∃ s, WordCatVec.new.loadFromFile
        ([ascii "#fruit", ascii " pear ", ascii "", ascii "apple", ascii "# veg",
          ascii "leek"].flatMap (fun l => l ++ [10])) = .ok s ∧
      s.wf = true ∧
      s.size = (specCategories [ascii "#fruit", ascii " pear ", ascii "", ascii "apple",
        ascii "# veg", ascii "leek"]).length ∧
      s.records.map (fun r => r.category.bytes) =
        (specCategories [ascii "#fruit", ascii " pear ", ascii "", ascii "apple",
          ascii "# veg", ascii "leek"]).map Prod.fst ∧
      List.Forall₂ specHolds s.records
        (specCategories [ascii "#fruit", ascii " pear ", ascii "", ascii "apple",
          ascii "# veg", ascii "leek"]) :=
  ⟨by decide, by decide, by decide,
    C31_loadFromFile_format
      [ascii "#fruit", ascii " pear ", ascii "", ascii "apple", ascii "# veg", ascii "leek"]
      (by decide) (by decide)⟩

theorem C39_duplicate_names_dropped_witness :
    WordCatVec.new.loadFromFile
        ([ascii "#a", ascii "x", ascii "#a", ascii "y"].flatMap (fun l => l ++ [10])) =
      .ok (WordCatVec.new.addCategory (sampleCat "a" ["x"])).2 ∧
    ∃ s added, WordCatVec.new.loadFromFile
        ([ascii "#a", ascii "x", ascii "#a", ascii "y"].flatMap (fun l => l ++ [10])) = .ok s ∧
      s.records = WordCatVec.new.records ++ added ∧
      s.size = WordCatVec.new.size + added.length ∧
      (added.map (fun r => r.category.bytes)).Nodup ∧
      (∀ n, n ∈ added.map (fun r => r.category.bytes) ↔
        n ∉ WordCatVec.new.records.map (fun r => r.category.bytes) ∧
        n ∈ (specCategories [ascii "#a", ascii "x", ascii "#a", ascii "y"]).map Prod.fst) ∧
      (∀ r ∈ added, ∃ b,
        (specCategories [ascii "#a", ascii "x", ascii "#a", ascii "y"]).find?
          (fun x => decide (x.1 = r.category.bytes)) = some b ∧
        ∀ w, w ∈ r.wordList.nodes.map Word.bytes ↔ w ∈ b.2) :=
  ⟨by decide,
    C39_duplicate_names_dropped WordCatVec.new (by decide) (by decide)
      [ascii "#a", ascii "x", ascii "#a", ascii "y"] (by decide)⟩

/-! ### The list on the free store: `size` and the links (C34, C35) -/

theorem ListObj.Seg.frame {h h1 : NodeHeap} (ps : List Nat) :
    ∀ {prev nxt : Option Nat}, ListObj.Seg h prev ps nxt →
      (∀ a ∈ ps, h1[a]? = h[a]?) → ListObj.Seg h1 prev ps nxt := by
  induction ps with
  | nil => intro _ _ _ _; trivial
  | cons a rest ih =>
    intro prev nxt hseg hsame
    obtain ⟨n, hn, hp, hx, hw, hrest⟩ := hseg
    refine ⟨n, ?_, hp, hx, hw, ih hrest (fun b hb => hsame b (List.mem_cons_of_mem _ hb))⟩
    rw [hsame a (List.mem_cons_self _ _)]
    exact hn

theorem ListObj.Seg.node {h : NodeHeap} (ps : List Nat) :
    ∀ {prev nxt : Option Nat}, ListObj.Seg h prev ps nxt →
      ∀ a ∈ ps, ∃ n, h[a]? = some (some n) ∧ n.theWord.present = true := by
  induction ps with
  | nil => intro _ _ _ a ha; cases ha
  | cons b rest ih =>
    intro prev nxt hseg a ha
    obtain ⟨n, hn, -, -, hw, hrest⟩ := hseg
    rcases List.mem_cons.1 ha with rfl | ha
    · exact ⟨n, hn, hw⟩
    · exact ih hrest a ha

theorem ListObj.Seg.lt {h : NodeHeap} {ps : List Nat} {prev nxt : Option Nat}
    (hseg : ListObj.Seg h prev ps nxt) : ∀ a ∈ ps, a < h.length := by
  intro a ha
  obtain ⟨n, hn, -⟩ := ListObj.Seg.node ps hseg a ha
  exact (List.getElem?_eq_some_iff.1 hn).1

theorem getLast?_cons_or (a : Nat) (rest : List Nat) (prev : Option Nat) :
    (a :: rest).getLast?.or prev = rest.getLast?.or (some a) := by
  cases rest with
  | nil => simp
  | cons b bs =>
    rw [List.getLast?_cons_cons, List.getLast?_eq_getLast _ (List.cons_ne_nil b bs)]
    simp

theorem ListObj.Seg_append {h : NodeHeap} (xs ys : List Nat) :
    ∀ {prev nxt : Option Nat}, ListObj.Seg h prev (xs ++ ys) nxt ↔
      ListObj.Seg h prev xs (ys.head?.or nxt) ∧ ListObj.Seg h (xs.getLast?.or prev) ys nxt := by
  induction xs with
  | nil => intro prev nxt; simp [ListObj.Seg]
  | cons a rest ih =>
    intro prev nxt
    rw [getLast?_cons_or]
    show (∃ n, h[a]? = some (some n) ∧ n.prev = prev ∧ n.next = (rest ++ ys).head?.or nxt ∧
        n.theWord.present = true ∧ ListObj.Seg h (some a) (rest ++ ys) nxt) ↔
      (∃ n, h[a]? = some (some n) ∧ n.prev = prev ∧ n.next = rest.head?.or (ys.head?.or nxt) ∧
        n.theWord.present = true ∧ ListObj.Seg h (some a) rest (ys.head?.or nxt)) ∧
      ListObj.Seg h (rest.getLast?.or (some a)) ys nxt
    rw [List.head?_append, Option.or_assoc]
    constructor
    · rintro ⟨n, h1, h2, h3, h4, h5⟩
      obtain ⟨h6, h7⟩ := ih.1 h5
      exact ⟨⟨n, h1, h2, h3, h4, h6⟩, h7⟩
    · rintro ⟨⟨n, h1, h2, h3, h4, h5⟩, h6⟩
      exact ⟨n, h1, h2, h3, h4, ih.2 ⟨h5, h6⟩⟩

theorem ListObj.Seg.set_prev_head {h : NodeHeap} {prev nxt : Option Nat} {p : Nat}
    {ys : List Nat} (hseg : ListObj.Seg h prev (p :: ys) nxt) (hnd : (p :: ys).Nodup)
    (q : Option Nat) :
    ∃ h1, ListObj.setPrev h (some p) q = .ok h1 ∧ h1.length = h.length ∧
      (∀ b, b ≠ p → h1[b]? = h[b]?) ∧ ListObj.Seg h1 q (p :: ys) nxt := by
  obtain ⟨n, hn, hp, hx, hw, hrest⟩ := hseg
  have hlt : p < h.length := (List.getElem?_eq_some_iff.1 hn).1
  have hp_not : p ∉ ys := (List.nodup_cons.1 hnd).1
  refine ⟨h.set p (some { n with prev := q }), by simp [ListObj.setPrev, hn], by simp,
    fun b hb => List.getElem?_set_ne (Ne.symm hb), ?_⟩
  refine ⟨{ n with prev := q }, List.getElem?_set_self hlt, rfl, hx, hw, ?_⟩
  exact ListObj.Seg.frame ys hrest (fun b hb =>
    List.getElem?_set_ne (fun e => hp_not (by rw [e]; exact hb)))

theorem ListObj.Seg.set_next_last {h : NodeHeap} {prev nxt : Option Nat} {xs : List Nat}
    {p : Nat} (hseg : ListObj.Seg h prev (xs ++ [p]) nxt) (hnd : (xs ++ [p]).Nodup)
    (q : Option Nat) :
    ∃ h1, ListObj.setNext h (some p) q = .ok h1 ∧ h1.length = h.length ∧
      (∀ b, b ≠ p → h1[b]? = h[b]?) ∧ ListObj.Seg h1 prev (xs ++ [p]) q := by
  obtain ⟨hxs, hp⟩ := (ListObj.Seg_append xs [p]).1 hseg
  obtain ⟨n, hn, hpp, hx, hw, -⟩ := hp
  have hlt : p < h.length := (List.getElem?_eq_some_iff.1 hn).1
  have hp_not : p ∉ xs := by
    intro hmem
    have := (List.nodup_append.1 hnd).2.2 hmem (List.mem_singleton_self p)
    exact this
  refine ⟨h.set p (some { n with next := q }), by simp [ListObj.setNext, hn], by simp,
    fun b hb => List.getElem?_set_ne (Ne.symm hb), ?_⟩
  refine (ListObj.Seg_append xs [p]).2 ⟨?_, ?_⟩
  · exact ListObj.Seg.frame xs hxs (fun b hb =>
      List.getElem?_set_ne (fun e => hp_not (by rw [e]; exact hb)))
  · exact ⟨{ n with next := q }, List.getElem?_set_self hlt, hpp, by simp, hw, trivial⟩

theorem ListObj.newNode_ok (h : NodeHeap) (word : Word) (hw : word.present = true)
    (nxt prv : Option Nat) :
    ListObj.newNode h word nxt prv =
        .ok (h.length, h ++ [some { theWord := word, next := nxt, prev := prv }]) ∧
      (∀ b, b < h.length →
        (h ++ [some ({ theWord := word, next := nxt, prev := prv } : Node)])[b]? = h[b]?) ∧
      (h ++ [some ({ theWord := word, next := nxt, prev := prv } : Node)])[h.length]? =
        some (some { theWord := word, next := nxt, prev := prv }) := by
  refine ⟨by simp [ListObj.newNode, Word.copy_of_present hw], ?_, ?_⟩
  · intro b hb; exact List.getElem?_append_left hb
  · exact List.getElem?_concat_length _ _

theorem ListObj.newNode_absent (h : NodeHeap) (word : Word) (hw : ¬ word.present = true)
    (nxt prv : Option Nat) : ∃ e, ListObj.newNode h word nxt prv = .error e := by
  cases word with
  | mk p n => cases p with
    | none => exact ⟨Fault.NullDeref, rfl⟩
    | some bs => exact absurd rfl hw

theorem ListObj.Owns.eq_obj {h : NodeHeap} {l : ListObj} {ps : List Nat}
    (ho : ListObj.Owns h l ps) :
    l = ListObj.mk (ps.head?) (ps.getLast?) (ps.length) := by
  obtain ⟨-, -, hhead, htail, hsize, -⟩ := ho
  cases l
  simp only at hhead htail hsize
  rw [hhead, htail, hsize]

theorem ListObj.Owns.of_seg {h : NodeHeap} {ps : List Nat} (hseg : ListObj.Seg h none ps none)
    (hnd : ps.Nodup) (hlen : ps.length ≤ h.length) :
    ListObj.Owns h (ListObj.mk ps.head? ps.getLast? ps.length) ps :=
  ⟨hseg, hnd, rfl, rfl, rfl, hlen⟩

theorem ListObj.push_front_spec (h : NodeHeap) (l : ListObj) (ps : List Nat)
    (ho : ListObj.Owns h l ps) (word : Word) (hw : word.present = true) :
    ∃ l1 h1, ListObj.push_front h l word = .ok (l1, h1) ∧
      ListObj.Owns h1 l1 (h.length :: ps) := by
  have hl := ho.eq_obj
  subst hl
  obtain ⟨hseg, hnd, -, -, -, hlen⟩ := ho
  have hfresh : h.length ∉ ps := fun hm => Nat.lt_irrefl _ (hseg.lt _ hm)
  obtain ⟨hnew, hold, hat⟩ := ListObj.newNode_ok h word hw ps.head? none
  have hseg1 : ListObj.Seg (h ++ [some ({ theWord := word, next := ps.head?, prev := none } : Node)])
      none ps none := ListObj.Seg.frame ps hseg (fun a ha => hold a (hseg.lt a ha))
  cases ps with
  | nil =>
    simp only [List.head?_nil] at hnew hat
    refine ⟨ListObj.mk ([h.length].head?) ([h.length].getLast?) ([h.length].length),
      h ++ [some ({ theWord := word, next := none, prev := none } : Node)], ?_, ?_⟩
    · simp only [ListObj.push_front, List.head?_nil, hnew, ListObj.isEmpty,
        Option.isNone_none, if_true]
      rfl
    · exact ListObj.Owns.of_seg ⟨_, hat, rfl, rfl, hw, trivial⟩ (by simp) (by simp)
  | cons p rest =>
    obtain ⟨h2, hset, hl2, hsame, hseg2⟩ :=
      ListObj.Seg.set_prev_head hseg1 hnd (some h.length)
    have hne : h.length ≠ p := fun e => hfresh (by rw [e]; exact List.mem_cons_self _ _)
    refine ⟨ListObj.mk (h.length :: p :: rest).head? ((h.length :: p :: rest).getLast?)
      (h.length :: p :: rest).length, h2, ?_, ?_⟩
    · simp only [List.head?_cons] at hnew hset
      simp only [ListObj.push_front, List.head?_cons, hnew, ListObj.isEmpty,
        Option.isNone_some, Bool.false_eq_true, if_false, hset, List.getLast?_cons_cons,
        List.length_cons]
    · refine ListObj.Owns.of_seg
        ⟨(⟨word, (p :: rest).head?, none⟩ : Node), ?_, rfl, ?_, hw, hseg2⟩
        (List.nodup_cons.2 ⟨hfresh, hnd⟩) ?_
      · rw [hsame _ hne]; exact hat
      · simp
      · simp only [List.length_cons] at hlen ⊢
        rw [hl2]
        simp only [List.length_append, List.length_singleton]
        omega

theorem ListObj.push_back_spec (h : NodeHeap) (l : ListObj) (ps : List Nat)
    (ho : ListObj.Owns h l ps) (word : Word) (hw : word.present = true) :
    ∃ l1 h1, ListObj.push_back h l word = .ok (l1, h1) ∧
      ListObj.Owns h1 l1 (ps ++ [h.length]) := by
  have hl := ho.eq_obj
  subst hl
  obtain ⟨hseg, hnd, -, -, -, hlen⟩ := ho
  have hfresh : h.length ∉ ps := fun hm => Nat.lt_irrefl _ (hseg.lt _ hm)
  obtain ⟨hnew, hold, hat⟩ := ListObj.newNode_ok h word hw none ps.getLast?
  have hseg1 : ListObj.Seg
      (h ++ [some ({ theWord := word, next := none, prev := ps.getLast? } : Node)])
      none ps none := ListObj.Seg.frame ps hseg (fun a ha => hold a (hseg.lt a ha))
  have hnd1 : (ps ++ [h.length]).Nodup := by
    rw [List.nodup_append]
    refine ⟨hnd, List.nodup_singleton _, ?_⟩
    intro a ha hb
    rw [List.mem_singleton] at hb
    exact hfresh (hb ▸ ha)
  rcases List.eq_nil_or_concat ps with rfl | ⟨xs, t, rfl⟩
  · simp only [List.getLast?_nil] at hnew hat
    refine ⟨ListObj.mk ([h.length].head?) ([h.length].getLast?) ([h.length].length),
      h ++ [some ({ theWord := word, next := none, prev := none } : Node)], ?_, ?_⟩
    · simp only [ListObj.push_back, List.getLast?_nil, hnew, List.head?_nil]
      rfl
    · exact ListObj.Owns.of_seg ⟨_, hat, rfl, rfl, hw, trivial⟩ (by simp) (by simp)
  · rw [List.concat_eq_append] at *
    obtain ⟨h2, hset, hl2, hsame, hseg2⟩ :=
      ListObj.Seg.set_next_last hseg1 hnd (some h.length)
    have hne : h.length ≠ t := fun e =>
      hfresh (by rw [e]; exact List.mem_append_right _ (List.mem_singleton_self _))
    have hhd : ∃ x, (xs ++ [t]).head? = some x := by
      cases xs with
      | nil => exact ⟨t, rfl⟩
      | cons x _ => exact ⟨x, rfl⟩
    obtain ⟨x, hx⟩ := hhd
    have hhd2 : ((xs ++ [t]) ++ [h.length]).head? = some x := by
      rw [List.head?_append_of_ne_nil _ (by simp), hx]
    refine ⟨ListObj.mk ((xs ++ [t]) ++ [h.length]).head? (((xs ++ [t]) ++ [h.length]).getLast?)
      ((xs ++ [t]) ++ [h.length]).length, h2, ?_, ?_⟩
    · simp only [List.getLast?_concat] at hnew hset
      simp only [ListObj.push_back, List.getLast?_concat, hnew, hset, hx, hhd2,
        List.length_append, List.length_singleton]
    · refine ListObj.Owns.of_seg
        ((ListObj.Seg_append (xs ++ [t]) [h.length]).2 ⟨by simpa using hseg2, ?_⟩) hnd1 ?_
      · rw [List.getLast?_concat]
        refine ⟨(⟨word, none, (xs ++ [t]).getLast?⟩ : Node), ?_, ?_, rfl, hw, trivial⟩
        · rw [hsame _ hne]; exact hat
        · simp
      · rw [hl2]
        simp only [List.length_append, List.length_singleton] at hlen ⊢
        omega

theorem ListObj.pop_front_spec (h : NodeHeap) (l : ListObj) (p : Nat) (rest : List Nat)
    (ho : ListObj.Owns h l (p :: rest)) :
    ∃ l1 h1, ListObj.pop_front h l = .ok (some p, l1, h1) ∧ ListObj.Owns h1 l1 rest ∧
      h1.length = h.length := by
  have hl := ho.eq_obj
  subst hl
  obtain ⟨hseg, hnd, -, -, -, hlen⟩ := ho
  obtain ⟨n, hn, hp, hx, hw, hrest⟩ := hseg
  have hp_not : p ∉ rest := (List.nodup_cons.1 hnd).1
  have hndr : rest.Nodup := (List.nodup_cons.1 hnd).2
  have hlt : p < h.length := (List.getElem?_eq_some_iff.1 hn).1
  cases rest with
  | nil =>
    have hnx : n.next = none := by simpa using hx
    refine ⟨ListObj.mk (none) (none) (0),
      h.set p (some { n with next := none }), ?_, ?_, by simp⟩
    · simp only [ListObj.pop_front, ListObj.isEmpty, List.head?_cons, Option.isNone_some,
        Bool.false_eq_true, if_false, ListObj.load, hn, hnx, ListObj.setNext,
        List.length_singleton, Nat.sub_self]
    · exact ⟨trivial, List.nodup_nil, rfl, rfl, rfl, by simp⟩
  | cons q r =>
    have hnx : n.next = some q := by simpa using hx
    obtain ⟨h1, hset1, hl1, hsame1, hseg1⟩ := ListObj.Seg.set_prev_head hrest hndr none
    have hpq : p ≠ q := fun e => hp_not (by rw [e]; exact List.mem_cons_self _ _)
    have hn1 : h1[p]? = some (some n) := by rw [hsame1 p hpq]; exact hn
    refine ⟨ListObj.mk ((q :: r).head?) ((q :: r).getLast?) ((q :: r).length),
      h1.set p (some { n with next := none }), ?_, ?_, by simp [hl1]⟩
    · simp only [ListObj.pop_front, ListObj.isEmpty, List.head?_cons, Option.isNone_some,
        Bool.false_eq_true, if_false, ListObj.load, hn, hnx, hset1,
        List.getLast?_cons_cons, List.length_cons, Nat.add_sub_cancel]
      simp only [ListObj.setNext, hn1]
    · refine ListObj.Owns.of_seg (ListObj.Seg.frame _ hseg1 (fun b hb =>
          List.getElem?_set_ne (fun e => hp_not (by rw [e]; exact hb)))) hndr ?_
      simp only [List.length_set, hl1, List.length_cons] at hlen ⊢
      omega

theorem ListObj.pop_back_spec (h : NodeHeap) (l : ListObj) (xs : List Nat) (t : Nat)
    (ho : ListObj.Owns h l (xs ++ [t])) :
    ∃ l1 h1, ListObj.pop_back h l = .ok (some t, l1, h1) ∧ ListObj.Owns h1 l1 xs ∧
      h1.length = h.length := by
  have hl := ho.eq_obj
  subst hl
  obtain ⟨hseg, hnd, -, -, -, hlen⟩ := ho
  have hhd : ∃ x, (xs ++ [t]).head? = some x := by
    cases xs with
    | nil => exact ⟨t, rfl⟩
    | cons x _ => exact ⟨x, rfl⟩
  obtain ⟨x, hx⟩ := hhd
  obtain ⟨hxs, htn⟩ := (ListObj.Seg_append xs [t]).1 hseg
  obtain ⟨n, hn, hp, -, hw, -⟩ := htn
  have ht_not : t ∉ xs := by
    intro hmem
    exact (List.nodup_append.1 hnd).2.2 hmem (List.mem_singleton_self t)
  have hndx : xs.Nodup := (List.nodup_append.1 hnd).1
  have hlt : t < h.length := (List.getElem?_eq_some_iff.1 hn).1
  rcases List.eq_nil_or_concat xs with rfl | ⟨ys, b, rfl⟩
  · have hpv : n.prev = none := by simpa using hp
    refine ⟨ListObj.mk (none) (none) (0),
      h.set t (some { n with prev := none }), ?_, ?_, by simp⟩
    · simp only [ListObj.pop_back, ListObj.isEmpty, List.nil_append, List.head?_cons,
        Option.isNone_some, Bool.false_eq_true, if_false, List.getLast?_singleton,
        ListObj.load, hn, hpv, ListObj.setPrev, List.length_singleton, Nat.sub_self]
    · exact ⟨trivial, List.nodup_nil, rfl, rfl, rfl, by simp⟩
  · rw [List.concat_eq_append] at *
    have hpv : n.prev = some b := by
      rw [hp, List.getLast?_concat]; rfl
    simp only [List.head?_cons, Option.or_some] at hxs
    obtain ⟨h1, hset1, hl1, hsame1, hseg1⟩ := ListObj.Seg.set_next_last hxs hndx none
    have htb : t ≠ b := fun e =>
      ht_not (by rw [e]; exact List.mem_append_right _ (List.mem_singleton_self _))
    have hn1 : h1[t]? = some (some n) := by rw [hsame1 t htb]; exact hn
    have hhd1 : (ys ++ [b]).head? = some x := by
      rw [← hx]
      exact (List.head?_append_of_ne_nil _ (by simp)).symm
    refine ⟨ListObj.mk (ys ++ [b]).head? ((ys ++ [b]).getLast?) (ys ++ [b]).length,
      h1.set t (some { n with prev := none }), ?_, ?_, by simp [hl1]⟩
    · simp only [ListObj.pop_back, ListObj.isEmpty, hx, Option.isNone_some,
        Bool.false_eq_true, if_false, List.getLast?_concat, ListObj.load, hn, hpv, hset1,
        hhd1, List.length_append, List.length_singleton, Nat.add_sub_cancel]
      simp only [ListObj.setPrev, hn1]
    · refine ListObj.Owns.of_seg (ListObj.Seg.frame _ hseg1 (fun c hc =>
          List.getElem?_set_ne (fun e => ht_not (by rw [e]; exact hc)))) hndx ?_
      simp only [List.length_set, hl1, List.length_append, List.length_singleton] at hlen ⊢
      omega

theorem ListObj.scan_spec (h : NodeHeap) (word : Word) (hw : word.present = true)
    (ys : List Nat) :
    ∀ (p fuel : Nat), ListObj.Seg h (some p) ys none → ys.length < fuel →
      ∃ ys1 ys2, ys = ys1 ++ ys2 ∧
        ListObj.scan h word fuel (some p) ys.head? =
          .ok (ys1.getLast?.or (some p), ys2.head?) := by
  induction ys with
  | nil =>
    intro p fuel _ hf
    obtain ⟨f, rfl⟩ : ∃ f, fuel = f + 1 := ⟨fuel - 1, by simp at hf; omega⟩
    exact ⟨[], [], rfl, rfl⟩
  | cons c rest ih =>
    intro p fuel hseg hf
    obtain ⟨f, rfl⟩ : ∃ f, fuel = f + 1 := ⟨fuel - 1, by simp at hf; omega⟩
    obtain ⟨n, hn, -, hx, hnw, hrest⟩ := hseg
    have hnx : n.next = rest.head? := by simpa using hx
    by_cases hlt : strcmpBytes n.theWord.bytes word.bytes < 0
    · obtain ⟨r1, r2, hr, hscan⟩ := ih c f hrest (by simp at hf; omega)
      refine ⟨c :: r1, r2, by rw [hr]; rfl, ?_⟩
      simp only [ListObj.scan, List.head?_cons, ListObj.load, hn,
        Word.isLess_of_present hnw hw, hlt, decide_True, hnx, hscan]
      rw [getLast?_cons_or]
    · refine ⟨[], c :: rest, rfl, ?_⟩
      simp only [ListObj.scan, List.head?_cons, ListObj.load, hn,
        Word.isLess_of_present hnw hw, hlt, decide_False]
      rfl

theorem ListObj.insert_middle (h : NodeHeap) (xs : List Nat) (pv : Nat) (r2 : List Nat)
    (hseg : ListObj.Seg h none (xs ++ [pv] ++ r2) none) (hnd : (xs ++ [pv] ++ r2).Nodup)
    (hlen : (xs ++ [pv] ++ r2).length ≤ h.length) (word : Word) (hw : word.present = true) :
    ∃ h2, ListObj.setNext (h ++ [some ({ theWord := word, next := r2.head?, prev := some pv } : Node)])
        (some pv) (some h.length) = .ok h2 ∧
      ((r2 = [] ∧ ListObj.Owns h2
          (ListObj.mk (xs ++ [pv] ++ r2).head? (some h.length) ((xs ++ [pv] ++ r2).length + 1))
          (xs ++ [pv] ++ [h.length])) ∨
       (∃ c zs h3, r2 = c :: zs ∧ ListObj.setPrev h2 (some c) (some h.length) = .ok h3 ∧
          ListObj.Owns h3
            (ListObj.mk (xs ++ [pv] ++ r2).head? ((xs ++ [pv] ++ r2).getLast?)
              ((xs ++ [pv] ++ r2).length + 1))
            (xs ++ [pv] ++ h.length :: r2))) := by
  have hfresh : h.length ∉ xs ++ [pv] ++ r2 := fun hm => Nat.lt_irrefl _ (hseg.lt _ hm)
  have hold : ∀ b, b < h.length →
      (h ++ [some ({ theWord := word, next := r2.head?, prev := some pv } : Node)])[b]? = h[b]? :=
    fun b hb => List.getElem?_append_left hb
  have hat : (h ++ [some ({ theWord := word, next := r2.head?, prev := some pv } : Node)])[h.length]? =
      some (some { theWord := word, next := r2.head?, prev := some pv }) :=
    List.getElem?_concat_length _ _
  have hseg1 := ListObj.Seg.frame _ hseg (fun a ha => hold a (hseg.lt a ha))
  obtain ⟨hA, hB⟩ := (ListObj.Seg_append (xs ++ [pv]) r2).1 hseg1
  have hndA : (xs ++ [pv]).Nodup := (List.nodup_append.1 hnd).1
  have hndB : r2.Nodup := (List.nodup_append.1 hnd).2.1
  have hdisj := (List.nodup_append.1 hnd).2.2
  have hpv_mem : pv ∈ xs ++ [pv] := List.mem_append_right _ (List.mem_singleton_self _)
  obtain ⟨h2, hset, hl2, hsame, hA2⟩ := ListObj.Seg.set_next_last hA hndA (some h.length)
  rw [List.getLast?_concat] at hB
  simp only [Option.or_some] at hB
  have hB2 : ListObj.Seg h2 (some pv) r2 none :=
    ListObj.Seg.frame _ hB (fun b hb => hsame b (fun e => hdisj hpv_mem (by rw [← e]; exact hb)))
  have hne_pv : h.length ≠ pv := fun e => hfresh (by
    rw [e]; exact List.mem_append_left _ hpv_mem)
  have hhead : (xs ++ [pv] ++ r2).head? = (xs ++ [pv]).head? :=
    List.head?_append_of_ne_nil _ (by simp)
  have hl1 : (h ++ [some ({ theWord := word, next := r2.head?, prev := some pv } : Node)]).length =
      h.length + 1 := by simp
  refine ⟨h2, hset, ?_⟩
  cases r2 with
  | nil =>
    left
    refine ⟨rfl, ?_⟩
    have hown := @ListObj.Owns.of_seg h2 (xs ++ [pv] ++ [h.length])
      ((ListObj.Seg_append (xs ++ [pv]) [h.length]).2 ⟨by simpa using hA2, ?_⟩) ?_ ?_
    · have e1 : (xs ++ [pv] ++ [h.length]).head? = (xs ++ [pv] ++ []).head? := by
        rw [List.append_nil]; exact List.head?_append_of_ne_nil _ (by simp)
      have e2 : (xs ++ [pv] ++ [h.length]).getLast? = some h.length := List.getLast?_concat _
      have e3 : (xs ++ [pv] ++ [h.length]).length = (xs ++ [pv] ++ []).length + 1 := by simp
      rw [e1, e2, e3] at hown
      exact hown
    · rw [List.getLast?_concat]
      refine ⟨(⟨word, none, some pv⟩ : Node), ?_, rfl, rfl, hw, trivial⟩
      rw [hsame _ hne_pv]; exact hat
    · rw [List.nodup_append]
      refine ⟨hndA, List.nodup_singleton _, ?_⟩
      intro a ha hb
      rw [List.mem_singleton] at hb
      exact hfresh (by rw [List.append_nil, ← hb]; exact ha)
    · simp only [List.length_append, List.length_singleton, List.length_nil] at hlen ⊢
      omega
  | cons c zs =>
    right
    obtain ⟨h3, hset3, hl3, hsame3, hB3⟩ := ListObj.Seg.set_prev_head hB2 hndB (some h.length)
    have hc_mem : c ∈ c :: zs := List.mem_cons_self _ _
    have hne_c : h.length ≠ c := fun e => hfresh (by
      rw [e]; exact List.mem_append_right _ hc_mem)
    have hA3 : ListObj.Seg h3 none (xs ++ [pv]) (some h.length) :=
      ListObj.Seg.frame _ hA2 (fun b hb => hsame3 b (fun e => hdisj hb (by rw [e]; exact hc_mem)))
    refine ⟨c, zs, h3, rfl, hset3, ?_⟩
    have hown := @ListObj.Owns.of_seg h3 (xs ++ [pv] ++ h.length :: c :: zs)
      ((ListObj.Seg_append (xs ++ [pv]) (h.length :: c :: zs)).2 ⟨by simpa using hA3, ?_⟩) ?_ ?_
    · have e1 : (xs ++ [pv] ++ h.length :: c :: zs).head? = (xs ++ [pv] ++ c :: zs).head? :=
        (List.head?_append_of_ne_nil (xs ++ [pv]) (by simp)).trans
          (List.head?_append_of_ne_nil (xs ++ [pv]) (by simp)).symm
      have e2 : (xs ++ [pv] ++ h.length :: c :: zs).getLast? =
          (xs ++ [pv] ++ c :: zs).getLast? := by
        rw [List.getLast?_append_cons, List.getLast?_append_cons, List.getLast?_cons_cons]
      have e3 : (xs ++ [pv] ++ h.length :: c :: zs).length =
          (xs ++ [pv] ++ c :: zs).length + 1 := by simp; omega
      rw [e1, e2, e3] at hown
      exact hown
    · rw [List.getLast?_concat]
      refine ⟨(⟨word, some c, some pv⟩ : Node), ?_, rfl, rfl, hw, hB3⟩
      rw [hsame3 _ hne_c, hsame _ hne_pv]; exact hat
    · have hperm : (xs ++ [pv] ++ h.length :: c :: zs).Perm
          (h.length :: (xs ++ [pv] ++ c :: zs)) := List.perm_middle
      exact hperm.nodup_iff.2 (List.nodup_cons.2 ⟨hfresh, hnd⟩)
    · rw [hl3, hl2, hl1]
      simp only [List.length_append, List.length_singleton, List.length_cons] at hlen ⊢
      omega

theorem ListObj.insertSorted_spec (h : NodeHeap) (l : ListObj) (ps : List Nat)
    (ho : ListObj.Owns h l ps) (word : Word) (hw : word.present = true) :
    ∃ l1 h1 ps1, ListObj.insertSorted h l word = .ok (l1, h1) ∧ ListObj.Owns h1 l1 ps1 ∧
      ps1.length = ps.length + 1 := by
  cases ps with
  | nil =>
    obtain ⟨l1, h1, hrun, hown⟩ := ListObj.push_front_spec h l [] ho word hw
    have hl := ho.eq_obj
    subst hl
    refine ⟨l1, h1, _, ?_, hown, rfl⟩
    simp only [ListObj.insertSorted, List.head?_nil]
    exact hrun
  | cons p rest =>
    obtain ⟨lf, hf, hrunf, hownf⟩ := ListObj.push_front_spec h l _ ho word hw
    obtain ⟨lb, hb, hrunb, hownb⟩ := ListObj.push_back_spec h l _ ho word hw
    have hl := ho.eq_obj
    subst hl
    obtain ⟨hseg, hnd, -, -, -, hlen⟩ := ho
    simp only [List.head?_cons] at hrunf hrunb ⊢
    have hne : p :: rest ≠ [] := List.cons_ne_nil _ _
    have htl : (p :: rest).getLast? = some ((p :: rest).getLast hne) :=
      List.getLast?_eq_getLast _ hne
    obtain ⟨nt, hnt, hntw⟩ := ListObj.Seg.node _ hseg _ (List.getLast_mem hne)
    have hseg0 := hseg
    obtain ⟨n, hn, -, hx, hnw, hrest⟩ := hseg
    have hnx : n.next = rest.head? := by simpa using hx
    have hfront : ListObj.front h (ListObj.mk (some p) (p :: rest).getLast?
        (p :: rest).length) = .ok n.theWord := by
      simp [ListObj.front, ListObj.isEmpty, ListObj.load, hn]
    have hback : ListObj.back h (ListObj.mk (some p) (p :: rest).getLast?
        (p :: rest).length) = .ok nt.theWord := by
      simp only [ListObj.back, ListObj.isEmpty, List.head?_cons, Option.isNone_some,
        Bool.false_eq_true, if_false, htl, ListObj.load, hnt]
    by_cases c1 : strcmpBytes word.bytes n.theWord.bytes < 0
    · refine ⟨lf, hf, _, ?_, hownf, rfl⟩
      rw [← hrunf]
      simp only [ListObj.insertSorted, List.head?_cons, hfront,
        Word.isLess_of_present hw hnw, c1, decide_True]
    · by_cases c2 : strcmpBytes nt.theWord.bytes word.bytes < 0
      · refine ⟨lb, hb, _, ?_, hownb, by simp⟩
        rw [← hrunb]
        simp only [ListObj.insertSorted, List.head?_cons, hfront,
          Word.isLess_of_present hw hnw, c1, decide_False, hback,
          Word.isLess_of_present hntw hw, c2, decide_True]
      · obtain ⟨r1, r2, hr, hscan⟩ := ListObj.scan_spec h word hw rest p (h.length + 1) hrest
          (by simp only [List.length_cons] at hlen; omega)
        obtain ⟨xs, pv, hxs⟩ : ∃ xs pv, p :: r1 = xs ++ [pv] := by
          rcases List.eq_nil_or_concat (p :: r1) with h0 | ⟨xs, pv, h1⟩
          · cases h0
          · exact ⟨xs, pv, by rw [h1, List.concat_eq_append]⟩
        have hprev : r1.getLast?.or (some p) = some pv := by
          rw [← getLast?_cons_or p r1 none, hxs, List.getLast?_concat]
          rfl
        have hps : p :: rest = xs ++ [pv] ++ r2 := by
          rw [← hxs, hr]; rfl
        rw [hprev] at hscan
        obtain ⟨h2, hset, hcase⟩ := ListObj.insert_middle h xs pv r2 (hps ▸ hseg0)
          (hps ▸ hnd) (hps ▸ hlen) word hw
        have hnew := (ListObj.newNode_ok h word hw r2.head? (some pv)).1
        have hstart : ListObj.insertSorted h (ListObj.mk (some p) (p :: rest).getLast?
            (p :: rest).length) word =
            match r2.head? with
            | some c =>
              match ListObj.setPrev h2 (some c) (some h.length) with
              | .error e => .error e
              | .ok h3 => .ok (ListObj.mk (some p) (p :: rest).getLast?
                  ((p :: rest).length + 1), h3)
            | none => .ok (ListObj.mk (some p) (some h.length)
                ((p :: rest).length + 1), h2) := by
          simp only [ListObj.insertSorted, List.head?_cons, hfront,
            Word.isLess_of_present hw hnw, c1, decide_False, hback,
            Word.isLess_of_present hntw hw, c2, ListObj.load, hn, hnx, hscan, hnew, hset]
        rw [hstart]
        have hlen1 : ∀ a, (xs ++ [pv] ++ a :: r2).length = (p :: rest).length + 1 := by
          intro a; rw [hps]; simp only [List.length_append, List.length_cons]; omega
        rcases hcase with ⟨hr2, hown⟩ | ⟨c, zs, h3, hr2, hset3, hown⟩
        · rw [← hps] at hown
          refine ⟨_, h2, xs ++ [pv] ++ [h.length], ?_, hown, ?_⟩
          · rw [hr2]; rfl
          · have := hlen1 h.length
            rw [hr2] at this
            exact this
        · rw [← hps] at hown
          refine ⟨_, h3, xs ++ [pv] ++ h.length :: r2, ?_, hown, hlen1 _⟩
          rw [hr2]
          simp only [List.head?_cons, hset3]

theorem ListObj.search_spec (h : NodeHeap) (word : Word) (hw : word.present = true)
    (ys : List Nat) :
    ∀ (prev : Option Nat) (fuel : Nat), ListObj.Seg h prev ys none → ys.length < fuel →
      ListObj.search h word fuel ys.head? = .ok none ∨
      ∃ ys1 a ys2, ys = ys1 ++ a :: ys2 ∧ ListObj.search h word fuel ys.head? = .ok (some a) := by
  induction ys with
  | nil =>
    intro prev fuel _ hf
    obtain ⟨f, rfl⟩ : ∃ f, fuel = f + 1 := ⟨fuel - 1, by simp at hf; omega⟩
    exact Or.inl rfl
  | cons c rest ih =>
    intro prev fuel hseg hf
    obtain ⟨f, rfl⟩ : ∃ f, fuel = f + 1 := ⟨fuel - 1, by simp at hf; omega⟩
    obtain ⟨n, hn, -, hx, hnw, hrest⟩ := hseg
    have hnx : n.next = rest.head? := by simpa using hx
    by_cases h0 : strcmpBytes n.theWord.bytes word.bytes = 0
    · right
      refine ⟨[], c, rest, rfl, ?_⟩
      simp only [ListObj.search, List.head?_cons, ListObj.load, hn,
        strcmp_of_present hnw hw, h0, if_true]
    · have hstep : ListObj.search h word (f + 1) (c :: rest).head? =
          ListObj.search h word f rest.head? := by
        simp only [ListObj.search, List.head?_cons, ListObj.load, hn,
          strcmp_of_present hnw hw, h0, if_false, hnx]
      rw [hstep]
      rcases ih (some c) f hrest (by simp at hf; omega) with hnone | ⟨r1, a, r2, hr, hfound⟩
      · exact Or.inl hnone
      · exact Or.inr ⟨c :: r1, a, r2, by rw [hr]; rfl, hfound⟩

theorem ListObj.unlinkPrev_spec (h : NodeHeap) (l : ListObj) (xs : List Nat) (a : Nat)
    (node : Node) (hseg : ListObj.Seg h none xs (some a)) (hnd : xs.Nodup)
    (hprev : node.prev = xs.getLast?) (hhead : l.head = xs.head?.or (some a)) :
    ∃ h1, ListObj.unlinkPrev h l node = .ok (xs.head?.or node.next, h1) ∧
      h1.length = h.length ∧ (∀ b, b ∉ xs → h1[b]? = h[b]?) ∧
      ListObj.Seg h1 none xs node.next := by
  rcases List.eq_nil_or_concat xs with rfl | ⟨ws, pv, rfl⟩
  · refine ⟨h, ?_, rfl, fun _ _ => rfl, trivial⟩
    have hp : node.prev = none := hprev
    simp only [ListObj.unlinkPrev, hp, List.head?_nil, Option.none_or]
  · rw [List.concat_eq_append] at *
    have hp : node.prev = some pv := by rw [hprev, List.getLast?_concat]
    obtain ⟨h1, hset, hl1, hsame, hseg1⟩ := ListObj.Seg.set_next_last hseg hnd node.next
    have hhd : ∃ x, (ws ++ [pv]).head? = some x := by
      cases ws with
      | nil => exact ⟨pv, rfl⟩
      | cons x _ => exact ⟨x, rfl⟩
    obtain ⟨x, hx⟩ := hhd
    refine ⟨h1, ?_, hl1, ?_, hseg1⟩
    · rw [hx] at hhead
      simp only [ListObj.unlinkPrev, hp, hset, hhead, hx, Option.or_some]
    · intro b hb
      exact hsame b (fun e => hb (by
        rw [e]; exact List.mem_append_right _ (List.mem_singleton_self _)))

theorem ListObj.unlinkNext_spec (h : NodeHeap) (l : ListObj) (zs : List Nat) (a : Nat)
    (node : Node) (hseg : ListObj.Seg h (some a) zs none) (hnd : zs.Nodup)
    (hnext : node.next = zs.head?) (htail : l.tail = zs.getLast?.or (some a)) :
    ∃ h1, ListObj.unlinkNext h l node = .ok (zs.getLast?.or node.prev, h1) ∧
      h1.length = h.length ∧ (∀ b, b ∉ zs → h1[b]? = h[b]?) ∧
      ListObj.Seg h1 node.prev zs none := by
  cases zs with
  | nil =>
    refine ⟨h, ?_, rfl, fun _ _ => rfl, trivial⟩
    have hp : node.next = none := hnext
    simp only [ListObj.unlinkNext, hp, List.getLast?_nil, Option.none_or]
  | cons c zs1 =>
    have hp : node.next = some c := hnext
    obtain ⟨h1, hset, hl1, hsame, hseg1⟩ := ListObj.Seg.set_prev_head hseg hnd node.prev
    have hne : c :: zs1 ≠ [] := List.cons_ne_nil _ _
    have hlast : (c :: zs1).getLast? = some ((c :: zs1).getLast hne) :=
      List.getLast?_eq_getLast _ hne
    refine ⟨h1, ?_, hl1, ?_, hseg1⟩
    · rw [hlast] at htail ⊢
      simp only [ListObj.unlinkNext, hp, hset, htail, Option.or_some]
    · intro b hb
      exact hsame b (fun e => hb (by rw [e]; exact List.mem_cons_self _ _))

theorem ListObj.remove_spec (h : NodeHeap) (l : ListObj) (ps : List Nat)
    (ho : ListObj.Owns h l ps) (word : Word) (hw : word.present = true) :
    ∃ b l1 h1 ps1, ListObj.remove h l word = .ok (b, l1, h1) ∧ ListObj.Owns h1 l1 ps1 ∧
      ps1.length + (if b = true then 1 else 0) = ps.length := by
  have hl := ho.eq_obj
  obtain ⟨hseg, hnd, hhead, htail, hsize, hlen⟩ := ho
  rcases ListObj.search_spec h word hw ps none (h.length + 1) hseg (by omega) with
    hnone | ⟨xs, a, zs, hps, hfound⟩
  · refine ⟨false, l, h, ps, ?_, ⟨hseg, hnd, hhead, htail, hsize, hlen⟩, by simp⟩
    simp only [ListObj.remove, hhead, hnone]
  · subst hps
    obtain ⟨hA, hB⟩ := (ListObj.Seg_append xs (a :: zs)).1 hseg
    simp only [List.head?_cons, Option.or_some] at hA
    obtain ⟨node, hn, hpv, hx, hnw, hC⟩ := hB
    have hpv' : node.prev = xs.getLast? := by simpa using hpv
    have hnx : node.next = zs.head? := by simpa using hx
    have hndA : xs.Nodup := (List.nodup_append.1 hnd).1
    have hndB : (a :: zs).Nodup := (List.nodup_append.1 hnd).2.1
    have hdisj := (List.nodup_append.1 hnd).2.2
    have ha_xs : a ∉ xs := fun hm => hdisj hm (List.mem_cons_self _ _)
    have ha_zs : a ∉ zs := (List.nodup_cons.1 hndB).1
    have hndC : zs.Nodup := (List.nodup_cons.1 hndB).2
    have hhead' : l.head = xs.head?.or (some a) := by
      rw [hhead, List.head?_append]; rfl
    have htail' : l.tail = zs.getLast?.or (some a) := by
      rw [htail, List.getLast?_append, getLast?_cons_or]
    obtain ⟨h1, hrun1, hl1, hsame1, hA1⟩ :=
      ListObj.unlinkPrev_spec h l xs a node hA hndA hpv' hhead'
    have hn1 : h1[a]? = some (some node) := by rw [hsame1 a ha_xs]; exact hn
    have hC1 : ListObj.Seg h1 (some a) zs none :=
      ListObj.Seg.frame _ hC (fun b hb => hsame1 b (fun hm => hdisj hm (List.mem_cons_of_mem _ hb)))
    obtain ⟨h2, hrun2, hl2, hsame2, hC2⟩ :=
      ListObj.unlinkNext_spec h1 l zs a node hC1 hndC hnx htail'
    have hA2 : ListObj.Seg h2 none xs node.next :=
      ListObj.Seg.frame _ hA1 (fun b hb => hsame2 b (fun hm => hdisj hb (List.mem_cons_of_mem _ hm)))
    have hA3 : ListObj.Seg (h2.set a none) none xs (zs.head?.or none) := by
      rw [Option.or_none, ← hnx]
      exact ListObj.Seg.frame _ hA2 (fun b hb =>
        List.getElem?_set_ne (fun e => ha_xs (by rw [e]; exact hb)))
    have hC3 : ListObj.Seg (h2.set a none) (xs.getLast?.or none) zs none := by
      rw [Option.or_none, ← hpv']
      exact ListObj.Seg.frame _ hC2 (fun b hb =>
        List.getElem?_set_ne (fun e => ha_zs (by rw [e]; exact hb)))
    have hnd3 : (xs ++ zs).Nodup := by
      rw [List.nodup_append]
      exact ⟨hndA, hndC, fun b hb hz => hdisj hb (List.mem_cons_of_mem _ hz)⟩
    have hown := @ListObj.Owns.of_seg (h2.set a none) (xs ++ zs)
      ((ListObj.Seg_append xs zs).2 ⟨hA3, hC3⟩) hnd3 (by
        simp only [List.length_set, hl2, hl1, List.length_append, List.length_cons] at hlen ⊢
        omega)
    refine ⟨true, _, h2.set a none, xs ++ zs, ?_, hown, by simp; omega⟩
    simp only [ListObj.remove, hhead, hfound, ListObj.load, hn, hrun1, hn1, hrun2]
    rw [List.head?_append, List.getLast?_append, hnx, hpv', hsize]
    simp

theorem ListObj.clearLoop_spec (ps : List Nat) :
    ∀ (fuel : Nat) (h : NodeHeap) (l : ListObj), ListObj.Owns h l ps → ps.length < fuel →
      ∃ l1 h1, ListObj.clearLoop fuel h l = .ok (l1, h1) ∧ ListObj.Owns h1 l1 [] ∧
        h1.length = h.length := by
  induction ps with
  | nil =>
    intro fuel h l ho hf
    obtain ⟨f, rfl⟩ : ∃ f, fuel = f + 1 := ⟨fuel - 1, by simp at hf; omega⟩
    have hl := ho.eq_obj
    subst hl
    exact ⟨_, h, by simp [ListObj.clearLoop, ListObj.isEmpty], ho, rfl⟩
  | cons p rest ih =>
    intro fuel h l ho hf
    obtain ⟨f, rfl⟩ : ∃ f, fuel = f + 1 := ⟨fuel - 1, by simp at hf; omega⟩
    obtain ⟨l1, h1, hpop, hown, hl1⟩ := ListObj.pop_front_spec h l p rest ho
    obtain ⟨l2, h2, hrun, hown2, hl2⟩ := ih f h1 l1 hown (by simp at hf; omega)
    have hl := ho.eq_obj
    subst hl
    refine ⟨l2, h2, ?_, hown2, by rw [hl2, hl1]⟩
    simp only [ListObj.clearLoop, ListObj.isEmpty, List.head?_cons, Option.isNone_some,
      Bool.false_eq_true, if_false]
    simp only [List.head?_cons] at hpop
    rw [hpop]
    exact hrun

theorem ListObj.clear_spec (h : NodeHeap) (l : ListObj) (ps : List Nat)
    (ho : ListObj.Owns h l ps) :
    ∃ l1 h1, ListObj.clear h l = .ok (l1, h1) ∧ ListObj.Owns h1 l1 [] :=
  let ⟨l1, h1, hrun, hown, _⟩ := ListObj.clearLoop_spec ps (h.length + 1) h l ho
    (Nat.lt_succ_of_le ho.2.2.2.2.2)
  ⟨l1, h1, hrun, hown⟩

theorem ListObj.list_copyLoop_spec (N : Nat) (ys : List Nat) :
    ∀ (fuel : Nat) (hc : NodeHeap) (prevY : Option Nat) (qs : List Nat) (last : Nat),
      ListObj.Seg hc prevY ys none → (∀ y ∈ ys, y < N) →
      ListObj.Seg hc none (qs ++ [last]) none → (qs ++ [last]).Nodup →
      (∀ q ∈ qs ++ [last], N ≤ q) → (qs ++ [last]).length ≤ hc.length → ys.length < fuel →
      ∃ l1 h1 ps1,
        ListObj.copyLoop fuel hc ys.head? last
          (ListObj.mk (qs ++ [last]).head? (some last) (qs ++ [last]).length) = .ok (l1, h1) ∧
        ListObj.Owns h1 l1 ps1 ∧ ps1.length = (qs ++ [last]).length + ys.length := by
  induction ys with
  | nil =>
    intro fuel hc prevY qs last _ _ hq hnd _ hlen hf
    obtain ⟨f, rfl⟩ : ∃ f, fuel = f + 1 := ⟨fuel - 1, by simp at hf; omega⟩
    refine ⟨_, hc, qs ++ [last], rfl, ⟨hq, hnd, rfl, ?_, rfl, hlen⟩, by simp⟩
    exact (List.getLast?_concat _).symm
  | cons c rest ih =>
    intro fuel hc prevY qs last hy hyN hq hnd hqN hlen hf
    obtain ⟨f, rfl⟩ : ∃ f, fuel = f + 1 := ⟨fuel - 1, by simp at hf; omega⟩
    obtain ⟨n, hn, -, hx, hnw, hrest⟩ := hy
    have hnx : n.next = rest.head? := by simpa using hx
    have hlast_mem : last ∈ qs ++ [last] := List.mem_append_right _ (List.mem_singleton_self _)
    have hlast_lt : last < hc.length := hq.lt _ hlast_mem
    have hfresh : hc.length ∉ qs ++ [last] := fun hm => Nat.lt_irrefl _ (hq.lt _ hm)
    obtain ⟨hnew, hold, hat⟩ := ListObj.newNode_ok hc n.theWord hnw none (some last)
    have hq1 := ListObj.Seg.frame _ hq (fun a ha => hold a (hq.lt a ha))
    obtain ⟨h2, hset, hl2, hsame, hq2⟩ := ListObj.Seg.set_next_last hq1 hnd (some hc.length)
    have hne : hc.length ≠ last := fun e => by omega
    have hrest2 : ListObj.Seg h2 (some c) rest none := by
      refine ListObj.Seg.frame _ hrest (fun y hy => ?_)
      have hyN' : y < N := hyN y (List.mem_cons_of_mem _ hy)
      have hNl : N ≤ last := hqN last hlast_mem
      rw [hsame y (by omega), hold y (by omega)]
    have hq3 : ListObj.Seg h2 none ((qs ++ [last]) ++ [hc.length]) none := by
      refine (ListObj.Seg_append (qs ++ [last]) [hc.length]).2 ⟨by simpa using hq2, ?_⟩
      rw [List.getLast?_concat]
      refine ⟨(⟨n.theWord, none, some last⟩ : Node), ?_, rfl, rfl, hnw, trivial⟩
      rw [hsame _ hne]; exact hat
    have hnd3 : ((qs ++ [last]) ++ [hc.length]).Nodup := by
      rw [List.nodup_append]
      refine ⟨hnd, List.nodup_singleton _, ?_⟩
      intro a ha hb
      rw [List.mem_singleton] at hb
      exact hfresh (hb ▸ ha)
    have hqN3 : ∀ q ∈ (qs ++ [last]) ++ [hc.length], N ≤ q := by
      intro q hq'
      rcases List.mem_append.1 hq' with h1 | h1
      · exact hqN q h1
      · rw [List.mem_singleton] at h1
        have := hqN last hlast_mem
        omega
    obtain ⟨l1, h1, ps1, hrun, hown, hlen1⟩ := ih f h2 (some c) (qs ++ [last]) hc.length
      hrest2 (fun y hy => hyN y (List.mem_cons_of_mem _ hy)) hq3 hnd3 hqN3
      (by rw [hl2]; simp only [List.length_append, List.length_singleton] at hlen ⊢; omega)
      (by simp at hf; omega)
    have e1 : ((qs ++ [last]) ++ [hc.length]).head? = (qs ++ [last]).head? :=
      List.head?_append_of_ne_nil _ (by simp)
    have e2 : ((qs ++ [last]) ++ [hc.length]).length = (qs ++ [last]).length + 1 := by simp
    rw [e1, e2] at hrun
    refine ⟨l1, h1, ps1, ?_, hown, ?_⟩
    · simp only [ListObj.copyLoop, List.head?_cons, ListObj.load, hn, hnew, hset, hnx]
      exact hrun
    · rw [hlen1, e2]
      simp only [List.length_cons]
      omega

theorem ListObj.list_copy_spec (h : NodeHeap) (self other : ListObj) (os : List Nat)
    (ho : ListObj.Owns h other os) :
    ∃ l1 h1 ps1, ListObj.copy h self other = .ok (l1, h1) ∧ ListObj.Owns h1 l1 ps1 ∧
      ps1.length = os.length := by
  have hl := ho.eq_obj
  subst hl
  obtain ⟨hseg, hnd, -, -, -, hlen⟩ := ho
  cases os with
  | nil =>
    exact ⟨ListObj.mk none none 0, h, [], by simp [ListObj.copy, ListObj.isEmpty],
      ⟨trivial, List.nodup_nil, rfl, rfl, rfl, by simp⟩, rfl⟩
  | cons o rest =>
    have hlt := hseg.lt
    obtain ⟨n, hn, -, hx, hnw, hrest⟩ := hseg
    have hnx : n.next = rest.head? := by simpa using hx
    obtain ⟨hnew, hold, hat⟩ := ListObj.newNode_ok h n.theWord hnw none none
    have hrest1 := ListObj.Seg.frame _ hrest (fun a ha =>
      hold a (hlt a (List.mem_cons_of_mem _ ha)))
    obtain ⟨l1, h1, ps1, hrun, hown, hlen1⟩ := ListObj.list_copyLoop_spec h.length rest
      (h.length + 1) _ (some o) [] h.length hrest1
      (fun y hy => hlt y (List.mem_cons_of_mem _ hy))
      ⟨(⟨n.theWord, none, none⟩ : Node), hat, rfl, rfl, hnw, trivial⟩ (by simp)
      (by intro q hq; simp at hq; omega) (by simp)
      (by simp only [List.length_cons] at hlen; omega)
    refine ⟨l1, h1, ps1, ?_, hown, by rw [hlen1]; simp; omega⟩
    simp only [ListObj.copy, ListObj.isEmpty, List.head?_cons, Option.isNone_some,
      Bool.false_eq_true, if_false, ListObj.load, hn, hnew, hnx]
    exact hrun

theorem Word.word_ptr_of_absent (w : Word) (hw : ¬ w.present = true) : w.word_ptr = none := by
  cases w with
  | mk p n => cases p with
    | none => rfl
    | some bs => exact absurd rfl hw

theorem ListObj.push_front_absent (h : NodeHeap) (l : ListObj) (word : Word)
    (hw : ¬ word.present = true) (r : ListObj × NodeHeap) :
    ListObj.push_front h l word ≠ .ok r := by
  obtain ⟨e, he⟩ := ListObj.newNode_absent h word hw l.head none
  simp [ListObj.push_front, he]

theorem ListObj.push_back_absent (h : NodeHeap) (l : ListObj) (word : Word)
    (hw : ¬ word.present = true) (r : ListObj × NodeHeap) :
    ListObj.push_back h l word ≠ .ok r := by
  obtain ⟨e, he⟩ := ListObj.newNode_absent h word hw none l.tail
  simp [ListObj.push_back, he]

theorem ListObj.insertSorted_absent (h : NodeHeap) (l : ListObj) (word : Word)
    (hw : ¬ word.present = true) (r : ListObj × NodeHeap) :
    ListObj.insertSorted h l word ≠ .ok r := by
  have hnone := Word.word_ptr_of_absent word hw
  intro hrun
  unfold ListObj.insertSorted at hrun
  split at hrun
  · exact ListObj.push_front_absent h l word hw r hrun
  · split at hrun
    · cases hrun
    · next f _ =>
      have : word.isLess f = .error Fault.NullDeref := by
        simp [Word.isLess, strcmp, hnone]
      rw [this] at hrun
      cases hrun

theorem ListObj.remove_absent (h : NodeHeap) (l : ListObj) (word : Word)
    (hw : ¬ word.present = true) (b : Bool) (l1 : ListObj) (h1 : NodeHeap)
    (hrun : ListObj.remove h l word = .ok (b, l1, h1)) : l1 = l ∧ h1 = h := by
  have hnone := Word.word_ptr_of_absent word hw
  have hsearch : ListObj.search h word (h.length + 1) l.head = .ok none ∨
      ∃ e, ListObj.search h word (h.length + 1) l.head = .error e := by
    cases hh : l.head with
    | none => exact Or.inl rfl
    | some a =>
      right
      unfold ListObj.search
      cases hl : ListObj.load h (some a) with
      | error e => exact ⟨e, rfl⟩
      | ok n =>
        refine ⟨Fault.NullDeref, ?_⟩
        cases hp : n.theWord.word_ptr <;> simp [strcmp, Word.c_str, hnone, hp]
  unfold ListObj.remove at hrun
  rcases hsearch with hs | ⟨e, hs⟩
  · rw [hs] at hrun
    simp only [Except.ok.injEq, Prod.mk.injEq] at hrun
    exact ⟨hrun.2.1.symm, hrun.2.2.symm⟩
  · rw [hs] at hrun
    cases hrun

theorem ListObj.Reachable.owns {l : ListObj} {h : NodeHeap} (hr : ListObj.Reachable l h) :
    ∃ ps, ListObj.Owns h l ps := by
  induction hr with
  | empty h => exact ⟨[], trivial, List.nodup_nil, rfl, rfl, rfl, Nat.zero_le _⟩
  | @push_front l l1 h h1 w _ hrun ih =>
    obtain ⟨ps, ho⟩ := ih
    by_cases hw : w.present = true
    · obtain ⟨l2, h2, hrun2, ho2⟩ := ListObj.push_front_spec h l ps ho w hw
      rw [hrun] at hrun2
      cases hrun2
      exact ⟨_, ho2⟩
    · exact absurd hrun (ListObj.push_front_absent h l w hw _)
  | @push_back l l1 h h1 w _ hrun ih =>
    obtain ⟨ps, ho⟩ := ih
    by_cases hw : w.present = true
    · obtain ⟨l2, h2, hrun2, ho2⟩ := ListObj.push_back_spec h l ps ho w hw
      rw [hrun] at hrun2
      cases hrun2
      exact ⟨_, ho2⟩
    · exact absurd hrun (ListObj.push_back_absent h l w hw _)
  | @pop_front l l1 h h1 p _ hrun ih =>
    obtain ⟨ps, ho⟩ := ih
    cases ps with
    | nil =>
      have hl := ho.eq_obj
      subst hl
      simp [ListObj.pop_front, ListObj.isEmpty] at hrun
    | cons a rest =>
      obtain ⟨l2, h2, hrun2, ho2, -⟩ := ListObj.pop_front_spec h l a rest ho
      rw [hrun] at hrun2
      cases hrun2
      exact ⟨_, ho2⟩
  | @pop_back l l1 h h1 p _ hrun ih =>
    obtain ⟨ps, ho⟩ := ih
    rcases List.eq_nil_or_concat ps with rfl | ⟨xs, t, rfl⟩
    · have hl := ho.eq_obj
      subst hl
      simp [ListObj.pop_back, ListObj.isEmpty] at hrun
    · rw [List.concat_eq_append] at ho
      obtain ⟨l2, h2, hrun2, ho2, -⟩ := ListObj.pop_back_spec h l xs t ho
      rw [hrun] at hrun2
      cases hrun2
      exact ⟨_, ho2⟩
  | @insertSorted l l1 h h1 w _ hrun ih =>
    obtain ⟨ps, ho⟩ := ih
    by_cases hw : w.present = true
    · obtain ⟨l2, h2, ps2, hrun2, ho2, -⟩ := ListObj.insertSorted_spec h l ps ho w hw
      rw [hrun] at hrun2
      cases hrun2
      exact ⟨_, ho2⟩
    · exact absurd hrun (ListObj.insertSorted_absent h l w hw _)
  | @remove l l1 h h1 w b _ hrun ih =>
    obtain ⟨ps, ho⟩ := ih
    by_cases hw : w.present = true
    · obtain ⟨b2, l2, h2, ps2, hrun2, ho2, -⟩ := ListObj.remove_spec h l ps ho w hw
      rw [hrun] at hrun2
      cases hrun2
      exact ⟨_, ho2⟩
    · obtain ⟨rfl, rfl⟩ := ListObj.remove_absent h l w hw b l1 h1 hrun
      exact ⟨ps, ho⟩
  | @clear l l1 h h1 _ hrun ih =>
    obtain ⟨ps, ho⟩ := ih
    obtain ⟨l2, h2, hrun2, ho2⟩ := ListObj.clear_spec h l ps ho
    rw [hrun] at hrun2
    cases hrun2
    exact ⟨_, ho2⟩
  | @copy self other l1 h h1 _ hrun ih =>
    obtain ⟨ps, ho⟩ := ih
    obtain ⟨l2, h2, ps2, hrun2, ho2, -⟩ := ListObj.list_copy_spec h self other ps ho
    rw [hrun] at hrun2
    cases hrun2
    exact ⟨_, ho2⟩

theorem ListObj.walkNext_seg {h : NodeHeap} (ps : List Nat) :
    ∀ (prev : Option Nat) (fuel : Nat), ListObj.Seg h prev ps none → ps.length ≤ fuel →
      ListObj.walkNext h fuel ps.head? = ps := by
  induction ps with
  | nil => intro prev fuel _ _; cases fuel <;> rfl
  | cons a rest ih =>
    intro prev fuel hseg hf
    obtain ⟨f, rfl⟩ : ∃ f, fuel = f + 1 := ⟨fuel - 1, by simp at hf; omega⟩
    obtain ⟨n, hn, -, hx, -, hrest⟩ := hseg
    have hnx : n.next = rest.head? := by simpa using hx
    simp only [ListObj.walkNext, List.head?_cons, hn, hnx]
    rw [ih (some a) f hrest (by simp at hf; omega)]

theorem ListObj.walkPrev_seg {h : NodeHeap} (ps : List Nat) :
    ∀ (nxt : Option Nat) (fuel : Nat), ListObj.Seg h none ps nxt → ps.length ≤ fuel →
      ListObj.walkPrev h fuel ps.getLast? = ps.reverse := by
  induction ps using List.reverseRecOn with
  | nil => intro nxt fuel _ _; cases fuel <;> rfl
  | append_singleton xs t ih =>
    intro nxt fuel hseg hf
    obtain ⟨f, rfl⟩ : ∃ f, fuel = f + 1 := ⟨fuel - 1, by simp at hf; omega⟩
    obtain ⟨hxs, ht⟩ := (ListObj.Seg_append xs [t]).1 hseg
    obtain ⟨n, hn, hp, -, -, -⟩ := ht
    have hpv : n.prev = xs.getLast? := by simpa using hp
    simp only [List.head?_cons, Option.or_some] at hxs
    rw [List.getLast?_concat, List.reverse_append]
    simp only [ListObj.walkPrev, hn, hpv, List.reverse_singleton, List.singleton_append]
    rw [ih (some t) f hxs (by simp at hf; omega)]

theorem ListObj.Seg.links {h : NodeHeap} (ps : List Nat) :
    ∀ (prev : Option Nat), ListObj.Seg h prev ps none →
      ∀ x ∈ ps, ∃ nx, h[x]? = some (some nx) ∧
        ∀ y, nx.next = some y → y ∈ ps ∧ ∃ ny, h[y]? = some (some ny) ∧ ny.prev = some x := by
  induction ps with
  | nil => intro _ _ x hx; cases hx
  | cons a rest ih =>
    intro prev hseg x hx
    obtain ⟨n, hn, -, hnx, -, hrest⟩ := hseg
    rcases List.mem_cons.1 hx with rfl | hx
    · refine ⟨n, hn, ?_⟩
      intro y hy
      cases rest with
      | nil => rw [hnx] at hy; cases hy
      | cons c zs =>
        rw [hnx] at hy
        simp only [List.head?_cons, Option.or_some, Option.some.injEq] at hy
        subst hy
        obtain ⟨nc, hnc, hpc, -⟩ := hrest
        exact ⟨List.mem_cons_of_mem _ (List.mem_cons_self _ _), nc, hnc, hpc⟩
    · obtain ⟨nx, hnx', hlink⟩ := ih (some a) hrest x hx
      refine ⟨nx, hnx', ?_⟩
      intro y hy
      obtain ⟨hmem, hny⟩ := hlink y hy
      exact ⟨List.mem_cons_of_mem _ hmem, hny⟩

theorem ListObj.Owns.isEmpty_iff {h : NodeHeap} {l : ListObj} {ps : List Nat}
    (ho : ListObj.Owns h l ps) : l.isEmpty = true ↔ l.size = 0 := by
  obtain ⟨-, -, hh, -, hs, -⟩ := ho
  cases ps with
  | nil => simp [ListObj.isEmpty, hh, hs]
  | cons a rest => simp [ListObj.isEmpty, hh, hs]

theorem ListObj.Owns.head_tail {h : NodeHeap} {l : ListObj} {ps : List Nat}
    (ho : ListObj.Owns h l ps) :
    (∀ a, l.head = some a → ∃ n, h[a]? = some (some n) ∧ n.prev = none) ∧
    (∀ a, l.tail = some a → ∃ n, h[a]? = some (some n) ∧ n.next = none) := by
  obtain ⟨hseg, -, hh, ht, -, -⟩ := ho
  constructor
  · intro a ha
    cases ps with
    | nil => rw [hh] at ha; cases ha
    | cons b rest =>
      rw [hh] at ha
      simp only [List.head?_cons, Option.some.injEq] at ha
      subst ha
      obtain ⟨n, hn, hp, -⟩ := hseg
      exact ⟨n, hn, hp⟩
  · intro a ha
    rcases List.eq_nil_or_concat ps with rfl | ⟨xs, t, rfl⟩
    · rw [ht] at ha; cases ha
    · rw [List.concat_eq_append] at hseg ht
      rw [ht, List.getLast?_concat] at ha
      simp only [Option.some.injEq] at ha
      subst ha
      obtain ⟨-, hlast⟩ := (ListObj.Seg_append xs [t]).1 hseg
      obtain ⟨n, hn, -, hx, -⟩ := hlast
      exact ⟨n, hn, by simpa using hx⟩

/-- C34: in every list reached from a new list by `push_front`, `push_back`,
`pop_front`, `pop_back`, `insertSorted`, `remove`, `clear` and `copy`, following
`next` from `head` meets exactly `size` nodes, however many steps are allowed
beyond `size`, and `isEmpty()` holds exactly when `size` is 0.  At such a list
the operations whose loops are bounded in the model return: `insertSorted` and
`remove` of a word that has a buffer, `clear`, and `copy` from the list. -/
theorem C34_size_counts_nodes (l : ListObj) (h : NodeHeap) (hr : ListObj.Reachable l h) :
    (∀ fuel, l.size ≤ fuel → (ListObj.walkNext h fuel l.head).length = l.size) ∧
    (l.isEmpty = true ↔ l.size = 0) ∧
    (∀ w : Word, w.present = true →
      (∃ r, ListObj.insertSorted h l w = .ok r) ∧ (∃ r, ListObj.remove h l w = .ok r)) ∧
    (∃ r, ListObj.clear h l = .ok r) ∧
    (∀ self : ListObj, ∃ r, ListObj.copy h self l = .ok r) := by
  obtain ⟨ps, ho⟩ := hr.owns
  refine ⟨?_, ho.isEmpty_iff, ?_, ?_, ?_⟩
  · intro fuel hf
    obtain ⟨hseg, -, hh, -, hs, -⟩ := ho
    rw [hh, ListObj.walkNext_seg ps none fuel hseg (by omega), hs]
  · intro w hw
    obtain ⟨l1, h1, ps1, hrun, -⟩ := ListObj.insertSorted_spec h l ps ho w hw
    obtain ⟨b2, l2, h2, ps2, hrun2, -⟩ := ListObj.remove_spec h l ps ho w hw
    exact ⟨⟨_, hrun⟩, ⟨_, hrun2⟩⟩
  · obtain ⟨l1, h1, hrun, -⟩ := ListObj.clear_spec h l ps ho
    exact ⟨_, hrun⟩
  · intro self
    obtain ⟨l1, h1, ps1, hrun, -⟩ := ListObj.list_copy_spec h self l ps ho
    exact ⟨_, hrun⟩

theorem C34_size_counts_nodes_witness :
    ListObj.Reachable (sampleChain ["a", "c", "b"]).1 (sampleChain ["a", "c", "b"]).2 ∧
    (sampleChain ["a", "c", "b"]).1.size = 3 ∧
    ((∀ fuel, (sampleChain ["a", "c", "b"]).1.size ≤ fuel →
      (ListObj.walkNext (sampleChain ["a", "c", "b"]).2 fuel
        (sampleChain ["a", "c", "b"]).1.head).length = (sampleChain ["a", "c", "b"]).1.size) ∧
    ((sampleChain ["a", "c", "b"]).1.isEmpty = true ↔ (sampleChain ["a", "c", "b"]).1.size = 0) ∧
    (∀ w : Word, w.present = true →
      (∃ r, ListObj.insertSorted (sampleChain ["a", "c", "b"]).2
        (sampleChain ["a", "c", "b"]).1 w = .ok r) ∧
      (∃ r, ListObj.remove (sampleChain ["a", "c", "b"]).2
        (sampleChain ["a", "c", "b"]).1 w = .ok r)) ∧
    (∃ r, ListObj.clear (sampleChain ["a", "c", "b"]).2 (sampleChain ["a", "c", "b"]).1 = .ok r) ∧
    (∀ self : ListObj, ∃ r, ListObj.copy (sampleChain ["a", "c", "b"]).2 self
      (sampleChain ["a", "c", "b"]).1 = .ok r)) := by
  have h0 : ListObj.Reachable (sampleChain []).1 (sampleChain []).2 := ListObj.Reachable.empty []
  have h1 : ListObj.Reachable (sampleChain ["a"]).1 (sampleChain ["a"]).2 :=
    ListObj.Reachable.insertSorted h0 (w := Word.ofCStr (ascii "a")) (by decide)
  have h2 : ListObj.Reachable (sampleChain ["a", "c"]).1 (sampleChain ["a", "c"]).2 :=
    ListObj.Reachable.insertSorted h1 (w := Word.ofCStr (ascii "c")) (by decide)
  have h3 : ListObj.Reachable (sampleChain ["a", "c", "b"]).1 (sampleChain ["a", "c", "b"]).2 :=
    ListObj.Reachable.insertSorted h2 (w := Word.ofCStr (ascii "b")) (by decide)
  exact ⟨h3, by decide, C34_size_counts_nodes _ _ h3⟩

/-- C35: in every list reached from a new list by `push_front`, `push_back`,
`pop_front`, `pop_back`, `insertSorted`, `remove` and `clear` (and `copy`), the
links form one doubly linked chain `ps`: following `next` from `head` meets
exactly the nodes `ps` and then stops, following `prev` from `tail` meets them
in reverse, no node occurs twice, the chain starts at `head` and ends at
`tail`, the head node has no `prev`, the tail node has no `next`, and a node
`y` that is the `next` of a node `x` of the chain is in the chain and has `x`
as its `prev`. -/
theorem C35_doubly_linked_chain (l : ListObj) (h : NodeHeap) (hr : ListObj.Reachable l h) :
    ∃ ps : List Nat,
      (∀ fuel, l.size ≤ fuel → ListObj.walkNext h fuel l.head = ps) ∧
      (∀ fuel, l.size ≤ fuel → ListObj.walkPrev h fuel l.tail = ps.reverse) ∧
      ps.Nodup ∧ ps.head? = l.head ∧ ps.getLast? = l.tail ∧
      (∀ a, l.head = some a → ∃ n, h[a]? = some (some n) ∧ n.prev = none) ∧
      (∀ a, l.tail = some a → ∃ n, h[a]? = some (some n) ∧ n.next = none) ∧
      (∀ x ∈ ps, ∃ nx, h[x]? = some (some nx) ∧
        ∀ y, nx.next = some y → y ∈ ps ∧ ∃ ny, h[y]? = some (some ny) ∧ ny.prev = some x) := by
  obtain ⟨ps, ho⟩ := hr.owns
  have hht := ho.head_tail
  obtain ⟨hseg, hnd, hh, ht, hs, -⟩ := ho
  refine ⟨ps, ?_, ?_, hnd, hh.symm, ht.symm, hht.1, hht.2, ListObj.Seg.links ps none hseg⟩
  · intro fuel hf
    rw [hh]
    exact ListObj.walkNext_seg ps none fuel hseg (by omega)
  · intro fuel hf
    rw [ht]
    exact ListObj.walkPrev_seg ps none fuel hseg (by omega)

theorem C35_doubly_linked_chain_witness :
    ListObj.Reachable (sampleRemoved (sampleChain ["a", "c", "b"]) "c").1
      (sampleRemoved (sampleChain ["a", "c", "b"]) "c").2 ∧
    (sampleRemoved (sampleChain ["a", "c", "b"]) "c").1 = ListObj.mk (some 0) (some 2) 2 ∧
    ∃ ps : List Nat,
      (∀ fuel, (sampleRemoved (sampleChain ["a", "c", "b"]) "c").1.size ≤ fuel →
        ListObj.walkNext (sampleRemoved (sampleChain ["a", "c", "b"]) "c").2 fuel
          (sampleRemoved (sampleChain ["a", "c", "b"]) "c").1.head = ps) ∧
      (∀ fuel, (sampleRemoved (sampleChain ["a", "c", "b"]) "c").1.size ≤ fuel →
        ListObj.walkPrev (sampleRemoved (sampleChain ["a", "c", "b"]) "c").2 fuel
          (sampleRemoved (sampleChain ["a", "c", "b"]) "c").1.tail = ps.reverse) ∧
      ps.Nodup ∧ ps.head? = (sampleRemoved (sampleChain ["a", "c", "b"]) "c").1.head ∧
      ps.getLast? = (sampleRemoved (sampleChain ["a", "c", "b"]) "c").1.tail ∧
      (∀ a, (sampleRemoved (sampleChain ["a", "c", "b"]) "c").1.head = some a →
        ∃ n, (sampleRemoved (sampleChain ["a", "c", "b"]) "c").2[a]? = some (some n) ∧
          n.prev = none) ∧
      (∀ a, (sampleRemoved (sampleChain ["a", "c", "b"]) "c").1.tail = some a →
        ∃ n, (sampleRemoved (sampleChain ["a", "c", "b"]) "c").2[a]? = some (some n) ∧
          n.next = none) ∧
      (∀ x ∈ ps, ∃ nx, (sampleRemoved (sampleChain ["a", "c", "b"]) "c").2[x]? = some (some nx) ∧
        ∀ y, nx.next = some y → y ∈ ps ∧
          ∃ ny, (sampleRemoved (sampleChain ["a", "c", "b"]) "c").2[y]? = some (some ny) ∧
            ny.prev = some x) := by
  have h0 : ListObj.Reachable (sampleChain []).1 (sampleChain []).2 := ListObj.Reachable.empty []
  have h1 : ListObj.Reachable (sampleChain ["a"]).1 (sampleChain ["a"]).2 :=
    ListObj.Reachable.insertSorted h0 (w := Word.ofCStr (ascii "a")) (by decide)
  have h2 : ListObj.Reachable (sampleChain ["a", "c"]).1 (sampleChain ["a", "c"]).2 :=
    ListObj.Reachable.insertSorted h1 (w := Word.ofCStr (ascii "c")) (by decide)
  have h3 : ListObj.Reachable (sampleChain ["a", "c", "b"]).1 (sampleChain ["a", "c", "b"]).2 :=
    ListObj.Reachable.insertSorted h2 (w := Word.ofCStr (ascii "b")) (by decide)
  have h4 : ListObj.Reachable (sampleRemoved (sampleChain ["a", "c", "b"]) "c").1
      (sampleRemoved (sampleChain ["a", "c", "b"]) "c").2 :=
    ListObj.Reachable.remove h3 (w := Word.ofCStr (ascii "c")) (b := true) (by decide)
  exact ⟨h4, by decide, C35_doubly_linked_chain _ _ h4⟩

end WordWizard
